import Mathlib

/-!
# A verification model of LITS (Learned Index for Strings)

This file shallowly embeds the core of the LITS index
(`src/lits/lits_base.hpp`, `lits_iter.hpp`, `lits_cnode.hpp`,
`lits_entry.hpp`, `lits_model.hpp`, `lits_utils.hpp`, the kv header) in
Lean 4 and proves the specification claims about it.

Modelling conventions:

* A key is the list of bytes of a NUL-terminated C string, excluding the
  terminator.  C strings cannot contain an interior zero byte (an interior
  zero *is* the terminator), so keys are zero-free lists and the string
  routines below, which are structural-list versions of the pointer loops
  in `lits_utils.hpp`, agree with the source on every representable key.
* Reading a byte beyond the end of a key yields the terminator 0
  (`byteAt`), which is exactly what the C code observes at the first
  out-of-range position.
* The HPT (`lits_model.hpp`) trains and predicts with IEEE doubles; its
  numeric content is not shallowly embeddable (floating point).  All the
  claims treat predictions as an opaque deterministic function of the key,
  so the HPT is modelled as a structure of abstract prediction functions;
  the slope/intercept arithmetic of the node build, which the source does
  in doubles, is carried out in `ℚ`.  The PMSS chooser (`lits_pmss.hpp`)
  is not part of the sources; per the spec (§4.7) it is an opaque pure
  function `decideSubType`.
* The external HOT trie is a collaborator whose contract is given by the
  spec (§4.5); it is modelled as a sorted association list.
* The C code passes subranges of a kv array as `(kvs, l, r)` index
  triples; the model passes the sublist itself.  The C mutates nodes in
  place; the model rebuilds the tree functionally along the descent path,
  which is observationally the same because ownership is strictly
  tree-shaped (spec §5).
-/

namespace LitsModel

/-- A key: the bytes of a NUL-terminated string, terminator excluded. -/
abbrev Key := List Nat

/-- A value: an opaque 64-bit word (no arithmetic is ever done on it). -/
abbrev Val := Nat

/-- Byte `i` of a key, with the NUL terminator (0) past the end.  This is
what `key[i]` observes in the C sources. -/
def byteAt (s : Key) (i : Nat) : Nat := s.getD i 0

/-- `ustrlen` from `lits_utils.hpp`: length of the key. -/
def ustrlen (s : Key) : Nat := s.length

/-- `ucpl` from `lits_utils.hpp`: common prefix length of two keys.  The
source loop stops at the first mismatch or at a terminator; on zero-free
keys this is the structural common prefix length. -/
def ucpl : Key → Key → Nat
  | a :: s1, b :: s2 => if a = b then ucpl s1 s2 + 1 else 0
  | _, _ => 0

/-- `ustrcmp` (two-argument form) from `lits_utils.hpp`: three-way
lexicographic comparison, 1 if the first key is greater, -1 if smaller,
0 if equal.  On zero-free keys the source's terminator test is exactly
the end-of-list test. -/
def ustrcmp : Key → Key → Int
  | [], [] => 0
  | [], _ :: _ => -1
  | _ :: _, [] => 1
  | a :: s1, b :: s2 =>
    if a = b then ustrcmp s1 s2 else if a > b then 1 else -1

/-- `ustrcmp` (three-argument form) from `lits_utils.hpp`: compare the
first `len` bytes only, reading terminator bytes past the end of either
argument, exactly as the bounded C loop does. -/
def ustrcmpN : Key → Key → Nat → Int
  | _, _, 0 => 0
  | s1, s2, n + 1 =>
    let a := s1.headD 0
    let b := s2.headD 0
    if a = b then ustrcmpN s1.tail s2.tail n else if a > b then 1 else -1

/-- `hashStr` from `lits_utils.hpp`: the cheap 16-bit key hash
`len ^ key[len/2] ^ key[2len/3] ^ key[4len/5]` (the length is first
truncated to 16 bits by the `uint16_t` assignment). -/
def hashStr (key : Key) : Nat :=
  let len := ustrlen key % 65536
  (len ^^^ byteAt key (len / 2) ^^^ byteAt key (2 * len / 3) ^^^
      byteAt key (4 * len / 5)) % 65536

/-- Strict key order: `a` sorts strictly before `b`. -/
def keyLt (a b : Key) : Prop := ustrcmp a b = -1

instance : DecidableEq Key := inferInstance

instance keyLt.decidable : ∀ a b : Key, Decidable (keyLt a b) := by
  intro a b; unfold keyLt; infer_instance

/-! ### Order lemmas for `ustrcmp` -/

theorem ustrcmp_self (a : Key) : ustrcmp a a = 0 := by
  induction a with
  | nil => rfl
  | cons x s ih => simp [ustrcmp, ih]

theorem ustrcmp_eq_zero_iff : ∀ {a b : Key}, ustrcmp a b = 0 ↔ a = b := by
  intro a
  induction a with
  | nil => intro b; cases b <;> simp [ustrcmp]
  | cons x s ih =>
    intro b
    cases b with
    | nil => simp [ustrcmp]
    | cons y t =>
      by_cases hxy : x = y
      · subst hxy; simp [ustrcmp, ih]
      · simp only [ustrcmp, if_neg hxy]
        constructor
        · intro h; split at h <;> simp_all
        · intro h; injection h; simp_all

theorem ustrcmp_cases (a b : Key) :
    ustrcmp a b = -1 ∨ ustrcmp a b = 0 ∨ ustrcmp a b = 1 := by
  induction a generalizing b with
  | nil => cases b <;> simp [ustrcmp]
  | cons x s ih =>
    cases b with
    | nil => simp [ustrcmp]
    | cons y t =>
      by_cases hxy : x = y
      · subst hxy; simpa [ustrcmp] using ih t
      · by_cases hlt : x > y <;> simp [ustrcmp, hxy, hlt]

theorem ustrcmp_swap : ∀ a b : Key, ustrcmp b a = -(ustrcmp a b) := by
  intro a
  induction a with
  | nil => intro b; cases b <;> simp [ustrcmp]
  | cons x s ih =>
    intro b
    cases b with
    | nil => simp [ustrcmp]
    | cons y t =>
      by_cases hxy : x = y
      · subst hxy; simp [ustrcmp, ih]
      · have hyx : ¬ y = x := fun h => hxy h.symm
        rcases Nat.lt_or_ge x y with h | h
        · have h1 : ¬ x > y := by omega
          have h2 : y > x := h
          simp [ustrcmp, hxy, hyx, h1, h2]
        · have h2 : x > y := by omega
          have h1 : ¬ y > x := by omega
          simp [ustrcmp, hxy, hyx, h2, h1]

theorem keyLt_trans : ∀ {a b c : Key}, keyLt a b → keyLt b c → keyLt a c := by
  unfold keyLt
  intro a
  induction a with
  | nil =>
    intro b c hab hbc
    cases c with
    | nil =>
      cases b with
      | nil => simp [ustrcmp] at hab
      | cons y t => simp [ustrcmp] at hbc
    | cons z u => simp [ustrcmp]
  | cons x s ih =>
    intro b c hab hbc
    cases b with
    | nil => simp [ustrcmp] at hab
    | cons y t =>
      cases c with
      | nil => simp [ustrcmp] at hbc
      | cons z u =>
        simp only [ustrcmp] at hab hbc ⊢
        by_cases hxy : x = y
        · subst hxy
          by_cases hyz : x = z
          · subst hyz
            simp only [if_pos rfl] at hab hbc ⊢
            exact ih hab hbc
          · simp only [if_pos rfl] at hab
            simp only [if_neg hyz] at hbc ⊢
            exact hbc
        · by_cases hyz : y = z
          · subst hyz
            simp only [if_neg hxy] at hab ⊢
            exact hab
          · simp only [if_neg hxy] at hab
            simp only [if_neg hyz] at hbc
            split at hab
            · simp at hab
            · split at hbc
              · simp at hbc
              · have hxz : x < z := by
                  have h1 : x < y := by omega
                  have h2 : y < z := by omega
                  omega
                have : ¬ x = z := by omega
                have : ¬ x > z := by omega
                simp_all

theorem keyLt_irrefl (a : Key) : ¬ keyLt a a := by
  unfold keyLt; rw [ustrcmp_self]; decide

theorem keyLt_asymm {a b : Key} (h : keyLt a b) : ¬ keyLt b a := by
  intro h2; exact keyLt_irrefl a (keyLt_trans h h2)

theorem ne_of_keyLt {a b : Key} (h : keyLt a b) : a ≠ b := by
  intro he; subst he; exact keyLt_irrefl a h

theorem keyLt_total (a b : Key) : keyLt a b ∨ a = b ∨ keyLt b a := by
  rcases ustrcmp_cases a b with h | h | h
  · exact Or.inl h
  · exact Or.inr (Or.inl (ustrcmp_eq_zero_iff.mp h))
  · refine Or.inr (Or.inr ?_)
    unfold keyLt; rw [ustrcmp_swap, h]

theorem keyLt_of_not_lt_of_ne {a b : Key} (h : ¬ keyLt b a) (hne : a ≠ b) :
    keyLt a b := by
  rcases keyLt_total a b with h1 | h1 | h1
  · exact h1
  · exact absurd h1 hne
  · exact absurd h1 h

/-! ### Common prefix lemmas -/

theorem ucpl_self (a : Key) : ucpl a a = a.length := by
  induction a with
  | nil => rfl
  | cons x s ih => simp [ucpl, ih]

theorem ucpl_comm : ∀ a b : Key, ucpl a b = ucpl b a := by
  intro a
  induction a with
  | nil => intro b; cases b <;> simp [ucpl]
  | cons x s ih =>
    intro b
    cases b with
    | nil => simp [ucpl]
    | cons y t =>
      by_cases hxy : x = y
      · subst hxy; simp [ucpl, ih]
      · have : ¬ y = x := fun h => hxy h.symm
        simp [ucpl, hxy, this]

theorem ucpl_cons_eq (x : Nat) (s t : Key) :
    ucpl (x :: s) (x :: t) = ucpl s t + 1 := by simp [ucpl]

theorem ucpl_cons_ne {x y : Nat} (s t : Key) (h : x ≠ y) :
    ucpl (x :: s) (y :: t) = 0 := by simp [ucpl, h]

theorem ustrcmp_cons_eq (x : Nat) (s t : Key) :
    ustrcmp (x :: s) (x :: t) = ustrcmp s t := by simp [ustrcmp]

theorem ustrcmp_cons_ne {x y : Nat} (s t : Key) (h : x ≠ y) :
    ustrcmp (x :: s) (y :: t) = if x > y then 1 else -1 := by
  simp [ustrcmp, h]

/-- The common prefix really is a common prefix. -/
theorem take_ucpl_eq : ∀ (a b : Key) (n : Nat), n ≤ ucpl a b →
    a.take n = b.take n := by
  intro a
  induction a with
  | nil => intro b n h; cases b <;> simp [ucpl] at h <;> simp [h]
  | cons x s ih =>
    intro b n h
    cases b with
    | nil => simp [ucpl] at h; simp [h]
    | cons y t =>
      by_cases hxy : x = y
      · subst hxy
        rw [ucpl_cons_eq] at h
        cases n with
        | zero => simp
        | succ m => simp [List.take_succ_cons, ih t m (by omega)]
      · rw [ucpl_cons_ne s t hxy] at h
        simp [Nat.le_zero.mp h]

/-- Keys agreeing on their first `n` bytes have common prefix length at
least `n` (provided both are long enough or equal). -/
theorem ucpl_ge_of_take_eq : ∀ (a b : Key) (n : Nat), n ≤ a.length →
    a.take n = b.take n → n ≤ ucpl a b := by
  intro a
  induction a with
  | nil => intro b n h _; simp at h; omega
  | cons x s ih =>
    intro b n hlen htake
    cases n with
    | zero => omega
    | succ m =>
      cases b with
      | nil => simp at htake
      | cons y t =>
        simp only [List.take_succ_cons, List.cons.injEq] at htake
        obtain ⟨hxy, ht⟩ := htake
        subst hxy
        rw [ucpl_cons_eq]
        have := ih t m (by simpa using hlen) ht
        omega

/-- If `a ≤ b ≤ c` lexicographically then `b` extends the common prefix of
`a` and `c`: middle keys of a sorted group share the group prefix. -/
theorem take_eq_of_between : ∀ (a b c : Key) (n : Nat),
    ¬ keyLt b a → ¬ keyLt c b → a.take n = c.take n → a.take n = b.take n := by
  intro a
  induction a with
  | nil =>
    intro b c n hab hbc hac
    cases n with
    | zero => simp
    | succ m =>
      cases c with
      | nil =>
        cases b with
        | nil => simp
        | cons y t => exact absurd rfl hbc
      | cons z u => simp at hac
  | cons x s ih =>
    intro b c n hab hbc hac
    cases n with
    | zero => simp
    | succ m =>
      cases c with
      | nil => simp at hac
      | cons z u =>
        simp only [List.take_succ_cons, List.cons.injEq] at hac
        obtain ⟨hxz, hu⟩ := hac
        subst hxz
        cases b with
        | nil => exact absurd rfl hab
        | cons y t =>
          by_cases hyx : y = x
          · subst hyx
            have hab2 : ¬ keyLt t s := by
              unfold keyLt at hab ⊢; rwa [ustrcmp_cons_eq] at hab
            have hbc2 : ¬ keyLt u t := by
              unfold keyLt at hbc ⊢; rwa [ustrcmp_cons_eq] at hbc
            simp only [List.take_succ_cons, List.cons.injEq, true_and]
            exact ih t u m hab2 hbc2 hu
          · exfalso
            unfold keyLt at hab hbc
            rw [ustrcmp_cons_ne t s hyx] at hab
            rw [ustrcmp_cons_ne u t (fun h => hyx h.symm)] at hbc
            by_cases hgt : y > x
            · have : ¬ x > y := by omega
              simp [this] at hbc
            · simp [hgt] at hab

/-! ### Data model -/

/-- A key-value record (`class kv` in the kv header): an owned key and a
64-bit value, mutable in place. -/
structure KVEntry where
  k : Key
  v : Val
deriving DecidableEq, Repr

/-- `kv::verify(key, ofs)` : the stored key equals the query from byte
`ofs` on (`ustrcmp(key + ofs, k + ofs) == 0`). -/
def kvVerify (e : KVEntry) (key : Key) (ofs : Nat) : Bool :=
  ustrcmp (key.drop ofs) (e.k.drop ofs) == 0

/-- `kv::keycmp(key, ofs)` : three-way comparison of the query against the
stored key from byte `ofs` on. -/
def kvKeycmp (e : KVEntry) (key : Key) (ofs : Nat) : Int :=
  ustrcmp (key.drop ofs) (e.k.drop ofs)

/-- The Hash-enhanced Prefix Table (`class HPT`, `lits_model.hpp`).
Modelled from the spec as well as the source: the table's training and
its prediction walks are IEEE-double computations, which have no faithful
shallow embedding; every claim treats them as an opaque deterministic
function of the key, so the three query entry points (`getPos`,
`getPos_woGCPL`, `getCdf`) are abstract function fields.  `getPos` takes
the key, the item-array length minus two, the consumed prefix length and
the local linear model's slope and intercept, exactly as in the source. -/
structure HPT where
  getCdf : Key → Nat → ℚ
  getPos : Key → ℤ → Nat → ℚ → ℚ → ℤ
  getPosWo : Key → ℤ → ℚ → ℚ → ℤ

/-- The two structural choices of the PMSS (`STYP_Items` / `STYP_Trie`). -/
inductive SubType where
  | Items : SubType
  | Trie : SubType
deriving DecidableEq, Repr

/-- Modelled from the spec (§4.7): the PMSS structural chooser lives in
`lits_pmss.hpp`, which is not among the sources; it is a pure decision
function from group size and group-partial-key-length score to a subtype
choice, with an unspecified threshold policy. -/
structure PMSS where
  decideSubType : Nat → ℚ → SubType

/-- A compact leaf node (`class Cnode`, `lits_cnode.hpp`): a confirmed
common prefix length and the array of hash-tagged kv pointers, modelled
as (16-bit tag, record) pairs.  `h.key_cnt` is always the length of
`data`. -/
structure Cnode where
  ccpl : Nat
  data : List (Nat × KVEntry)
deriving DecidableEq, Repr

/-- A tagged item (`class Item` plus `InnerNode`, `lits_iter.hpp` item
part).  The five variants of the 3-bit type tag.  A model-based inner
node (`ITYP_Mult`) carries the header fields `num_of_keys`, slope `k`,
intercept `b`, the stored incremental prefix, and its sparse item array
(`item_array_length` is the length of `items`).  A trie item carries the
external HOT collaborator, modelled from the spec (§4.5) as a sorted
association list. -/
inductive Item where
  | null : Item
  | sing (e : KVEntry) : Item
  | cnod (c : Cnode) : Item
  | trie (t : List KVEntry) : Item
  | mult (numKeys : Nat) (slope intercept : ℚ) (pfx : List Nat)
      (items : List Item) : Item

mutual

/-- Boolean equality on items (structural). -/
def itemBEq : Item → Item → Bool
  | .null, .null => true
  | .sing e1, .sing e2 => e1 == e2
  | .cnod c1, .cnod c2 => c1 == c2
  | .trie t1, .trie t2 => t1 == t2
  | .mult n1 s1 b1 p1 i1, .mult n2 s2 b2 p2 i2 =>
    n1 == n2 && s1 == s2 && b1 == b2 && p1 == p2 && itemsBEq i1 i2
  | _, _ => false

/-- Boolean equality on item arrays (structural). -/
def itemsBEq : List Item → List Item → Bool
  | [], [] => true
  | a :: as1, b :: bs => itemBEq a b && itemsBEq as1 bs
  | _, _ => false

end

mutual

theorem itemBEq_iff : ∀ a b : Item, itemBEq a b = true ↔ a = b
  | .null, b => by cases b <;> simp [itemBEq]
  | .sing e1, b => by cases b <;> simp [itemBEq]
  | .cnod c1, b => by cases b <;> simp [itemBEq]
  | .trie t1, b => by cases b <;> simp [itemBEq]
  | .mult n1 s1 b1 p1 i1, b => by
    cases b with
    | mult n2 s2 b2 p2 i2 =>
      simp only [itemBEq, Bool.and_eq_true, beq_iff_eq, itemsBEq_iff i1 i2,
        Item.mult.injEq]
      tauto
    | _ => simp [itemBEq]

theorem itemsBEq_iff : ∀ a b : List Item, itemsBEq a b = true ↔ a = b
  | [], b => by cases b <;> simp [itemsBEq]
  | a :: as1, [] => by simp [itemsBEq]
  | a :: as1, b :: bs => by
    simp [itemsBEq, itemBEq_iff a b, itemsBEq_iff as1 bs]

end

instance : DecidableEq Item := fun a b =>
  decidable_of_iff (itemBEq a b = true) (itemBEq_iff a b)

/-- `Item::is_empty()` : the raw word is zero, i.e. the null variant. -/
def Item.isEmpty : Item → Bool
  | .null => true
  | _ => false

mutual

/-- DFS extraction (`Item::recursive_extract` / `extract_inner_node` /
`extract_cnode`): collect every kv record of a subtree in slot order. -/
def extractItem : Item → List KVEntry
  | .null => []
  | .sing e => [e]
  | .cnod c => c.data.map (fun te => te.2)
  | .trie t => t
  | .mult _ _ _ _ items => extractItems items

/-- Extraction over an item array, in index order. -/
def extractItems : List Item → List KVEntry
  | [] => []
  | it :: rest => extractItem it ++ extractItems rest

end

theorem extractItems_eq_bind (items : List Item) :
    extractItems items = items.flatMap extractItem := by
  induction items with
  | nil => rfl
  | cons it rest ih => simp [extractItems, ih]

/-- `predictPos` (`lits_base.hpp`).  Takes the inner node's item-array
length, slope, intercept and stored prefix; returns the predicted slot
and the updated confirmed common prefix length (the C version updates
`ccpl` through a reference).  If the node stores a prefix and the key
disagrees with it, the boundary slots are returned and `ccpl` is left
unchanged; otherwise the model prediction plus one is clamped into
`[1, item_array_length - 2]` and `ccpl` grows by the prefix length. -/
def predictPos (hpt : HPT) (ial : Nat) (kq bq : ℚ) (pfx : List Nat)
    (key : Key) (ccpl : Nat) : Nat × Nat :=
  let icpl := pfx.length
  let cmpRes := ustrcmpN pfx (key.drop ccpl) icpl
  if icpl ≠ 0 ∧ cmpRes = -1 then (ial - 1, ccpl)
  else if icpl ≠ 0 ∧ cmpRes = 1 then (0, ccpl)
  else
    let pos : ℤ :=
      if ccpl + icpl ≠ 0 then
        hpt.getPos key ((ial : ℤ) - 2) (ccpl + icpl) kq bq + 1
      else
        hpt.getPosWo key ((ial : ℤ) - 2) kq bq + 1
    ((max (min pos ((ial : ℤ) - 2)) 1).toNat, ccpl + icpl)

/-! ### The external HOT trie collaborator

Modelled from the spec (§4.5): the HOT trie is a third-party collaborator
(only the adapter `lits_hot.hpp` is in the sources).  It is an ordered
string map with exact-key find/lookup, insert that fails on duplicates,
upsert returning the previous record, remove, and in-order iteration; we
model it as a list of records sorted strictly by key.  `hotBulkload`
mirrors the adapter's loop of single inserts. -/

/-- Exact-key lookup in the trie (spec §4.5 `lookup`). -/
def trieLookup (t : List KVEntry) (key : Key) : Option KVEntry :=
  t.find? (fun e => ustrcmp key e.k == 0)

/-- Insert a record in front of the first strictly larger key. -/
def listInsertSorted (e : KVEntry) : List KVEntry → List KVEntry
  | [] => [e]
  | x :: rest =>
    if keyLt e.k x.k then e :: x :: rest else x :: listInsertSorted e rest

/-- Trie insert (spec §4.5): fails, without effect, on a present key. -/
def trieInsert (t : List KVEntry) (key : Key) (v : Val) :
    List KVEntry × Bool :=
  if (trieLookup t key).isSome then (t, false)
  else (listInsertSorted ⟨key, v⟩ t, true)

/-- Replace the first element satisfying `p` by its image under `f`. -/
def updateFirst (p : α → Bool) (f : α → α) : List α → List α
  | [] => []
  | x :: rest => if p x then f x :: rest else x :: updateFirst p f rest

/-- Trie upsert (spec §4.5): returns the previous value of a present key
(the adapter `trie_upsert` reads the returned old record, and returns 0
when the key was absent and got inserted). -/
def trieUpsert (t : List KVEntry) (key : Key) (v : Val) :
    List KVEntry × Val :=
  match trieLookup t key with
  | some e =>
    (updateFirst (fun x => ustrcmp key x.k == 0) (fun x => { x with v := v }) t,
      e.v)
  | none => (listInsertSorted ⟨key, v⟩ t, 0)

/-- Trie remove (spec §4.5): erases a present key, no-op otherwise. -/
def trieRemove (t : List KVEntry) (key : Key) : List KVEntry × Bool :=
  if (trieLookup t key).isSome then
    (t.eraseP (fun e => ustrcmp key e.k == 0), true)
  else (t, false)

/-- `HOTBulkload` (`lits_hot.hpp`): insert the records one by one. -/
def hotBulkload (kvs : List KVEntry) : List KVEntry :=
  kvs.foldl (fun t e => (trieInsert t e.k e.v).1) []

/-- `HOTFind` (spec §4.5): an in-order iterator positioned exactly at the
key, modelled as the remaining in-order record list; `none` is the end
iterator. -/
def trieFindRest (t : List KVEntry) (key : Key) : Option (List KVEntry) :=
  if (trieLookup t key).isSome then
    some (t.dropWhile (fun e => !(ustrcmp key e.k == 0)))
  else none

/-! ### Compact node operations (`lits_cnode.hpp`) -/

/-- `new_hash_kv`: a kv pointer tagged with the 16-bit hash of its key. -/
def hashTag (e : KVEntry) : Nat × KVEntry := (hashStr e.k, e)

/-- `new_cnode`: build a compact node from a sorted group, storing the
confirmed common prefix length and hash-tagged pointers in order. -/
def new_cnode (kvs : List KVEntry) (ccpl : Nat) : Cnode :=
  ⟨ccpl, kvs.map hashTag⟩

/-- The hash-guard-then-verify test used by every cnode scan: the tag must
equal the query hash and the key tails from the node's ccpl must agree. -/
def cnodeMatch (key : Key) (ccpl : Nat) (te : Nat × KVEntry) : Bool :=
  hashStr key == te.1 && kvVerify te.2 key ccpl

/-- `_cnode_search`: first hash-guarded verified match, if any. -/
def cnode_search (c : Cnode) (key : Key) : Option KVEntry :=
  (c.data.find? (cnodeMatch key c.ccpl)).map (fun te => te.2)

/-- The scan of `_cnode_withRoom_insert`: walk the sorted entries, fail on
an equal tail, splice the new tagged entry before the first larger one. -/
def cnodeInsertScan (ccpl : Nat) (key : Key) (ne : Nat × KVEntry) :
    List (Nat × KVEntry) → Option (List (Nat × KVEntry))
  | [] => some [ne]
  | te :: rest =>
    let cmp := ustrcmp (te.2.k.drop ccpl) (key.drop ccpl)
    if cmp = 0 then none
    else if cmp = 1 then some (ne :: te :: rest)
    else (cnodeInsertScan ccpl key ne rest).map (fun d => te :: d)

/-- `_cnode_withRoom_insert`. -/
def cnode_withRoom_insert (c : Cnode) (key : Key) (v : Val) : Cnode × Bool :=
  match cnodeInsertScan c.ccpl key (hashTag ⟨key, v⟩) c.data with
  | none => (c, false)
  | some d => (⟨c.ccpl, d⟩, true)

/-- The second scan of `_cnode_withRoom_upsert`: splice the new tagged
entry before the first larger one (no duplicate check, the first scan
already ruled an equal key out). -/
def cnodeUpScan (ccpl : Nat) (key : Key) (ne : Nat × KVEntry) :
    List (Nat × KVEntry) → List (Nat × KVEntry)
  | [] => [ne]
  | te :: rest =>
    if ustrcmp (te.2.k.drop ccpl) (key.drop ccpl) = 1 then ne :: te :: rest
    else te :: cnodeUpScan ccpl key ne rest

/-- `_cnode_withRoom_upsert`: update a hash-verified match in place and
return its old value, otherwise splice the new entry in and return 0. -/
def cnode_withRoom_upsert (c : Cnode) (key : Key) (v : Val) : Cnode × Val :=
  match c.data.find? (cnodeMatch key c.ccpl) with
  | some te =>
    (⟨c.ccpl, updateFirst (cnodeMatch key c.ccpl)
        (fun x => (x.1, { x.2 with v := v })) c.data⟩, te.2.v)
  | none => (⟨c.ccpl, cnodeUpScan c.ccpl key (hashTag ⟨key, v⟩) c.data⟩, 0)

/-- `_cnode_withRoom_remove`: drop the first hash-verified match. -/
def cnode_withRoom_remove (c : Cnode) (key : Key) : Cnode × Bool :=
  if (c.data.find? (cnodeMatch key c.ccpl)).isSome then
    (⟨c.ccpl, c.data.eraseP (cnodeMatch key c.ccpl)⟩, true)
  else (c, false)

/-- `_cnode_degrade`: on a two-entry cnode, remove the matching entry and
return the surviving record; `none` when the key is absent.  (The source
asserts `key_cnt == 2`; other shapes are unreachable.) -/
def cnode_degrade (c : Cnode) (key : Key) : Option KVEntry :=
  match c.data with
  | [te0, te1] =>
    if cnodeMatch key c.ccpl te0 then some te1.2
    else if cnodeMatch key c.ccpl te1 then some te0.2
    else none
  | _ => none

/-- `try_extract_keys_if_valid_insert`: extract the raw records with the
new record spliced in sorted position, or `none` if the key exists. -/
def tryExtractInsert (ccpl : Nat) (key : Key) (v : Val) :
    List (Nat × KVEntry) → Option (List KVEntry)
  | [] => some [⟨key, v⟩]
  | te :: rest =>
    let cmp := ustrcmp (te.2.k.drop ccpl) (key.drop ccpl)
    if cmp = 0 then none
    else if cmp = 1 then
      some (⟨key, v⟩ :: (te :: rest).map (fun x => x.2))
    else (tryExtractInsert ccpl key v rest).map (fun l => te.2 :: l)

/-- Result of `try_extract_keys_if_valid_upsert`: either the key was found
and its value updated in place (the cnode survives, the old value is
returned — and the extraction vector stays empty), or the records were
extracted with the new record spliced in. -/
inductive UpScan where
  | updated (d : List (Nat × KVEntry)) (old : Val) : UpScan
  | extracted (l : List KVEntry) : UpScan

/-- `try_extract_keys_if_valid_upsert`. -/
def tryExtractUpsert (ccpl : Nat) (key : Key) (v : Val) :
    List (Nat × KVEntry) → UpScan
  | [] => .extracted [⟨key, v⟩]
  | te :: rest =>
    let cmp := ustrcmp (te.2.k.drop ccpl) (key.drop ccpl)
    if cmp = 0 then .updated ((te.1, { te.2 with v := v }) :: rest) te.2.v
    else if cmp = 1 then .extracted (⟨key, v⟩ :: (te :: rest).map (fun x => x.2))
    else
      match tryExtractUpsert ccpl key v rest with
      | .updated d old => .updated (te :: d) old
      | .extracted l => .extracted (te.2 :: l)

/-! ### Bulk build (`pmss_bulk` and `_try_rebulk_as_model_node`) -/

/-- Indexing into a kv sequence (`kvs[i]` / `KVS1::operator[]`). -/
def kvGet (kvs : List KVEntry) (i : Nat) : KVEntry := kvs.getD i ⟨[], 0⟩

/-- `udpl`: distinguishing prefix length of two neighbors. -/
def udpl (a b : Key) : Nat := ucpl a b + 1

/-- `getGPKL` (`lits_base.hpp`): mean distinguishing-prefix length of the
group minus the group common prefix length, in exact rationals (the
source uses doubles; the result only feeds the opaque PMSS chooser). -/
def getGPKL (kvs : List KVEntry) : ℚ :=
  let len := kvs.length
  let gk := fun i => (kvGet kvs i).k
  let dkl := fun i =>
    if i = 0 then udpl (gk 0) (gk 1)
    else if i = len - 1 then udpl (gk (len - 2)) (gk (len - 1))
    else max (udpl (gk (i - 1)) (gk i)) (udpl (gk i) (gk (i + 1)))
  let dklSum : ℚ := (List.range len).foldl (fun acc i => acc + dkl i) 0
  dklSum / len - (ucpl (gk 0) (gk (len - 1)) : ℚ)

/-- The key-distribution sweep of `_try_rebulk_as_model_node`: walk the
group in order, fail if the predicted slots are not monotone
non-decreasing or out of `[0, ial)`, and cut a new run at every new slot.
`lastIdx` is the slot of the current run, `cur` its entries reversed. -/
def sweepRuns (pred : KVEntry → Nat) (ial : Nat) :
    List KVEntry → Nat → List KVEntry → Option (List (Nat × List KVEntry))
  | [], lastIdx, cur => some [(lastIdx, cur.reverse)]
  | e :: rest, lastIdx, cur =>
    let idx := pred e
    if idx < lastIdx ∨ ial ≤ idx then none
    else if idx = lastIdx then sweepRuns pred ial rest lastIdx (e :: cur)
    else (sweepRuns pred ial rest idx [e]).map
      (fun rs => (lastIdx, cur.reverse) :: rs)

/-- Group a non-empty sorted batch into maximal runs of equal predicted
slot (`none` on a monotonicity or range violation). -/
def groupRuns (pred : KVEntry → Nat) (ial : Nat) :
    List KVEntry → Option (List (Nat × List KVEntry))
  | [] => none
  | e :: rest =>
    let idx := pred e
    if ial ≤ idx then none else sweepRuns pred ial rest idx [e]

mutual

/-- `pmss_bulk` (`lits_base.hpp`), on the sublist `kvs[l..r)` directly:
size 1 becomes a single-entry item, size ≤ 16 a compact node, larger
groups become a model node if the PMSS chooses `Items` and the model
build succeeds, and a trie otherwise.  The fuel argument bounds the
recursion depth; since every run of a successful model build is a proper
sub-group, fuel `size + 1` never runs out, and the fuel-exhaustion branch
coincides with the trie fallback. -/
def pmss_bulkF (hpt : HPT) (pmss : PMSS) :
    Nat → List KVEntry → Nat → Item
  | 0, kvs, _ => .trie (hotBulkload kvs)
  | fuel + 1, kvs, ccpl =>
    let size := kvs.length
    if size = 1 then .sing (kvGet kvs 0)
    else if size ≤ 16 then .cnod (new_cnode kvs ccpl)
    else if pmss.decideSubType size (getGPKL kvs) = .Items then
      match tryModelF hpt pmss fuel kvs ccpl with
      | some it => it
      | none => .trie (hotBulkload kvs)
    else .trie (hotBulkload kvs)

/-- `_try_rebulk_as_model_node` (`lits_base.hpp`): derive the local linear
model from the first and last key's raw CDFs, fail on a degenerate CDF,
an indistinguishable first/last pair, or a non-monotone sweep; otherwise
distribute the runs into a fresh sparse item array of twice the group
size, bulk-loading every run recursively at the group's common prefix
length. -/
def tryModelF (hpt : HPT) (pmss : PMSS) :
    Nat → List KVEntry → Nat → Option Item
  | fuel, kvs, ccpl =>
    let size := kvs.length
    let ial := 2 * size
    let firstK := (kvGet kvs 0).k
    let lastK := (kvGet kvs (size - 1)).k
    let gcpl := ucpl firstK lastK
    let icpl := gcpl - ccpl
    let minCdf := hpt.getCdf firstK gcpl
    let maxCdf := hpt.getCdf lastK gcpl
    if maxCdf ≤ minCdf then none
    else
      let kq := 1 / (maxCdf - minCdf)
      let bq := minCdf / (minCdf - maxCdf)
      let pfx := (firstK.drop ccpl).take icpl
      let pred := fun (e : KVEntry) => (predictPos hpt ial kq bq pfx e.k ccpl).1
      if pred (kvGet kvs (size - 1)) ≤ pred (kvGet kvs 0) then none
      else
        match groupRuns pred ial kvs with
        | none => none
        | some runs =>
          some (.mult size kq bq pfx
            (runs.foldl
              (fun its r => its.set r.1 (pmss_bulkF hpt pmss fuel r.2 gcpl))
              (List.replicate ial Item.null)))

end

/-- `pmss_bulk` with always-sufficient fuel. -/
def pmssBulk (hpt : HPT) (pmss : PMSS) (kvs : List KVEntry) (ccpl : Nat) :
    Item :=
  pmss_bulkF hpt pmss (kvs.length + 1) kvs ccpl

/-! ### Terminal-variant mutation helpers (`lits_base.hpp`) -/

/-- `sing_insert`: an equal key fails; otherwise the slot becomes a
two-entry compact node holding the old and new records in key order. -/
def sing_insert (e : KVEntry) (key : Key) (v : Val) (ccpl : Nat) :
    Item × Bool :=
  let cmpRes := kvKeycmp e key ccpl
  if cmpRes = 0 then (.sing e, false)
  else if cmpRes > 0 then
    (.cnod ⟨ccpl, [hashTag e, hashTag ⟨key, v⟩]⟩, true)
  else (.cnod ⟨ccpl, [hashTag ⟨key, v⟩, hashTag e]⟩, true)

/-- `sing_upsert`: an equal key is updated in place and its old value
returned; otherwise insert as a two-entry compact node and return 0. -/
def sing_upsert (e : KVEntry) (key : Key) (v : Val) (ccpl : Nat) :
    Item × Val :=
  let cmpRes := kvKeycmp e key ccpl
  if cmpRes = 0 then (.sing { e with v := v }, e.v)
  else if cmpRes > 0 then
    (.cnod ⟨ccpl, [hashTag e, hashTag ⟨key, v⟩]⟩, 0)
  else (.cnod ⟨ccpl, [hashTag ⟨key, v⟩, hashTag e]⟩, 0)

/-- `sing_remove`: an equal key empties the slot; otherwise fail. -/
def sing_remove (e : KVEntry) (key : Key) (ccpl : Nat) : Item × Bool :=
  if kvKeycmp e key ccpl = 0 then (.null, true) else (.sing e, false)

/-- `cnod_insert`: insert into a compact node with room, or extract the
sixteen records plus the new one and re-bulk-build the slot. -/
def cnod_insert (hpt : HPT) (pmss : PMSS) (c : Cnode) (key : Key) (v : Val) :
    Item × Bool :=
  if c.data.length < 16 then
    let r := cnode_withRoom_insert c key v
    (.cnod r.1, r.2)
  else
    match tryExtractInsert c.ccpl key v c.data with
    | some l => (pmssBulk hpt pmss (l.take 17) c.ccpl, true)
    | none => (.cnod c, false)

/-- `cnod_upsert`: upsert into a compact node with room; on a full node,
either update in place (old value returned — but a stored old value of 0
makes the caller re-bulk-build from the never-filled extraction vector,
losing the node's records), or extract-and-rebuild with the new record. -/
def cnod_upsert (hpt : HPT) (pmss : PMSS) (c : Cnode) (key : Key) (v : Val) :
    Item × Val :=
  if c.data.length < 16 then
    let r := cnode_withRoom_upsert c key v
    (.cnod r.1, r.2)
  else
    match tryExtractUpsert c.ccpl key v c.data with
    | .updated d old =>
      if old = 0 then (pmssBulk hpt pmss [] c.ccpl, 0)
      else (.cnod ⟨c.ccpl, d⟩, old)
    | .extracted l => (pmssBulk hpt pmss (l.take 17) c.ccpl, 0)

/-- `cnod_remove`: remove from a compact node with more than two entries,
or degrade a two-entry node to a bare single-entry item. -/
def cnod_remove (c : Cnode) (key : Key) : Item × Bool :=
  if 2 < c.data.length then
    let r := cnode_withRoom_remove c key
    (.cnod r.1, r.2)
  else
    match cnode_degrade c key with
    | none => (.cnod c, false)
    | some e => (.sing e, true)

/-! ### Descent operations (`lits_iter.hpp`, `class LITS`) -/

theorem sizeOf_lt_of_mem_items {c : Item} {items : List Item}
    (h : c ∈ items) : sizeOf c < sizeOf items := by
  induction items with
  | nil => cases h
  | cons x rest ih =>
    have hx : sizeOf (x :: rest) = 1 + sizeOf x + sizeOf rest := by simp
    rcases List.mem_cons.mp h with rfl | h2
    · omega
    · have := ih h2; omega

theorem sizeOf_getD_lt (items : List Item) (pos : Nat) (nk : Nat)
    (s b : ℚ) (p : List Nat) :
    sizeOf (items.getD pos Item.null) < sizeOf (Item.mult nk s b p items) := by
  have hm : sizeOf items < sizeOf (Item.mult nk s b p items) := by
    simp
  have hnull : sizeOf Item.null ≤ sizeOf items := by
    have h1 : sizeOf Item.null = 1 := by simp
    have : 1 ≤ sizeOf items := by
      cases items with
      | nil => simp
      | cons x rest =>
        have : sizeOf (x :: rest) = 1 + sizeOf x + sizeOf rest := by simp
        omega
    omega
  cases h : items[pos]? with
  | some c =>
    have heq : items.getD pos Item.null = c := by simp [List.getD, h]
    rw [heq]
    obtain ⟨hlt, hg⟩ := List.getElem?_eq_some_iff.mp h
    exact lt_trans (sizeOf_lt_of_mem_items (hg ▸ List.getElem_mem hlt)) hm
  | none =>
    have heq : items.getD pos Item.null = Item.null := by simp [List.getD, h]
    rw [heq]
    exact lt_of_le_of_lt hnull hm

/-- `LITS::_lookup`: descend by predicted position to a terminal variant
and run its search. -/
def lookupItem (hpt : HPT) : Item → Key → Nat → Option KVEntry
  | .null, _, _ => none
  | .sing e, key, ccpl => if kvVerify e key ccpl then some e else none
  | .cnod c, key, _ => cnode_search c key
  | .trie t, key, _ => trieLookup t key
  | .mult _ s b pfx items, key, ccpl =>
    let pc := predictPos hpt items.length s b pfx key ccpl
    lookupItem hpt (items.getD pc.1 Item.null) key pc.2
termination_by it _ _ => sizeOf it
decreasing_by exact sizeOf_getD_lt ..

/-- `LITS::_insert`, descent phase: apply the terminal operation, rebuild
the spine functionally, and record the path of (predicted slot, entry
ccpl) pairs of every traversed model node, root first. -/
def insertItem (hpt : HPT) (pmss : PMSS) :
    Item → Key → Val → Nat → Item × Bool × List (Nat × Nat)
  | .null, key, v, _ => (.sing ⟨key, v⟩, true, [])
  | .sing e, key, v, ccpl =>
    let r := sing_insert e key v ccpl
    (r.1, r.2, [])
  | .cnod c, key, v, _ =>
    let r := cnod_insert hpt pmss c key v
    (r.1, r.2, [])
  | .trie t, key, v, _ =>
    let r := trieInsert t key v
    (.trie r.1, r.2, [])
  | .mult nk s b pfx items, key, v, ccpl =>
    let pc := predictPos hpt items.length s b pfx key ccpl
    let r := insertItem hpt pmss (items.getD pc.1 Item.null) key v pc.2
    (.mult nk s b pfx (items.set pc.1 r.1), r.2.1, (pc.1, ccpl) :: r.2.2)
termination_by it _ _ _ => sizeOf it
decreasing_by exact sizeOf_getD_lt ..

/-- `LITS::_remove`, descent phase. -/
def removeItem (hpt : HPT) (pmss : PMSS) :
    Item → Key → Nat → Item × Bool × List (Nat × Nat)
  | .null, _, _ => (.null, false, [])
  | .sing e, key, ccpl =>
    let r := sing_remove e key ccpl
    (r.1, r.2, [])
  | .cnod c, key, _ =>
    let r := cnod_remove c key
    (r.1, r.2, [])
  | .trie t, key, _ =>
    let r := trieRemove t key
    (.trie r.1, r.2, [])
  | .mult nk s b pfx items, key, ccpl =>
    let pc := predictPos hpt items.length s b pfx key ccpl
    let r := removeItem hpt pmss (items.getD pc.1 Item.null) key pc.2
    (.mult nk s b pfx (items.set pc.1 r.1), r.2.1, (pc.1, ccpl) :: r.2.2)
termination_by it _ _ => sizeOf it
decreasing_by exact sizeOf_getD_lt ..

/-- `LITS::_upsert`, descent phase; the value result is 0 exactly when
the source's `result == 0` test passes afterwards. -/
def upsertItem (hpt : HPT) (pmss : PMSS) :
    Item → Key → Val → Nat → Item × Val × List (Nat × Nat)
  | .null, key, v, _ => (.sing ⟨key, v⟩, 0, [])
  | .sing e, key, v, ccpl =>
    let r := sing_upsert e key v ccpl
    (r.1, r.2, [])
  | .cnod c, key, v, _ =>
    let r := cnod_upsert hpt pmss c key v
    (r.1, r.2, [])
  | .trie t, key, v, _ =>
    let r := trieUpsert t key v
    (.trie r.1, r.2, [])
  | .mult nk s b pfx items, key, v, ccpl =>
    let pc := predictPos hpt items.length s b pfx key ccpl
    let r := upsertItem hpt pmss (items.getD pc.1 Item.null) key v pc.2
    (.mult nk s b pfx (items.set pc.1 r.1), r.2.1, (pc.1, ccpl) :: r.2.2)
termination_by it _ _ _ => sizeOf it
decreasing_by exact sizeOf_getD_lt ..

/-- `PathStack::change_num`: walk the recorded path root first, adjusting
every visited model node's key count by ±1; at the first node whose
adjusted count reaches the overflow (`count ≥ 2·N`) or underflow
(`4·count ≤ N`) threshold, extract the whole subtree, re-bulk-build it at
the recorded ccpl over the ancestor item, and stop. -/
def changeNum (hpt : HPT) (pmss : PMSS) (delta : Int) :
    Item → List (Nat × Nat) → Item
  | it, [] => it
  | .mult nk s b pfx items, (pos, ccpl) :: rest =>
    let nk' := if delta > 0 then nk + 1 else nk - 1
    if 2 * items.length ≤ nk' ∨ 4 * nk' ≤ items.length then
      pmssBulk hpt pmss ((extractItems items).take nk') ccpl
    else
      .mult nk' s b pfx
        (items.set pos (changeNum hpt pmss delta (items.getD pos Item.null) rest))
  | it, _ :: _ => it

/-- The LITS façade state: the trained HPT, the PMSS and the root item. -/
structure LState where
  hpt : HPT
  pmss : PMSS
  root : Item

/-- `LITS::lookup`. -/
def litsLookup (s : LState) (key : Key) : Option KVEntry :=
  lookupItem s.hpt s.root key 0

/-- `LITS::insert`: descend, and on success run the count walk. -/
def litsInsert (s : LState) (key : Key) (v : Val) : LState × Bool :=
  let r := insertItem s.hpt s.pmss s.root key v 0
  if r.2.1 then ({ s with root := changeNum s.hpt s.pmss 1 r.1 r.2.2 }, true)
  else ({ s with root := r.1 }, false)

/-- `LITS::remove`: descend, and on success run the count walk. -/
def litsRemove (s : LState) (key : Key) : LState × Bool :=
  let r := removeItem s.hpt s.pmss s.root key 0
  if r.2.1 then ({ s with root := changeNum s.hpt s.pmss (-1) r.1 r.2.2 }, true)
  else ({ s with root := r.1 }, false)

/-- `LITS::upsert`: descend, and run the count walk when the returned old
value is the 0 sentinel. -/
def litsUpsert (s : LState) (key : Key) (v : Val) : LState × Val :=
  let r := upsertItem s.hpt s.pmss s.root key v 0
  if r.2.1 = 0 then ({ s with root := changeNum s.hpt s.pmss 1 r.1 r.2.2 }, 0)
  else ({ s with root := r.1 }, r.2.1)

/-- `LITS::_bulkload`: reject inputs shorter than `min_bulk_load_size`
(1000) or not strictly sorted unique; otherwise use the supplied HPT or
train a fresh one, construct the PMSS, and bulk-build the root.  `none`
models returning `false`. -/
def litsBulkload (hptArg : Option HPT) (train : List Key → HPT)
    (pmss : PMSS) (keys : List Key) (vals : List Val) : Option LState :=
  if keys.length < 1000 then none
  else if ¬ List.Chain' keyLt keys then none
  else
    let hpt := hptArg.getD (train keys)
    some ⟨hpt, pmss, pmssBulk hpt pmss (List.zipWith KVEntry.mk keys vals) 0⟩

/-! ### The iterator (`class litsIter`, `lits_iter.hpp`) -/

/-- One frame of the iterator's DFS stack (`litsIter::info`): an item
array or a cnode's kv array (the other one is empty), its length and the
current index. -/
structure Frame where
  itemArr : List Item
  kvArr : List (Nat × KVEntry)
  len : Nat
  idx : Nat
deriving DecidableEq

/-- The iterator state.  `subtrie` is the sub-trie iterator, modelled as
the remaining in-order record list (empty = the end iterator); `path`
holds the stack with the deepest frame first (`path[depth]` in the
source).  `assertFail` records having run into `RT_ASSERT(false)` or the
source's unhandled-variant reads (undefined behavior in C). -/
structure LIter where
  isValid : Bool
  inSubTrie : Bool
  inCnode : Bool
  isEnd : Bool
  subtrie : List KVEntry
  data : Option KVEntry
  path : List Frame
  assertFail : Bool
deriving DecidableEq

/-- The freshly constructed iterator. -/
def initIter : LIter :=
  ⟨true, false, false, false, [], none, [], false⟩

/-- `litsIter::valid`. -/
def LIter.valid (it : LIter) : Bool := it.isValid

/-- `litsIter::not_finish`. -/
def LIter.notFinish (it : LIter) : Bool := !it.isEnd

/-- `litsIter::getKV`: the current record; dereferencing the sub-trie end
iterator yields `none`. -/
def LIter.getKV (it : LIter) : Option KVEntry :=
  if it.inSubTrie then it.subtrie.head?.map id else it.data

/-- Default tagged entry (never read on well-formed states). -/
def dfltTE : Nat × KVEntry := (0, ⟨[], 0⟩)

/-- `litsIter::FIRST`: position on the first record under `father`,
pushing one frame per visited node.  The source only handles a compact
node or model node father; for the other variants it reinterprets the
payload as an `InnerNode` (undefined behavior), modelled by
`assertFail`, as is the `RT_ASSERT(false)` of an all-empty item array. -/
def FIRST (it : LIter) : Item → LIter
  | .cnod c =>
    { it with
      inCnode := true
      path := ⟨[], c.data, c.data.length, 0⟩ :: it.path
      data := (c.data.head?).map (fun te => te.2) }
  | .mult _ _ _ _ items =>
    match items.findIdx? (fun x => !x.isEmpty) with
    | none => { it with assertFail := true }
    | some i =>
      let it2 : LIter := { it with path := ⟨items, [], items.length, i⟩ :: it.path }
      match h : items.getD i Item.null with
      | .sing e => { it2 with data := some e }
      | .trie t => { it2 with inSubTrie := true, subtrie := t }
      | cur => FIRST it2 cur
  | _ => { it with assertFail := true }
termination_by item => sizeOf item
decreasing_by all_goals (rw [← h]; exact sizeOf_getD_lt ..)

/-- First non-empty slot at index `start` or later (`ADVANCE`'s scan). -/
def findNonEmptyFrom (items : List Item) (start : Nat) : Option Nat :=
  ((items.drop start).findIdx? (fun x => !x.isEmpty)).map (fun j => j + start)

/-- `litsIter::ADVANCE`: advance within the top frame; in a cnode bump
the cursor (leaving the cnode at its end), otherwise move to the next
non-empty slot and enter it.  Returns the new state and whether a record
was found at this level. -/
def ADVANCE (it : LIter) : LIter × Bool :=
  match it.path with
  | [] => (it, false)
  | f :: rest =>
    if it.inCnode then
      let idx2 := f.idx + 1
      if f.len ≤ idx2 then
        ({ it with inCnode := false, path := { f with idx := idx2 } :: rest },
          false)
      else
        ({ it with
            path := { f with idx := idx2 } :: rest
            data := some (f.kvArr.getD idx2 dfltTE).2 }, true)
    else
      match findNonEmptyFrom f.itemArr (f.idx + 1) with
      | none => (it, false)
      | some i =>
        let it2 : LIter := { it with path := { f with idx := i } :: rest }
        match f.itemArr.getD i Item.null with
        | .sing e => ({ it2 with data := some e }, true)
        | .trie t => ({ it2 with inSubTrie := true, subtrie := t }, true)
        | .null => (it2, false)
        | cur => (FIRST it2 cur, true)

/-- `ADVANCE` keeps the stack depth when it fails to find a record. -/
theorem ADVANCE_false_path_length {it : LIter}
    (h : (ADVANCE it).2 = false) :
    (ADVANCE it).1.path.length = it.path.length := by
  obtain ⟨iv, ist, ic, ie, sub, d, path, af⟩ := it
  cases path with
  | nil => simp [ADVANCE]
  | cons f rest =>
    cases ic with
    | true =>
      by_cases hl : f.len ≤ f.idx + 1
      · simp [ADVANCE, hl]
      · simp [ADVANCE, hl] at h
    | false =>
      cases hf : findNonEmptyFrom f.itemArr (f.idx + 1) with
      | none => simp [ADVANCE, hf]
      | some i =>
        cases hg : f.itemArr[i]?.getD Item.null with
        | null => simp [ADVANCE, hf, List.getD, hg]
        | sing e => simp [ADVANCE, hf, List.getD, hg] at h
        | trie t => simp [ADVANCE, hf, List.getD, hg] at h
        | cnod c => simp [ADVANCE, hf, List.getD, hg] at h
        | mult nk s b p its => simp [ADVANCE, hf, List.getD, hg] at h

/-- The frame-popping loop of `litsIter::next`: try `ADVANCE` at each
level, dropping exhausted frames; when no frame remains, the iteration
has ended. -/
def popLoop (it : LIter) : LIter :=
  match hp : it.path with
  | [] => { it with isEnd := true }
  | _ :: _ =>
    let r := ADVANCE it
    if h : r.2 = true then r.1
    else popLoop { r.1 with path := r.1.path.tail }
termination_by it.path.length
decreasing_by
  have hlen := ADVANCE_false_path_length (by simpa using h)
  simp only [List.length_tail]
  rw [hlen, hp]
  simp

/-- `litsIter::next`: within a sub-trie advance its iterator, falling
back to the enclosing stack at the sub-trie's end; otherwise run the
popping loop. -/
def LIter.next (it : LIter) : LIter :=
  if it.inSubTrie then
    let sub2 := it.subtrie.tail
    if sub2.isEmpty then popLoop { it with inSubTrie := false, subtrie := [] }
    else { it with subtrie := sub2 }
  else popLoop it

/-- `LITS::_begin`. -/
def litsBegin (s : LState) : LIter := FIRST initIter s.root

/-- `LITS::_find` with `recordPath_find`, `trie_find`, `sing_find` and
`cnod_find`: descend exactly like lookup, pushing a frame per model node;
at the terminal variant position the iterator (note `sing_find` sets the
record without comparing keys, and only the null, cnode and trie arms can
invalidate the iterator). -/
def findItem (hpt : HPT) : Item → Key → Nat → LIter → LIter
  | .null, _, _, iter => { iter with isValid := false }
  | .sing e, _, _, iter => { iter with data := some e }
  | .cnod c, key, _, iter =>
    (match c.data.findIdx? (cnodeMatch key c.ccpl) with
    | some i =>
      { iter with
        inCnode := true
        path := ⟨[], c.data, c.data.length, i⟩ :: iter.path
        data := some (c.data.getD i dfltTE).2 }
    | none => { iter with isValid := false })
  | .trie t, key, _, iter =>
    (match trieFindRest t key with
    | none => { iter with isValid := false }
    | some rest => { iter with inSubTrie := true, subtrie := rest })
  | .mult _ s b pfx items, key, ccpl, iter =>
    let pc := predictPos hpt items.length s b pfx key ccpl
    findItem hpt (items.getD pc.1 Item.null) key pc.2
      { iter with path := ⟨items, [], items.length, pc.1⟩ :: iter.path }
termination_by it _ _ _ => sizeOf it
decreasing_by exact sizeOf_getD_lt ..

/-- `LITS::_find`. -/
def litsFind (s : LState) (key : Key) : LIter :=
  findItem s.hpt s.root key 0 initIter

/-- Collect at most `n` records: current record, then `next`, stopping
when `not_finish()` turns false. -/
def enumFrom : Nat → LIter → List (Option KVEntry)
  | 0, _ => []
  | n + 1, it => if it.isEnd then [] else it.getKV :: enumFrom n it.next

/-- The full scan: `begin()` then `next()` until `not_finish()` is false
(one more step of budget than records, so the budget never binds). -/
def litsEnum (s : LState) : List (Option KVEntry) :=
  enumFrom ((extractItem s.root).length + 1) (litsBegin s)

/-! ### The structural invariant -/

/-- Record order: strictly ascending keys. -/
def entLt (a b : KVEntry) : Prop := keyLt a.k b.k

instance entLt.decidable : ∀ a b : KVEntry, Decidable (entLt a b) := by
  intro a b; unfold entLt; infer_instance

/-- All records of a group agree on their first `n` key bytes. -/
def SharedPfx (n : Nat) (l : List KVEntry) : Prop :=
  ∀ a ∈ l, ∀ b ∈ l, a.k.take n = b.k.take n

/-- A representable key: the byte list of a NUL-terminated string has no
interior zero byte. -/
def ZFKey (k : Key) : Prop := ∀ byte ∈ k, byte ≠ 0

/-- All records of a group have representable (zero-free) keys. -/
def ZFK (l : List KVEntry) : Prop := ∀ e ∈ l, ZFKey e.k

/-- The confirmed prefix length at which a model node's child in slot `i`
is entered by every descent: the two boundary sentinel slots are reached
on a prefix mismatch with the ccpl unchanged, the interior slots only
after the stored incremental prefix has been consumed. -/
def slotCcpl (ccpl plen len i : Nat) : Nat :=
  if i = 0 ∨ i = len - 1 then ccpl else ccpl + plen

/-- Well-formedness of an item subtree whose descent has confirmed `ccpl`
key bytes.  The clauses are exactly what the search/mutation code relies
on: compact nodes carry their entry ccpl, between 2 and 16 correctly
hash-tagged records in strictly sorted order that agree on the confirmed
prefix; tries are sorted; a model node has at least 3 slots, a key count
no smaller than its reachable record count, every child well-formed at
the confirmed prefix length of its slot, every record of a child
predicted exactly to that child's slot, and a sorted, prefix-sharing
extraction. -/
inductive WF (hpt : HPT) : Item → Nat → Prop where
  | null : ∀ ccpl, WF hpt .null ccpl
  | sing : ∀ e ccpl,
      ZFKey e.k →
      WF hpt (.sing e) ccpl
  | cnod : ∀ c ccpl,
      c.ccpl = ccpl →
      2 ≤ c.data.length → c.data.length ≤ 16 →
      (∀ te ∈ c.data, te.1 = hashStr te.2.k) →
      List.Pairwise entLt (c.data.map (fun te => te.2)) →
      SharedPfx ccpl (c.data.map (fun te => te.2)) →
      ZFK (c.data.map (fun te => te.2)) →
      WF hpt (.cnod c) ccpl
  | trie : ∀ t ccpl,
      List.Pairwise entLt t →
      SharedPfx ccpl t →
      ZFK t →
      WF hpt (.trie t) ccpl
  | mult : ∀ nk s b pfx items ccpl,
      34 ≤ items.length →
      (extractItems items).length = nk →
      ¬ (4 * nk ≤ items.length) →
      ZFKey pfx →
      (∀ i : Nat, ∀ child, items[i]? = some child →
        WF hpt child (slotCcpl ccpl pfx.length items.length i)) →
      (∀ i : Nat, ∀ child, items[i]? = some child →
        ∀ e ∈ extractItem child,
          predictPos hpt items.length s b pfx e.k ccpl =
            (i, slotCcpl ccpl pfx.length items.length i)) →
      List.Pairwise entLt (extractItems items) →
      SharedPfx ccpl (extractItems items) →
      ZFK (extractItems items) →
      WF hpt (.mult nk s b pfx items) ccpl

/-! ### String-comparison support lemmas -/

/-- The bounded compare against a zero-free prefix of its own length is
zero exactly when the other string starts with that prefix. -/
theorem ustrcmpN_zero_iff_take (pfx : List Nat) (hzf : ZFKey pfx) :
    ∀ s : Key, ustrcmpN pfx s pfx.length = 0 ↔ s.take pfx.length = pfx := by
  induction pfx with
  | nil => intro s; simp [ustrcmpN]
  | cons p ps ih =>
    intro s
    have hp : p ≠ 0 := hzf p (by simp)
    have hzf2 : ZFKey ps := fun byte hb => hzf byte (by simp [hb])
    cases s with
    | nil =>
      simp only [List.length_cons, ustrcmpN, List.headD_nil, List.tail_nil]
      have : ¬ p = 0 := hp
      simp only [List.headD]
      constructor
      · intro h
        split at h <;> omega
      · intro h; simp at h
    | cons c cs =>
      by_cases hpc : p = c
      · subst hpc
        simp only [List.length_cons, ustrcmpN, List.headD_cons, List.tail_cons,
          if_pos rfl, List.take_succ_cons, List.cons.injEq, true_and]
        exact ih hzf2 cs
      · have hcp : ¬ c = p := fun h => hpc h.symm
        simp only [List.length_cons, ustrcmpN, List.headD_cons,
          List.take_succ_cons, List.cons.injEq]
        constructor
        · intro h
          split at h <;> omega
        · intro h; exact absurd h.1 hcp

/-- Dropping a shared prefix commutes with three-way comparison. -/
theorem ustrcmp_drop_of_take_eq :
    ∀ (n : Nat) (x y : Key), x.take n = y.take n →
      ustrcmp (x.drop n) (y.drop n) = ustrcmp x y := by
  intro n
  induction n with
  | zero => intro x y _; simp
  | succ m ih =>
    intro x y h
    cases x with
    | nil =>
      have : y = [] := by
        rcases List.take_eq_nil_iff.mp h.symm with h2 | h2
        · omega
        · exact h2
      subst this; simp
    | cons a xs =>
      cases y with
      | nil => simp at h
      | cons b ys =>
        simp only [List.take_succ_cons, List.cons.injEq] at h
        obtain ⟨rfl, ht⟩ := h
        simp only [List.drop_succ_cons, ustrcmp_cons_eq]
        exact ih xs ys ht

/-- With an agreeing prefix, tail equality is full equality: the
correctness of `kv::verify` at a confirmed prefix length. -/
theorem kvVerify_iff {e : KVEntry} {x : Key} {n : Nat}
    (h : x.take n = e.k.take n) : kvVerify e x n = true ↔ x = e.k := by
  unfold kvVerify
  rw [beq_iff_eq, ustrcmp_drop_of_take_eq n x e.k h, ustrcmp_eq_zero_iff]

/-- `find?` then project versus project then `find?`. -/
theorem find?_map_comm {α β : Type} (l : List α) (f : α → β)
    (p : α → Bool) (q : β → Bool) (h : ∀ a ∈ l, p a = q (f a)) :
    (l.find? p).map f = (l.map f).find? q := by
  induction l with
  | nil => rfl
  | cons a rest ih =>
    have ha := h a (by simp)
    by_cases hp : p a = true
    · rw [List.find?_cons_of_pos _ hp, List.map_cons,
        List.find?_cons_of_pos _ (by rw [← ha]; exact hp)]
      simp
    · have hq : ¬ q (f a) = true := by rw [← ha]; exact hp
      rw [List.find?_cons_of_neg _ hp, List.map_cons,
        List.find?_cons_of_neg _ hq]
      exact ih (fun a ha2 => h a (by simp [ha2]))

/-- Predicate-congruent `find?`. -/
theorem find?_ext {α : Type} (l : List α) (p q : α → Bool)
    (h : ∀ a ∈ l, p a = q a) : l.find? p = l.find? q := by
  induction l with
  | nil => rfl
  | cons a rest ih =>
    have ha := h a (by simp)
    by_cases hp : p a = true
    · rw [List.find?_cons_of_pos _ hp, List.find?_cons_of_pos _ (ha ▸ hp)]
    · rw [List.find?_cons_of_neg _ hp, List.find?_cons_of_neg _ (ha ▸ hp)]
      exact ih (fun a ha2 => h a (by simp [ha2]))

/-- A sorted duplicate-free list finds no entry for an absent key. -/
theorem find?_eq_none_of_not_mem {l : List KVEntry} {x : Key}
    (h : ∀ e ∈ l, e.k ≠ x) :
    l.find? (fun e => e.k == x) = none := by
  rw [List.find?_eq_none]
  intro e he
  simp [h e he]

/-- In a strictly sorted list the member with key `x` is found. -/
theorem find?_eq_some_of_mem {l : List KVEntry} {e : KVEntry} {x : Key}
    (hs : List.Pairwise entLt l) (he : e ∈ l) (hk : e.k = x) :
    l.find? (fun a => a.k == x) = some e := by
  induction l with
  | nil => cases he
  | cons a rest ih =>
    rcases List.mem_cons.mp he with rfl | h2
    · rw [List.find?_cons_of_pos]
      simp [hk]
    · have hlt : entLt a e := (List.pairwise_cons.mp hs).1 e h2
      have hne : a.k ≠ x := by
        rw [← hk]
        intro hcon
        have hlt2 : keyLt a.k e.k := hlt
        rw [hcon] at hlt2
        exact keyLt_irrefl _ hlt2
      rw [List.find?_cons_of_neg _ (by simp [hne])]
      exact ih (List.pairwise_cons.mp hs).2 h2

/-! ### `predictPos` case analysis -/

theorem ustrcmpN_cases (a b : Key) (n : Nat) :
    ustrcmpN a b n = -1 ∨ ustrcmpN a b n = 0 ∨ ustrcmpN a b n = 1 := by
  induction n generalizing a b with
  | zero => simp [ustrcmpN]
  | succ m ih =>
    simp only [ustrcmpN]
    split
    · exact ih a.tail b.tail
    · split
      · simp
      · simp

/-- The key sorts above every stored key: boundary slot `N - 1`. -/
theorem predictPos_above {hpt : HPT} {ial : Nat} {kq bq : ℚ}
    {pfx : List Nat} {key : Key} {ccpl : Nat} (h : pfx.length ≠ 0)
    (hc : ustrcmpN pfx (key.drop ccpl) pfx.length = -1) :
    predictPos hpt ial kq bq pfx key ccpl = (ial - 1, ccpl) := by
  unfold predictPos
  simp only [if_pos (And.intro h hc)]

/-- The key sorts below every stored key: boundary slot 0. -/
theorem predictPos_below {hpt : HPT} {ial : Nat} {kq bq : ℚ}
    {pfx : List Nat} {key : Key} {ccpl : Nat} (h : pfx.length ≠ 0)
    (hc : ustrcmpN pfx (key.drop ccpl) pfx.length = 1) :
    predictPos hpt ial kq bq pfx key ccpl = (0, ccpl) := by
  unfold predictPos
  have h1 : ¬ (pfx.length ≠ 0 ∧ ustrcmpN pfx (key.drop ccpl) pfx.length = -1) := by
    intro hcon; rw [hc] at hcon; exact absurd hcon.2 (by decide)
  simp only [if_neg h1, if_pos (And.intro h hc)]

/-- The key matches the stored prefix (or there is none): the prediction
is clamped into `[1, N - 2]` and the confirmed prefix grows. -/
theorem predictPos_match {hpt : HPT} {ial : Nat} {kq bq : ℚ}
    {pfx : List Nat} {key : Key} {ccpl : Nat}
    (h : pfx.length = 0 ∨ ustrcmpN pfx (key.drop ccpl) pfx.length = 0) :
    (predictPos hpt ial kq bq pfx key ccpl).2 = ccpl + pfx.length ∧
    1 ≤ (predictPos hpt ial kq bq pfx key ccpl).1 ∧
    (3 ≤ ial → (predictPos hpt ial kq bq pfx key ccpl).1 ≤ ial - 2) := by
  unfold predictPos
  have h1 : ¬ (pfx.length ≠ 0 ∧ ustrcmpN pfx (key.drop ccpl) pfx.length = -1) := by
    rintro ⟨hne, hc⟩
    rcases h with h | h
    · exact hne h
    · rw [h] at hc; exact absurd hc (by decide)
  have h2 : ¬ (pfx.length ≠ 0 ∧ ustrcmpN pfx (key.drop ccpl) pfx.length = 1) := by
    rintro ⟨hne, hc⟩
    rcases h with h | h
    · exact hne h
    · rw [h] at hc; exact absurd hc (by decide)
  simp only [if_neg h1, if_neg h2]
  refine ⟨by simp, by omega, by intro h3; omega⟩

/-- The three-way split of a `predictPos` call, as used by every descent:
either a boundary (prefix mismatch, ccpl unchanged) or a clamped interior
slot with the prefix consumed. -/
theorem predictPos_cases (hpt : HPT) (ial : Nat) (kq bq : ℚ)
    (pfx : List Nat) (key : Key) (ccpl : Nat) :
    (pfx.length ≠ 0 ∧ ustrcmpN pfx (key.drop ccpl) pfx.length = -1 ∧
      predictPos hpt ial kq bq pfx key ccpl = (ial - 1, ccpl)) ∨
    (pfx.length ≠ 0 ∧ ustrcmpN pfx (key.drop ccpl) pfx.length = 1 ∧
      predictPos hpt ial kq bq pfx key ccpl = (0, ccpl)) ∨
    ((pfx.length = 0 ∨ ustrcmpN pfx (key.drop ccpl) pfx.length = 0) ∧
      (predictPos hpt ial kq bq pfx key ccpl).2 = ccpl + pfx.length ∧
      1 ≤ (predictPos hpt ial kq bq pfx key ccpl).1 ∧
      (3 ≤ ial → (predictPos hpt ial kq bq pfx key ccpl).1 ≤ ial - 2)) := by
  by_cases hne : pfx.length = 0
  · exact Or.inr (Or.inr ⟨Or.inl hne, predictPos_match (Or.inl hne)⟩)
  · rcases ustrcmpN_cases pfx (key.drop ccpl) pfx.length with hc | hc | hc
    · exact Or.inl ⟨hne, hc, predictPos_above hne hc⟩
    · exact Or.inr (Or.inr ⟨Or.inr hc, predictPos_match (Or.inr hc)⟩)
    · exact Or.inr (Or.inl ⟨hne, hc, predictPos_below hne hc⟩)

/-- Every descent enters the predicted slot at exactly that slot's
confirmed prefix length, and the predicted slot is in range. -/
theorem predictPos_snd_slot (hpt : HPT) (ial : Nat) (kq bq : ℚ)
    (pfx : List Nat) (key : Key) (ccpl : Nat) (h3 : 3 ≤ ial) :
    (predictPos hpt ial kq bq pfx key ccpl).2 =
      slotCcpl ccpl pfx.length ial
        (predictPos hpt ial kq bq pfx key ccpl).1 ∧
    (predictPos hpt ial kq bq pfx key ccpl).1 < ial := by
  rcases predictPos_cases hpt ial kq bq pfx key ccpl with
    ⟨hne, hc, hp⟩ | ⟨hne, hc, hp⟩ | ⟨hcond, hsnd, h1, h2⟩
  · rw [hp]
    unfold slotCcpl
    rw [if_pos (Or.inr rfl)]
    exact ⟨rfl, by omega⟩
  · rw [hp]
    refine ⟨?_, by omega⟩
    unfold slotCcpl
    rw [if_pos (Or.inl rfl)]
  · have h2a := h2 h3
    refine ⟨?_, by omega⟩
    rw [hsnd]
    unfold slotCcpl
    rw [if_neg (by omega)]

/-- Extending an agreeing confirmed prefix by a matched stored prefix. -/
theorem take_add_of_match {x y : Key} {c : Nat} {pfx : List Nat}
    (hzf : ZFKey pfx) (h0 : x.take c = y.take c)
    (hx : ustrcmpN pfx (x.drop c) pfx.length = 0)
    (hy : ustrcmpN pfx (y.drop c) pfx.length = 0) :
    x.take (c + pfx.length) = y.take (c + pfx.length) := by
  rw [List.take_add, List.take_add, h0,
    (ustrcmpN_zero_iff_take pfx hzf _).mp hx,
    (ustrcmpN_zero_iff_take pfx hzf _).mp hy]

/-! ### Facts read off a well-formed subtree -/

/-- Extraction of a well-formed subtree is strictly sorted. -/
theorem WF_sorted {hpt : HPT} {it : Item} {ccpl : Nat} (h : WF hpt it ccpl) :
    List.Pairwise entLt (extractItem it) := by
  cases h <;> simp_all [extractItem]

/-- Extraction of a well-formed subtree shares its confirmed prefix. -/
theorem WF_shared {hpt : HPT} {it : Item} {ccpl : Nat} (h : WF hpt it ccpl) :
    SharedPfx ccpl (extractItem it) := by
  cases h with
  | null => intro a ha; simp [extractItem] at ha
  | sing e _ _ =>
    intro a ha b hb
    simp [extractItem] at ha hb
    rw [ha, hb]
  | cnod c _ h1 h2 h3 h4 h5 h6 h7 => exact h6
  | trie t _ h1 h2 h3 => exact h2
  | mult nk s b pfx items _ h1 h2 h2b h3 h4 h5 h6 h7 h8 => exact h7

/-- Extraction of a well-formed subtree has representable keys. -/
theorem WF_zfk {hpt : HPT} {it : Item} {ccpl : Nat} (h : WF hpt it ccpl) :
    ZFK (extractItem it) := by
  cases h with
  | null => intro a ha; simp [extractItem] at ha
  | sing e _ hz =>
    intro a ha
    simp [extractItem] at ha
    rw [ha]; exact hz
  | cnod c _ h1 h2 h3 h4 h5 h6 h7 => exact h7
  | trie t _ h1 h2 h3 => exact h3
  | mult nk s b pfx items _ h1 h2 h2b h3 h4 h5 h6 h7 h8 => exact h8

/-- Membership in an item array's extraction comes from one slot. -/
theorem mem_extractItems {e : KVEntry} {items : List Item} :
    e ∈ extractItems items ↔
    ∃ i : Nat, ∃ child, items[i]? = some child ∧ e ∈ extractItem child := by
  rw [extractItems_eq_bind, List.mem_flatMap]
  constructor
  · rintro ⟨child, hc, he⟩
    obtain ⟨i, hi, rfl⟩ := List.getElem_of_mem hc
    exact ⟨i, _, by simp [List.getElem?_eq_getElem hi], he⟩
  · rintro ⟨i, child, hc, he⟩
    obtain ⟨hlt, hg⟩ := List.getElem?_eq_some_iff.mp hc
    exact ⟨child, hg ▸ List.getElem_mem hlt, he⟩

/-! ### Search correctness -/

/-- The hash-guarded compact-node scan finds exactly the key-equal
record, provided the query agrees with the node's records on the
confirmed prefix. -/
theorem cnode_search_eq {c : Cnode} {x : Key}
    (htags : ∀ te ∈ c.data, te.1 = hashStr te.2.k)
    (hx : ∀ e ∈ c.data.map (fun te => te.2), x.take c.ccpl = e.k.take c.ccpl) :
    cnode_search c x =
      (c.data.map (fun te => te.2)).find? (fun e => e.k == x) := by
  unfold cnode_search
  apply find?_map_comm
  intro te hte
  have htake : x.take c.ccpl = te.2.k.take c.ccpl :=
    hx te.2 (List.mem_map.mpr ⟨te, hte, rfl⟩)
  by_cases he : te.2.k = x
  · have hv : kvVerify te.2 x c.ccpl = true := (kvVerify_iff htake).mpr he.symm
    have htag : te.1 = hashStr x := by rw [htags te hte, he]
    simp [cnodeMatch, hv, htag, he]
  · have hv : kvVerify te.2 x c.ccpl = false := by
      rcases hb : kvVerify te.2 x c.ccpl with _ | _
      · rfl
      · exact absurd ((kvVerify_iff htake).mp hb).symm he
    simp [cnodeMatch, hv, he]

/-- The trie lookup is the exact-key find. -/
theorem trieLookup_eq (t : List KVEntry) (x : Key) :
    trieLookup t x = t.find? (fun e => e.k == x) := by
  unfold trieLookup
  apply find?_ext
  intro e _
  by_cases he : e.k = x
  · simp [he, ustrcmp_self]
  · have : ustrcmp x e.k ≠ 0 := fun hc =>
      he (ustrcmp_eq_zero_iff.mp hc).symm
    simp [he, this]

/-- A well-formed subtree with no reachable record answers `none` to any
query at any confirmed prefix length (this covers the boundary sentinel
slots of a model node, which can never hold a record). -/
theorem lookupItem_of_extract_nil {hpt : HPT} {it : Item} {ccpl : Nat}
    (hwf : WF hpt it ccpl) (h0 : extractItem it = []) :
    ∀ (x : Key) (c' : Nat), lookupItem hpt it x c' = none := by
  induction hwf with
  | null => intro x c'; simp [lookupItem]
  | sing e _ _ => simp [extractItem] at h0
  | cnod c _ h1 h2 h3 h4 h5 h6 h7 =>
    exfalso
    simp [extractItem] at h0
    rw [h0] at h2
    simp at h2
  | trie t _ h1 h2 h3 =>
    intro x c'
    simp [extractItem] at h0
    simp [lookupItem, h0, trieLookup]
  | mult nk s b pfx items _ h1 h2 h2b hz h3 h4 h5 h6 h7 ih =>
    intro x c'
    simp only [lookupItem]
    simp only [extractItem] at h0
    have hchild : ∀ i : Nat, ∀ child, items[i]? = some child →
        extractItem child = [] := by
      intro i child hc
      rw [List.eq_nil_iff_forall_not_mem]
      intro e he
      have : e ∈ extractItems items :=
        mem_extractItems.mpr ⟨i, child, hc, he⟩
      rw [h0] at this
      cases this
    set pc := predictPos hpt items.length s b pfx x c' with hpc
    cases hg : items[pc.1]? with
    | some child =>
      have heq : items.getD pc.1 Item.null = child := by simp [List.getD, hg]
      rw [heq]
      exact ih pc.1 child hg (hchild pc.1 child hg) x pc.2
    | none =>
      have heq : items.getD pc.1 Item.null = Item.null := by
        simp [List.getD, hg]
      rw [heq]
      simp [lookupItem]

/-- Lookup correctness: on a well-formed subtree, `_lookup`'s descent is
exactly the key-equal find over the subtree's extraction, for any query
that agrees with the stored records on the confirmed prefix. -/
theorem lookupItem_eq {hpt : HPT} {it : Item} {ccpl : Nat}
    (hwf : WF hpt it ccpl) :
    ∀ x : Key, (∀ e ∈ extractItem it, x.take ccpl = e.k.take ccpl) →
    lookupItem hpt it x ccpl = (extractItem it).find? (fun e => e.k == x) := by
  induction hwf with
  | null ccpl => intro x _; simp [lookupItem, extractItem]
  | sing e ccpl hz =>
    intro x hx
    have htake : x.take ccpl = e.k.take ccpl := hx e (by simp [extractItem])
    simp only [lookupItem, extractItem]
    by_cases he : x = e.k
    · have hv : kvVerify e x ccpl = true := (kvVerify_iff htake).mpr he
      have hb : (e.k == x) = true := by simp [he]
      simp [hv, List.find?, hb]
    · have hv : kvVerify e x ccpl = false := by
        rcases hb : kvVerify e x ccpl with _ | _
        · rfl
        · exact absurd ((kvVerify_iff htake).mp hb) he
      have hb : (e.k == x) = false := by
        simp only [beq_eq_false_iff_ne, ne_eq]
        exact fun hc => he hc.symm
      simp [hv, List.find?, hb]
  | cnod c ccpl hcc h2 h3 htags hsort hsh hzf =>
    intro x hx
    simp only [extractItem] at hx ⊢
    simp only [lookupItem]
    subst hcc
    exact cnode_search_eq htags hx
  | trie t ccpl hsort hsh hzf =>
    intro x hx
    simp only [lookupItem, extractItem]
    exact trieLookup_eq t x
  | mult nk s b pfx items ccpl h34N hCnt hUf hzfp hWFc hPred hsort hsh hzfk ih =>
    intro x hx
    have h3N : 3 ≤ items.length := by omega
    simp only [extractItem] at hx ⊢
    simp only [lookupItem]
    obtain ⟨hsnd, hfstlt⟩ :=
      predictPos_snd_slot hpt items.length s b pfx x ccpl h3N
    set pc := predictPos hpt items.length s b pfx x ccpl with hpcdef
    have hfunnel : ∀ (j : Nat) (child : Item), items[j]? = some child →
        ∀ e ∈ extractItem child, e.k = x → j = pc.1 := by
      intro j child hj e he hek
      have hpe := hPred j child hj e he
      rw [hek, ← hpcdef] at hpe
      rw [hpe]
    cases hg : items[pc.1]? with
    | none =>
      have heq : items.getD pc.1 Item.null = Item.null := by
        simp [List.getD, hg]
      rw [heq]
      simp only [lookupItem]
      symm
      apply find?_eq_none_of_not_mem
      intro e he hek
      obtain ⟨j, child, hj, hechild⟩ := mem_extractItems.mp he
      have hjeq := hfunnel j child hj e hechild hek
      subst hjeq
      rw [hj] at hg
      cases hg
    | some child =>
      have heq : items.getD pc.1 Item.null = child := by simp [List.getD, hg]
      rw [heq]
      have hxchild : ∀ e' ∈ extractItem child,
          x.take (slotCcpl ccpl pfx.length items.length pc.1) =
            e'.k.take (slotCcpl ccpl pfx.length items.length pc.1) := by
        intro e' he'
        have hxe : x.take ccpl = e'.k.take ccpl :=
          hx e' (mem_extractItems.mpr ⟨pc.1, child, hg, he'⟩)
        rw [← hsnd]
        rcases predictPos_cases hpt items.length s b pfx x ccpl with
          ⟨_, _, hp⟩ | ⟨_, _, hp⟩ | ⟨hcond, hsnd2, h1b, h2b⟩
        · rw [← hpcdef] at hp
          rw [hp]
          exact hxe
        · rw [← hpcdef] at hp
          rw [hp]
          exact hxe
        · rw [← hpcdef] at hsnd2 h1b h2b
          rw [hsnd2]
          by_cases hpl : pfx.length = 0
          · simpa [hpl] using hxe
          · have hcmpx : ustrcmpN pfx (x.drop ccpl) pfx.length = 0 :=
              hcond.resolve_left hpl
            have h2b' := h2b h3N
            have hslot : slotCcpl ccpl pfx.length items.length pc.1 =
                ccpl + pfx.length := by
              unfold slotCcpl
              rw [if_neg (by omega)]
            have hpe := hPred pc.1 child hg e' he'
            rw [hslot] at hpe
            have hcmpe : ustrcmpN pfx (e'.k.drop ccpl) pfx.length = 0 := by
              rcases predictPos_cases hpt items.length s b pfx e'.k ccpl with
                ⟨_, _, hq⟩ | ⟨_, _, hq⟩ | ⟨hc2, _, _, _⟩
              · rw [hq] at hpe
                have hf := (Prod.ext_iff.mp hpe).1
                omega
              · rw [hq] at hpe
                have hf := (Prod.ext_iff.mp hpe).1
                omega
              · exact hc2.resolve_left hpl
            exact take_add_of_match hzfp hxe hcmpx hcmpe
      rw [hsnd]
      rw [ih pc.1 child hg x hxchild]
      cases hfc : (extractItem child).find? (fun e => e.k == x) with
      | some e =>
        have hmem : e ∈ extractItem child := List.mem_of_find?_eq_some hfc
        have hek : e.k = x := by
          have := List.find?_some hfc
          simpa using this
        rw [find?_eq_some_of_mem hsort
          (mem_extractItems.mpr ⟨pc.1, child, hg, hmem⟩) hek]
      | none =>
        symm
        apply find?_eq_none_of_not_mem
        intro e he hek
        obtain ⟨j, child2, hj, hechild⟩ := mem_extractItems.mp he
        have hjeq := hfunnel j child2 hj e hechild hek
        subst hjeq
        have hceq : child2 = child := by
          rw [hj] at hg
          exact Option.some.inj hg
        have hnone := List.find?_eq_none.mp hfc e (hceq ▸ hechild)
        simp [hek] at hnone

/-! ### Sorted-group utilities -/

theorem ucpl_le_length : ∀ a b : Key, ucpl a b ≤ a.length := by
  intro a
  induction a with
  | nil => intro b; cases b <;> simp [ucpl]
  | cons x s ih =>
    intro b
    cases b with
    | nil => simp [ucpl]
    | cons y t =>
      by_cases hxy : x = y
      · subst hxy; rw [ucpl_cons_eq]; simp [ih t]
      · rw [ucpl_cons_ne s t hxy]; simp

theorem sorted_not_lt_head {l : List KVEntry} (hs : List.Pairwise entLt l)
    {e0 : KVEntry} (h : l.head? = some e0) :
    ∀ e ∈ l, ¬ keyLt e.k e0.k := by
  cases l with
  | nil => simp at h
  | cons a rest =>
    simp only [List.head?_cons, Option.some.injEq] at h
    subst h
    intro e he
    rcases List.mem_cons.mp he with rfl | h2
    · exact keyLt_irrefl e.k
    · exact keyLt_asymm ((List.pairwise_cons.mp hs).1 e h2)

theorem sorted_not_lt_last {l : List KVEntry} (hs : List.Pairwise entLt l)
    {en : KVEntry} (h : l.getLast? = some en) :
    ∀ e ∈ l, ¬ keyLt en.k e.k := by
  intro e he hcon
  rw [List.getLast?_eq_getElem?] at h
  obtain ⟨i, hi, rfl⟩ := List.getElem_of_mem he
  obtain ⟨hn, hg⟩ := List.getElem?_eq_some_iff.mp h
  rcases Nat.lt_trichotomy i (l.length - 1) with hlt | heq | hgt
  · have hpl := List.pairwise_iff_getElem.mp hs i (l.length - 1) hi hn hlt
    rw [hg] at hpl
    exact keyLt_asymm hpl hcon
  · subst heq
    rw [hg] at hcon
    exact keyLt_irrefl _ hcon
  · omega

/-- Every member of a sorted group shares whatever prefix the first and
last members share. -/
theorem sharedPfx_of_ends {l : List KVEntry} (hs : List.Pairwise entLt l)
    {e0 en : KVEntry} (h0 : l.head? = some e0) (hn : l.getLast? = some en)
    {n : Nat} (he : e0.k.take n = en.k.take n) : SharedPfx n l := by
  have hmid : ∀ e ∈ l, e0.k.take n = e.k.take n := by
    intro e he2
    exact take_eq_of_between e0.k e.k en.k n
      (sorted_not_lt_head hs h0 e he2) (sorted_not_lt_last hs hn e he2) he
  intro a ha b hb
  rw [← hmid a ha, ← hmid b hb]

/-! ### The run sweep of the model-node build -/

/-- Specification of `sweepRuns`: the produced runs concatenate to the
pending entries, every run is a non-empty block of constant predicted
slot below `ial`, the slots strictly increase, and no slot precedes the
current one. -/
theorem sweepRuns_spec (pred : KVEntry → Nat) (ial : Nat) :
    ∀ (rest : List KVEntry) (lastIdx : Nat) (cur : List KVEntry)
      (runs : List (Nat × List KVEntry)),
    sweepRuns pred ial rest lastIdx cur = some runs →
    cur ≠ [] → (∀ e ∈ cur, pred e = lastIdx) → lastIdx < ial →
    ((runs.map (fun r => r.2)).flatten = cur.reverse ++ rest ∧
     (∀ r ∈ runs, r.2 ≠ [] ∧ (∀ e ∈ r.2, pred e = r.1) ∧ r.1 < ial) ∧
     List.Pairwise (fun a b => a < b) (runs.map (fun r => r.1)) ∧
     (∀ r ∈ runs, lastIdx ≤ r.1)) := by
  intro rest
  induction rest with
  | nil =>
    intro lastIdx cur runs hsw hcne hcpred hlast
    simp only [sweepRuns, Option.some.injEq] at hsw
    subst hsw
    refine ⟨by simp, ?_, by simp, by simp⟩
    intro r hr
    simp only [List.mem_singleton] at hr
    subst hr
    exact ⟨by simpa using hcne, by simpa using hcpred, hlast⟩
  | cons e rest ih =>
    intro lastIdx cur runs hsw hcne hcpred hlast
    simp only [sweepRuns] at hsw
    by_cases hbad : pred e < lastIdx ∨ ial ≤ pred e
    · rw [if_pos hbad] at hsw; cases hsw
    · rw [if_neg hbad] at hsw
      push_neg at hbad
      by_cases heq : pred e = lastIdx
      · rw [if_pos heq] at hsw
        have := ih lastIdx (e :: cur) runs hsw (by simp)
          (by intro a ha; rcases List.mem_cons.mp ha with rfl | h2
              · exact heq
              · exact hcpred a h2) hlast
        obtain ⟨hc1, hc2, hc3, hc4⟩ := this
        refine ⟨?_, hc2, hc3, hc4⟩
        rw [hc1]
        simp
      · rw [if_neg heq] at hsw
        cases hsw2 : sweepRuns pred ial rest (pred e) [e] with
        | none => rw [hsw2] at hsw; cases hsw
        | some rs =>
          rw [hsw2] at hsw
          have hsw3 : (lastIdx, cur.reverse) :: rs = runs := by
            simpa using hsw
          subst hsw3
          have hgt : lastIdx < pred e := by omega
          have := ih (pred e) [e] rs hsw2 (by simp) (by simp) hbad.2
          obtain ⟨hc1, hc2, hc3, hc4⟩ := this
          refine ⟨?_, ?_, ?_, ?_⟩
          · simp only [List.map_cons, List.flatten_cons, hc1]
            simp
          · intro r hr
            rcases List.mem_cons.mp hr with rfl | h2
            · exact ⟨by simpa using hcne, by simpa using hcpred, hlast⟩
            · exact hc2 r h2
          · simp only [List.map_cons]
            rw [List.pairwise_cons]
            refine ⟨?_, hc3⟩
            intro j hj
            obtain ⟨r, hr, rfl⟩ := List.mem_map.mp hj
            have := hc4 r hr
            omega
          · intro r hr
            rcases List.mem_cons.mp hr with rfl | h2
            · simp
            · have := hc4 r h2; omega

/-- Specification of `groupRuns` on a non-empty batch. -/
theorem groupRuns_spec {pred : KVEntry → Nat} {ial : Nat}
    {kvs : List KVEntry} {runs : List (Nat × List KVEntry)}
    (hg : groupRuns pred ial kvs = some runs) :
    ((runs.map (fun r => r.2)).flatten = kvs ∧
     (∀ r ∈ runs, r.2 ≠ [] ∧ (∀ e ∈ r.2, pred e = r.1) ∧ r.1 < ial) ∧
     List.Pairwise (fun a b => a < b) (runs.map (fun r => r.1))) := by
  cases kvs with
  | nil => cases hg
  | cons e rest =>
    simp only [groupRuns] at hg
    by_cases hbad : ial ≤ pred e
    · rw [if_pos hbad] at hg; cases hg
    · rw [if_neg hbad] at hg
      have := sweepRuns_spec pred ial rest (pred e) [e] runs hg (by simp)
        (by simp) (by omega)
      obtain ⟨hc1, hc2, hc3, _⟩ := this
      exact ⟨by simpa using hc1, hc2, hc3⟩

/-! ### The sparse item array produced by the run distribution -/

theorem foldl_set_length (f : List KVEntry → Item) :
    ∀ (runs : List (Nat × List KVEntry)) (init : List Item),
    (runs.foldl (fun its r => its.set r.1 (f r.2)) init).length =
      init.length := by
  intro runs
  induction runs with
  | nil => intro init; rfl
  | cons r rs ih =>
    intro init
    simp only [List.foldl_cons]
    rw [ih]
    simp

/-- Slotwise contents of the distributed item array: a run's subtree at
the run's slot, the initial (null) item everywhere else. -/
theorem foldl_set_getElem? (f : List KVEntry → Item) :
    ∀ (runs : List (Nat × List KVEntry)) (init : List Item) (j : Nat),
    List.Pairwise (fun a b => a.1 < b.1) runs →
    (∀ r ∈ runs, r.1 < init.length) →
    (runs.foldl (fun its r => its.set r.1 (f r.2)) init)[j]? =
      (match runs.find? (fun r => r.1 == j) with
       | some r => some (f r.2)
       | none => init[j]?) := by
  intro runs
  induction runs with
  | nil => intro init j _ _; rfl
  | cons r rs ih =>
    intro init j hp hb
    simp only [List.foldl_cons]
    have hp2 := List.pairwise_cons.mp hp
    have hb2 : ∀ r' ∈ rs, r'.1 < (init.set r.1 (f r.2)).length := by
      intro r' hr'
      simp only [List.length_set]
      exact hb r' (by simp [hr'])
    rw [ih (init.set r.1 (f r.2)) j hp2.2 hb2]
    by_cases hj : r.1 = j
    · subst hj
      have hfind : rs.find? (fun r' => r'.1 == r.1) = none := by
        rw [List.find?_eq_none]
        intro r' hr'
        have := hp2.1 r' hr'
        simp only [beq_iff_eq, beq_eq_false_iff_ne, ne_eq]
        omega
      rw [hfind, List.find?_cons_of_pos _ (by simp)]
      simp [List.getElem?_set, hb r (by simp)]
    · rw [List.find?_cons_of_neg _ (by simp [hj])]
      cases hf : rs.find? (fun r' => r'.1 == j) with
      | some r' => rfl
      | none => simp [List.getElem?_set, hj]

theorem extractItems_append (l1 l2 : List Item) :
    extractItems (l1 ++ l2) = extractItems l1 ++ extractItems l2 := by
  rw [extractItems_eq_bind, extractItems_eq_bind, extractItems_eq_bind,
    List.flatMap_append]

theorem extractItems_eq_nil_of_null :
    ∀ (items : List Item),
    (∀ j : Nat, j < items.length → items[j]? = some Item.null) →
    extractItems items = [] := by
  intro items
  induction items with
  | nil => intro _; rfl
  | cons a rest ih =>
    intro h
    have h0 := h 0 (by simp)
    simp only [List.getElem?_cons_zero, Option.some.injEq] at h0
    subst h0
    simp only [extractItems, extractItem, List.nil_append]
    apply ih
    intro j hj
    have := h (j + 1) (by simpa using Nat.succ_lt_succ hj)
    simpa using this

/-- Extraction of a slotwise-characterized item array is the
concatenation of the runs' subtree extractions, in slot order. -/
theorem extractItems_of_slotwise (f : List KVEntry → Item) :
    ∀ (runs : List (Nat × List KVEntry)) (items : List Item),
    List.Pairwise (fun a b => a.1 < b.1) runs →
    (∀ r ∈ runs, r.1 < items.length) →
    (∀ j : Nat, j < items.length →
      items[j]? = (match runs.find? (fun r => r.1 == j) with
        | some r => some (f r.2)
        | none => some Item.null)) →
    extractItems items =
      (runs.map (fun r => extractItem (f r.2))).flatten := by
  suffices H : ∀ (n : Nat) (runs : List (Nat × List KVEntry))
      (items : List Item), runs.length = n →
      List.Pairwise (fun a b => a.1 < b.1) runs →
      (∀ r ∈ runs, r.1 < items.length) →
      (∀ j : Nat, j < items.length →
        items[j]? = (match runs.find? (fun r => r.1 == j) with
          | some r => some (f r.2)
          | none => some Item.null)) →
      extractItems items =
        (runs.map (fun r => extractItem (f r.2))).flatten by
    intro runs items h1 h2 h3
    exact H runs.length runs items rfl h1 h2 h3
  intro n
  induction n with
  | zero =>
    intro runs items hlen _ _ hchar
    rw [List.length_eq_zero] at hlen
    subst hlen
    simp only [List.map_nil, List.flatten_nil]
    exact extractItems_eq_nil_of_null items (fun j hj => hchar j hj)
  | succ m ihm =>
    intro runs items hlen hp hb hchar
    cases runs with
    | nil => simp at hlen
    | cons r rs =>
    have hrlen := hb r (by simp)
    have hp2 := List.pairwise_cons.mp hp
    have hdrop : items.drop r.1 = items[r.1] :: items.drop (r.1 + 1) :=
      List.drop_eq_getElem_cons hrlen
    have hdecomp : items = items.take r.1 ++ items[r.1] :: items.drop (r.1 + 1) := by
      conv_lhs => rw [← List.take_append_drop r.1 items, hdrop]
    have hmid : items[r.1] = f r.2 := by
      have hc := hchar r.1 hrlen
      rw [List.find?_cons_of_pos _ (by simp)] at hc
      rw [List.getElem?_eq_getElem hrlen] at hc
      exact Option.some.inj hc
    have htake : extractItems (items.take r.1) = [] := by
      apply extractItems_eq_nil_of_null
      intro j hj
      have hjlen : j < r.1 := by
        simp only [List.length_take] at hj
        omega
      rw [List.getElem?_take, if_pos hjlen]
      have hjlt : j < items.length := by omega
      have hc := hchar j hjlt
      rw [List.find?_cons_of_neg _ (by
        simp only [beq_iff_eq, beq_eq_false_iff_ne, ne_eq]; omega)] at hc
      have hnone : rs.find? (fun r' => r'.1 == j) = none := by
        rw [List.find?_eq_none]
        intro r' hr'
        have := hp2.1 r' hr'
        simp only [beq_iff_eq, beq_eq_false_iff_ne, ne_eq]
        omega
      rw [hnone] at hc
      exact hc
    have hrsgt := hp2.1
    have hrssort := hp2.2
    have hshift : List.Pairwise (fun a b => a.1 < b.1)
        (rs.map (fun p => (p.1 - (r.1 + 1), p.2))) := by
      rw [List.pairwise_map]
      rw [List.pairwise_iff_getElem] at hrssort ⊢
      intro i j hi hj hij
      have hlt := hrssort i j hi hj hij
      have hgi : r.1 < rs[i].1 := hrsgt rs[i] (List.getElem_mem hi)
      simp only []
      omega
    have hbshift : ∀ p ∈ rs.map (fun p => (p.1 - (r.1 + 1), p.2)),
        p.1 < (items.drop (r.1 + 1)).length := by
      intro p hp3
      obtain ⟨q, hq, rfl⟩ := List.mem_map.mp hp3
      have h1 := hb q (by simp [hq])
      have h2 := hrsgt q hq
      simp only [List.length_drop]
      omega
    have hdropchar : ∀ j : Nat, j < (items.drop (r.1 + 1)).length →
        (items.drop (r.1 + 1))[j]? =
          (match (rs.map (fun p => (p.1 - (r.1 + 1), p.2))).find?
              (fun p => p.1 == j) with
           | some p => some (f p.2)
           | none => some Item.null) := by
      intro j hj
      rw [List.getElem?_drop]
      have hjlt : r.1 + 1 + j < items.length := by
        simp only [List.length_drop] at hj
        omega
      have hc := hchar (r.1 + 1 + j) hjlt
      rw [List.find?_cons_of_neg _ (by
        simp only [beq_iff_eq, beq_eq_false_iff_ne, ne_eq]; omega)] at hc
      rw [hc]
      have hcomm : (rs.find? (fun p => p.1 == r.1 + 1 + j)).map
          (fun p => (p.1 - (r.1 + 1), p.2)) =
          (rs.map (fun p => (p.1 - (r.1 + 1), p.2))).find?
            (fun p => p.1 == j) := by
        apply find?_map_comm
        intro p hpmem
        have hge := hrsgt p hpmem
        by_cases hpe : p.1 = r.1 + 1 + j
        · have : p.1 - (r.1 + 1) = j := by omega
          simp [hpe, this]
        · have hne2 : p.1 - (r.1 + 1) ≠ j := by omega
          simp [hpe, hne2]
      cases hf : rs.find? (fun p => p.1 == r.1 + 1 + j) with
      | some p =>
        rw [hf] at hcomm
        rw [← hcomm]
        simp
      | none =>
        rw [hf] at hcomm
        rw [← hcomm]
        simp
    have hihlen : (rs.map (fun p => (p.1 - (r.1 + 1), p.2))).length = m := by
      simpa using hlen
    have hrec := ihm _ (items.drop (r.1 + 1)) hihlen hshift hbshift hdropchar
    conv_lhs => rw [hdecomp]
    rw [extractItems_append, htake]
    simp only [List.nil_append]
    have hconsx : extractItems (items[r.1] :: items.drop (r.1 + 1)) =
        extractItem items[r.1] ++ extractItems (items.drop (r.1 + 1)) := rfl
    rw [hconsx, hmid, hrec]
    simp only [List.map_cons, List.flatten_cons, List.map_map]
    rfl

/-! ### Bulk-build correctness -/

theorem listInsertSorted_append {e : KVEntry} :
    ∀ {t : List KVEntry}, (∀ x ∈ t, keyLt x.k e.k) →
    listInsertSorted e t = t ++ [e] := by
  intro t
  induction t with
  | nil => intro _; rfl
  | cons x rest ih =>
    intro h
    have hx : keyLt x.k e.k := h x (by simp)
    rw [listInsertSorted, if_neg (keyLt_asymm hx)]
    rw [ih (fun y hy => h y (by simp [hy]))]
    simp

theorem hotBulkload_aux :
    ∀ (kvs acc : List KVEntry), List.Pairwise entLt (acc ++ kvs) →
    kvs.foldl (fun t e => (trieInsert t e.k e.v).1) acc = acc ++ kvs := by
  intro kvs
  induction kvs with
  | nil => intro acc _; simp
  | cons e rest ih =>
    intro acc hp
    have hacc : ∀ x ∈ acc, keyLt x.k e.k := by
      intro x hx
      have := (List.pairwise_append.mp hp).2.2 x hx e (by simp)
      exact this
    have hlook : trieLookup acc e.k = none := by
      rw [trieLookup_eq]
      exact find?_eq_none_of_not_mem (fun a ha hc =>
        ne_of_keyLt (hacc a ha) hc)
    have hstep : (trieInsert acc e.k e.v).1 = acc ++ [e] := by
      rw [trieInsert, hlook]
      simp only [Option.isSome_none, Bool.false_eq_true, if_false]
      have : (⟨e.k, e.v⟩ : KVEntry) = e := rfl
      rw [this, listInsertSorted_append hacc]
    simp only [List.foldl_cons, hstep]
    rw [ih (acc ++ [e]) (by simpa using hp)]
    simp

/-- The HOT bulk-load adapter reproduces a sorted batch. -/
theorem hotBulkload_sorted {kvs : List KVEntry}
    (hs : List.Pairwise entLt kvs) : hotBulkload kvs = kvs := by
  have := hotBulkload_aux kvs [] (by simpa using hs)
  simpa using this

theorem kvGet_zero_head {kvs : List KVEntry} (h : kvs ≠ []) :
    kvs.head? = some (kvGet kvs 0) := by
  cases kvs with
  | nil => exact absurd rfl h
  | cons e rest => rfl

theorem kvGet_last {kvs : List KVEntry} (h : kvs ≠ []) :
    kvs.getLast? = some (kvGet kvs (kvs.length - 1)) := by
  rw [List.getLast?_eq_getElem?]
  have hlt : kvs.length - 1 < kvs.length := by
    cases kvs with
    | nil => exact absurd rfl h
    | cons e rest => simp
  rw [List.getElem?_eq_getElem hlt]
  unfold kvGet
  rw [List.getD, List.get?_eq_getElem?, List.getElem?_eq_getElem hlt]
  rfl

theorem kvGet_mem {kvs : List KVEntry} {i : Nat} (h : i < kvs.length) :
    kvGet kvs i ∈ kvs := by
  unfold kvGet
  rw [List.getD, List.get?_eq_getElem?, List.getElem?_eq_getElem h]
  exact List.getElem_mem h

theorem take_take_of_le {x y : Key} {c n : Nat} (hcn : c ≤ n)
    (h : x.take n = y.take n) : x.take c = y.take c := by
  have h1 : (x.take n).take c = (y.take n).take c := by rw [h]
  rwa [List.take_take, List.take_take, Nat.min_eq_left hcn] at h1

theorem drop_take_eq_of_take_eq {x y : Key} {c i : Nat}
    (h : x.take (c + i) = y.take (c + i)) :
    (x.drop c).take i = (y.drop c).take i := by
  have hc : x.take c = y.take c := take_take_of_le (by omega) h
  have h2 := h
  rw [List.take_add, List.take_add, hc] at h2
  exact List.append_cancel_left h2

theorem kvGet_eq_getElem {kvs : List KVEntry} {i : Nat}
    (h : i < kvs.length) : kvGet kvs i = kvs[i] := by
  unfold kvGet
  rw [List.getD, List.get?_eq_getElem?, List.getElem?_eq_getElem h]
  rfl

/-- `_try_rebulk_as_model_node` builds a well-formed model node that
extracts back to its input batch. -/
theorem tryModel_spec (hpt : HPT) (pmss : PMSS) (m : Nat)
    (kvs : List KVEntry) (ccpl : Nat) (it : Item)
    (ih : ∀ (kvs2 : List KVEntry) (c2 : Nat), kvs2 ≠ [] →
      List.Pairwise entLt kvs2 → SharedPfx c2 kvs2 → ZFK kvs2 →
      WF hpt (pmss_bulkF hpt pmss m kvs2 c2) c2 ∧
        extractItem (pmss_bulkF hpt pmss m kvs2 c2) = kvs2)
    (hmod : tryModelF hpt pmss m kvs ccpl = some it)
    (h17 : 17 ≤ kvs.length) (hs : List.Pairwise entLt kvs)
    (hsh : SharedPfx ccpl kvs) (hz : ZFK kvs) :
    WF hpt it ccpl ∧ extractItem it = kvs := by
  have hne : kvs ≠ [] := by
    intro hcon; rw [hcon] at h17; simp at h17
  -- abbreviations mirroring the source's locals
  simp only [tryModelF] at hmod
  set size := kvs.length with hsize
  set ial := 2 * size with hial
  set firstK := (kvGet kvs 0).k with hfirst
  set lastK := (kvGet kvs (size - 1)).k with hlast
  set gcpl := ucpl firstK lastK with hgcpl
  set icpl := gcpl - ccpl with hicpl
  set kq := 1 / (hpt.getCdf lastK gcpl - hpt.getCdf firstK gcpl) with hkq
  set bq := hpt.getCdf firstK gcpl /
    (hpt.getCdf firstK gcpl - hpt.getCdf lastK gcpl) with hbq
  set pfx := (firstK.drop ccpl).take icpl with hpfx
  set pred := fun (e : KVEntry) =>
    (predictPos hpt ial kq bq pfx e.k ccpl).1 with hpredf
  -- peel the failure branches off the hypothesis
  by_cases hcdf : hpt.getCdf lastK gcpl ≤ hpt.getCdf firstK gcpl
  · rw [if_pos hcdf] at hmod; cases hmod
  rw [if_neg hcdf] at hmod
  by_cases hguard : pred (kvGet kvs (size - 1)) ≤ pred (kvGet kvs 0)
  · rw [if_pos hguard] at hmod; cases hmod
  rw [if_neg hguard] at hmod
  cases hgr : groupRuns pred ial kvs with
  | none => rw [hgr] at hmod; cases hmod
  | some runs =>
  rw [hgr] at hmod
  simp only [Option.some.injEq] at hmod
  subst hmod
  set items := runs.foldl
    (fun its r => its.set r.1 (pmss_bulkF hpt pmss m r.2 gcpl))
    (List.replicate ial Item.null) with hitems
  -- arithmetic and prefix facts
  have h3ial : 3 ≤ ial := by omega
  have hfmem : kvGet kvs 0 ∈ kvs := kvGet_mem (by omega)
  have hlmem : kvGet kvs (size - 1) ∈ kvs := kvGet_mem (by omega)
  have hfne : firstK ≠ lastK := by
    have hp := List.pairwise_iff_getElem.mp hs 0 (size - 1)
      (by omega) (by omega) (by omega)
    rw [← kvGet_eq_getElem (i := 0) (by omega),
      ← kvGet_eq_getElem (i := size - 1) (by omega)] at hp
    exact ne_of_keyLt hp
  have htfl : firstK.take ccpl = lastK.take ccpl :=
    hsh (kvGet kvs 0) hfmem (kvGet kvs (size - 1)) hlmem
  have hccl : ccpl ≤ firstK.length := by
    by_contra hcon
    push_neg at hcon
    have h1 : firstK.take ccpl = firstK :=
      List.take_of_length_le (by omega)
    have h2 : lastK.take ccpl = firstK := by rw [← htfl, h1]
    apply hfne
    by_cases h3 : lastK.length ≤ ccpl
    · rw [List.take_of_length_le h3] at h2
      exact h2.symm
    · exfalso
      have h4 : (lastK.take ccpl).length = ccpl := by
        simp only [List.length_take]
        omega
      rw [h2] at h4
      omega
  have hgle : gcpl ≤ firstK.length := ucpl_le_length firstK lastK
  have hcg : ccpl ≤ gcpl := ucpl_ge_of_take_eq firstK lastK ccpl hccl htfl
  have hci : ccpl + icpl = gcpl := by omega
  have hpfxlen : pfx.length = icpl := by
    rw [hpfx]
    simp only [List.length_take, List.length_drop]
    omega
  have hpfz : ZFKey pfx := by
    intro byte hb
    have h1 : byte ∈ firstK.drop ccpl := List.take_subset _ _ hb
    have h2 : byte ∈ firstK := List.drop_subset _ _ h1
    exact hz (kvGet kvs 0) hfmem byte h2
  have hshg : SharedPfx gcpl kvs :=
    sharedPfx_of_ends hs (kvGet_zero_head hne) (kvGet_last hne)
      (take_ucpl_eq firstK lastK gcpl le_rfl)
  have hmatch : ∀ e ∈ kvs, (e.k.drop ccpl).take icpl = pfx := by
    intro e he
    have h1 : firstK.take gcpl = e.k.take gcpl :=
      hshg (kvGet kvs 0) hfmem e he
    rw [← hci] at h1
    exact (drop_take_eq_of_take_eq h1).symm
  have hcmpN : ∀ e ∈ kvs, ustrcmpN pfx (e.k.drop ccpl) pfx.length = 0 := by
    intro e he
    rw [ustrcmpN_zero_iff_take pfx hpfz, hpfxlen]
    exact hmatch e he
  have hpred2 : ∀ e ∈ kvs,
      predictPos hpt ial kq bq pfx e.k ccpl = (pred e, ccpl + pfx.length) ∧
      1 ≤ pred e ∧ pred e ≤ ial - 2 := by
    intro e he
    have hm2 := @predictPos_match hpt ial kq bq pfx e.k ccpl
      (Or.inr (hcmpN e he))
    refine ⟨?_, ?_, ?_⟩
    · have heta : predictPos hpt ial kq bq pfx e.k ccpl =
          ((predictPos hpt ial kq bq pfx e.k ccpl).1,
           (predictPos hpt ial kq bq pfx e.k ccpl).2) := rfl
      rw [heta, hm2.1]
    · exact hm2.2.1
    · exact hm2.2.2 h3ial
  -- run facts
  obtain ⟨hrc1, hrc2, hrc3⟩ := groupRuns_spec hgr
  have hrp : List.Pairwise (fun a b => a.1 < b.1) runs :=
    List.pairwise_map.mp hrc3
  have hrunssub : ∀ r ∈ runs, r.2.Sublist kvs := by
    intro r hr
    rw [← hrc1]
    exact (List.infix_of_mem_flatten
      (List.mem_map_of_mem (fun r => r.2) hr)).sublist
  have hrunmem : ∀ r ∈ runs, ∀ e ∈ r.2, e ∈ kvs := by
    intro r hr e hee
    exact (hrunssub r hr).subset hee
  have hrunWF : ∀ r ∈ runs,
      WF hpt (pmss_bulkF hpt pmss m r.2 gcpl) gcpl ∧
      extractItem (pmss_bulkF hpt pmss m r.2 gcpl) = r.2 := by
    intro r hr
    refine ih r.2 gcpl (hrc2 r hr).1 (hs.sublist (hrunssub r hr)) ?_ ?_
    · intro a ha b hb
      exact hshg a (hrunmem r hr a ha) b (hrunmem r hr b hb)
    · intro e hee
      exact hz e (hrunmem r hr e hee)
  -- the item array
  have hlen_items : items.length = ial := by
    have h := foldl_set_length (fun grp => pmss_bulkF hpt pmss m grp gcpl)
      runs (List.replicate ial Item.null)
    simp only [List.length_replicate] at h
    rw [hitems]
    exact h
  have hbounds : ∀ r ∈ runs, r.1 < (List.replicate ial Item.null).length := by
    intro r hr
    simp only [List.length_replicate]
    exact (hrc2 r hr).2.2
  have hchar : ∀ j : Nat, items[j]? =
      (match runs.find? (fun r => r.1 == j) with
       | some r => some (pmss_bulkF hpt pmss m r.2 gcpl)
       | none => (List.replicate ial Item.null)[j]?) := by
    intro j
    rw [hitems]
    exact foldl_set_getElem? (fun grp => pmss_bulkF hpt pmss m grp gcpl)
      runs (List.replicate ial Item.null) j hrp hbounds
  have hchar2 : ∀ j : Nat, j < items.length →
      items[j]? = (match runs.find? (fun r => r.1 == j) with
       | some r => some (pmss_bulkF hpt pmss m r.2 gcpl)
       | none => some Item.null) := by
    intro j hj
    rw [hchar j]
    cases hf : runs.find? (fun r => r.1 == j) with
    | some r => rfl
    | none =>
      rw [List.getElem?_replicate]
      rw [if_pos (by rw [hlen_items] at hj; exact hj)]
  have hfind_some : ∀ (j : Nat) (r : Nat × List KVEntry),
      runs.find? (fun r => r.1 == j) = some r → r ∈ runs ∧ r.1 = j := by
    intro j r hf
    refine ⟨List.mem_of_find?_eq_some hf, ?_⟩
    have := List.find?_some hf
    simpa using this
  have hextr : extractItems items = kvs := by
    rw [extractItems_of_slotwise (fun grp => pmss_bulkF hpt pmss m grp gcpl)
      runs items hrp (by rw [hlen_items]; exact fun r hr => (hrc2 r hr).2.2)
      hchar2]
    rw [List.map_congr_left (fun r hr => (hrunWF r hr).2)]
    exact hrc1
  -- assemble well-formedness
  constructor
  · refine WF.mult size kq bq pfx items ccpl ?_ ?_ ?_ hpfz ?_ ?_ ?_ ?_ ?_
    · rw [hlen_items]; omega
    · rw [hextr]
    · rw [hlen_items]; omega
    · intro i child hci2
      rw [hchar i] at hci2
      cases hf : runs.find? (fun r => r.1 == i) with
      | some r =>
        rw [hf] at hci2
        simp only [Option.some.injEq] at hci2
        subst hci2
        obtain ⟨hrmem, hri⟩ := hfind_some i r hf
        obtain ⟨e0, he0⟩ := List.exists_mem_of_ne_nil _ (hrc2 r hrmem).1
        have hb := (hpred2 e0 (hrunmem r hrmem e0 he0)).2
        have hpe0 : pred e0 = r.1 := (hrc2 r hrmem).2.1 e0 he0
        have hslot : slotCcpl ccpl pfx.length items.length i =
            ccpl + pfx.length := by
          unfold slotCcpl
          rw [hlen_items]
          rw [if_neg (by omega)]
        rw [hslot]
        have := (hrunWF r hrmem).1
        rwa [hpfxlen, hci]
      | none =>
        rw [hf] at hci2
        rw [List.getElem?_replicate] at hci2
        by_cases hilt : i < ial
        · rw [if_pos hilt] at hci2
          simp only [Option.some.injEq] at hci2
          subst hci2
          exact WF.null _
        · rw [if_neg hilt] at hci2
          cases hci2
    · intro i child hci2 e he
      rw [hchar i] at hci2
      cases hf : runs.find? (fun r => r.1 == i) with
      | some r =>
        rw [hf] at hci2
        simp only [Option.some.injEq] at hci2
        subst hci2
        obtain ⟨hrmem, hri⟩ := hfind_some i r hf
        rw [(hrunWF r hrmem).2] at he
        have hek : e ∈ kvs := hrunmem r hrmem e he
        have hpe := (hpred2 e hek).1
        have hb := (hpred2 e hek).2
        have hprede : pred e = r.1 := (hrc2 r hrmem).2.1 e he
        have hslot : slotCcpl ccpl pfx.length items.length i =
            ccpl + pfx.length := by
          unfold slotCcpl
          rw [hlen_items]
          rw [if_neg (by omega)]
        rw [hslot, hlen_items, hpe, hprede, hri]
      | none =>
        rw [hf] at hci2
        rw [List.getElem?_replicate] at hci2
        by_cases hilt : i < ial
        · rw [if_pos hilt] at hci2
          simp only [Option.some.injEq] at hci2
          subst hci2
          simp [extractItem] at he
        · rw [if_neg hilt] at hci2
          cases hci2
    · rw [hextr]; exact hs
    · rw [hextr]; exact hsh
    · rw [hextr]; exact hz
  · simp only [extractItem]
    exact hextr

/-- `pmss_bulk` builds a well-formed item that extracts back to its
sorted, zero-free, prefix-sharing input batch, for any fuel. -/
theorem pmss_bulkF_spec (hpt : HPT) (pmss : PMSS) :
    ∀ (fuel : Nat) (kvs : List KVEntry) (ccpl : Nat), kvs ≠ [] →
      List.Pairwise entLt kvs → SharedPfx ccpl kvs → ZFK kvs →
      WF hpt (pmss_bulkF hpt pmss fuel kvs ccpl) ccpl ∧
        extractItem (pmss_bulkF hpt pmss fuel kvs ccpl) = kvs := by
  intro fuel
  induction fuel with
  | zero =>
    intro kvs ccpl hne hs hsh hz
    simp only [pmss_bulkF]
    rw [hotBulkload_sorted hs]
    exact ⟨WF.trie kvs ccpl hs hsh hz, rfl⟩
  | succ m ih =>
    intro kvs ccpl hne hs hsh hz
    simp only [pmss_bulkF]
    by_cases h1 : kvs.length = 1
    · rw [if_pos h1]
      obtain ⟨e, he⟩ : ∃ e, kvs = [e] := List.length_eq_one.mp h1
      subst he
      exact ⟨WF.sing _ ccpl (hz e (by simp)), rfl⟩
    rw [if_neg h1]
    by_cases h2 : kvs.length ≤ 16
    · rw [if_pos h2]
      have hlen0 : kvs.length ≠ 0 := by
        intro hcon; exact hne (List.length_eq_zero.mp hcon)
      have hmap : ((kvs.map hashTag).map (fun te => te.2)) = kvs := by
        simp [hashTag, Function.comp_def]
      refine ⟨WF.cnod _ ccpl rfl ?_ ?_ ?_ ?_ ?_ ?_, ?_⟩
      · simp only [new_cnode, List.length_map]; omega
      · simp only [new_cnode, List.length_map]; omega
      · intro te hte
        simp only [new_cnode, List.mem_map] at hte
        obtain ⟨e, _, he⟩ := hte
        rw [← he]
        rfl
      · simp only [new_cnode]
        rw [hmap]
        exact hs
      · simp only [new_cnode]
        rw [hmap]
        exact hsh
      · simp only [new_cnode]
        rw [hmap]
        exact hz
      · simp only [extractItem, new_cnode]
        exact hmap
    rw [if_neg h2]
    by_cases h3 : pmss.decideSubType kvs.length (getGPKL kvs) = SubType.Items
    · rw [if_pos h3]
      cases hm : tryModelF hpt pmss m kvs ccpl with
      | some it =>
        exact tryModel_spec hpt pmss m kvs ccpl it ih hm (by omega) hs hsh hz
      | none =>
        rw [hotBulkload_sorted hs]
        exact ⟨WF.trie kvs ccpl hs hsh hz, rfl⟩
    · rw [if_neg h3]
      rw [hotBulkload_sorted hs]
      exact ⟨WF.trie kvs ccpl hs hsh hz, rfl⟩

/-- `pmss_bulk` at the standard fuel. -/
theorem pmssBulk_spec (hpt : HPT) (pmss : PMSS) (kvs : List KVEntry)
    (ccpl : Nat) (hne : kvs ≠ []) (hs : List.Pairwise entLt kvs)
    (hsh : SharedPfx ccpl kvs) (hz : ZFK kvs) :
    WF hpt (pmssBulk hpt pmss kvs ccpl) ccpl ∧
      extractItem (pmssBulk hpt pmss kvs ccpl) = kvs :=
  pmss_bulkF_spec hpt pmss (kvs.length + 1) kvs ccpl hne hs hsh hz

/-! ### Sorted-list mutation primitives -/

/-- Abstract interface assumption on the learned model: the predicted
slot is monotone in the key among keys that agree on the
already-confirmed prefix.  The HPT's double-precision prediction is
opaque in this development; online inserts keep a model node's
extraction in key order exactly when the model routes keys
monotonically, which is what the trained CDF model provides. -/
def MonoModel (hpt : HPT) : Prop :=
  ∀ (ial : Nat) (kq bq : ℚ) (pfx : List Nat) (x y : Key) (ccpl : Nat),
    3 ≤ ial → keyLt x y → x.take ccpl = y.take ccpl →
    (predictPos hpt ial kq bq pfx x ccpl).1 ≤
      (predictPos hpt ial kq bq pfx y ccpl).1

theorem listInsertSorted_mem {e : KVEntry} : ∀ {l : List KVEntry}
    {x : KVEntry}, x ∈ listInsertSorted e l ↔ x = e ∨ x ∈ l := by
  intro l
  induction l with
  | nil => intro x; simp [listInsertSorted]
  | cons a rest ih =>
    intro x
    unfold listInsertSorted
    by_cases h : keyLt e.k a.k
    · rw [if_pos h]
      simp [List.mem_cons]
    · rw [if_neg h]
      simp only [List.mem_cons, ih]
      tauto

theorem listInsertSorted_length (e : KVEntry) : ∀ l : List KVEntry,
    (listInsertSorted e l).length = l.length + 1 := by
  intro l
  induction l with
  | nil => rfl
  | cons a rest ih =>
    unfold listInsertSorted
    by_cases h : keyLt e.k a.k
    · rw [if_pos h]; simp
    · rw [if_neg h]; simp [ih]

theorem listInsertSorted_sorted {e : KVEntry} : ∀ {l : List KVEntry},
    List.Pairwise entLt l → (∀ x ∈ l, x.k ≠ e.k) →
    List.Pairwise entLt (listInsertSorted e l) := by
  intro l
  induction l with
  | nil => intro _ _; simp [listInsertSorted, entLt]
  | cons a rest ih =>
    intro hs hne
    obtain ⟨ha, hrest⟩ := List.pairwise_cons.mp hs
    unfold listInsertSorted
    by_cases h : keyLt e.k a.k
    · rw [if_pos h]
      refine List.Pairwise.cons ?_ hs
      intro b hb
      rcases List.mem_cons.mp hb with rfl | hb2
      · exact h
      · exact keyLt_trans h (ha b hb2)
    · rw [if_neg h]
      have hae : keyLt a.k e.k :=
        keyLt_of_not_lt_of_ne h (hne a (by simp))
      refine List.Pairwise.cons ?_
        (ih hrest (fun x hx => hne x (by simp [hx])))
      intro b hb
      rcases listInsertSorted_mem.mp hb with rfl | hb2
      · exact hae
      · exact ha b hb2

theorem listInsertSorted_append_right {e : KVEntry} {C : List KVEntry}
    (hC : ∀ c ∈ C, keyLt e.k c.k) : ∀ B : List KVEntry,
    listInsertSorted e (B ++ C) = listInsertSorted e B ++ C := by
  intro B
  induction B with
  | nil =>
    simp only [List.nil_append]
    cases C with
    | nil => rfl
    | cons c rest =>
      unfold listInsertSorted
      rw [if_pos (hC c (by simp))]
      rfl
  | cons b rest ih =>
    simp only [List.cons_append, listInsertSorted]
    by_cases h : keyLt e.k b.k
    · simp [h]
    · simp [h, ih]

theorem listInsertSorted_append_left {e : KVEntry} : ∀ {A B : List KVEntry},
    (∀ a ∈ A, keyLt a.k e.k) →
    listInsertSorted e (A ++ B) = A ++ listInsertSorted e B := by
  intro A
  induction A with
  | nil => intro B _; simp
  | cons a rest ih =>
    intro B hA
    simp only [List.cons_append, listInsertSorted]
    have hna : ¬ keyLt e.k a.k := keyLt_asymm (hA a (by simp))
    simp only [if_neg hna, List.cons.injEq, true_and]
    exact ih (fun x hx => hA x (by simp [hx]))

theorem find?_listInsertSorted_ne {e : KVEntry} {p : KVEntry → Bool}
    (hp : p e = false) : ∀ l : List KVEntry,
    (listInsertSorted e l).find? p = l.find? p := by
  intro l
  induction l with
  | nil => simp [listInsertSorted, List.find?, hp]
  | cons a rest ih =>
    unfold listInsertSorted
    by_cases h : keyLt e.k a.k
    · rw [if_pos h]
      rw [List.find?_cons_of_neg _ (by simp [hp])]
    · rw [if_neg h]
      cases hpa : p a
      · rw [List.find?_cons_of_neg _ (by simp [hpa]),
          List.find?_cons_of_neg _ (by simp [hpa]), ih]
      · rw [List.find?_cons_of_pos _ hpa, List.find?_cons_of_pos _ hpa]

theorem find?_eraseP_disjoint {p q : KVEntry → Bool} :
    ∀ {l : List KVEntry}, (∀ e ∈ l, p e = true → q e = false) →
    (l.eraseP p).find? q = l.find? q := by
  intro l
  induction l with
  | nil => intro _; rfl
  | cons a rest ih =>
    intro h
    cases hpa : p a
    · rw [List.eraseP_cons_of_neg (by simp [hpa])]
      cases hqa : q a
      · rw [List.find?_cons_of_neg _ (by simp [hqa]),
          List.find?_cons_of_neg _ (by simp [hqa])]
        exact ih (fun e he hp2 => h e (by simp [he]) hp2)
      · rw [List.find?_cons_of_pos _ hqa, List.find?_cons_of_pos _ hqa]
    · rw [List.eraseP_cons_of_pos hpa]
      have hqa : q a = false := h a (by simp) hpa
      rw [List.find?_cons_of_neg _ (by simp [hqa])]

theorem find?_eraseP_self_of_sorted {x : Key} : ∀ {l : List KVEntry},
    List.Pairwise entLt l →
    (l.eraseP (fun e => e.k == x)).find? (fun e => e.k == x) = none := by
  intro l
  induction l with
  | nil => intro _; rfl
  | cons a rest ih =>
    intro hs
    obtain ⟨ha, hrest⟩ := List.pairwise_cons.mp hs
    by_cases hak : a.k = x
    · rw [List.eraseP_cons_of_pos (by simp [hak])]
      apply find?_eq_none_of_not_mem
      intro e he hek
      have h1 : keyLt a.k e.k := ha e he
      rw [hak, hek] at h1
      exact keyLt_irrefl x h1
    · rw [List.eraseP_cons_of_neg (by simp [hak])]
      rw [List.find?_cons_of_neg _ (by simp [hak])]
      exact ih hrest

theorem eraseP_append_left_mem {p : KVEntry → Bool} {B : List KVEntry}
    (hB : ∃ b ∈ B, p b = true) (C : List KVEntry) :
    (B ++ C).eraseP p = B.eraseP p ++ C := by
  obtain ⟨b, hb, hpb⟩ := hB
  exact List.eraseP_append_left hpb C hb

theorem eraseP_append_right_none {p : KVEntry → Bool} {A : List KVEntry}
    (hA : ∀ a ∈ A, p a = false) (B : List KVEntry) :
    (A ++ B).eraseP p = A ++ B.eraseP p :=
  List.eraseP_append_right B (fun a ha => by simp [hA a ha])

/-- Transfer of the key-only invariants along a key-preserving reshaping. -/
theorem pairwise_of_map_k_eq {l l' : List KVEntry}
    (h : l.map (fun e => e.k) = l'.map (fun e => e.k))
    (hs : List.Pairwise entLt l) : List.Pairwise entLt l' := by
  have h1 : List.Pairwise keyLt (l.map fun e => e.k) := by
    rw [List.pairwise_map]
    exact List.Pairwise.imp (fun h2 => h2) hs
  rw [h, List.pairwise_map] at h1
  exact List.Pairwise.imp (fun h2 => h2) h1

theorem mem_k_of_map_k_eq {l l' : List KVEntry}
    (h : l.map (fun e => e.k) = l'.map (fun e => e.k)) :
    ∀ a ∈ l', ∃ a0 ∈ l, a0.k = a.k := by
  intro a ha
  have h1 : a.k ∈ l'.map (fun e => e.k) := List.mem_map_of_mem _ ha
  rw [← h] at h1
  obtain ⟨a0, ha0, hk⟩ := List.mem_map.mp h1
  exact ⟨a0, ha0, hk⟩

theorem sharedPfx_of_map_k_eq {n : Nat} {l l' : List KVEntry}
    (h : l.map (fun e => e.k) = l'.map (fun e => e.k))
    (hsh : SharedPfx n l) : SharedPfx n l' := by
  intro a ha b hb
  obtain ⟨a0, ha0, hka⟩ := mem_k_of_map_k_eq h a ha
  obtain ⟨b0, hb0, hkb⟩ := mem_k_of_map_k_eq h b hb
  rw [← hka, ← hkb]
  exact hsh a0 ha0 b0 hb0

theorem zfk_of_map_k_eq {l l' : List KVEntry}
    (h : l.map (fun e => e.k) = l'.map (fun e => e.k))
    (hz : ZFK l) : ZFK l' := by
  intro a ha
  obtain ⟨a0, ha0, hka⟩ := mem_k_of_map_k_eq h a ha
  rw [← hka]
  exact hz a0 ha0

/-- A value-only rewrite leaves every key in place. -/
theorem mapval_keys (x : Key) (v : Val) (l : List KVEntry) :
    (l.map (fun e => if e.k = x then ⟨x, v⟩ else e)).map (fun e => e.k)
      = l.map (fun e => e.k) := by
  rw [List.map_map]
  apply List.map_congr_left
  intro e _
  by_cases he : e.k = x
  · simp [he, Function.comp]
  · simp [he, Function.comp]

theorem mapval_id_of_absent {x : Key} {v : Val} : ∀ {l : List KVEntry},
    (∀ e ∈ l, e.k ≠ x) →
    l.map (fun e => if e.k = x then ⟨x, v⟩ else e) = l := by
  intro l
  induction l with
  | nil => intro _; rfl
  | cons a rest ih =>
    intro h
    simp only [List.map_cons, if_neg (h a (by simp)), List.cons.injEq,
      true_and]
    exact ih (fun e he => h e (by simp [he]))

theorem mapval_append (x : Key) (v : Val) (A B : List KVEntry) :
    (A ++ B).map (fun e => if e.k = x then ⟨x, v⟩ else e) =
      A.map (fun e => if e.k = x then ⟨x, v⟩ else e) ++
      B.map (fun e => if e.k = x then ⟨x, v⟩ else e) :=
  List.map_append _ _ _

theorem find?_mapval_self {x : Key} {v : Val} : ∀ {l : List KVEntry},
    (∃ e ∈ l, e.k = x) →
    (l.map (fun e => if e.k = x then ⟨x, v⟩ else e)).find?
        (fun e => e.k == x) = some ⟨x, v⟩ := by
  intro l
  induction l with
  | nil => intro h; simp at h
  | cons a rest ih =>
    intro h
    by_cases hak : a.k = x
    · simp only [List.map_cons, if_pos hak]
      rw [List.find?_cons_of_pos _ (by simp)]
    · simp only [List.map_cons, if_neg hak]
      rw [List.find?_cons_of_neg _ (by simp [hak])]
      apply ih
      obtain ⟨e, he, hek⟩ := h
      rcases List.mem_cons.mp he with rfl | he2
      · exact absurd hek hak
      · exact ⟨e, he2, hek⟩

theorem find?_mapval_ne {x y : Key} {v : Val} (hxy : y ≠ x) :
    ∀ l : List KVEntry,
    (l.map (fun e => if e.k = x then ⟨x, v⟩ else e)).find?
        (fun e => e.k == y) = l.find? (fun e => e.k == y) := by
  intro l
  induction l with
  | nil => rfl
  | cons a rest ih =>
    by_cases hak : a.k = x
    · simp only [List.map_cons, if_pos hak]
      rw [List.find?_cons_of_neg _ (by simp [Ne.symm hxy]),
        List.find?_cons_of_neg _ (by simp [hak, Ne.symm hxy]), ih]
    · simp only [List.map_cons, if_neg hak]
      cases hay : a.k == y
      · rw [List.find?_cons_of_neg _ (by simp_all),
          List.find?_cons_of_neg _ (by simp_all), ih]
      · simp [List.find?, hay]

/-! ### Item-array decomposition around one slot -/

theorem getD_eq_getElem_item {l : List Item} {j : Nat} (h : j < l.length) :
    l.getD j Item.null = l[j] := by
  rw [List.getD, List.get?_eq_getElem?, List.getElem?_eq_getElem h]
  rfl

theorem extractItems_split {items : List Item} {j : Nat}
    (h : j < items.length) :
    extractItems items = extractItems (items.take j) ++
      extractItem (items.getD j Item.null) ++
      extractItems (items.drop (j + 1)) := by
  have hdecomp : items = items.take j ++
      items.getD j Item.null :: items.drop (j + 1) := by
    conv_lhs => rw [← List.take_append_drop j items]
    rw [List.drop_eq_getElem_cons h, getD_eq_getElem_item h]
  conv_lhs => rw [hdecomp]
  rw [extractItems_append]
  simp [extractItems]

theorem extractItems_set_decomp {items : List Item} {j : Nat} (c : Item)
    (h : j < items.length) :
    extractItems (items.set j c) = extractItems (items.take j) ++
      extractItem c ++ extractItems (items.drop (j + 1)) := by
  rw [List.set_eq_take_append_cons_drop, if_pos h, extractItems_append]
  simp [extractItems]

theorem mem_extract_take {items : List Item} {j : Nat} {e : KVEntry}
    (he : e ∈ extractItems (items.take j)) :
    ∃ (i : Nat) (child : Item), i < j ∧ items[i]? = some child ∧
      e ∈ extractItem child := by
  obtain ⟨i, child, hc, hech⟩ := mem_extractItems.mp he
  rw [List.getElem?_take] at hc
  by_cases hij : i < j
  · rw [if_pos hij] at hc
    exact ⟨i, child, hij, hc, hech⟩
  · rw [if_neg hij] at hc
    cases hc

theorem mem_extract_drop {items : List Item} {j : Nat} {e : KVEntry}
    (he : e ∈ extractItems (items.drop j)) :
    ∃ (i : Nat) (child : Item), j ≤ i ∧ items[i]? = some child ∧
      e ∈ extractItem child := by
  obtain ⟨i, child, hc, hech⟩ := mem_extractItems.mp he
  rw [List.getElem?_drop] at hc
  exact ⟨j + i, child, by omega, hc, hech⟩

theorem set_getD_self {l : List Item} {j : Nat} (h : j < l.length) :
    l.set j (l.getD j Item.null) = l := by
  apply List.ext_getElem?
  intro i
  by_cases hij : j = i
  · subst hij
    rw [List.getElem?_set_self h, List.getElem?_eq_getElem h,
      getD_eq_getElem_item h]
  · rw [List.getElem?_set_ne hij]

/-! ### Scan-versus-map commuting lemmas -/

theorem eraseP_map_comm {α β : Type} (l : List α) (f : α → β)
    (p : α → Bool) (q : β → Bool) (h : ∀ a ∈ l, p a = q (f a)) :
    (l.eraseP p).map f = (l.map f).eraseP q := by
  induction l with
  | nil => rfl
  | cons a rest ih =>
    have ha := h a (by simp)
    cases hpa : p a
    · rw [List.eraseP_cons_of_neg (by simp [hpa]), List.map_cons,
        List.map_cons, List.eraseP_cons_of_neg (by simp [← ha, hpa])]
      rw [ih (fun x hx => h x (by simp [hx]))]
    · rw [List.eraseP_cons_of_pos hpa, List.map_cons,
        List.eraseP_cons_of_pos (by rw [← ha]; exact hpa)]

theorem updateFirst_map_comm {α β : Type} (l : List α) (f : α → β)
    (p : α → Bool) (q : β → Bool) (g : α → α) (g2 : β → β)
    (h : ∀ a ∈ l, p a = q (f a)) (hg : ∀ a ∈ l, f (g a) = g2 (f a)) :
    (updateFirst p g l).map f = updateFirst q g2 (l.map f) := by
  induction l with
  | nil => rfl
  | cons a rest ih =>
    have ha := h a (by simp)
    simp only [updateFirst, List.map_cons]
    cases hpa : p a
    · rw [if_neg (by simp [hpa]), if_neg (by simp [← ha, hpa]),
        List.map_cons]
      rw [ih (fun x hx => h x (by simp [hx])) (fun x hx => hg x (by simp [hx]))]
    · rw [if_pos rfl, if_pos (by rw [← ha]; exact hpa), List.map_cons,
        hg a (by simp)]

theorem eraseP_ext {α : Type} {p q : α → Bool} : ∀ {l : List α},
    (∀ a ∈ l, p a = q a) → l.eraseP p = l.eraseP q := by
  intro l
  induction l with
  | nil => intro _; rfl
  | cons a rest ih =>
    intro h
    have ha := h a (by simp)
    cases hpa : p a
    · rw [List.eraseP_cons_of_neg (by simp [hpa]),
        List.eraseP_cons_of_neg (by simp [← ha, hpa])]
      rw [ih (fun x hx => h x (by simp [hx]))]
    · rw [List.eraseP_cons_of_pos hpa,
        List.eraseP_cons_of_pos (by rw [← ha]; exact hpa)]

theorem updateFirst_ext {α : Type} {p q : α → Bool} {g : α → α} :
    ∀ {l : List α}, (∀ a ∈ l, p a = q a) →
    updateFirst p g l = updateFirst q g l := by
  intro l
  induction l with
  | nil => intro _; rfl
  | cons a rest ih =>
    intro h
    have ha := h a (by simp)
    simp only [updateFirst]
    cases hpa : p a
    · rw [if_neg (by simp [hpa]), if_neg (by simp [← ha, hpa]),
        ih (fun x hx => h x (by simp [hx]))]
    · rw [if_pos rfl, if_pos (by rw [← ha]; exact hpa)]

theorem updateFirst_eq_mapval {x : Key} {v : Val} : ∀ {t : List KVEntry},
    List.Pairwise entLt t →
    updateFirst (fun e => e.k == x) (fun e => { e with v := v }) t =
      t.map (fun e => if e.k = x then ⟨x, v⟩ else e) := by
  intro t
  induction t with
  | nil => intro _; rfl
  | cons a rest ih =>
    intro hs
    obtain ⟨ha, hrest⟩ := List.pairwise_cons.mp hs
    simp only [updateFirst, List.map_cons]
    by_cases hak : a.k = x
    · rw [if_pos (by simp [hak]), if_pos hak]
      have habs : ∀ e ∈ rest, e.k ≠ x := by
        intro e he hek
        have h1 : keyLt a.k e.k := ha e he
        rw [hak, hek] at h1
        exact keyLt_irrefl x h1
      rw [mapval_id_of_absent habs, hak]
    · rw [if_neg (by simp [hak]), if_neg hak, ih hrest]

/-- The hash-then-verify guard is an exact key test on a tagged record
whose tag is its key's hash and whose key shares the confirmed prefix. -/
theorem cnodeMatch_iff {key : Key} {ccpl : Nat} {te : Nat × KVEntry}
    (htag : te.1 = hashStr te.2.k)
    (hagree : key.take ccpl = te.2.k.take ccpl) :
    cnodeMatch key ccpl te = (te.2.k == key) := by
  unfold cnodeMatch
  by_cases he : te.2.k = key
  · have hv : kvVerify te.2 key ccpl = true := (kvVerify_iff hagree).mpr he.symm
    simp [hv, htag, he]
  · have hv : kvVerify te.2 key ccpl = false := by
      rcases hb : kvVerify te.2 key ccpl with _ | _
      · rfl
      · exact absurd ((kvVerify_iff hagree).mp hb).symm he
    simp [hv, he]

/-! ### Compact-node scan characterizations -/

theorem cnodeInsertScan_spec {ccpl : Nat} {key : Key} {v : Val} :
    ∀ {data : List (Nat × KVEntry)},
    (∀ te ∈ data, key.take ccpl = te.2.k.take ccpl) →
    List.Pairwise entLt (data.map (fun te => te.2)) →
    (cnodeInsertScan ccpl key (hashTag ⟨key, v⟩) data = none →
      ∃ te ∈ data, te.2.k = key) ∧
    (∀ d, cnodeInsertScan ccpl key (hashTag ⟨key, v⟩) data = some d →
      (∀ te ∈ data, te.2.k ≠ key) ∧
      (∀ te ∈ d, te ∈ data ∨ te = hashTag ⟨key, v⟩) ∧
      d.map (fun te => te.2) =
        listInsertSorted ⟨key, v⟩ (data.map (fun te => te.2))) := by
  intro data
  induction data with
  | nil =>
    intro _ _
    constructor
    · intro h
      simp [cnodeInsertScan] at h
    · intro d hd
      simp only [cnodeInsertScan, Option.some.injEq] at hd
      subst hd
      refine ⟨by simp, by simp, ?_⟩
      simp [listInsertSorted, hashTag]
  | cons te rest ih =>
    intro hagree hsort
    have hte : key.take ccpl = te.2.k.take ccpl := hagree te (by simp)
    have hcmpeq : ustrcmp (te.2.k.drop ccpl) (key.drop ccpl) =
        ustrcmp te.2.k key :=
      ustrcmp_drop_of_take_eq ccpl te.2.k key hte.symm
    have hsortc : List.Pairwise entLt
        (te.2 :: rest.map (fun te => te.2)) := by
      simpa only [List.map_cons] using hsort
    have hsort2 : List.Pairwise entLt (rest.map (fun te => te.2)) :=
      (List.pairwise_cons.mp hsortc).2
    have hhead := (List.pairwise_cons.mp hsortc).1
    obtain ⟨ih1, ih2⟩ := ih (fun x hx => hagree x (by simp [hx])) hsort2
    constructor
    · intro h
      simp only [cnodeInsertScan] at h
      by_cases h0 : ustrcmp (te.2.k.drop ccpl) (key.drop ccpl) = 0
      · refine ⟨te, by simp, ?_⟩
        rw [hcmpeq] at h0
        exact (ustrcmp_eq_zero_iff.mp h0)
      · rw [if_neg h0] at h
        by_cases h1 : ustrcmp (te.2.k.drop ccpl) (key.drop ccpl) = 1
        · rw [if_pos h1] at h
          cases h
        · rw [if_neg h1] at h
          cases hrec : cnodeInsertScan ccpl key (hashTag ⟨key, v⟩) rest with
          | some d2 => rw [hrec] at h; simp at h
          | none =>
            obtain ⟨te2, hte2, hk⟩ := ih1 hrec
            exact ⟨te2, by simp [hte2], hk⟩
    · intro d hd
      simp only [cnodeInsertScan] at hd
      by_cases h0 : ustrcmp (te.2.k.drop ccpl) (key.drop ccpl) = 0
      · rw [if_pos h0] at hd
        cases hd
      · rw [if_neg h0] at hd
        have hne : te.2.k ≠ key := by
          intro hc
          rw [hcmpeq, hc, ustrcmp_self] at h0
          exact h0 rfl
        by_cases h1 : ustrcmp (te.2.k.drop ccpl) (key.drop ccpl) = 1
        · rw [if_pos h1] at hd
          simp only [Option.some.injEq] at hd
          subst hd
          have hklt : keyLt key te.2.k := by
            unfold keyLt
            rw [hcmpeq] at h1
            rw [ustrcmp_swap, h1]
          refine ⟨?_, ?_, ?_⟩
          · intro x hx
            rcases List.mem_cons.mp hx with rfl | hx2
            · exact hne
            · intro hc
              have h2 : keyLt te.2.k x.2.k :=
                hhead x.2 (List.mem_map_of_mem _ hx2)
              rw [hc] at h2
              exact keyLt_asymm hklt h2
          · intro x hx
            rcases List.mem_cons.mp hx with rfl | hx2
            · exact Or.inr rfl
            · exact Or.inl (by simp [hx2])
          · simp only [List.map_cons, listInsertSorted]
            rw [if_pos hklt]
            rfl
        · rw [if_neg h1] at hd
          cases hrec : cnodeInsertScan ccpl key (hashTag ⟨key, v⟩) rest with
          | none => rw [hrec] at hd; cases hd
          | some d2 =>
            rw [hrec] at hd
            simp only [Option.map_some', Option.some.injEq] at hd
            subst hd
            obtain ⟨habs2, hmem2, heq2⟩ := ih2 d2 hrec
            have hkgt : keyLt te.2.k key := by
              rcases ustrcmp_cases te.2.k key with hc | hc | hc
              · exact hc
              · exact absurd (ustrcmp_eq_zero_iff.mp hc) hne
              · rw [← hcmpeq] at hc
                exact absurd hc h1
            refine ⟨?_, ?_, ?_⟩
            · intro x hx
              rcases List.mem_cons.mp hx with rfl | hx2
              · exact hne
              · exact habs2 x hx2
            · intro x hx
              rcases List.mem_cons.mp hx with rfl | hx2
              · exact Or.inl (by simp)
              · rcases hmem2 x hx2 with hm | hm
                · exact Or.inl (by simp [hm])
                · exact Or.inr hm
            · simp only [List.map_cons, listInsertSorted]
              rw [if_neg (keyLt_asymm hkgt), heq2]

theorem tryExtractInsert_spec {ccpl : Nat} {key : Key} {v : Val} :
    ∀ {data : List (Nat × KVEntry)},
    (∀ te ∈ data, key.take ccpl = te.2.k.take ccpl) →
    List.Pairwise entLt (data.map (fun te => te.2)) →
    (tryExtractInsert ccpl key v data = none →
      ∃ te ∈ data, te.2.k = key) ∧
    (∀ l, tryExtractInsert ccpl key v data = some l →
      (∀ te ∈ data, te.2.k ≠ key) ∧
      l = listInsertSorted ⟨key, v⟩ (data.map (fun te => te.2))) := by
  intro data
  induction data with
  | nil =>
    intro _ _
    constructor
    · intro h
      simp [tryExtractInsert] at h
    · intro l hl
      simp only [tryExtractInsert, Option.some.injEq] at hl
      subst hl
      exact ⟨by simp, by simp [listInsertSorted]⟩
  | cons te rest ih =>
    intro hagree hsort
    have hte : key.take ccpl = te.2.k.take ccpl := hagree te (by simp)
    have hcmpeq : ustrcmp (te.2.k.drop ccpl) (key.drop ccpl) =
        ustrcmp te.2.k key :=
      ustrcmp_drop_of_take_eq ccpl te.2.k key hte.symm
    have hsortc : List.Pairwise entLt
        (te.2 :: rest.map (fun te => te.2)) := by
      simpa only [List.map_cons] using hsort
    have hsort2 : List.Pairwise entLt (rest.map (fun te => te.2)) :=
      (List.pairwise_cons.mp hsortc).2
    have hhead := (List.pairwise_cons.mp hsortc).1
    obtain ⟨ih1, ih2⟩ := ih (fun x hx => hagree x (by simp [hx])) hsort2
    constructor
    · intro h
      simp only [tryExtractInsert] at h
      by_cases h0 : ustrcmp (te.2.k.drop ccpl) (key.drop ccpl) = 0
      · refine ⟨te, by simp, ?_⟩
        rw [hcmpeq] at h0
        exact ustrcmp_eq_zero_iff.mp h0
      · rw [if_neg h0] at h
        by_cases h1 : ustrcmp (te.2.k.drop ccpl) (key.drop ccpl) = 1
        · rw [if_pos h1] at h
          cases h
        · rw [if_neg h1] at h
          cases hrec : tryExtractInsert ccpl key v rest with
          | some l2 => rw [hrec] at h; simp at h
          | none =>
            obtain ⟨te2, hte2, hk⟩ := ih1 hrec
            exact ⟨te2, by simp [hte2], hk⟩
    · intro l hl
      simp only [tryExtractInsert] at hl
      by_cases h0 : ustrcmp (te.2.k.drop ccpl) (key.drop ccpl) = 0
      · rw [if_pos h0] at hl
        cases hl
      · rw [if_neg h0] at hl
        have hne : te.2.k ≠ key := by
          intro hc
          rw [hcmpeq, hc, ustrcmp_self] at h0
          exact h0 rfl
        by_cases h1 : ustrcmp (te.2.k.drop ccpl) (key.drop ccpl) = 1
        · rw [if_pos h1] at hl
          simp only [Option.some.injEq] at hl
          subst hl
          have hklt : keyLt key te.2.k := by
            unfold keyLt
            rw [hcmpeq] at h1
            rw [ustrcmp_swap, h1]
          refine ⟨?_, ?_⟩
          · intro x hx
            rcases List.mem_cons.mp hx with rfl | hx2
            · exact hne
            · intro hc
              have h2 : keyLt te.2.k x.2.k :=
                hhead x.2 (List.mem_map_of_mem _ hx2)
              rw [hc] at h2
              exact keyLt_asymm hklt h2
          · simp only [List.map_cons, listInsertSorted]
            rw [if_pos hklt]
        · rw [if_neg h1] at hl
          cases hrec : tryExtractInsert ccpl key v rest with
          | none => rw [hrec] at hl; cases hl
          | some l2 =>
            rw [hrec] at hl
            simp only [Option.map_some', Option.some.injEq] at hl
            subst hl
            obtain ⟨habs2, heq2⟩ := ih2 l2 hrec
            have hkgt : keyLt te.2.k key := by
              rcases ustrcmp_cases te.2.k key with hc | hc | hc
              · exact hc
              · exact absurd (ustrcmp_eq_zero_iff.mp hc) hne
              · rw [← hcmpeq] at hc
                exact absurd hc h1
            refine ⟨?_, ?_⟩
            · intro x hx
              rcases List.mem_cons.mp hx with rfl | hx2
              · exact hne
              · exact habs2 x hx2
            · simp only [List.map_cons, listInsertSorted]
              rw [if_neg (keyLt_asymm hkgt), heq2]

theorem cnodeUpScan_spec {ccpl : Nat} {key : Key} {v : Val} :
    ∀ {data : List (Nat × KVEntry)},
    (∀ te ∈ data, key.take ccpl = te.2.k.take ccpl) →
    (∀ te ∈ data, te.2.k ≠ key) →
    (∀ te ∈ cnodeUpScan ccpl key (hashTag ⟨key, v⟩) data,
      te ∈ data ∨ te = hashTag ⟨key, v⟩) ∧
    (cnodeUpScan ccpl key (hashTag ⟨key, v⟩) data).map (fun te => te.2) =
      listInsertSorted ⟨key, v⟩ (data.map (fun te => te.2)) := by
  intro data
  induction data with
  | nil =>
    intro _ _
    exact ⟨by simp [cnodeUpScan], by simp [cnodeUpScan, listInsertSorted,
      hashTag]⟩
  | cons te rest ih =>
    intro hagree habs
    have hte : key.take ccpl = te.2.k.take ccpl := hagree te (by simp)
    have hcmpeq : ustrcmp (te.2.k.drop ccpl) (key.drop ccpl) =
        ustrcmp te.2.k key :=
      ustrcmp_drop_of_take_eq ccpl te.2.k key hte.symm
    have hne : te.2.k ≠ key := habs te (by simp)
    obtain ⟨ihm, ihe⟩ := ih (fun x hx => hagree x (by simp [hx]))
      (fun x hx => habs x (by simp [hx]))
    simp only [cnodeUpScan]
    by_cases h1 : ustrcmp (te.2.k.drop ccpl) (key.drop ccpl) = 1
    · rw [if_pos h1]
      have hklt : keyLt key te.2.k := by
        unfold keyLt
        rw [hcmpeq] at h1
        rw [ustrcmp_swap, h1]
      refine ⟨?_, ?_⟩
      · intro x hx
        rcases List.mem_cons.mp hx with rfl | hx2
        · exact Or.inr rfl
        · exact Or.inl hx2
      · simp only [List.map_cons, listInsertSorted]
        rw [if_pos hklt]
        rfl
    · rw [if_neg h1]
      have hkgt : keyLt te.2.k key := by
        rcases ustrcmp_cases te.2.k key with hc | hc | hc
        · exact hc
        · exact absurd (ustrcmp_eq_zero_iff.mp hc) hne
        · rw [← hcmpeq] at hc
          exact absurd hc h1
      refine ⟨?_, ?_⟩
      · intro x hx
        rcases List.mem_cons.mp hx with rfl | hx2
        · exact Or.inl (by simp)
        · rcases ihm x hx2 with hm | hm
          · exact Or.inl (by simp [hm])
          · exact Or.inr hm
      · simp only [List.map_cons, listInsertSorted]
        rw [if_neg (keyLt_asymm hkgt), ihe]

theorem tryExtractUpsert_spec {ccpl : Nat} {key : Key} {v : Val} :
    ∀ {data : List (Nat × KVEntry)},
    (∀ te ∈ data, key.take ccpl = te.2.k.take ccpl) →
    List.Pairwise entLt (data.map (fun te => te.2)) →
    (∀ te ∈ data, te.1 = hashStr te.2.k) →
    (∀ d old, tryExtractUpsert ccpl key v data = .updated d old →
      (∃ te ∈ data, te.2.k = key ∧ te.2.v = old) ∧
      (∀ x ∈ d, x.1 = hashStr x.2.k) ∧
      d.map (fun te => te.2) =
        (data.map (fun te => te.2)).map
          (fun e => if e.k = key then ⟨key, v⟩ else e)) ∧
    (∀ l, tryExtractUpsert ccpl key v data = .extracted l →
      (∀ te ∈ data, te.2.k ≠ key) ∧
      l = listInsertSorted ⟨key, v⟩ (data.map (fun te => te.2))) := by
  intro data
  induction data with
  | nil =>
    intro _ _ _
    constructor
    · intro d old h
      cases h
    · intro l hl
      simp only [tryExtractUpsert] at hl
      cases hl
      exact ⟨by simp, by simp [listInsertSorted]⟩
  | cons te rest ih =>
    intro hagree hsort htags
    have hte : key.take ccpl = te.2.k.take ccpl := hagree te (by simp)
    have hcmpeq : ustrcmp (te.2.k.drop ccpl) (key.drop ccpl) =
        ustrcmp te.2.k key :=
      ustrcmp_drop_of_take_eq ccpl te.2.k key hte.symm
    have hsortc : List.Pairwise entLt
        (te.2 :: rest.map (fun te => te.2)) := by
      simpa only [List.map_cons] using hsort
    have hsort2 : List.Pairwise entLt (rest.map (fun te => te.2)) :=
      (List.pairwise_cons.mp hsortc).2
    have hhead := (List.pairwise_cons.mp hsortc).1
    obtain ⟨ihu, ihe⟩ := ih (fun x hx => hagree x (by simp [hx])) hsort2
      (fun x hx => htags x (by simp [hx]))
    constructor
    · intro d old h
      simp only [tryExtractUpsert] at h
      by_cases h0 : ustrcmp (te.2.k.drop ccpl) (key.drop ccpl) = 0
      · rw [if_pos h0] at h
        cases h
        have hkeq : te.2.k = key := by
          rw [hcmpeq] at h0
          exact ustrcmp_eq_zero_iff.mp h0
        refine ⟨⟨te, by simp, hkeq, rfl⟩, ?_, ?_⟩
        · intro x hx
          rcases List.mem_cons.mp hx with rfl | hx2
          · simpa using htags te (by simp)
          · exact htags x (by simp [hx2])
        · have habs : ∀ e ∈ rest.map (fun te => te.2), e.k ≠ key := by
            intro e he hek
            have h2 : keyLt te.2.k e.k := hhead e he
            rw [hkeq, hek] at h2
            exact keyLt_irrefl key h2
          simp only [List.map_cons, if_pos hkeq]
          rw [mapval_id_of_absent habs]
          simp [hkeq]
      · rw [if_neg h0] at h
        have hne : te.2.k ≠ key := by
          intro hc
          rw [hcmpeq, hc, ustrcmp_self] at h0
          exact h0 rfl
        by_cases h1 : ustrcmp (te.2.k.drop ccpl) (key.drop ccpl) = 1
        · rw [if_pos h1] at h
          cases h
        · rw [if_neg h1] at h
          cases hrec : tryExtractUpsert ccpl key v rest with
          | updated d2 old2 =>
            rw [hrec] at h
            injection h with hd hold
            subst hd
            subst hold
            obtain ⟨⟨te2, hte2, hk2, hv2⟩, htags2, heq2⟩ :=
              ihu d2 old2 hrec
            refine ⟨⟨te2, by simp [hte2], hk2, hv2⟩, ?_, ?_⟩
            · intro x hx
              rcases List.mem_cons.mp hx with rfl | hx2
              · exact htags x (by simp)
              · exact htags2 x hx2
            · simp only [List.map_cons, if_neg hne, heq2]
          | extracted l2 =>
            rw [hrec] at h
            cases h
    · intro l hl
      simp only [tryExtractUpsert] at hl
      by_cases h0 : ustrcmp (te.2.k.drop ccpl) (key.drop ccpl) = 0
      · rw [if_pos h0] at hl
        cases hl
      · rw [if_neg h0] at hl
        have hne : te.2.k ≠ key := by
          intro hc
          rw [hcmpeq, hc, ustrcmp_self] at h0
          exact h0 rfl
        by_cases h1 : ustrcmp (te.2.k.drop ccpl) (key.drop ccpl) = 1
        · rw [if_pos h1] at hl
          cases hl
          have hklt : keyLt key te.2.k := by
            unfold keyLt
            rw [hcmpeq] at h1
            rw [ustrcmp_swap, h1]
          refine ⟨?_, ?_⟩
          · intro x hx
            rcases List.mem_cons.mp hx with rfl | hx2
            · exact hne
            · intro hc
              have h2 : keyLt te.2.k x.2.k :=
                hhead x.2 (List.mem_map_of_mem _ hx2)
              rw [hc] at h2
              exact keyLt_asymm hklt h2
          · simp only [List.map_cons, listInsertSorted]
            rw [if_pos hklt]
        · rw [if_neg h1] at hl
          cases hrec : tryExtractUpsert ccpl key v rest with
          | updated d2 old2 =>
            rw [hrec] at hl
            cases hl
          | extracted l2 =>
            rw [hrec] at hl
            cases hl
            obtain ⟨habs2, heq2⟩ := ihe l2 hrec
            have hkgt : keyLt te.2.k key := by
              rcases ustrcmp_cases te.2.k key with hc | hc | hc
              · exact hc
              · exact absurd (ustrcmp_eq_zero_iff.mp hc) hne
              · rw [← hcmpeq] at hc
                exact absurd hc h1
            refine ⟨?_, ?_⟩
            · intro x hx
              rcases List.mem_cons.mp hx with rfl | hx2
              · exact hne
              · exact habs2 x hx2
            · simp only [List.map_cons, listInsertSorted]
              rw [if_neg (keyLt_asymm hkgt), heq2]

/-! ### Terminal insert operations -/

theorem sharedPfx_insSorted {ccpl : Nat} {key : Key} {v : Val}
    {l : List KVEntry} (hsh : SharedPfx ccpl l)
    (hagree : ∀ e ∈ l, key.take ccpl = e.k.take ccpl) :
    SharedPfx ccpl (listInsertSorted ⟨key, v⟩ l) := by
  intro a ha b hb
  rcases listInsertSorted_mem.mp ha with rfl | ha2 <;>
    rcases listInsertSorted_mem.mp hb with rfl | hb2
  · rfl
  · exact hagree b hb2
  · exact (hagree a ha2).symm
  · exact hsh a ha2 b hb2

theorem zfk_insSorted {key : Key} {v : Val} {l : List KVEntry}
    (hz : ZFK l) (hzk : ZFKey key) :
    ZFK (listInsertSorted ⟨key, v⟩ l) := by
  intro a ha
  rcases listInsertSorted_mem.mp ha with rfl | ha2
  · exact hzk
  · exact hz a ha2

/-- `sing_insert` characterization on a prefix-compatible query. -/
theorem sing_insert_spec {e : KVEntry} {key : Key} {v : Val} {ccpl : Nat}
    (hz : ZFKey e.k) (hzk : ZFKey key)
    (hagree : key.take ccpl = e.k.take ccpl) :
    ((sing_insert e key v ccpl).2 = false →
      (sing_insert e key v ccpl).1 = .sing e ∧ e.k = key) ∧
    ((sing_insert e key v ccpl).2 = true →
      e.k ≠ key ∧
      extractItem (sing_insert e key v ccpl).1 =
        listInsertSorted ⟨key, v⟩ [e] ∧
      ∀ hpt : HPT, WF hpt (sing_insert e key v ccpl).1 ccpl) := by
  have hcmpeq : ustrcmp (key.drop ccpl) (e.k.drop ccpl) =
      ustrcmp key e.k :=
    ustrcmp_drop_of_take_eq ccpl key e.k hagree
  have hkk : kvKeycmp e key ccpl = ustrcmp key e.k := hcmpeq
  have hshared2 : SharedPfx ccpl [(⟨key, v⟩ : KVEntry), e] := by
    have hx : ∀ x ∈ [(⟨key, v⟩ : KVEntry), e],
        x.k.take ccpl = key.take ccpl := by
      intro x hx
      rcases List.mem_cons.mp hx with rfl | hx2
      · rfl
      · have : x = e := by simpa using hx2
        subst this
        exact hagree.symm
    intro a ha b hb
    rw [hx a ha, hx b hb]
  rcases ustrcmp_cases key e.k with hc | hc | hc
  · -- key sorts below the stored record
    have h0 : kvKeycmp e key ccpl = -1 := by rw [hkk, hc]
    have hr : sing_insert e key v ccpl =
        (.cnod ⟨ccpl, [hashTag ⟨key, v⟩, hashTag e]⟩, true) := by
      simp [sing_insert, h0]
    rw [hr]
    constructor
    · intro h; simp at h
    · intro _
      have hklt : keyLt key e.k := hc
      refine ⟨(ne_of_keyLt hklt).symm, ?_, ?_⟩
      · simp [extractItem, hashTag, listInsertSorted, hklt]
      · intro hpt
        refine WF.cnod _ _ rfl (by simp) (by simp) ?_ ?_ ?_ ?_
        · intro te hte
          rcases List.mem_cons.mp hte with rfl | hte2
          · rfl
          · have : te = hashTag e := by simpa using hte2
            subst this; rfl
        · simp only [List.map_cons, List.map_nil, hashTag]
          exact List.pairwise_pair.mpr hklt
        · simpa [hashTag] using hshared2
        · intro a ha
          simp only [hashTag, List.map_cons, List.map_nil] at ha
          rcases List.mem_cons.mp ha with rfl | ha2
          · exact hzk
          · have : a = e := by simpa using ha2
            subst this; exact hz
  · -- equal keys: failure
    have h0 : kvKeycmp e key ccpl = 0 := by rw [hkk, hc]
    have hr : sing_insert e key v ccpl = (.sing e, false) := by
      simp [sing_insert, h0]
    rw [hr]
    constructor
    · intro _
      exact ⟨rfl, (ustrcmp_eq_zero_iff.mp hc).symm⟩
    · intro h; simp at h
  · -- key sorts above the stored record
    have h0 : kvKeycmp e key ccpl = 1 := by rw [hkk, hc]
    have hr : sing_insert e key v ccpl =
        (.cnod ⟨ccpl, [hashTag e, hashTag ⟨key, v⟩]⟩, true) := by
      simp [sing_insert, h0]
    rw [hr]
    constructor
    · intro h; simp at h
    · intro _
      have hklt : keyLt e.k key := by
        unfold keyLt
        rw [ustrcmp_swap, hc]
      refine ⟨ne_of_keyLt hklt, ?_, ?_⟩
      · have hnk : ¬ keyLt key e.k := keyLt_asymm hklt
        simp [extractItem, hashTag, listInsertSorted, hnk]
      · intro hpt
        refine WF.cnod _ _ rfl (by simp) (by simp) ?_ ?_ ?_ ?_
        · intro te hte
          rcases List.mem_cons.mp hte with rfl | hte2
          · rfl
          · have : te = hashTag ⟨key, v⟩ := by simpa using hte2
            subst this; rfl
        · simp only [List.map_cons, List.map_nil, hashTag]
          exact List.pairwise_pair.mpr hklt
        · have hx : ∀ x ∈ [e, (⟨key, v⟩ : KVEntry)],
              x.k.take ccpl = key.take ccpl := by
            intro x hx
            rcases List.mem_cons.mp hx with rfl | hx2
            · exact hagree.symm
            · have : x = ⟨key, v⟩ := by simpa using hx2
              subst this
              rfl
          intro a ha b hb
          simp only [hashTag, List.map_cons, List.map_nil] at ha hb
          rw [hx a ha, hx b hb]
        · intro a ha
          simp only [hashTag, List.map_cons, List.map_nil] at ha
          rcases List.mem_cons.mp ha with rfl | ha2
          · exact hz
          · have : a = ⟨key, v⟩ := by simpa using ha2
            subst this; exact hzk

/-- `trie_insert` characterization. -/
theorem trie_insert_spec {t : List KVEntry} {key : Key} {v : Val}
    {ccpl : Nat} (hsort : List.Pairwise entLt t) (hsh : SharedPfx ccpl t)
    (hz : ZFK t) (hzk : ZFKey key)
    (hagree : ∀ e ∈ t, key.take ccpl = e.k.take ccpl) :
    ((trieInsert t key v).2 = false →
      (trieInsert t key v).1 = t ∧ ∃ e ∈ t, e.k = key) ∧
    ((trieInsert t key v).2 = true →
      (∀ e ∈ t, e.k ≠ key) ∧
      (trieInsert t key v).1 = listInsertSorted ⟨key, v⟩ t ∧
      ∀ hpt : HPT, WF hpt (.trie (trieInsert t key v).1) ccpl) := by
  unfold trieInsert
  rw [trieLookup_eq]
  cases hf : t.find? (fun e => e.k == key) with
  | some e =>
    rw [if_pos (by simp)]
    constructor
    · intro _
      refine ⟨rfl, e, List.mem_of_find?_eq_some hf, ?_⟩
      have := List.find?_some hf
      simpa using this
    · intro h; simp at h
  | none =>
    rw [if_neg (by simp)]
    constructor
    · intro h; simp at h
    · intro _
      have habs : ∀ e ∈ t, e.k ≠ key := by
        intro e he hek
        have := List.find?_eq_none.mp hf e he
        simp [hek] at this
      refine ⟨habs, rfl, ?_⟩
      intro hpt
      exact WF.trie _ _ (listInsertSorted_sorted hsort habs)
        (sharedPfx_insSorted hsh hagree) (zfk_insSorted hz hzk)

/-- Packaging of the compact-node well-formedness clauses. -/
theorem WF_cnod_mk (hpt : HPT) (ccpl : Nat) (data : List (Nat × KVEntry))
    (h2 : 2 ≤ data.length) (h16 : data.length ≤ 16)
    (htags : ∀ te ∈ data, te.1 = hashStr te.2.k)
    (hsort : List.Pairwise entLt (data.map (fun te => te.2)))
    (hsh : SharedPfx ccpl (data.map (fun te => te.2)))
    (hzf : ZFK (data.map (fun te => te.2))) :
    WF hpt (.cnod ⟨ccpl, data⟩) ccpl :=
  WF.cnod ⟨ccpl, data⟩ ccpl rfl h2 h16 htags hsort hsh hzf

/-- `cnod_insert` characterization. -/
theorem cnod_insert_spec {hpt : HPT} {pmss : PMSS} {c : Cnode}
    {key : Key} {v : Val}
    (h2 : 2 ≤ c.data.length) (h16 : c.data.length ≤ 16)
    (htags : ∀ te ∈ c.data, te.1 = hashStr te.2.k)
    (hsort : List.Pairwise entLt (c.data.map (fun te => te.2)))
    (hsh : SharedPfx c.ccpl (c.data.map (fun te => te.2)))
    (hzfk : ZFK (c.data.map (fun te => te.2))) (hzk : ZFKey key)
    (hagree : ∀ e ∈ c.data.map (fun te => te.2),
      key.take c.ccpl = e.k.take c.ccpl) :
    ((cnod_insert hpt pmss c key v).2 = false →
      (cnod_insert hpt pmss c key v).1 = .cnod c ∧
      ∃ e ∈ c.data.map (fun te => te.2), e.k = key) ∧
    ((cnod_insert hpt pmss c key v).2 = true →
      (∀ e ∈ c.data.map (fun te => te.2), e.k ≠ key) ∧
      extractItem (cnod_insert hpt pmss c key v).1 =
        listInsertSorted ⟨key, v⟩ (c.data.map (fun te => te.2)) ∧
      WF hpt (cnod_insert hpt pmss c key v).1 c.ccpl) := by
  have hagree2 : ∀ te ∈ c.data, key.take c.ccpl = te.2.k.take c.ccpl :=
    fun te hte => hagree te.2 (List.mem_map_of_mem _ hte)
  by_cases hlen : c.data.length < 16
  · obtain ⟨hs1, hs2⟩ := cnodeInsertScan_spec (v := v) hagree2 hsort
    cases hscan : cnodeInsertScan c.ccpl key (hashTag ⟨key, v⟩) c.data with
    | none =>
      have hr : cnod_insert hpt pmss c key v = (.cnod c, false) := by
        unfold cnod_insert
        rw [if_pos hlen]
        unfold cnode_withRoom_insert
        rw [hscan]
      rw [hr]
      constructor
      · intro _
        obtain ⟨te, hte, hk⟩ := hs1 hscan
        exact ⟨rfl, te.2, List.mem_map_of_mem _ hte, hk⟩
      · intro h; simp at h
    | some d =>
      have hr : cnod_insert hpt pmss c key v =
          (.cnod ⟨c.ccpl, d⟩, true) := by
        unfold cnod_insert
        rw [if_pos hlen]
        unfold cnode_withRoom_insert
        rw [hscan]
      rw [hr]
      obtain ⟨habs, hmem, heq⟩ := hs2 d hscan
      have habs2 : ∀ e ∈ c.data.map (fun te => te.2), e.k ≠ key := by
        intro e he
        obtain ⟨te, hte, rfl⟩ := List.mem_map.mp he
        exact habs te hte
      constructor
      · intro h; simp at h
      · intro _
        have hdlen : d.length = c.data.length + 1 := by
          have h1 : (d.map (fun te => te.2)).length =
              (listInsertSorted ⟨key, v⟩
                (c.data.map (fun te => te.2))).length := by rw [heq]
          rw [List.length_map, listInsertSorted_length, List.length_map]
            at h1
          exact h1
        refine ⟨habs2, ?_, ?_⟩
        · show (⟨c.ccpl, d⟩ : Cnode).data.map (fun te => te.2) = _
          exact heq
        · show WF hpt (.cnod ⟨c.ccpl, d⟩) c.ccpl
          refine WF_cnod_mk hpt c.ccpl d (by omega) (by omega) ?_ ?_ ?_ ?_
          · intro te hte
            rcases hmem te hte with hm | hm
            · exact htags te hm
            · subst hm; rfl
          · rw [heq]
            exact listInsertSorted_sorted hsort habs2
          · rw [heq]
            exact sharedPfx_insSorted hsh hagree
          · rw [heq]
            exact zfk_insSorted hzfk hzk
  · obtain ⟨ht1, ht2⟩ := tryExtractInsert_spec (v := v) hagree2 hsort
    cases hex : tryExtractInsert c.ccpl key v c.data with
    | none =>
      have hr : cnod_insert hpt pmss c key v = (.cnod c, false) := by
        unfold cnod_insert
        rw [if_neg hlen, hex]
      rw [hr]
      constructor
      · intro _
        obtain ⟨te, hte, hk⟩ := ht1 hex
        exact ⟨rfl, te.2, List.mem_map_of_mem _ hte, hk⟩
      · intro h; simp at h
    | some l =>
      obtain ⟨habs, hleq⟩ := ht2 l hex
      have habs2 : ∀ e ∈ c.data.map (fun te => te.2), e.k ≠ key := by
        intro e he
        obtain ⟨te, hte, rfl⟩ := List.mem_map.mp he
        exact habs te hte
      have hllen : l.length = c.data.length + 1 := by
        rw [hleq, listInsertSorted_length, List.length_map]
      have htake : l.take 17 = l := List.take_of_length_le (by omega)
      have hr : cnod_insert hpt pmss c key v =
          (pmssBulk hpt pmss l c.ccpl, true) := by
        unfold cnod_insert
        rw [if_neg hlen, hex]
        show (pmssBulk hpt pmss (l.take 17) c.ccpl, true) = _
        rw [htake]
      rw [hr]
      have hlne : l ≠ [] := by
        intro hcon
        rw [hcon] at hllen
        simp at hllen
      obtain ⟨hwfb, hexb⟩ := pmssBulk_spec hpt pmss l c.ccpl hlne
        (hleq ▸ listInsertSorted_sorted hsort habs2)
        (hleq ▸ sharedPfx_insSorted hsh hagree)
        (hleq ▸ zfk_insSorted hzfk hzk)
      constructor
      · intro h; simp at h
      · intro _
        refine ⟨habs2, ?_, hwfb⟩
        rw [hexb, hleq]

/-! ### The insert descent: effect and preservation -/

/-- `LITS::_insert` together with its `change_num` walk, on a well-formed
subtree: a failing insert returns the subtree unchanged with the key
present; a successful insert has the key absent, splices the new record
into the extraction in sorted position, and after the count walk the
subtree is well-formed again with exactly those records. -/
theorem insertItem_spec {hpt : HPT} {pmss : PMSS} (mono : MonoModel hpt)
    {it : Item} {ccpl : Nat} (hwf : WF hpt it ccpl) :
    ∀ (key : Key) (v : Val), ZFKey key →
    (∀ e ∈ extractItem it, key.take ccpl = e.k.take ccpl) →
    ((insertItem hpt pmss it key v ccpl).2.1 = false →
      (insertItem hpt pmss it key v ccpl).1 = it ∧
      ∃ e ∈ extractItem it, e.k = key) ∧
    ((insertItem hpt pmss it key v ccpl).2.1 = true →
      (∀ e ∈ extractItem it, e.k ≠ key) ∧
      extractItem (insertItem hpt pmss it key v ccpl).1 =
        listInsertSorted ⟨key, v⟩ (extractItem it) ∧
      WF hpt (changeNum hpt pmss 1 (insertItem hpt pmss it key v ccpl).1
        (insertItem hpt pmss it key v ccpl).2.2) ccpl ∧
      extractItem (changeNum hpt pmss 1
          (insertItem hpt pmss it key v ccpl).1
          (insertItem hpt pmss it key v ccpl).2.2) =
        listInsertSorted ⟨key, v⟩ (extractItem it)) := by
  induction hwf with
  | null ccpl =>
    intro key v hzk hagree
    constructor
    · intro h
      simp [insertItem] at h
    · intro _
      refine ⟨by simp [extractItem], ?_, ?_, ?_⟩
      · simp [insertItem, extractItem, listInsertSorted]
      · simp only [insertItem, changeNum]
        exact WF.sing _ _ hzk
      · simp [insertItem, changeNum, extractItem, listInsertSorted]
  | sing e ccpl hz =>
    intro key v hzk hagree
    have hagree0 : key.take ccpl = e.k.take ccpl :=
      hagree e (by simp [extractItem])
    obtain ⟨sf, ss⟩ := sing_insert_spec (v := v) hz hzk hagree0
    simp only [insertItem]
    constructor
    · intro h
      obtain ⟨hid, hpres⟩ := sf h
      refine ⟨?_, e, by simp [extractItem], hpres⟩
      show (sing_insert e key v ccpl).1 = _
      rw [hid]
    · intro h
      obtain ⟨hne, heff, hwf2⟩ := ss h
      refine ⟨?_, ?_, ?_, ?_⟩
      · intro x hx
        have : x = e := by simpa [extractItem] using hx
        subst this
        exact hne
      · simpa [extractItem] using heff
      · simp only [changeNum]
        exact hwf2 hpt
      · simp only [changeNum]
        simpa [extractItem] using heff
  | cnod c ccpl hcc h2 h16 htags hsort hsh hzfk =>
    intro key v hzk hagree
    subst hcc
    simp only [extractItem] at hagree ⊢
    obtain ⟨cf, cs⟩ := @cnod_insert_spec hpt pmss c key v
      h2 h16 htags hsort hsh hzfk hzk hagree
    simp only [insertItem]
    constructor
    · intro h
      obtain ⟨hid, hpres⟩ := cf h
      exact ⟨hid, hpres⟩
    · intro h
      obtain ⟨habs, heff, hwf2⟩ := cs h
      refine ⟨habs, heff, ?_, ?_⟩
      · simp only [changeNum]
        exact hwf2
      · simp only [changeNum]
        exact heff
  | trie t ccpl hsort hsh hzfk =>
    intro key v hzk hagree
    simp only [extractItem] at hagree ⊢
    obtain ⟨tf, ts⟩ := trie_insert_spec (v := v) hsort hsh hzfk hzk hagree
    simp only [insertItem]
    constructor
    · intro h
      obtain ⟨hid, hpres⟩ := tf h
      refine ⟨?_, hpres⟩
      show Item.trie (trieInsert t key v).1 = _
      rw [hid]
    · intro h
      obtain ⟨habs, heff, hwf2⟩ := ts h
      refine ⟨habs, ?_, ?_, ?_⟩
      · simpa [extractItem] using heff
      · simp only [changeNum]
        exact hwf2 hpt
      · simp only [changeNum]
        simpa [extractItem] using heff
  | mult nk s b pfx items ccpl h34N hCnt hUf hzfp hWFc hPred hsort hsh hzfk ih =>
    intro key v hzk hagree
    have h3N : 3 ≤ items.length := by omega
    simp only [extractItem] at hagree ⊢
    simp only [insertItem]
    obtain ⟨hsnd, hfstlt⟩ :=
      predictPos_snd_slot hpt items.length s b pfx key ccpl h3N
    generalize hpcg : predictPos hpt items.length s b pfx key ccpl = pc
      at hsnd hfstlt ⊢
    have hgetlt : pc.1 < items.length := hfstlt
    have hchild : items[pc.1]? = some items[pc.1] :=
      List.getElem?_eq_getElem hgetlt
    have hgd : items.getD pc.1 Item.null = items[pc.1] :=
      getD_eq_getElem_item hgetlt
    rw [hgd]
    set ch := items[pc.1] with hch
    have hWFch : WF hpt ch (slotCcpl ccpl pfx.length items.length pc.1) :=
      hWFc pc.1 ch hchild
    rw [← hsnd] at hWFch
    -- the query agrees with the child's records at the child's ccpl
    have hagreech : ∀ e ∈ extractItem ch,
        key.take pc.2 = e.k.take pc.2 := by
      intro e2 he2
      have hxe : key.take ccpl = e2.k.take ccpl :=
        hagree e2 (mem_extractItems.mpr ⟨pc.1, ch, hchild, he2⟩)
      rcases predictPos_cases hpt items.length s b pfx key ccpl with
        ⟨_, _, hp⟩ | ⟨_, _, hp⟩ | ⟨hcond, hsnd2, h1b, h2b⟩
      · rw [hpcg] at hp
        rw [hp]
        exact hxe
      · rw [hpcg] at hp
        rw [hp]
        exact hxe
      · rw [hpcg] at hsnd2 h1b h2b
        rw [hsnd2]
        by_cases hpl : pfx.length = 0
        · simpa [hpl] using hxe
        · have hcmpx : ustrcmpN pfx (key.drop ccpl) pfx.length = 0 :=
            hcond.resolve_left hpl
          have h2b' := h2b h3N
          have hslot : slotCcpl ccpl pfx.length items.length pc.1 =
              ccpl + pfx.length := by
            unfold slotCcpl
            rw [if_neg (by omega)]
          have hpe := hPred pc.1 ch hchild e2 he2
          rw [hslot] at hpe
          have hcmpe : ustrcmpN pfx (e2.k.drop ccpl) pfx.length = 0 := by
            rcases predictPos_cases hpt items.length s b pfx e2.k ccpl with
              ⟨_, _, hq⟩ | ⟨_, _, hq⟩ | ⟨hc2, _, _, _⟩
            · rw [hq] at hpe
              have hf := (Prod.ext_iff.mp hpe).1
              omega
            · rw [hq] at hpe
              have hf := (Prod.ext_iff.mp hpe).1
              omega
            · exact hc2.resolve_left hpl
          exact take_add_of_match hzfp hxe hcmpx hcmpe
    have ihch := ih pc.1 ch hchild key v hzk
      (by rw [hsnd] at hagreech; exact hagreech)
    rw [← hsnd] at ihch
    obtain ⟨ihf, ihs⟩ := ihch
    constructor
    · -- failure bubbles up unchanged
      intro hfail
      have hf2 : (insertItem hpt pmss ch key v pc.2).2.1 = false := hfail
      obtain ⟨hid, hpres⟩ := ihf hf2
      constructor
      · show Item.mult nk s b pfx
          (items.set pc.1 (insertItem hpt pmss ch key v pc.2).1) = _
        rw [hid, hch]
        rw [← getD_eq_getElem_item hgetlt, set_getD_self hgetlt]
      · obtain ⟨e2, he2, hek⟩ := hpres
        exact ⟨e2, mem_extractItems.mpr ⟨pc.1, ch, hchild, he2⟩, hek⟩
    · -- success: splice and re-establish the invariant
      intro hsucc
      have hs2 : (insertItem hpt pmss ch key v pc.2).2.1 = true := hsucc
      obtain ⟨habsch, heffch, hwfcn, hexcn⟩ := ihs hs2
      set r1 := (insertItem hpt pmss ch key v pc.2).1 with hr1
      set rpath := (insertItem hpt pmss ch key v pc.2).2.2 with hrpath
      -- global absence of the key
      have habs : ∀ e2 ∈ extractItems items, e2.k ≠ key := by
        intro e2 he2 hek
        obtain ⟨j, c2, hj, hec2⟩ := mem_extractItems.mp he2
        have hpe := hPred j c2 hj e2 hec2
        rw [hek, hpcg] at hpe
        have hj2 : j = pc.1 := by rw [hpe]
        subst hj2
        rw [hchild] at hj
        have hc2 : ch = c2 := Option.some.inj hj
        rw [← hc2] at hec2
        exact habsch e2 hec2 hek
      -- slot-order facts around the insertion point
      have hsplit := @extractItems_split items pc.1 hgetlt
      rw [getD_eq_getElem_item hgetlt, ← hch] at hsplit
      have hAlt : ∀ a ∈ extractItems (items.take pc.1),
          keyLt a.k key := by
        intro a ha
        obtain ⟨i, c2, hij, hi, hac2⟩ := mem_extract_take ha
        have hamem : a ∈ extractItems items :=
          mem_extractItems.mpr ⟨i, c2, hi, hac2⟩
        have hane : a.k ≠ key := habs a hamem
        have hnlt : ¬ keyLt key a.k := by
          intro hlt
          have hmono := mono items.length s b pfx key a.k ccpl h3N hlt
            (hagree a hamem)
          rw [hpcg] at hmono
          have hpa := hPred i c2 hi a hac2
          rw [hpa] at hmono
          simp at hmono
          omega
        exact keyLt_of_not_lt_of_ne hnlt hane
      have hClt : ∀ c3 ∈ extractItems (items.drop (pc.1 + 1)),
          keyLt key c3.k := by
        intro c3 hc3
        obtain ⟨i, c2, hij, hi, hac2⟩ := mem_extract_drop hc3
        have hamem : c3 ∈ extractItems items :=
          mem_extractItems.mpr ⟨i, c2, hi, hac2⟩
        have hane : c3.k ≠ key := habs c3 hamem
        have hnlt : ¬ keyLt c3.k key := by
          intro hlt
          have hmono := mono items.length s b pfx c3.k key ccpl h3N hlt
            (hagree c3 hamem).symm
          rw [hpcg] at hmono
          have hpa := hPred i c2 hi c3 hac2
          rw [hpa] at hmono
          simp at hmono
          omega
        exact keyLt_of_not_lt_of_ne hnlt (fun hc => hane hc.symm)
      -- the spliced extraction, for any replacement child that extracts
      -- to the spliced child batch
      have heffgen : ∀ c4 : Item, extractItem c4 =
          listInsertSorted ⟨key, v⟩ (extractItem ch) →
          extractItems (items.set pc.1 c4) =
            listInsertSorted ⟨key, v⟩ (extractItems items) := by
        intro c4 hc4
        rw [extractItems_set_decomp c4 hgetlt, hc4, hsplit]
        rw [listInsertSorted_append_right hClt,
          listInsertSorted_append_left hAlt]
      have heffraw := heffgen r1 heffch
      have hsortnew : List.Pairwise entLt
          (listInsertSorted ⟨key, v⟩ (extractItems items)) :=
        listInsertSorted_sorted hsort habs
      have hshnew : SharedPfx ccpl
          (listInsertSorted ⟨key, v⟩ (extractItems items)) :=
        sharedPfx_insSorted hsh hagree
      have hzfknew : ZFK
          (listInsertSorted ⟨key, v⟩ (extractItems items)) :=
        zfk_insSorted hzfk hzk
      -- the count walk on the rebuilt spine
      have h10 : ((1 : Int) > 0) = True := by norm_num
      have hfin : WF hpt (changeNum hpt pmss 1
            (.mult nk s b pfx (items.set pc.1 r1))
            ((pc.1, ccpl) :: rpath)) ccpl ∧
          extractItem (changeNum hpt pmss 1
            (.mult nk s b pfx (items.set pc.1 r1))
            ((pc.1, ccpl) :: rpath)) =
            listInsertSorted ⟨key, v⟩ (extractItems items) := by
        simp only [changeNum, h10, if_true]
        by_cases hth : 2 * (items.set pc.1 r1).length ≤ nk + 1 ∨
            4 * (nk + 1) ≤ (items.set pc.1 r1).length
        · rw [if_pos hth]
          have hlennew : (extractItems (items.set pc.1 r1)).length =
              (extractItems items).length + 1 := by
            rw [heffraw, listInsertSorted_length]
          have htk : (extractItems (items.set pc.1 r1)).take (nk + 1) =
              extractItems (items.set pc.1 r1) :=
            List.take_of_length_le (by omega)
          rw [htk, heffraw]
          have hnenew :
              listInsertSorted ⟨key, v⟩ (extractItems items) ≠ [] := by
            intro hcon
            have hl := listInsertSorted_length (⟨key, v⟩ : KVEntry)
              (extractItems items)
            rw [hcon] at hl
            simp at hl
          exact pmssBulk_spec hpt pmss _ ccpl hnenew hsortnew hshnew
            hzfknew
        · rw [if_neg hth]
          have hgd1 : (items.set pc.1 r1).getD pc.1 Item.null = r1 := by
            rw [List.getD, List.get?_eq_getElem?,
              List.getElem?_set_self hgetlt]
            rfl
          rw [hgd1, List.set_set]
          have heff2 := heffgen (changeNum hpt pmss 1 r1 rpath) hexcn
          constructor
          · refine WF.mult _ _ _ _ _ _ ?_ ?_ ?_ hzfp ?_ ?_ ?_ ?_ ?_
            · simp only [List.length_set]
              exact h34N
            · rw [heff2, listInsertSorted_length]
              omega
            · simp only [List.length_set]
              rw [List.length_set] at hth
              omega
            · intro i child2 hi2
              simp only [List.length_set]
              by_cases hieq : i = pc.1
              · subst hieq
                rw [List.getElem?_set_self hgetlt] at hi2
                obtain rfl := Option.some.inj hi2
                rw [hsnd] at hwfcn
                exact hwfcn
              · rw [List.getElem?_set_ne (Ne.symm hieq)] at hi2
                exact hWFc i child2 hi2
            · intro i child2 hi2 e2 he2
              simp only [List.length_set]
              by_cases hieq : i = pc.1
              · subst hieq
                rw [List.getElem?_set_self hgetlt] at hi2
                obtain rfl := Option.some.inj hi2
                rw [hexcn] at he2
                rcases listInsertSorted_mem.mp he2 with rfl | he3
                · show predictPos hpt items.length s b pfx key ccpl = _
                  rw [hpcg, ← hsnd]
                · exact hPred pc.1 ch hchild e2 he3
              · rw [List.getElem?_set_ne (Ne.symm hieq)] at hi2
                exact hPred i child2 hi2 e2 he2
            · rw [heff2]
              exact hsortnew
            · rw [heff2]
              exact hshnew
            · rw [heff2]
              exact hzfknew
          · show extractItems (items.set pc.1
                (changeNum hpt pmss 1 r1 rpath)) = _
            exact heff2
      exact ⟨habs, heffraw, hfin.1, hfin.2⟩

/-! ### Terminal remove operations -/

theorem sorted_key_unique {l : List KVEntry}
    (hs : List.Pairwise entLt l) :
    ∀ e1 ∈ l, ∀ e2 ∈ l, e1.k = e2.k → e1 = e2 := by
  induction l with
  | nil => intro e1 h; cases h
  | cons a rest ih =>
    intro e1 h1 e2 h2 hk
    obtain ⟨ha, hrest⟩ := List.pairwise_cons.mp hs
    rcases List.mem_cons.mp h1 with rfl | h1b <;>
      rcases List.mem_cons.mp h2 with rfl | h2b
    · rfl
    · have h3 : keyLt e1.k e2.k := ha e2 h2b
      rw [hk] at h3
      exact absurd h3 (keyLt_irrefl _)
    · have h3 : keyLt e2.k e1.k := ha e1 h1b
      rw [hk] at h3
      exact absurd h3 (keyLt_irrefl _)
    · exact ih hrest e1 h1b e2 h2b hk

/-- `sing_remove` characterization on a prefix-compatible query. -/
theorem sing_remove_spec {e : KVEntry} {key : Key} {ccpl : Nat}
    (hagree : key.take ccpl = e.k.take ccpl) :
    ((sing_remove e key ccpl).2 = false →
      (sing_remove e key ccpl).1 = .sing e ∧ e.k ≠ key) ∧
    ((sing_remove e key ccpl).2 = true →
      e.k = key ∧ (sing_remove e key ccpl).1 = .null) := by
  have hcmpeq : ustrcmp (key.drop ccpl) (e.k.drop ccpl) =
      ustrcmp key e.k :=
    ustrcmp_drop_of_take_eq ccpl key e.k hagree
  have hkk : kvKeycmp e key ccpl = ustrcmp key e.k := hcmpeq
  by_cases h0 : kvKeycmp e key ccpl = 0
  · have hr : sing_remove e key ccpl = (.null, true) := by
      simp [sing_remove, h0]
    rw [hr]
    constructor
    · intro h; simp at h
    · intro _
      rw [hkk] at h0
      exact ⟨(ustrcmp_eq_zero_iff.mp h0).symm, rfl⟩
  · have hr : sing_remove e key ccpl = (.sing e, false) := by
      simp [sing_remove, h0]
    rw [hr]
    constructor
    · intro _
      refine ⟨rfl, ?_⟩
      intro hc
      rw [hkk, hc, ustrcmp_self] at h0
      exact h0 rfl
    · intro h; simp at h

/-- `trie_remove` characterization. -/
theorem trie_remove_spec {t : List KVEntry} {key : Key} {ccpl : Nat}
    (hsort : List.Pairwise entLt t) (hsh : SharedPfx ccpl t)
    (hz : ZFK t) :
    ((trieRemove t key).2 = false →
      (trieRemove t key).1 = t ∧ ∀ e ∈ t, e.k ≠ key) ∧
    ((trieRemove t key).2 = true →
      (∃ e ∈ t, e.k = key) ∧
      (trieRemove t key).1 = t.eraseP (fun e => e.k == key) ∧
      ∀ hpt : HPT, WF hpt (.trie (trieRemove t key).1) ccpl) := by
  have hpe : ∀ e ∈ t, (ustrcmp key e.k == 0) = (e.k == key) := by
    intro e _
    by_cases he : e.k = key
    · simp [he, ustrcmp_self]
    · have h1 : ustrcmp key e.k ≠ 0 := fun hc =>
        he (ustrcmp_eq_zero_iff.mp hc).symm
      simp [he, h1]
  unfold trieRemove
  rw [trieLookup_eq]
  cases hf : t.find? (fun e => e.k == key) with
  | some e =>
    rw [if_pos (by simp)]
    constructor
    · intro h; simp at h
    · intro _
      refine ⟨⟨e, List.mem_of_find?_eq_some hf, by
        have := List.find?_some hf
        simpa using this⟩, ?_, ?_⟩
      · exact eraseP_ext hpe
      · intro hpt
        rw [eraseP_ext hpe]
        refine WF.trie _ _ ?_ ?_ ?_
        · exact List.Pairwise.sublist (List.eraseP_sublist t) hsort
        · intro a ha b hb
          exact hsh a ((List.eraseP_sublist t).subset ha) b
            ((List.eraseP_sublist t).subset hb)
        · intro a ha
          exact hz a ((List.eraseP_sublist t).subset ha)
  | none =>
    rw [if_neg (by simp)]
    constructor
    · intro _
      refine ⟨rfl, ?_⟩
      intro e he hek
      have := List.find?_eq_none.mp hf e he
      simp [hek] at this
    · intro h; simp at h

/-- `cnod_remove` characterization. -/
theorem cnod_remove_spec {c : Cnode} {key : Key}
    (h2 : 2 ≤ c.data.length) (h16 : c.data.length ≤ 16)
    (htags : ∀ te ∈ c.data, te.1 = hashStr te.2.k)
    (hsort : List.Pairwise entLt (c.data.map (fun te => te.2)))
    (hsh : SharedPfx c.ccpl (c.data.map (fun te => te.2)))
    (hzfk : ZFK (c.data.map (fun te => te.2)))
    (hagree : ∀ e ∈ c.data.map (fun te => te.2),
      key.take c.ccpl = e.k.take c.ccpl) :
    ((cnod_remove c key).2 = false →
      (cnod_remove c key).1 = .cnod c ∧
      ∀ e ∈ c.data.map (fun te => te.2), e.k ≠ key) ∧
    ((cnod_remove c key).2 = true →
      (∃ e ∈ c.data.map (fun te => te.2), e.k = key) ∧
      extractItem (cnod_remove c key).1 =
        (c.data.map (fun te => te.2)).eraseP (fun e => e.k == key) ∧
      ∀ hpt : HPT, WF hpt (cnod_remove c key).1 c.ccpl) := by
  have hmatch : ∀ te ∈ c.data,
      cnodeMatch key c.ccpl te = (te.2.k == key) := by
    intro te hte
    exact cnodeMatch_iff (htags te hte)
      (hagree te.2 (List.mem_map_of_mem _ hte))
  have hfind : c.data.find? (cnodeMatch key c.ccpl) =
      c.data.find? (fun te => te.2.k == key) :=
    find?_ext _ _ _ hmatch
  by_cases hlen : 2 < c.data.length
  · -- plain removal, the node keeps at least two records
    cases hf : c.data.find? (fun te => te.2.k == key) with
    | none =>
      have hr : cnod_remove c key = (.cnod c, false) := by
        unfold cnod_remove
        rw [if_pos hlen]
        unfold cnode_withRoom_remove
        rw [hfind, hf]
        simp
      rw [hr]
      constructor
      · intro _
        refine ⟨rfl, ?_⟩
        intro e he hek
        obtain ⟨te, hte, rfl⟩ := List.mem_map.mp he
        have := List.find?_eq_none.mp hf te hte
        simp [hek] at this
      · intro h; simp at h
    | some te0 =>
      have hr : cnod_remove c key =
          (.cnod ⟨c.ccpl, c.data.eraseP (cnodeMatch key c.ccpl)⟩,
            true) := by
        unfold cnod_remove
        rw [if_pos hlen]
        unfold cnode_withRoom_remove
        rw [hfind, hf]
        simp
      rw [hr]
      have hte0 : te0 ∈ c.data := List.mem_of_find?_eq_some hf
      have hk0 : te0.2.k = key := by
        have := List.find?_some hf
        simpa using this
      have herase : c.data.eraseP (cnodeMatch key c.ccpl) =
          c.data.eraseP (fun te => te.2.k == key) := eraseP_ext hmatch
      have hcomm : (c.data.eraseP (fun te => te.2.k == key)).map
          (fun te => te.2) =
          (c.data.map (fun te => te.2)).eraseP (fun e => e.k == key) :=
        eraseP_map_comm _ _ _ _ (fun a _ => rfl)
      have hlene : (c.data.eraseP (fun te => te.2.k == key)).length =
          c.data.length - 1 :=
        List.length_eraseP_of_mem hte0 (by simp [hk0])
      constructor
      · intro h; simp at h
      · intro _
        refine ⟨⟨te0.2, List.mem_map_of_mem _ hte0, hk0⟩, ?_, ?_⟩
        · show (⟨c.ccpl, c.data.eraseP (cnodeMatch key c.ccpl)⟩ :
              Cnode).data.map (fun te => te.2) = _
          rw [herase, hcomm]
        · intro hpt
          show WF hpt (.cnod ⟨c.ccpl,
            c.data.eraseP (cnodeMatch key c.ccpl)⟩) c.ccpl
          rw [herase]
          refine WF_cnod_mk hpt c.ccpl _ (by omega) ?_ ?_ ?_ ?_ ?_
          · rw [hlene]; omega
          · intro te hte
            exact htags te ((List.eraseP_sublist c.data).subset hte)
          · rw [hcomm]
            exact List.Pairwise.sublist (List.eraseP_sublist _) hsort
          · rw [hcomm]
            intro a ha b hb
            exact hsh a ((List.eraseP_sublist _).subset ha) b
              ((List.eraseP_sublist _).subset hb)
          · rw [hcomm]
            intro a ha
            exact hzfk a ((List.eraseP_sublist _).subset ha)
  · -- exactly two records: degrade to a bare single entry
    have hlen2 : c.data.length = 2 := by omega
    obtain ⟨te0, te1, hdata⟩ := List.length_eq_two.mp hlen2
    have hm0 : cnodeMatch key c.ccpl te0 = (te0.2.k == key) :=
      hmatch te0 (by rw [hdata]; simp)
    have hm1 : cnodeMatch key c.ccpl te1 = (te1.2.k == key) :=
      hmatch te1 (by rw [hdata]; simp)
    have hz0 : ZFKey te0.2.k := hzfk te0.2 (by rw [hdata]; simp)
    have hz1 : ZFKey te1.2.k := hzfk te1.2 (by rw [hdata]; simp)
    by_cases hk0 : te0.2.k = key
    · have hdeg : cnode_degrade c key = some te1.2 := by
        unfold cnode_degrade
        rw [hdata]
        show (if cnodeMatch key c.ccpl te0 then some te1.2
          else if cnodeMatch key c.ccpl te1 then some te0.2
          else none) = some te1.2
        rw [if_pos (by rw [hm0]; simp [hk0])]
      have hr : cnod_remove c key = (.sing te1.2, true) := by
        unfold cnod_remove
        rw [if_neg hlen, hdeg]
      rw [hr]
      constructor
      · intro h; simp at h
      · intro _
        refine ⟨⟨te0.2, by rw [hdata]; simp, hk0⟩, ?_, ?_⟩
        · rw [hdata]
          simp only [List.map_cons, List.map_nil, extractItem]
          rw [List.eraseP_cons_of_pos (by simp [hk0])]
        · intro hpt
          exact WF.sing _ _ hz1
    · by_cases hk1 : te1.2.k = key
      · have hdeg : cnode_degrade c key = some te0.2 := by
          unfold cnode_degrade
          rw [hdata]
          show (if cnodeMatch key c.ccpl te0 then some te1.2
            else if cnodeMatch key c.ccpl te1 then some te0.2
            else none) = some te0.2
          rw [if_neg (by rw [hm0]; simp [hk0]),
            if_pos (by rw [hm1]; simp [hk1])]
        have hr : cnod_remove c key = (.sing te0.2, true) := by
          unfold cnod_remove
          rw [if_neg hlen, hdeg]
        rw [hr]
        constructor
        · intro h; simp at h
        · intro _
          refine ⟨⟨te1.2, by rw [hdata]; simp, hk1⟩, ?_, ?_⟩
          · rw [hdata]
            simp only [List.map_cons, List.map_nil, extractItem]
            rw [List.eraseP_cons_of_neg (by simp [hk0]),
              List.eraseP_cons_of_pos (by simp [hk1])]
          · intro hpt
            exact WF.sing _ _ hz0
      · have hdeg : cnode_degrade c key = none := by
          unfold cnode_degrade
          rw [hdata]
          show (if cnodeMatch key c.ccpl te0 then some te1.2
            else if cnodeMatch key c.ccpl te1 then some te0.2
            else none) = none
          rw [if_neg (by rw [hm0]; simp [hk0]),
            if_neg (by rw [hm1]; simp [hk1])]
        have hr : cnod_remove c key = (.cnod c, false) := by
          unfold cnod_remove
          rw [if_neg hlen, hdeg]
        rw [hr]
        constructor
        · intro _
          refine ⟨rfl, ?_⟩
          intro e he hek
          rw [hdata] at he
          simp only [List.map_cons, List.map_nil] at he
          rcases List.mem_cons.mp he with rfl | he2
          · exact hk0 hek
          · have : e = te1.2 := by simpa using he2
            subst this
            exact hk1 hek
        · intro h; simp at h

/-! ### The remove descent: effect and preservation -/

/-- `LITS::_remove` together with its `change_num` walk, on a well-formed
subtree: a failing remove returns the subtree unchanged with the key
absent; a successful remove has the key present, erases exactly its
record, and after the count walk the subtree is well-formed again. -/
theorem removeItem_spec {hpt : HPT} {pmss : PMSS}
    {it : Item} {ccpl : Nat} (hwf : WF hpt it ccpl) :
    ∀ key : Key,
    (∀ e ∈ extractItem it, key.take ccpl = e.k.take ccpl) →
    ((removeItem hpt pmss it key ccpl).2.1 = false →
      (removeItem hpt pmss it key ccpl).1 = it ∧
      ∀ e ∈ extractItem it, e.k ≠ key) ∧
    ((removeItem hpt pmss it key ccpl).2.1 = true →
      (∃ e ∈ extractItem it, e.k = key) ∧
      extractItem (removeItem hpt pmss it key ccpl).1 =
        (extractItem it).eraseP (fun e => e.k == key) ∧
      WF hpt (changeNum hpt pmss (-1) (removeItem hpt pmss it key ccpl).1
        (removeItem hpt pmss it key ccpl).2.2) ccpl ∧
      extractItem (changeNum hpt pmss (-1)
          (removeItem hpt pmss it key ccpl).1
          (removeItem hpt pmss it key ccpl).2.2) =
        (extractItem it).eraseP (fun e => e.k == key)) := by
  induction hwf with
  | null ccpl =>
    intro key hagree
    constructor
    · intro _
      refine ⟨?_, by simp [extractItem]⟩
      simp [removeItem]
    · intro h
      simp [removeItem] at h
  | sing e ccpl hz =>
    intro key hagree
    have hagree0 : key.take ccpl = e.k.take ccpl :=
      hagree e (by simp [extractItem])
    obtain ⟨sf, ss⟩ := sing_remove_spec hagree0
    simp only [removeItem]
    constructor
    · intro h
      obtain ⟨hid, hne⟩ := sf h
      refine ⟨?_, ?_⟩
      · show (sing_remove e key ccpl).1 = _
        rw [hid]
      · intro x hx
        have : x = e := by simpa [extractItem] using hx
        subst this
        exact hne
    · intro h
      obtain ⟨hkeq, hid⟩ := ss h
      refine ⟨⟨e, by simp [extractItem], hkeq⟩, ?_, ?_, ?_⟩
      · show extractItem (sing_remove e key ccpl).1 = _
        rw [hid]
        simp only [extractItem]
        rw [List.eraseP_cons_of_pos (by simp [hkeq])]
      · simp only [changeNum]
        show WF hpt (sing_remove e key ccpl).1 ccpl
        rw [hid]
        exact WF.null ccpl
      · simp only [changeNum]
        show extractItem (sing_remove e key ccpl).1 = _
        rw [hid]
        simp only [extractItem]
        rw [List.eraseP_cons_of_pos (by simp [hkeq])]
  | cnod c ccpl hcc h2 h16 htags hsort hsh hzfk =>
    intro key hagree
    subst hcc
    simp only [extractItem] at hagree ⊢
    obtain ⟨cf, cs⟩ := cnod_remove_spec h2 h16 htags hsort hsh hzfk hagree
    simp only [removeItem]
    constructor
    · intro h
      exact cf h
    · intro h
      obtain ⟨hpres, heff, hwf2⟩ := cs h
      exact ⟨hpres, heff, by simp only [changeNum]; exact hwf2 hpt,
        by simp only [changeNum]; exact heff⟩
  | trie t ccpl hsort hsh hzfk =>
    intro key hagree
    simp only [extractItem] at hagree ⊢
    obtain ⟨tf, ts⟩ := @trie_remove_spec t key ccpl hsort hsh hzfk
    simp only [removeItem]
    constructor
    · intro h
      obtain ⟨hid, habs⟩ := tf h
      refine ⟨?_, habs⟩
      show Item.trie (trieRemove t key).1 = _
      rw [hid]
    · intro h
      obtain ⟨hpres, heff, hwf2⟩ := ts h
      refine ⟨hpres, ?_, ?_, ?_⟩
      · simpa [extractItem] using heff
      · simp only [changeNum]
        exact hwf2 hpt
      · simp only [changeNum]
        simpa [extractItem] using heff
  | mult nk s b pfx items ccpl h34N hCnt hUf hzfp hWFc hPred hsort hsh hzfk ih =>
    intro key hagree
    have h3N : 3 ≤ items.length := by omega
    simp only [extractItem] at hagree ⊢
    simp only [removeItem]
    obtain ⟨hsnd, hfstlt⟩ :=
      predictPos_snd_slot hpt items.length s b pfx key ccpl h3N
    generalize hpcg : predictPos hpt items.length s b pfx key ccpl = pc
      at hsnd hfstlt ⊢
    have hgetlt : pc.1 < items.length := hfstlt
    have hchild : items[pc.1]? = some items[pc.1] :=
      List.getElem?_eq_getElem hgetlt
    have hgd : items.getD pc.1 Item.null = items[pc.1] :=
      getD_eq_getElem_item hgetlt
    rw [hgd]
    set ch := items[pc.1] with hch
    have hWFch : WF hpt ch (slotCcpl ccpl pfx.length items.length pc.1) :=
      hWFc pc.1 ch hchild
    rw [← hsnd] at hWFch
    have hagreech : ∀ e ∈ extractItem ch,
        key.take pc.2 = e.k.take pc.2 := by
      intro e2 he2
      have hxe : key.take ccpl = e2.k.take ccpl :=
        hagree e2 (mem_extractItems.mpr ⟨pc.1, ch, hchild, he2⟩)
      rcases predictPos_cases hpt items.length s b pfx key ccpl with
        ⟨_, _, hp⟩ | ⟨_, _, hp⟩ | ⟨hcond, hsnd2, h1b, h2b⟩
      · rw [hpcg] at hp
        rw [hp]
        exact hxe
      · rw [hpcg] at hp
        rw [hp]
        exact hxe
      · rw [hpcg] at hsnd2 h1b h2b
        rw [hsnd2]
        by_cases hpl : pfx.length = 0
        · simpa [hpl] using hxe
        · have hcmpx : ustrcmpN pfx (key.drop ccpl) pfx.length = 0 :=
            hcond.resolve_left hpl
          have h2b' := h2b h3N
          have hslot : slotCcpl ccpl pfx.length items.length pc.1 =
              ccpl + pfx.length := by
            unfold slotCcpl
            rw [if_neg (by omega)]
          have hpe := hPred pc.1 ch hchild e2 he2
          rw [hslot] at hpe
          have hcmpe : ustrcmpN pfx (e2.k.drop ccpl) pfx.length = 0 := by
            rcases predictPos_cases hpt items.length s b pfx e2.k ccpl with
              ⟨_, _, hq⟩ | ⟨_, _, hq⟩ | ⟨hc2, _, _, _⟩
            · rw [hq] at hpe
              have hf := (Prod.ext_iff.mp hpe).1
              omega
            · rw [hq] at hpe
              have hf := (Prod.ext_iff.mp hpe).1
              omega
            · exact hc2.resolve_left hpl
          exact take_add_of_match hzfp hxe hcmpx hcmpe
    have ihch := ih pc.1 ch hchild key
      (by rw [hsnd] at hagreech; exact hagreech)
    rw [← hsnd] at ihch
    obtain ⟨ihf, ihs⟩ := ihch
    -- key funnel: an entry with the query key can only live in slot pc.1
    have hfunnel : ∀ (j : Nat) (c2 : Item), items[j]? = some c2 →
        ∀ e2 ∈ extractItem c2, e2.k = key → j = pc.1 := by
      intro j c2 hj e2 he2 hek
      have hpe := hPred j c2 hj e2 he2
      rw [hek, hpcg] at hpe
      rw [hpe]
    constructor
    · intro hfail
      have hf2 : (removeItem hpt pmss ch key pc.2).2.1 = false := hfail
      obtain ⟨hid, habsch⟩ := ihf hf2
      constructor
      · show Item.mult nk s b pfx
          (items.set pc.1 (removeItem hpt pmss ch key pc.2).1) = _
        rw [hid, hch]
        rw [← getD_eq_getElem_item hgetlt, set_getD_self hgetlt]
      · intro e2 he2 hek
        obtain ⟨j, c2, hj, hec2⟩ := mem_extractItems.mp he2
        have hj2 := hfunnel j c2 hj e2 hec2 hek
        subst hj2
        rw [hchild] at hj
        obtain rfl := Option.some.inj hj
        exact habsch e2 hec2 hek
    · intro hsucc
      have hs2 : (removeItem hpt pmss ch key pc.2).2.1 = true := hsucc
      obtain ⟨hpresch, heffch, hwfcn, hexcn⟩ := ihs hs2
      set r1 := (removeItem hpt pmss ch key pc.2).1 with hr1
      set rpath := (removeItem hpt pmss ch key pc.2).2.2 with hrpath
      obtain ⟨e0, he0, hk0⟩ := hpresch
      have hglob : e0 ∈ extractItems items :=
        mem_extractItems.mpr ⟨pc.1, ch, hchild, he0⟩
      have hsplit := @extractItems_split items pc.1 hgetlt
      rw [getD_eq_getElem_item hgetlt, ← hch] at hsplit
      -- no other slot holds the key
      have hAno : ∀ a ∈ extractItems (items.take pc.1),
          ((fun e => e.k == key) a) = false := by
        intro a ha
        obtain ⟨i, c2, hij, hi, hac2⟩ := mem_extract_take ha
        simp only [beq_eq_false_iff_ne, ne_eq]
        intro hak
        have := hfunnel i c2 hi a hac2 hak
        omega
      have heffgen : ∀ c4 : Item, extractItem c4 =
          (extractItem ch).eraseP (fun e => e.k == key) →
          extractItems (items.set pc.1 c4) =
            (extractItems items).eraseP (fun e => e.k == key) := by
        intro c4 hc4
        rw [extractItems_set_decomp c4 hgetlt, hc4, hsplit]
        rw [eraseP_append_left_mem
          ⟨e0, List.mem_append_right _ he0, by simp [hk0]⟩,
          eraseP_append_right_none hAno]
      have heffraw := heffgen r1 heffch
      have hsortnew : List.Pairwise entLt
          ((extractItems items).eraseP (fun e => e.k == key)) :=
        List.Pairwise.sublist (List.eraseP_sublist _) hsort
      have hshnew : SharedPfx ccpl
          ((extractItems items).eraseP (fun e => e.k == key)) := by
        intro a ha b hb
        exact hsh a ((List.eraseP_sublist _).subset ha) b
          ((List.eraseP_sublist _).subset hb)
      have hzfknew : ZFK
          ((extractItems items).eraseP (fun e => e.k == key)) := by
        intro a ha
        exact hzfk a ((List.eraseP_sublist _).subset ha)
      have hlenerase : ((extractItems items).eraseP
          (fun e => e.k == key)).length = nk - 1 := by
        rw [List.length_eraseP_of_mem hglob (by simp [hk0]), hCnt]
      have hm10 : ((-1 : Int) > 0) = False := by norm_num
      have hfin : WF hpt (changeNum hpt pmss (-1)
            (.mult nk s b pfx (items.set pc.1 r1))
            ((pc.1, ccpl) :: rpath)) ccpl ∧
          extractItem (changeNum hpt pmss (-1)
            (.mult nk s b pfx (items.set pc.1 r1))
            ((pc.1, ccpl) :: rpath)) =
            (extractItems items).eraseP (fun e => e.k == key) := by
        simp only [changeNum, hm10, if_false]
        by_cases hth : 2 * (items.set pc.1 r1).length ≤ nk - 1 ∨
            4 * (nk - 1) ≤ (items.set pc.1 r1).length
        · rw [if_pos hth]
          have hlennew : (extractItems (items.set pc.1 r1)).length =
              nk - 1 := by
            rw [heffraw, hlenerase]
          have htk : (extractItems (items.set pc.1 r1)).take (nk - 1) =
              extractItems (items.set pc.1 r1) :=
            List.take_of_length_le (by omega)
          rw [htk, heffraw]
          have hnenew : (extractItems items).eraseP
              (fun e => e.k == key) ≠ [] := by
            intro hcon
            rw [hcon] at hlenerase
            simp at hlenerase
            omega
          exact pmssBulk_spec hpt pmss _ ccpl hnenew hsortnew hshnew
            hzfknew
        · rw [if_neg hth]
          have hgd1 : (items.set pc.1 r1).getD pc.1 Item.null = r1 := by
            rw [List.getD, List.get?_eq_getElem?,
              List.getElem?_set_self hgetlt]
            rfl
          rw [hgd1, List.set_set]
          have heff2 := heffgen (changeNum hpt pmss (-1) r1 rpath) hexcn
          constructor
          · refine WF.mult _ _ _ _ _ _ ?_ ?_ ?_ hzfp ?_ ?_ ?_ ?_ ?_
            · simp only [List.length_set]
              exact h34N
            · rw [heff2, hlenerase]
            · simp only [List.length_set]
              rw [List.length_set] at hth
              omega
            · intro i child2 hi2
              simp only [List.length_set]
              by_cases hieq : i = pc.1
              · subst hieq
                rw [List.getElem?_set_self hgetlt] at hi2
                obtain rfl := Option.some.inj hi2
                rw [hsnd] at hwfcn
                exact hwfcn
              · rw [List.getElem?_set_ne (Ne.symm hieq)] at hi2
                exact hWFc i child2 hi2
            · intro i child2 hi2 e2 he2
              simp only [List.length_set]
              by_cases hieq : i = pc.1
              · subst hieq
                rw [List.getElem?_set_self hgetlt] at hi2
                obtain rfl := Option.some.inj hi2
                rw [hexcn] at he2
                exact hPred pc.1 ch hchild e2
                  ((List.eraseP_sublist _).subset he2)
              · rw [List.getElem?_set_ne (Ne.symm hieq)] at hi2
                exact hPred i child2 hi2 e2 he2
            · rw [heff2]
              exact hsortnew
            · rw [heff2]
              exact hshnew
            · rw [heff2]
              exact hzfknew
          · show extractItems (items.set pc.1
                (changeNum hpt pmss (-1) r1 rpath)) = _
            exact heff2
      exact ⟨⟨e0, hglob, hk0⟩, heffraw, hfin.1, hfin.2⟩

/-! ### Terminal upsert operations -/

theorem updateFirst_length {α : Type} (p : α → Bool) (g : α → α) :
    ∀ l : List α, (updateFirst p g l).length = l.length := by
  intro l
  induction l with
  | nil => rfl
  | cons a rest ih =>
    simp only [updateFirst]
    by_cases hpa : p a
    · rw [if_pos hpa]
      simp
    · rw [if_neg hpa]
      simp [ih]

theorem updateFirst_mem {α : Type} {p : α → Bool} {g : α → α} :
    ∀ {l : List α}, ∀ x ∈ updateFirst p g l, x ∈ l ∨ ∃ a ∈ l, x = g a := by
  intro l
  induction l with
  | nil => intro x hx; cases hx
  | cons a rest ih =>
    intro x hx
    simp only [updateFirst] at hx
    by_cases hpa : p a
    · rw [if_pos hpa] at hx
      rcases List.mem_cons.mp hx with rfl | hx2
      · exact Or.inr ⟨a, by simp, rfl⟩
      · exact Or.inl (by simp [hx2])
    · rw [if_neg hpa] at hx
      rcases List.mem_cons.mp hx with rfl | hx2
      · exact Or.inl (by simp)
      · rcases ih x hx2 with hm | ⟨a2, ha2, hg2⟩
        · exact Or.inl (by simp [hm])
        · exact Or.inr ⟨a2, by simp [ha2], hg2⟩

/-- `sing_upsert` on an equal key updates in place. -/
theorem sing_upsert_present {e : KVEntry} {key : Key} {v : Val}
    {ccpl : Nat} (hagree : key.take ccpl = e.k.take ccpl)
    (hkeq : e.k = key) :
    sing_upsert e key v ccpl = (.sing { e with v := v }, e.v) := by
  have hcmpeq : ustrcmp (key.drop ccpl) (e.k.drop ccpl) =
      ustrcmp key e.k :=
    ustrcmp_drop_of_take_eq ccpl key e.k hagree
  have h0 : kvKeycmp e key ccpl = 0 := by
    show ustrcmp (key.drop ccpl) (e.k.drop ccpl) = 0
    rw [hcmpeq, hkeq, ustrcmp_self]
  simp [sing_upsert, h0]

/-- `sing_upsert` on a distinct key is `sing_insert` returning 0. -/
theorem sing_upsert_absent {e : KVEntry} {key : Key} {v : Val}
    {ccpl : Nat} (hagree : key.take ccpl = e.k.take ccpl)
    (hkne : e.k ≠ key) :
    sing_upsert e key v ccpl = ((sing_insert e key v ccpl).1, 0) ∧
    (sing_insert e key v ccpl).2 = true := by
  have hcmpeq : ustrcmp (key.drop ccpl) (e.k.drop ccpl) =
      ustrcmp key e.k :=
    ustrcmp_drop_of_take_eq ccpl key e.k hagree
  have h0 : kvKeycmp e key ccpl ≠ 0 := by
    show ustrcmp (key.drop ccpl) (e.k.drop ccpl) ≠ 0
    rw [hcmpeq]
    intro hc
    exact hkne (ustrcmp_eq_zero_iff.mp hc).symm
  by_cases h1 : kvKeycmp e key ccpl > 0
  · constructor <;> simp [sing_upsert, sing_insert, h0, h1]
  · constructor <;> simp [sing_upsert, sing_insert, h0, h1]

/-- `cnod_upsert` on an absent key inserts like `cnod_insert`. -/
theorem cnod_upsert_absent_spec {hpt : HPT} {pmss : PMSS} {c : Cnode}
    {key : Key} {v : Val}
    (h2 : 2 ≤ c.data.length) (h16 : c.data.length ≤ 16)
    (htags : ∀ te ∈ c.data, te.1 = hashStr te.2.k)
    (hsort : List.Pairwise entLt (c.data.map (fun te => te.2)))
    (hsh : SharedPfx c.ccpl (c.data.map (fun te => te.2)))
    (hzfk : ZFK (c.data.map (fun te => te.2))) (hzk : ZFKey key)
    (hagree : ∀ e ∈ c.data.map (fun te => te.2),
      key.take c.ccpl = e.k.take c.ccpl)
    (habs : ∀ e ∈ c.data.map (fun te => te.2), e.k ≠ key) :
    (cnod_upsert hpt pmss c key v).2 = 0 ∧
    extractItem (cnod_upsert hpt pmss c key v).1 =
      listInsertSorted ⟨key, v⟩ (c.data.map (fun te => te.2)) ∧
    WF hpt (cnod_upsert hpt pmss c key v).1 c.ccpl := by
  have hagree2 : ∀ te ∈ c.data, key.take c.ccpl = te.2.k.take c.ccpl :=
    fun te hte => hagree te.2 (List.mem_map_of_mem _ hte)
  have habs2 : ∀ te ∈ c.data, te.2.k ≠ key :=
    fun te hte => habs te.2 (List.mem_map_of_mem _ hte)
  have hmatch : ∀ te ∈ c.data,
      cnodeMatch key c.ccpl te = (te.2.k == key) := by
    intro te hte
    exact cnodeMatch_iff (htags te hte)
      (hagree te.2 (List.mem_map_of_mem _ hte))
  have hfindn : c.data.find? (cnodeMatch key c.ccpl) = none := by
    rw [find?_ext _ _ _ hmatch, List.find?_eq_none]
    intro te hte
    simp [habs2 te hte]
  by_cases hlen : c.data.length < 16
  · obtain ⟨humem, hueq⟩ := cnodeUpScan_spec (v := v) hagree2 habs2
    have hr : cnod_upsert hpt pmss c key v =
        (.cnod ⟨c.ccpl, cnodeUpScan c.ccpl key (hashTag ⟨key, v⟩)
          c.data⟩, 0) := by
      unfold cnod_upsert
      rw [if_pos hlen]
      unfold cnode_withRoom_upsert
      rw [hfindn]
    rw [hr]
    have hulen : (cnodeUpScan c.ccpl key (hashTag ⟨key, v⟩)
        c.data).length = c.data.length + 1 := by
      have h1 := congrArg List.length hueq
      rw [List.length_map, listInsertSorted_length, List.length_map] at h1
      exact h1
    refine ⟨rfl, ?_, ?_⟩
    · show (⟨c.ccpl, _⟩ : Cnode).data.map (fun te => te.2) = _
      exact hueq
    · show WF hpt (.cnod ⟨c.ccpl, _⟩) c.ccpl
      refine WF_cnod_mk hpt c.ccpl _ (by omega) (by omega) ?_ ?_ ?_ ?_
      · intro te hte
        rcases humem te hte with hm | hm
        · exact htags te hm
        · subst hm; rfl
      · rw [hueq]
        exact listInsertSorted_sorted hsort habs
      · rw [hueq]
        exact sharedPfx_insSorted hsh hagree
      · rw [hueq]
        exact zfk_insSorted hzfk hzk
  · obtain ⟨htu, hte2⟩ := tryExtractUpsert_spec (v := v) hagree2 hsort htags
    cases hex : tryExtractUpsert c.ccpl key v c.data with
    | updated d old =>
      exfalso
      obtain ⟨⟨te, hte, hk, _⟩, _, _⟩ := htu d old hex
      exact habs2 te hte hk
    | extracted l =>
      obtain ⟨_, hleq⟩ := hte2 l hex
      have hllen : l.length = c.data.length + 1 := by
        rw [hleq, listInsertSorted_length, List.length_map]
      have htake : l.take 17 = l := List.take_of_length_le (by omega)
      have hr : cnod_upsert hpt pmss c key v =
          (pmssBulk hpt pmss l c.ccpl, 0) := by
        unfold cnod_upsert
        rw [if_neg hlen, hex]
        show (pmssBulk hpt pmss (l.take 17) c.ccpl, 0) = _
        rw [htake]
      rw [hr]
      have hlne : l ≠ [] := by
        intro hcon
        rw [hcon] at hllen
        simp at hllen
      obtain ⟨hwfb, hexb⟩ := pmssBulk_spec hpt pmss l c.ccpl hlne
        (hleq ▸ listInsertSorted_sorted hsort habs)
        (hleq ▸ sharedPfx_insSorted hsh hagree)
        (hleq ▸ zfk_insSorted hzfk hzk)
      refine ⟨rfl, ?_, hwfb⟩
      rw [hexb, hleq]

/-- `cnod_upsert` on a present key whose stored value is nonzero updates
in place and returns the old value. -/
theorem cnod_upsert_present_spec {hpt : HPT} {pmss : PMSS} {c : Cnode}
    {key : Key} {v w : Val}
    (h2 : 2 ≤ c.data.length) (h16 : c.data.length ≤ 16)
    (htags : ∀ te ∈ c.data, te.1 = hashStr te.2.k)
    (hsort : List.Pairwise entLt (c.data.map (fun te => te.2)))
    (hsh : SharedPfx c.ccpl (c.data.map (fun te => te.2)))
    (hzfk : ZFK (c.data.map (fun te => te.2)))
    (hagree : ∀ e ∈ c.data.map (fun te => te.2),
      key.take c.ccpl = e.k.take c.ccpl)
    (hpres : ∃ e ∈ c.data.map (fun te => te.2), e.k = key ∧ e.v = w)
    (hw : w ≠ 0) :
    (cnod_upsert hpt pmss c key v).2 = w ∧
    extractItem (cnod_upsert hpt pmss c key v).1 =
      (c.data.map (fun te => te.2)).map
        (fun e => if e.k = key then ⟨key, v⟩ else e) ∧
    WF hpt (cnod_upsert hpt pmss c key v).1 c.ccpl := by
  obtain ⟨e0, he0, hk0, hv0⟩ := hpres
  have hagree2 : ∀ te ∈ c.data, key.take c.ccpl = te.2.k.take c.ccpl :=
    fun te hte => hagree te.2 (List.mem_map_of_mem _ hte)
  have hmatch : ∀ te ∈ c.data,
      cnodeMatch key c.ccpl te = (te.2.k == key) := by
    intro te hte
    exact cnodeMatch_iff (htags te hte)
      (hagree te.2 (List.mem_map_of_mem _ hte))
  by_cases hlen : c.data.length < 16
  · cases hf : c.data.find? (cnodeMatch key c.ccpl) with
    | none =>
      exfalso
      rw [find?_ext _ _ _ hmatch] at hf
      obtain ⟨te0, hte0, rfl⟩ := List.mem_map.mp he0
      have := List.find?_eq_none.mp hf te0 hte0
      simp [hk0] at this
    | some te0 =>
      have hte0 : te0 ∈ c.data := List.mem_of_find?_eq_some hf
      have hk00 : te0.2.k = key := by
        have h1 := List.find?_some hf
        rw [hmatch te0 hte0] at h1
        simpa using h1
      have hv00 : te0.2 = e0 := by
        apply sorted_key_unique hsort te0.2
          (List.mem_map_of_mem _ hte0) e0 he0
        rw [hk00, hk0]
      have hr : cnod_upsert hpt pmss c key v =
          (.cnod ⟨c.ccpl, updateFirst (cnodeMatch key c.ccpl)
            (fun x => (x.1, { x.2 with v := v })) c.data⟩, te0.2.v) := by
        unfold cnod_upsert
        rw [if_pos hlen]
        unfold cnode_withRoom_upsert
        rw [hf]
      rw [hr]
      have hcomm : (updateFirst (cnodeMatch key c.ccpl)
          (fun x => (x.1, { x.2 with v := v })) c.data).map
            (fun te => te.2) =
          updateFirst (fun e => e.k == key)
            (fun e => { e with v := v })
            (c.data.map (fun te => te.2)) := by
        apply updateFirst_map_comm
        · exact hmatch
        · intro a _
          rfl
      have heq2 : (updateFirst (cnodeMatch key c.ccpl)
          (fun x => (x.1, { x.2 with v := v })) c.data).map
            (fun te => te.2) =
          (c.data.map (fun te => te.2)).map
            (fun e => if e.k = key then ⟨key, v⟩ else e) := by
        rw [hcomm, updateFirst_eq_mapval hsort]
      refine ⟨by rw [hv00, hv0], ?_, ?_⟩
      · show (⟨c.ccpl, _⟩ : Cnode).data.map (fun te => te.2) = _
        exact heq2
      · show WF hpt (.cnod ⟨c.ccpl, _⟩) c.ccpl
        have hulen := updateFirst_length (cnodeMatch key c.ccpl)
          (fun x => (x.1, { x.2 with v := v })) c.data
        have hkeys : ((updateFirst (cnodeMatch key c.ccpl)
            (fun x => (x.1, { x.2 with v := v })) c.data).map
              (fun te => te.2)).map (fun e => e.k) =
            (c.data.map (fun te => te.2)).map (fun e => e.k) := by
          rw [heq2, mapval_keys]
        refine WF_cnod_mk hpt c.ccpl _ (by omega) (by omega) ?_ ?_ ?_ ?_
        · intro te hte
          rcases updateFirst_mem te hte with hm | ⟨a, ha, hg⟩
          · exact htags te hm
          · subst hg
            show a.1 = hashStr a.2.k
            exact htags a ha
        · exact pairwise_of_map_k_eq hkeys.symm hsort
        · exact sharedPfx_of_map_k_eq hkeys.symm hsh
        · exact zfk_of_map_k_eq hkeys.symm hzfk
  · obtain ⟨htu, hte2⟩ := tryExtractUpsert_spec (v := v) hagree2 hsort htags
    cases hex : tryExtractUpsert c.ccpl key v c.data with
    | extracted l =>
      exfalso
      obtain ⟨habs2, _⟩ := hte2 l hex
      obtain ⟨te0, hte0, rfl⟩ := List.mem_map.mp he0
      exact habs2 te0 hte0 hk0
    | updated d old =>
      obtain ⟨⟨te0, hte0, hk00, hv00⟩, htagsd, heqd⟩ := htu d old hex
      have hte0e : te0.2 = e0 := by
        apply sorted_key_unique hsort te0.2
          (List.mem_map_of_mem _ hte0) e0 he0
        rw [hk00, hk0]
      have hold : old = w := by rw [← hv00, hte0e, hv0]
      have hr : cnod_upsert hpt pmss c key v =
          (.cnod ⟨c.ccpl, d⟩, old) := by
        unfold cnod_upsert
        rw [if_neg hlen, hex]
        show (if old = 0 then (pmssBulk hpt pmss [] c.ccpl, 0)
          else (.cnod ⟨c.ccpl, d⟩, old)) = _
        rw [if_neg (by rw [hold]; exact hw)]
      rw [hr]
      have hdlen : d.length = c.data.length := by
        have h1 := congrArg List.length heqd
        simp only [List.length_map] at h1
        exact h1
      have hkeys : (d.map (fun te => te.2)).map (fun e => e.k) =
          (c.data.map (fun te => te.2)).map (fun e => e.k) := by
        rw [heqd, mapval_keys]
      refine ⟨hold, ?_, ?_⟩
      · show (⟨c.ccpl, d⟩ : Cnode).data.map (fun te => te.2) = _
        exact heqd
      · show WF hpt (.cnod ⟨c.ccpl, d⟩) c.ccpl
        refine WF_cnod_mk hpt c.ccpl d (by omega) (by omega) htagsd
          ?_ ?_ ?_
        · exact pairwise_of_map_k_eq hkeys.symm hsort
        · exact sharedPfx_of_map_k_eq hkeys.symm hsh
        · exact zfk_of_map_k_eq hkeys.symm hzfk

/-- `trie_upsert` characterizations. -/
theorem trie_upsert_absent_spec {t : List KVEntry} {key : Key} {v : Val}
    {ccpl : Nat} (hsort : List.Pairwise entLt t) (hsh : SharedPfx ccpl t)
    (hz : ZFK t) (hzk : ZFKey key)
    (hagree : ∀ e ∈ t, key.take ccpl = e.k.take ccpl)
    (habs : ∀ e ∈ t, e.k ≠ key) :
    (trieUpsert t key v).2 = 0 ∧
    (trieUpsert t key v).1 = listInsertSorted ⟨key, v⟩ t ∧
    ∀ hpt : HPT, WF hpt (.trie (trieUpsert t key v).1) ccpl := by
  have hfindn : trieLookup t key = none := by
    rw [trieLookup_eq, List.find?_eq_none]
    intro e he
    simp [habs e he]
  have hr : trieUpsert t key v = (listInsertSorted ⟨key, v⟩ t, 0) := by
    unfold trieUpsert
    rw [hfindn]
  rw [hr]
  refine ⟨rfl, rfl, ?_⟩
  intro hpt
  exact WF.trie _ _ (listInsertSorted_sorted hsort habs)
    (sharedPfx_insSorted hsh hagree) (zfk_insSorted hz hzk)

theorem trie_upsert_present_spec {t : List KVEntry} {key : Key}
    {v w : Val} {ccpl : Nat} (hsort : List.Pairwise entLt t)
    (hsh : SharedPfx ccpl t) (hz : ZFK t)
    (hpres : ∃ e ∈ t, e.k = key ∧ e.v = w) :
    (trieUpsert t key v).2 = w ∧
    (trieUpsert t key v).1 =
      t.map (fun e => if e.k = key then ⟨key, v⟩ else e) ∧
    ∀ hpt : HPT, WF hpt (.trie (trieUpsert t key v).1) ccpl := by
  obtain ⟨e0, he0, hk0, hv0⟩ := hpres
  have hpe : ∀ e ∈ t, ((ustrcmp key e.k == 0) : Bool) = (e.k == key) := by
    intro e _
    by_cases he : e.k = key
    · simp [he, ustrcmp_self]
    · have h1 : ustrcmp key e.k ≠ 0 := fun hc =>
        he (ustrcmp_eq_zero_iff.mp hc).symm
      simp [he, h1]
  have hfind : trieLookup t key = t.find? (fun e => e.k == key) :=
    trieLookup_eq t key
  have hfs : t.find? (fun e => e.k == key) = some e0 :=
    find?_eq_some_of_mem hsort he0 hk0
  have hr : trieUpsert t key v =
      (updateFirst (fun x => ustrcmp key x.k == 0)
        (fun x => { x with v := v }) t, e0.v) := by
    unfold trieUpsert
    rw [hfind, hfs]
  rw [hr]
  have heq2 : updateFirst (fun x => ustrcmp key x.k == 0)
      (fun x => { x with v := v }) t =
      t.map (fun e => if e.k = key then ⟨key, v⟩ else e) := by
    rw [updateFirst_ext hpe, updateFirst_eq_mapval hsort]
  have hkeys : (updateFirst (fun x => ustrcmp key x.k == 0)
      (fun x => { x with v := v }) t).map (fun e => e.k) =
      t.map (fun e => e.k) := by
    rw [heq2, mapval_keys]
  refine ⟨hv0, heq2, ?_⟩
  intro hpt
  refine WF.trie _ _ ?_ ?_ ?_
  · exact pairwise_of_map_k_eq hkeys.symm hsort
  · exact sharedPfx_of_map_k_eq hkeys.symm hsh
  · exact zfk_of_map_k_eq hkeys.symm hz

/-! ### The upsert descent: effect and preservation -/

/-- `LITS::_upsert` of an absent key behaves as an insert: it returns the
0 sentinel, splices the new record in, and the count walk restores the
invariant. -/
theorem upsertItem_absent_spec {hpt : HPT} {pmss : PMSS}
    (mono : MonoModel hpt) {it : Item} {ccpl : Nat}
    (hwf : WF hpt it ccpl) :
    ∀ (key : Key) (v : Val), ZFKey key →
    (∀ e ∈ extractItem it, key.take ccpl = e.k.take ccpl) →
    (∀ e ∈ extractItem it, e.k ≠ key) →
    (upsertItem hpt pmss it key v ccpl).2.1 = 0 ∧
    extractItem (upsertItem hpt pmss it key v ccpl).1 =
      listInsertSorted ⟨key, v⟩ (extractItem it) ∧
    WF hpt (changeNum hpt pmss 1 (upsertItem hpt pmss it key v ccpl).1
      (upsertItem hpt pmss it key v ccpl).2.2) ccpl ∧
    extractItem (changeNum hpt pmss 1
        (upsertItem hpt pmss it key v ccpl).1
        (upsertItem hpt pmss it key v ccpl).2.2) =
      listInsertSorted ⟨key, v⟩ (extractItem it) := by
  induction hwf with
  | null ccpl =>
    intro key v hzk hagree habs
    refine ⟨by simp [upsertItem], ?_, ?_, ?_⟩
    · simp [upsertItem, extractItem, listInsertSorted]
    · simp only [upsertItem, changeNum]
      exact WF.sing _ _ hzk
    · simp [upsertItem, changeNum, extractItem, listInsertSorted]
  | sing e ccpl hz =>
    intro key v hzk hagree habs
    have hagree0 : key.take ccpl = e.k.take ccpl :=
      hagree e (by simp [extractItem])
    have hne : e.k ≠ key := habs e (by simp [extractItem])
    obtain ⟨hequ, hsucc⟩ := sing_upsert_absent (v := v) hagree0 hne
    obtain ⟨-, heff, hwf2⟩ := (sing_insert_spec (v := v) hz hzk
      hagree0).2 hsucc
    simp only [upsertItem, hequ]
    refine ⟨by trivial, ?_, ?_, ?_⟩
    · simpa [extractItem] using heff
    · simp only [changeNum]
      exact hwf2 hpt
    · simp only [changeNum]
      simpa [extractItem] using heff
  | cnod c ccpl hcc h2 h16 htags hsort hsh hzfk =>
    intro key v hzk hagree habs
    subst hcc
    simp only [extractItem] at hagree habs ⊢
    obtain ⟨hval, heff, hwf2⟩ := @cnod_upsert_absent_spec hpt pmss c key v
      h2 h16 htags hsort hsh hzfk hzk hagree habs
    simp only [upsertItem]
    exact ⟨hval, heff, by simp only [changeNum]; exact hwf2,
      by simp only [changeNum]; exact heff⟩
  | trie t ccpl hsort hsh hzfk =>
    intro key v hzk hagree habs
    simp only [extractItem] at hagree habs ⊢
    obtain ⟨hval, heff, hwf2⟩ := trie_upsert_absent_spec (v := v)
      hsort hsh hzfk hzk hagree habs
    simp only [upsertItem]
    refine ⟨hval, ?_, ?_, ?_⟩
    · simpa [extractItem] using heff
    · simp only [changeNum]
      exact hwf2 hpt
    · simp only [changeNum]
      simpa [extractItem] using heff
  | mult nk s b pfx items ccpl h34N hCnt hUf hzfp hWFc hPred hsort hsh hzfk ih =>
    intro key v hzk hagree habs
    have h3N : 3 ≤ items.length := by omega
    simp only [extractItem] at hagree habs ⊢
    simp only [upsertItem]
    obtain ⟨hsnd, hfstlt⟩ :=
      predictPos_snd_slot hpt items.length s b pfx key ccpl h3N
    generalize hpcg : predictPos hpt items.length s b pfx key ccpl = pc
      at hsnd hfstlt ⊢
    have hgetlt : pc.1 < items.length := hfstlt
    have hchild : items[pc.1]? = some items[pc.1] :=
      List.getElem?_eq_getElem hgetlt
    have hgd : items.getD pc.1 Item.null = items[pc.1] :=
      getD_eq_getElem_item hgetlt
    rw [hgd]
    set ch := items[pc.1] with hch
    have hWFch : WF hpt ch (slotCcpl ccpl pfx.length items.length pc.1) :=
      hWFc pc.1 ch hchild
    rw [← hsnd] at hWFch
    have hagreech : ∀ e ∈ extractItem ch,
        key.take pc.2 = e.k.take pc.2 := by
      intro e2 he2
      have hxe : key.take ccpl = e2.k.take ccpl :=
        hagree e2 (mem_extractItems.mpr ⟨pc.1, ch, hchild, he2⟩)
      rcases predictPos_cases hpt items.length s b pfx key ccpl with
        ⟨_, _, hp⟩ | ⟨_, _, hp⟩ | ⟨hcond, hsnd2, h1b, h2b⟩
      · rw [hpcg] at hp
        rw [hp]
        exact hxe
      · rw [hpcg] at hp
        rw [hp]
        exact hxe
      · rw [hpcg] at hsnd2 h1b h2b
        rw [hsnd2]
        by_cases hpl : pfx.length = 0
        · simpa [hpl] using hxe
        · have hcmpx : ustrcmpN pfx (key.drop ccpl) pfx.length = 0 :=
            hcond.resolve_left hpl
          have h2b' := h2b h3N
          have hslot : slotCcpl ccpl pfx.length items.length pc.1 =
              ccpl + pfx.length := by
            unfold slotCcpl
            rw [if_neg (by omega)]
          have hpe := hPred pc.1 ch hchild e2 he2
          rw [hslot] at hpe
          have hcmpe : ustrcmpN pfx (e2.k.drop ccpl) pfx.length = 0 := by
            rcases predictPos_cases hpt items.length s b pfx e2.k ccpl with
              ⟨_, _, hq⟩ | ⟨_, _, hq⟩ | ⟨hc2, _, _, _⟩
            · rw [hq] at hpe
              have hf := (Prod.ext_iff.mp hpe).1
              omega
            · rw [hq] at hpe
              have hf := (Prod.ext_iff.mp hpe).1
              omega
            · exact hc2.resolve_left hpl
          exact take_add_of_match hzfp hxe hcmpx hcmpe
    have habsch : ∀ e ∈ extractItem ch, e.k ≠ key := fun e2 he2 =>
      habs e2 (mem_extractItems.mpr ⟨pc.1, ch, hchild, he2⟩)
    obtain ⟨ihv, iheff, ihwf, ihex⟩ := by
      have h0 := ih pc.1 ch hchild key v hzk
        (by rw [hsnd] at hagreech; exact hagreech) habsch
      rw [← hsnd] at h0
      exact h0
    set r1 := (upsertItem hpt pmss ch key v pc.2).1 with hr1
    set rpath := (upsertItem hpt pmss ch key v pc.2).2.2 with hrpath
    have hfunnel : ∀ (j : Nat) (c2 : Item), items[j]? = some c2 →
        ∀ e2 ∈ extractItem c2, e2.k = key → j = pc.1 := by
      intro j c2 hj e2 he2 hek
      have hpe := hPred j c2 hj e2 he2
      rw [hek, hpcg] at hpe
      rw [hpe]
    have hsplit := @extractItems_split items pc.1 hgetlt
    rw [getD_eq_getElem_item hgetlt, ← hch] at hsplit
    have hAlt : ∀ a ∈ extractItems (items.take pc.1),
        keyLt a.k key := by
      intro a ha
      obtain ⟨i, c2, hij, hi, hac2⟩ := mem_extract_take ha
      have hamem : a ∈ extractItems items :=
        mem_extractItems.mpr ⟨i, c2, hi, hac2⟩
      have hane : a.k ≠ key := habs a hamem
      have hnlt : ¬ keyLt key a.k := by
        intro hlt
        have hmono := mono items.length s b pfx key a.k ccpl h3N hlt
          (hagree a hamem)
        rw [hpcg] at hmono
        have hpa := hPred i c2 hi a hac2
        rw [hpa] at hmono
        simp at hmono
        omega
      exact keyLt_of_not_lt_of_ne hnlt hane
    have hClt : ∀ c3 ∈ extractItems (items.drop (pc.1 + 1)),
        keyLt key c3.k := by
      intro c3 hc3
      obtain ⟨i, c2, hij, hi, hac2⟩ := mem_extract_drop hc3
      have hamem : c3 ∈ extractItems items :=
        mem_extractItems.mpr ⟨i, c2, hi, hac2⟩
      have hane : c3.k ≠ key := habs c3 hamem
      have hnlt : ¬ keyLt c3.k key := by
        intro hlt
        have hmono := mono items.length s b pfx c3.k key ccpl h3N hlt
          (hagree c3 hamem).symm
        rw [hpcg] at hmono
        have hpa := hPred i c2 hi c3 hac2
        rw [hpa] at hmono
        simp at hmono
        omega
      exact keyLt_of_not_lt_of_ne hnlt (fun hc => hane hc.symm)
    have heffgen : ∀ c4 : Item, extractItem c4 =
        listInsertSorted ⟨key, v⟩ (extractItem ch) →
        extractItems (items.set pc.1 c4) =
          listInsertSorted ⟨key, v⟩ (extractItems items) := by
      intro c4 hc4
      rw [extractItems_set_decomp c4 hgetlt, hc4, hsplit]
      rw [listInsertSorted_append_right hClt,
        listInsertSorted_append_left hAlt]
    have heffraw := heffgen r1 iheff
    have hsortnew : List.Pairwise entLt
        (listInsertSorted ⟨key, v⟩ (extractItems items)) :=
      listInsertSorted_sorted hsort habs
    have hshnew : SharedPfx ccpl
        (listInsertSorted ⟨key, v⟩ (extractItems items)) :=
      sharedPfx_insSorted hsh hagree
    have hzfknew : ZFK
        (listInsertSorted ⟨key, v⟩ (extractItems items)) :=
      zfk_insSorted hzfk hzk
    have h10 : ((1 : Int) > 0) = True := by norm_num
    have hfin : WF hpt (changeNum hpt pmss 1
          (.mult nk s b pfx (items.set pc.1 r1))
          ((pc.1, ccpl) :: rpath)) ccpl ∧
        extractItem (changeNum hpt pmss 1
          (.mult nk s b pfx (items.set pc.1 r1))
          ((pc.1, ccpl) :: rpath)) =
          listInsertSorted ⟨key, v⟩ (extractItems items) := by
      simp only [changeNum, h10, if_true]
      by_cases hth : 2 * (items.set pc.1 r1).length ≤ nk + 1 ∨
          4 * (nk + 1) ≤ (items.set pc.1 r1).length
      · rw [if_pos hth]
        have hlennew : (extractItems (items.set pc.1 r1)).length =
            (extractItems items).length + 1 := by
          rw [heffraw, listInsertSorted_length]
        have htk : (extractItems (items.set pc.1 r1)).take (nk + 1) =
            extractItems (items.set pc.1 r1) :=
          List.take_of_length_le (by omega)
        rw [htk, heffraw]
        have hnenew :
            listInsertSorted ⟨key, v⟩ (extractItems items) ≠ [] := by
          intro hcon
          have hl := listInsertSorted_length (⟨key, v⟩ : KVEntry)
            (extractItems items)
          rw [hcon] at hl
          simp at hl
        exact pmssBulk_spec hpt pmss _ ccpl hnenew hsortnew hshnew
          hzfknew
      · rw [if_neg hth]
        have hgd1 : (items.set pc.1 r1).getD pc.1 Item.null = r1 := by
          rw [List.getD, List.get?_eq_getElem?,
            List.getElem?_set_self hgetlt]
          rfl
        rw [hgd1, List.set_set]
        have heff2 := heffgen (changeNum hpt pmss 1 r1 rpath) ihex
        constructor
        · refine WF.mult _ _ _ _ _ _ ?_ ?_ ?_ hzfp ?_ ?_ ?_ ?_ ?_
          · simp only [List.length_set]
            exact h34N
          · rw [heff2, listInsertSorted_length]
            omega
          · simp only [List.length_set]
            rw [List.length_set] at hth
            omega
          · intro i child2 hi2
            simp only [List.length_set]
            by_cases hieq : i = pc.1
            · subst hieq
              rw [List.getElem?_set_self hgetlt] at hi2
              obtain rfl := Option.some.inj hi2
              rw [hsnd] at ihwf
              exact ihwf
            · rw [List.getElem?_set_ne (Ne.symm hieq)] at hi2
              exact hWFc i child2 hi2
          · intro i child2 hi2 e2 he2
            simp only [List.length_set]
            by_cases hieq : i = pc.1
            · subst hieq
              rw [List.getElem?_set_self hgetlt] at hi2
              obtain rfl := Option.some.inj hi2
              rw [ihex] at he2
              rcases listInsertSorted_mem.mp he2 with rfl | he3
              · show predictPos hpt items.length s b pfx key ccpl = _
                rw [hpcg, ← hsnd]
              · exact hPred pc.1 ch hchild e2 he3
            · rw [List.getElem?_set_ne (Ne.symm hieq)] at hi2
              exact hPred i child2 hi2 e2 he2
          · rw [heff2]
            exact hsortnew
          · rw [heff2]
            exact hshnew
          · rw [heff2]
            exact hzfknew
        · show extractItems (items.set pc.1
              (changeNum hpt pmss 1 r1 rpath)) = _
          exact heff2
    exact ⟨ihv, heffraw, hfin.1, hfin.2⟩

/-- `LITS::_upsert` of a present key whose stored value is nonzero
updates in place and returns the old value; the count walk is not run. -/
theorem upsertItem_present_spec {hpt : HPT} {pmss : PMSS}
    {it : Item} {ccpl : Nat} (hwf : WF hpt it ccpl) :
    ∀ (key : Key) (v w : Val),
    (∀ e ∈ extractItem it, key.take ccpl = e.k.take ccpl) →
    (∃ e ∈ extractItem it, e.k = key ∧ e.v = w) → w ≠ 0 →
    (upsertItem hpt pmss it key v ccpl).2.1 = w ∧
    extractItem (upsertItem hpt pmss it key v ccpl).1 =
      (extractItem it).map (fun e => if e.k = key then ⟨key, v⟩ else e) ∧
    WF hpt (upsertItem hpt pmss it key v ccpl).1 ccpl := by
  induction hwf with
  | null ccpl =>
    intro key v w hagree hpres hw
    obtain ⟨e, he, _⟩ := hpres
    simp [extractItem] at he
  | sing e ccpl hz =>
    intro key v w hagree hpres hw
    obtain ⟨e2, he2, hk2, hv2⟩ := hpres
    have he2e : e2 = e := by simpa [extractItem] using he2
    subst he2e
    have hagree0 : key.take ccpl = e2.k.take ccpl :=
      hagree e2 (by simp [extractItem])
    have hr := sing_upsert_present (v := v) hagree0 hk2
    simp only [upsertItem, hr]
    refine ⟨hv2, ?_, ?_⟩
    · simp [extractItem, if_pos hk2, hk2]
    · exact WF.sing _ _ (by simpa using hz)
  | cnod c ccpl hcc h2 h16 htags hsort hsh hzfk =>
    intro key v w hagree hpres hw
    subst hcc
    simp only [extractItem] at hagree hpres ⊢
    obtain ⟨hval, heff, hwf2⟩ := @cnod_upsert_present_spec hpt pmss c key v w
      h2 h16 htags hsort hsh hzfk hagree hpres hw
    simp only [upsertItem]
    exact ⟨hval, heff, hwf2⟩
  | trie t ccpl hsort hsh hzfk =>
    intro key v w hagree hpres hw
    simp only [extractItem] at hagree hpres ⊢
    obtain ⟨hval, heff, hwf2⟩ := trie_upsert_present_spec (v := v)
      hsort hsh hzfk hpres
    simp only [upsertItem]
    refine ⟨hval, ?_, ?_⟩
    · simpa [extractItem] using heff
    · exact hwf2 hpt
  | mult nk s b pfx items ccpl h34N hCnt hUf hzfp hWFc hPred hsort hsh hzfk ih =>
    intro key v w hagree hpres hw
    have h3N : 3 ≤ items.length := by omega
    simp only [extractItem] at hagree hpres ⊢
    simp only [upsertItem]
    obtain ⟨hsnd, hfstlt⟩ :=
      predictPos_snd_slot hpt items.length s b pfx key ccpl h3N
    generalize hpcg : predictPos hpt items.length s b pfx key ccpl = pc
      at hsnd hfstlt ⊢
    have hgetlt : pc.1 < items.length := hfstlt
    have hchild : items[pc.1]? = some items[pc.1] :=
      List.getElem?_eq_getElem hgetlt
    have hgd : items.getD pc.1 Item.null = items[pc.1] :=
      getD_eq_getElem_item hgetlt
    rw [hgd]
    set ch := items[pc.1] with hch
    have hfunnel : ∀ (j : Nat) (c2 : Item), items[j]? = some c2 →
        ∀ e2 ∈ extractItem c2, e2.k = key → j = pc.1 := by
      intro j c2 hj e2 he2 hek
      have hpe := hPred j c2 hj e2 he2
      rw [hek, hpcg] at hpe
      rw [hpe]
    -- the present record pins the descent slot
    obtain ⟨e0, he0, hk0, hv0⟩ := hpres
    obtain ⟨j, c2, hj, hec2⟩ := mem_extractItems.mp he0
    have hj1 : j = pc.1 := hfunnel j c2 hj e0 hec2 hk0
    subst hj1
    rw [hchild] at hj
    obtain rfl := Option.some.inj hj
    have hWFch : WF hpt ch (slotCcpl ccpl pfx.length items.length pc.1) :=
      hWFc pc.1 ch hchild
    rw [← hsnd] at hWFch
    have hagreech : ∀ e ∈ extractItem ch,
        key.take pc.2 = e.k.take pc.2 := by
      intro e2 he2
      have hxe : key.take ccpl = e2.k.take ccpl :=
        hagree e2 (mem_extractItems.mpr ⟨pc.1, ch, hchild, he2⟩)
      rcases predictPos_cases hpt items.length s b pfx key ccpl with
        ⟨_, _, hp⟩ | ⟨_, _, hp⟩ | ⟨hcond, hsnd2, h1b, h2b⟩
      · rw [hpcg] at hp
        rw [hp]
        exact hxe
      · rw [hpcg] at hp
        rw [hp]
        exact hxe
      · rw [hpcg] at hsnd2 h1b h2b
        rw [hsnd2]
        by_cases hpl : pfx.length = 0
        · simpa [hpl] using hxe
        · have hcmpx : ustrcmpN pfx (key.drop ccpl) pfx.length = 0 :=
            hcond.resolve_left hpl
          have h2b' := h2b h3N
          have hslot : slotCcpl ccpl pfx.length items.length pc.1 =
              ccpl + pfx.length := by
            unfold slotCcpl
            rw [if_neg (by omega)]
          have hpe := hPred pc.1 ch hchild e2 he2
          rw [hslot] at hpe
          have hcmpe : ustrcmpN pfx (e2.k.drop ccpl) pfx.length = 0 := by
            rcases predictPos_cases hpt items.length s b pfx e2.k ccpl with
              ⟨_, _, hq⟩ | ⟨_, _, hq⟩ | ⟨hc2, _, _, _⟩
            · rw [hq] at hpe
              have hf := (Prod.ext_iff.mp hpe).1
              omega
            · rw [hq] at hpe
              have hf := (Prod.ext_iff.mp hpe).1
              omega
            · exact hc2.resolve_left hpl
          exact take_add_of_match hzfp hxe hcmpx hcmpe
    obtain ⟨ihv, iheff, ihwf⟩ := by
      have h0 := ih pc.1 ch hchild key v w
        (by rw [hsnd] at hagreech; exact hagreech)
        ⟨e0, hec2, hk0, hv0⟩ hw
      rw [← hsnd] at h0
      exact h0
    set r1 := (upsertItem hpt pmss ch key v pc.2).1 with hr1
    have hsplit := @extractItems_split items pc.1 hgetlt
    rw [getD_eq_getElem_item hgetlt, ← hch] at hsplit
    have hAno : ∀ a ∈ extractItems (items.take pc.1), a.k ≠ key := by
      intro a ha hak
      obtain ⟨i, c2, hij, hi, hac2⟩ := mem_extract_take ha
      have := hfunnel i c2 hi a hac2 hak
      omega
    have hCno : ∀ a ∈ extractItems (items.drop (pc.1 + 1)),
        a.k ≠ key := by
      intro a ha hak
      obtain ⟨i, c2, hij, hi, hac2⟩ := mem_extract_drop ha
      have := hfunnel i c2 hi a hac2 hak
      omega
    have heffraw : extractItems (items.set pc.1 r1) =
        (extractItems items).map
          (fun e => if e.k = key then ⟨key, v⟩ else e) := by
      rw [extractItems_set_decomp r1 hgetlt, iheff, hsplit]
      rw [mapval_append, mapval_append]
      rw [mapval_id_of_absent hAno, mapval_id_of_absent hCno]
    have hkeysnew : ((extractItems items).map
        (fun e => if e.k = key then ⟨key, v⟩ else e)).map
          (fun e => e.k) = (extractItems items).map (fun e => e.k) :=
      mapval_keys key v _
    refine ⟨ihv, heffraw, ?_⟩
    refine WF.mult _ _ _ _ _ _ ?_ ?_ ?_ hzfp ?_ ?_ ?_ ?_ ?_
    · simp only [List.length_set]
      exact h34N
    · rw [heffraw, List.length_map]
      exact hCnt
    · simp only [List.length_set]
      exact hUf
    · intro i child2 hi2
      simp only [List.length_set]
      by_cases hieq : i = pc.1
      · subst hieq
        rw [List.getElem?_set_self hgetlt] at hi2
        obtain rfl := Option.some.inj hi2
        rw [hsnd] at ihwf
        exact ihwf
      · rw [List.getElem?_set_ne (Ne.symm hieq)] at hi2
        exact hWFc i child2 hi2
    · intro i child2 hi2 e2 he2
      simp only [List.length_set]
      by_cases hieq : i = pc.1
      · subst hieq
        rw [List.getElem?_set_self hgetlt] at hi2
        obtain rfl := Option.some.inj hi2
        rw [iheff] at he2
        obtain ⟨e3, he3, hee⟩ := List.mem_map.mp he2
        have hkeq2 : e2.k = e3.k := by
          by_cases he3k : e3.k = key
          · rw [← hee]
            simp [if_pos he3k, he3k]
          · rw [← hee]
            simp [if_neg he3k]
        rw [show e2.k = e3.k from hkeq2]
        exact hPred pc.1 ch hchild e3 he3
      · rw [List.getElem?_set_ne (Ne.symm hieq)] at hi2
        exact hPred i child2 hi2 e2 he2
    · rw [heffraw]
      exact pairwise_of_map_k_eq hkeysnew.symm hsort
    · rw [heffraw]
      exact sharedPfx_of_map_k_eq hkeysnew.symm hsh
    · rw [heffraw]
      exact zfk_of_map_k_eq hkeysnew.symm hzfk

/-- The failure side of the insert descent needs no model assumption:
a failing insert leaves the subtree untouched and the key was present
along the descent; a success certifies global absence. -/
theorem insertItem_fail_spec {hpt : HPT} {pmss : PMSS}
    {it : Item} {ccpl : Nat} (hwf : WF hpt it ccpl) :
    ∀ (key : Key) (v : Val), ZFKey key →
    (∀ e ∈ extractItem it, key.take ccpl = e.k.take ccpl) →
    ((insertItem hpt pmss it key v ccpl).2.1 = false →
      (insertItem hpt pmss it key v ccpl).1 = it ∧
      ∃ e ∈ extractItem it, e.k = key) ∧
    ((insertItem hpt pmss it key v ccpl).2.1 = true →
      ∀ e ∈ extractItem it, e.k ≠ key) := by
  induction hwf with
  | null ccpl =>
    intro key v hzk hagree
    constructor
    · intro h
      simp [insertItem] at h
    · intro _
      simp [extractItem]
  | sing e ccpl hz =>
    intro key v hzk hagree
    have hagree0 : key.take ccpl = e.k.take ccpl :=
      hagree e (by simp [extractItem])
    obtain ⟨sf, ss⟩ := sing_insert_spec (v := v) hz hzk hagree0
    simp only [insertItem]
    constructor
    · intro h
      obtain ⟨hid, hpres⟩ := sf h
      refine ⟨?_, e, by simp [extractItem], hpres⟩
      show (sing_insert e key v ccpl).1 = _
      rw [hid]
    · intro h
      obtain ⟨hne, -, -⟩ := ss h
      intro x hx
      have : x = e := by simpa [extractItem] using hx
      subst this
      exact hne
  | cnod c ccpl hcc h2 h16 htags hsort hsh hzfk =>
    intro key v hzk hagree
    subst hcc
    simp only [extractItem] at hagree ⊢
    obtain ⟨cf, cs⟩ := @cnod_insert_spec hpt pmss c key v
      h2 h16 htags hsort hsh hzfk hzk hagree
    simp only [insertItem]
    exact ⟨cf, fun h => (cs h).1⟩
  | trie t ccpl hsort hsh hzfk =>
    intro key v hzk hagree
    simp only [extractItem] at hagree ⊢
    obtain ⟨tf, ts⟩ := trie_insert_spec (v := v) hsort hsh hzfk hzk hagree
    simp only [insertItem]
    constructor
    · intro h
      obtain ⟨hid, hpres⟩ := tf h
      refine ⟨?_, hpres⟩
      show Item.trie (trieInsert t key v).1 = _
      rw [hid]
    · intro h
      exact (ts h).1
  | mult nk s b pfx items ccpl h34N hCnt hUf hzfp hWFc hPred hsort hsh hzfk ih =>
    intro key v hzk hagree
    have h3N : 3 ≤ items.length := by omega
    simp only [extractItem] at hagree ⊢
    simp only [insertItem]
    obtain ⟨hsnd, hfstlt⟩ :=
      predictPos_snd_slot hpt items.length s b pfx key ccpl h3N
    generalize hpcg : predictPos hpt items.length s b pfx key ccpl = pc
      at hsnd hfstlt ⊢
    have hgetlt : pc.1 < items.length := hfstlt
    have hchild : items[pc.1]? = some items[pc.1] :=
      List.getElem?_eq_getElem hgetlt
    have hgd : items.getD pc.1 Item.null = items[pc.1] :=
      getD_eq_getElem_item hgetlt
    rw [hgd]
    set ch := items[pc.1] with hch
    have hagreech : ∀ e ∈ extractItem ch,
        key.take pc.2 = e.k.take pc.2 := by
      intro e2 he2
      have hxe : key.take ccpl = e2.k.take ccpl :=
        hagree e2 (mem_extractItems.mpr ⟨pc.1, ch, hchild, he2⟩)
      rcases predictPos_cases hpt items.length s b pfx key ccpl with
        ⟨_, _, hp⟩ | ⟨_, _, hp⟩ | ⟨hcond, hsnd2, h1b, h2b⟩
      · rw [hpcg] at hp
        rw [hp]
        exact hxe
      · rw [hpcg] at hp
        rw [hp]
        exact hxe
      · rw [hpcg] at hsnd2 h1b h2b
        rw [hsnd2]
        by_cases hpl : pfx.length = 0
        · simpa [hpl] using hxe
        · have hcmpx : ustrcmpN pfx (key.drop ccpl) pfx.length = 0 :=
            hcond.resolve_left hpl
          have h2b' := h2b h3N
          have hslot : slotCcpl ccpl pfx.length items.length pc.1 =
              ccpl + pfx.length := by
            unfold slotCcpl
            rw [if_neg (by omega)]
          have hpe := hPred pc.1 ch hchild e2 he2
          rw [hslot] at hpe
          have hcmpe : ustrcmpN pfx (e2.k.drop ccpl) pfx.length = 0 := by
            rcases predictPos_cases hpt items.length s b pfx e2.k ccpl with
              ⟨_, _, hq⟩ | ⟨_, _, hq⟩ | ⟨hc2, _, _, _⟩
            · rw [hq] at hpe
              have hf := (Prod.ext_iff.mp hpe).1
              omega
            · rw [hq] at hpe
              have hf := (Prod.ext_iff.mp hpe).1
              omega
            · exact hc2.resolve_left hpl
          exact take_add_of_match hzfp hxe hcmpx hcmpe
    have ihch := ih pc.1 ch hchild key v hzk
      (by rw [hsnd] at hagreech; exact hagreech)
    rw [← hsnd] at ihch
    obtain ⟨ihf, ihs⟩ := ihch
    have hfunnel : ∀ (j : Nat) (c2 : Item), items[j]? = some c2 →
        ∀ e2 ∈ extractItem c2, e2.k = key → j = pc.1 := by
      intro j c2 hj e2 he2 hek
      have hpe := hPred j c2 hj e2 he2
      rw [hek, hpcg] at hpe
      rw [hpe]
    constructor
    · intro hfail
      have hf2 : (insertItem hpt pmss ch key v pc.2).2.1 = false := hfail
      obtain ⟨hid, hpres⟩ := ihf hf2
      constructor
      · show Item.mult nk s b pfx
          (items.set pc.1 (insertItem hpt pmss ch key v pc.2).1) = _
        rw [hid, hch]
        rw [← getD_eq_getElem_item hgetlt, set_getD_self hgetlt]
      · obtain ⟨e2, he2, hek⟩ := hpres
        exact ⟨e2, mem_extractItems.mpr ⟨pc.1, ch, hchild, he2⟩, hek⟩
    · intro hsucc
      have hs2 : (insertItem hpt pmss ch key v pc.2).2.1 = true := hsucc
      have habsch := ihs hs2
      intro e2 he2 hek
      obtain ⟨j, c2, hj, hec2⟩ := mem_extractItems.mp he2
      have hj2 := hfunnel j c2 hj e2 hec2 hek
      subst hj2
      rw [hchild] at hj
      obtain rfl := Option.some.inj hj
      exact habsch e2 hec2 hek

/-! ### State-level corollaries (`class LITS` facade) -/

/-- A legitimate facade state: the root is well-formed at prefix 0. -/
def WFState (st : LState) : Prop := WF st.hpt st.root 0

theorem litsLookup_spec {st : LState} (h : WFState st) (x : Key) :
    litsLookup st x = (extractItem st.root).find? (fun e => e.k == x) := by
  unfold litsLookup
  exact lookupItem_eq h x (fun e _ => rfl)

theorem lstate_eta (st : LState) (r : Item) (h : r = st.root) :
    ({ st with root := r } : LState) = st := by
  cases st
  simp [h]

/-- `LITS::insert` at the facade level. -/
theorem litsInsert_spec {st : LState} (mono : MonoModel st.hpt)
    (hwf : WFState st) (key : Key) (v : Val) (hzk : ZFKey key) :
    ((litsInsert st key v).2 = false →
      (litsInsert st key v).1 = st ∧
      ∃ e ∈ extractItem st.root, e.k = key) ∧
    ((litsInsert st key v).2 = true →
      (∀ e ∈ extractItem st.root, e.k ≠ key) ∧
      WFState (litsInsert st key v).1 ∧
      (litsInsert st key v).1.hpt = st.hpt ∧
      (litsInsert st key v).1.pmss = st.pmss ∧
      extractItem (litsInsert st key v).1.root =
        listInsertSorted ⟨key, v⟩ (extractItem st.root)) := by
  obtain ⟨hf, hs⟩ := insertItem_spec mono hwf key v hzk (fun e _ => rfl)
  simp only [litsInsert]
  cases hb : (insertItem st.hpt st.pmss st.root key v 0).2.1 with
  | false =>
    rw [if_neg (by simp)]
    obtain ⟨hid, hpres⟩ := hf hb
    constructor
    · intro _
      exact ⟨lstate_eta st _ hid, hpres⟩
    · intro hcon
      simp at hcon
  | true =>
    rw [if_pos rfl]
    obtain ⟨habs, heff, hwfcn, hexcn⟩ := hs hb
    constructor
    · intro hcon
      simp at hcon
    · intro _
      exact ⟨habs, hwfcn, rfl, rfl, hexcn⟩

/-- `LITS::remove` at the facade level. -/
theorem litsRemove_spec {st : LState} (hwf : WFState st) (key : Key) :
    ((litsRemove st key).2 = false →
      (litsRemove st key).1 = st ∧
      ∀ e ∈ extractItem st.root, e.k ≠ key) ∧
    ((litsRemove st key).2 = true →
      (∃ e ∈ extractItem st.root, e.k = key) ∧
      WFState (litsRemove st key).1 ∧
      (litsRemove st key).1.hpt = st.hpt ∧
      (litsRemove st key).1.pmss = st.pmss ∧
      extractItem (litsRemove st key).1.root =
        (extractItem st.root).eraseP (fun e => e.k == key)) := by
  obtain ⟨hf, hs⟩ := removeItem_spec hwf key (fun e _ => rfl)
  simp only [litsRemove]
  cases hb : (removeItem st.hpt st.pmss st.root key 0).2.1 with
  | false =>
    rw [if_neg (by simp)]
    obtain ⟨hid, habs⟩ := hf hb
    constructor
    · intro _
      exact ⟨lstate_eta st _ hid, habs⟩
    · intro hcon
      simp at hcon
  | true =>
    rw [if_pos rfl]
    obtain ⟨hpres, heff, hwfcn, hexcn⟩ := hs hb
    constructor
    · intro hcon
      simp at hcon
    · intro _
      exact ⟨hpres, hwfcn, rfl, rfl, hexcn⟩

/-- `LITS::upsert` of an absent key at the facade level. -/
theorem litsUpsert_absent_spec {st : LState} (mono : MonoModel st.hpt)
    (hwf : WFState st) (key : Key) (v : Val) (hzk : ZFKey key)
    (habs : ∀ e ∈ extractItem st.root, e.k ≠ key) :
    (litsUpsert st key v).2 = 0 ∧
    WFState (litsUpsert st key v).1 ∧
    (litsUpsert st key v).1.hpt = st.hpt ∧
    (litsUpsert st key v).1.pmss = st.pmss ∧
    extractItem (litsUpsert st key v).1.root =
      listInsertSorted ⟨key, v⟩ (extractItem st.root) := by
  obtain ⟨hval, heff, hwfcn, hexcn⟩ :=
    upsertItem_absent_spec mono hwf key v hzk (fun e _ => rfl) habs
  simp only [litsUpsert]
  rw [if_pos hval]
  exact ⟨rfl, hwfcn, rfl, rfl, hexcn⟩

/-- `LITS::upsert` of a present key with a nonzero stored value at the
facade level. -/
theorem litsUpsert_present_spec {st : LState} (hwf : WFState st)
    (key : Key) (v w : Val)
    (hpres : ∃ e ∈ extractItem st.root, e.k = key ∧ e.v = w)
    (hw : w ≠ 0) :
    (litsUpsert st key v).2 = w ∧
    WFState (litsUpsert st key v).1 ∧
    (litsUpsert st key v).1.hpt = st.hpt ∧
    (litsUpsert st key v).1.pmss = st.pmss ∧
    extractItem (litsUpsert st key v).1.root =
      (extractItem st.root).map
        (fun e => if e.k = key then ⟨key, v⟩ else e) := by
  obtain ⟨hval, heff, hwfcn⟩ :=
    upsertItem_present_spec hwf key v w (fun e _ => rfl) hpres hw
  simp only [litsUpsert]
  rw [if_neg (by rw [hval]; exact hw)]
  exact ⟨hval, hwfcn, rfl, rfl, heff⟩

/-! ### Concrete model instances

Concrete instantiations of the opaque collaborators, used by the
witnesses and counterexamples: a constant HPT, a linear byte-driven HPT,
and PMSS policies with fixed subtype choices. -/

/-- An HPT whose predictions are identically zero. -/
def constHPT : HPT :=
  ⟨fun _ _ => 0, fun _ _ _ _ _ => 0, fun _ _ _ _ => 0⟩

/-- An HPT reading the first key byte: the CDF is the byte itself, the
with-prefix prediction is the byte and the prefix-free prediction is a
three-step function of the byte. -/
def linHPT : HPT :=
  ⟨fun k _ => (byteAt k 0 : ℚ),
   fun k _ _ _ _ => (byteAt k 0 : ℤ),
   fun k _ _ _ =>
     if byteAt k 0 ≤ 1 then 0 else if byteAt k 0 ≤ 63 then 1 else 2000⟩

/-- A PMSS that always chooses the trie subtype. -/
def triePMSS : PMSS := ⟨fun _ _ => .Trie⟩

/-- A PMSS choosing the model subtype exactly at one group size. -/
def pmssItemsAt (m : Nat) : PMSS :=
  ⟨fun n _ => if n = m then .Items else .Trie⟩

/-- A constant training function for bulkload witnesses. -/
def constTrain : List Key → HPT := fun _ => constHPT

/-! ### Monotonicity of bounded comparison, and `MonoModel` instances -/

/-- A smaller key has a no-larger first byte, and on equal first bytes
the tails compare the same way (or are equal). -/
theorem ustrcmp_head_le {s t : Key} (h : ustrcmp s t = -1) :
    s.headD 0 ≤ t.headD 0 ∧
      (s.headD 0 = t.headD 0 →
        ustrcmp s.tail t.tail = -1 ∨ s.tail = t.tail) := by
  cases s with
  | nil =>
    cases t with
    | nil => simp [ustrcmp] at h
    | cons c t2 =>
      refine ⟨by simp, fun hc => ?_⟩
      cases t2 with
      | nil => exact Or.inr rfl
      | cons d t3 => exact Or.inl rfl
  | cons a s2 =>
    cases t with
    | nil => simp [ustrcmp] at h
    | cons b t2 =>
      by_cases hab : a = b
      · subst hab
        rw [ustrcmp_cons_eq] at h
        exact ⟨by simp, fun _ => Or.inl h⟩
      · simp only [ustrcmp, if_neg hab] at h
        split at h
        · exact absurd h (by decide)
        · rename_i hgt
          refine ⟨by simp; omega, fun hc => ?_⟩
          simp at hc
          omega

/-- Bounded comparison against a fixed prefix is monotone along the key
order: a prefix below a key is below every larger key, and a prefix above
a key is above every smaller key. -/
theorem ustrcmpN_mono : ∀ (n : Nat) (p s t : Key),
    ustrcmp s t = -1 ∨ s = t →
    (ustrcmpN p s n = -1 → ustrcmpN p t n = -1) ∧
    (ustrcmpN p t n = 1 → ustrcmpN p s n = 1) := by
  intro n
  induction n with
  | zero => intro p s t _; simp [ustrcmpN]
  | succ m ih =>
    intro p s t hst
    rcases hst with hst | rfl
    · obtain ⟨hhead, htail⟩ := ustrcmp_head_le hst
      constructor
      · intro h1
        simp only [ustrcmpN] at h1 ⊢
        by_cases he : p.headD 0 = s.headD 0
        · rw [if_pos he] at h1
          by_cases he2 : s.headD 0 = t.headD 0
          · rw [if_pos (he.trans he2)]
            rcases htail he2 with hrec | hrec
            · exact (ih p.tail s.tail t.tail (Or.inl hrec)).1 h1
            · rw [← hrec]; exact h1
          · have hlt : s.headD 0 < t.headD 0 := by omega
            rw [if_neg (by omega), if_neg (by omega)]
        · rw [if_neg he] at h1
          have hlt : p.headD 0 < s.headD 0 := by
            split at h1
            · exact absurd h1 (by decide)
            · omega
          rw [if_neg (by omega), if_neg (by omega)]
      · intro h1
        simp only [ustrcmpN] at h1 ⊢
        by_cases he : p.headD 0 = t.headD 0
        · rw [if_pos he] at h1
          by_cases he2 : s.headD 0 = t.headD 0
          · rw [if_pos (he.trans he2.symm)]
            rcases htail he2 with hrec | hrec
            · exact (ih p.tail s.tail t.tail (Or.inl hrec)).2 h1
            · rw [hrec]; exact h1
          · have hlt : s.headD 0 < t.headD 0 := by omega
            rw [if_neg (by omega), if_pos (by omega)]
        · rw [if_neg he] at h1
          have hgt : p.headD 0 > t.headD 0 := by
            split at h1
            · omega
            · exact absurd h1 (by decide)
          rw [if_neg (by omega), if_pos (by omega)]
    · exact ⟨fun h => h, fun h => h⟩

/-- To check `MonoModel` it is enough to compare two keys that both pass
the stored-prefix test: the boundary branches are ordered by
`ustrcmpN_mono` on their own. -/
theorem monoModel_intro (hpt : HPT)
    (hm : ∀ (ial : Nat) (kq bq : ℚ) (pfx : List Nat) (x y : Key)
      (ccpl : Nat), 3 ≤ ial → keyLt x y → x.take ccpl = y.take ccpl →
      (pfx.length = 0 ∨ ustrcmpN pfx (x.drop ccpl) pfx.length = 0) →
      (pfx.length = 0 ∨ ustrcmpN pfx (y.drop ccpl) pfx.length = 0) →
      (predictPos hpt ial kq bq pfx x ccpl).1 ≤
        (predictPos hpt ial kq bq pfx y ccpl).1) :
    MonoModel hpt := by
  intro ial kq bq pfx x y ccpl h3 hlt htake
  have hsd : ustrcmp (x.drop ccpl) (y.drop ccpl) = -1 := by
    rw [ustrcmp_drop_of_take_eq ccpl x y htake]
    exact hlt
  obtain ⟨hmono1, hmono2⟩ :=
    ustrcmpN_mono pfx.length pfx (x.drop ccpl) (y.drop ccpl) (Or.inl hsd)
  rcases predictPos_cases hpt ial kq bq pfx x ccpl with
    ⟨hne, hcx, hqx⟩ | ⟨hne, hcx, hqx⟩ | ⟨hcondx, _, hx1, hx2⟩
  · -- x above: y is above as well
    have hcy := hmono1 hcx
    rw [hqx, predictPos_above hne hcy]
  · -- x below: slot 0
    rw [hqx]
    exact Nat.zero_le _
  · rcases predictPos_cases hpt ial kq bq pfx y ccpl with
      ⟨hne, hcy, hqy⟩ | ⟨hne, hcy, hqy⟩ | ⟨hcondy, _, _, _⟩
    · -- y above: x is an interior slot
      rw [hqy]
      have := hx2 h3
      omega
    · -- y below is impossible: x would be below too
      have hcx2 := hmono2 hcy
      rcases hcondx with hc0 | hc0
      · exact absurd hc0 hne
      · rw [hc0] at hcx2
        exact absurd hcx2 (by decide)
    · exact hm ial kq bq pfx x y ccpl h3 hlt htake hcondx hcondy

/-- The constant HPT routes every prefix-matching key to slot 1. -/
theorem predictPos_const_fst (ial : Nat) (kq bq : ℚ) (pfx : List Nat)
    (key : Key) (ccpl : Nat)
    (h : pfx.length = 0 ∨ ustrcmpN pfx (key.drop ccpl) pfx.length = 0) :
    (predictPos constHPT ial kq bq pfx key ccpl).1 = 1 := by
  unfold predictPos
  have h1 : ¬ (pfx.length ≠ 0 ∧ ustrcmpN pfx (key.drop ccpl) pfx.length = -1) := by
    rintro ⟨hne, hc⟩
    rcases h with h | h
    · exact hne h
    · rw [h] at hc; exact absurd hc (by decide)
  have h2 : ¬ (pfx.length ≠ 0 ∧ ustrcmpN pfx (key.drop ccpl) pfx.length = 1) := by
    rintro ⟨hne, hc⟩
    rcases h with h | h
    · exact hne h
    · rw [h] at hc; exact absurd hc (by decide)
  simp only [if_neg h1, if_neg h2, constHPT]
  have hz : (if ccpl + pfx.length ≠ 0 then (0 : ℤ) + 1 else (0 : ℤ) + 1) = 1 := by
    split <;> rfl
  rw [hz]
  have : max (min (1 : ℤ) ((ial : ℤ) - 2)) 1 = 1 :=
    max_eq_right (min_le_left _ _)
  rw [this]
  rfl

/-- The constant HPT is a monotone model. -/
theorem monoModel_const : MonoModel constHPT := by
  refine monoModel_intro constHPT ?_
  intro ial kq bq pfx x y ccpl h3 hlt htake hcx hcy
  rw [predictPos_const_fst ial kq bq pfx x ccpl hcx,
    predictPos_const_fst ial kq bq pfx y ccpl hcy]

/-- First key byte, as read by `linHPT`. -/
theorem byteAt_zero_mono {x y : Key} (h : keyLt x y) :
    byteAt x 0 ≤ byteAt y 0 := by
  have := (ustrcmp_head_le h).1
  cases x <;> cases y <;> simpa [byteAt, List.getD] using this

/-- The byte-driven HPT routes prefix-matching keys monotonically. -/
theorem predictPos_lin_fst_mono (ial : Nat) (kq bq : ℚ) (pfx : List Nat)
    (x y : Key) (ccpl : Nat) (hlt : keyLt x y) (htake : x.take ccpl = y.take ccpl)
    (hcx : pfx.length = 0 ∨ ustrcmpN pfx (x.drop ccpl) pfx.length = 0)
    (hcy : pfx.length = 0 ∨ ustrcmpN pfx (y.drop ccpl) pfx.length = 0) :
    (predictPos linHPT ial kq bq pfx x ccpl).1 ≤
      (predictPos linHPT ial kq bq pfx y ccpl).1 := by
  have hb : byteAt x 0 ≤ byteAt y 0 := byteAt_zero_mono hlt
  have hnx : ¬ (pfx.length ≠ 0 ∧ ustrcmpN pfx (x.drop ccpl) pfx.length = -1) := by
    rintro ⟨hne, hc⟩
    rcases hcx with h | h
    · exact hne h
    · rw [h] at hc; exact absurd hc (by decide)
  have hnx2 : ¬ (pfx.length ≠ 0 ∧ ustrcmpN pfx (x.drop ccpl) pfx.length = 1) := by
    rintro ⟨hne, hc⟩
    rcases hcx with h | h
    · exact hne h
    · rw [h] at hc; exact absurd hc (by decide)
  have hny : ¬ (pfx.length ≠ 0 ∧ ustrcmpN pfx (y.drop ccpl) pfx.length = -1) := by
    rintro ⟨hne, hc⟩
    rcases hcy with h | h
    · exact hne h
    · rw [h] at hc; exact absurd hc (by decide)
  have hny2 : ¬ (pfx.length ≠ 0 ∧ ustrcmpN pfx (y.drop ccpl) pfx.length = 1) := by
    rintro ⟨hne, hc⟩
    rcases hcy with h | h
    · exact hne h
    · rw [h] at hc; exact absurd hc (by decide)
  unfold predictPos
  simp only [if_neg hnx, if_neg hnx2, if_neg hny, if_neg hny2, linHPT]
  have hposle : ∀ n m : Nat, n ≤ m →
      (if (ccpl + pfx.length ≠ 0) then (n : ℤ) + 1
        else (if n ≤ 1 then (0:ℤ) else if n ≤ 63 then 1 else 2000) + 1) ≤
      (if (ccpl + pfx.length ≠ 0) then (m : ℤ) + 1
        else (if m ≤ 1 then (0:ℤ) else if m ≤ 63 then 1 else 2000) + 1) := by
    intro n m hnm
    split
    · omega
    · split_ifs <;> omega
  have hp := hposle (byteAt x 0) (byteAt y 0) hb
  have hmm : max (min (if (ccpl + pfx.length ≠ 0) then ((byteAt x 0 : ℤ)) + 1
      else (if byteAt x 0 ≤ 1 then (0:ℤ)
        else if byteAt x 0 ≤ 63 then 1 else 2000) + 1) ((ial : ℤ) - 2)) 1 ≤
      max (min (if (ccpl + pfx.length ≠ 0) then ((byteAt y 0 : ℤ)) + 1
      else (if byteAt y 0 ≤ 1 then (0:ℤ)
        else if byteAt y 0 ≤ 63 then 1 else 2000) + 1) ((ial : ℤ) - 2)) 1 :=
    max_le_max (min_le_min hp le_rfl) le_rfl
  exact Int.toNat_le_toNat hmm

/-- The byte-driven HPT is a monotone model. -/
theorem monoModel_lin : MonoModel linHPT := by
  refine monoModel_intro linHPT ?_
  intro ial kq bq pfx x y ccpl h3 hlt htake hcx hcy
  exact predictPos_lin_fst_mono ial kq bq pfx x y ccpl hlt htake hcx hcy

/-! ### C8: the count walk against its specification -/

/-- Modelled from the spec: after a successful mutation, walk the
recorded path root first, adjusting each visited model node's key count
by plus or minus one; at the first visited node whose adjusted count
reaches `keyCount >= 2*N` or `4*keyCount <= N`, extract all KVs of that
subtree, re-bulk-build the subtree in place over the ancestor item at the
recorded ccpl, and stop the walk, leaving every further node on the path
unadjusted (at most one resize per operation). -/
def specResize (hpt : HPT) (pmss : PMSS) (delta : Int) :
    Item → List (Nat × Nat) → Item
  | it, [] => it
  | .mult nk s b pfx items, (pos, ccpl) :: rest =>
    let nk2 := if delta > 0 then nk + 1 else nk - 1
    if 2 * items.length ≤ nk2 ∨ 4 * nk2 ≤ items.length then
      pmssBulk hpt pmss (extractItems items) ccpl
    else
      .mult nk2 s b pfx
        (items.set pos (specResize hpt pmss delta (items.getD pos Item.null) rest))
  | it, _ :: _ => it

/-- Exact key counts along a recorded path: each visited model node's
stored count, adjusted by the operation's delta, equals its reachable
record count (the state `change_num` runs on: the mutation is already
applied, the counts not yet). -/
def CntPath (delta : Int) : Item → List (Nat × Nat) → Prop
  | _, [] => True
  | .mult nk _ _ _ items, (pos, _) :: rest =>
      (extractItems items).length = (if delta > 0 then nk + 1 else nk - 1) ∧
      CntPath delta (items.getD pos Item.null) rest
  | _, _ :: _ => True

/-- C8: after a successful mutation the count walk `change_num` adjusts
each visited model node's key count by the operation's ±1; at the first
visited node whose adjusted count satisfies `keyCount ≥ 2·N` or
`4·keyCount ≤ N` it extracts all KVs of the subtree, re-bulk-builds it
in place over the ancestor item, and stops, leaving the rest of the path
untouched (at most one resize per operation).  Formally: on exact counts,
`changeNum` coincides with the walk `specResize` transcribed from the
spec's words. -/
theorem C8_change_num_walk (hpt : HPT) (pmss : PMSS) (delta : Int) :
    ∀ (it : Item) (path : List (Nat × Nat)), CntPath delta it path →
      changeNum hpt pmss delta it path = specResize hpt pmss delta it path := by
  intro it path
  induction path generalizing it with
  | nil => intro _; cases it <;> rfl
  | cons pr rest ih =>
    intro hcp
    obtain ⟨pos, ccpl⟩ := pr
    cases it with
    | mult nk s b pfx items =>
      obtain ⟨hlen, hrest⟩ := hcp
      simp only [changeNum, specResize]
      split
      · rename_i hd
        rw [if_pos hd] at hlen
        split
        · rw [List.take_of_length_le (le_of_eq hlen)]
        · rw [ih (items.getD pos Item.null) hrest]
      · rename_i hd
        rw [if_neg hd] at hlen
        split
        · rw [List.take_of_length_le (le_of_eq hlen)]
        · rw [ih (items.getD pos Item.null) hrest]
    | null => rfl
    | sing e => rfl
    | cnod c => rfl
    | trie t => rfl

/-- Witness for C8 at a concrete path: a root model node whose adjusted
count hits no threshold, recursing into an exhausted path. -/
theorem C8_witness :
    CntPath 1
      (.mult 100 0 0 [] (List.replicate 30 Item.null ++
        List.replicate 101 (Item.sing ⟨[7], 3⟩))) [(0, 0)] ∧
    changeNum constHPT triePMSS 1
        (.mult 100 0 0 [] (List.replicate 30 Item.null ++
          List.replicate 101 (Item.sing ⟨[7], 3⟩))) [(0, 0)] =
      specResize constHPT triePMSS 1
        (.mult 100 0 0 [] (List.replicate 30 Item.null ++
          List.replicate 101 (Item.sing ⟨[7], 3⟩))) [(0, 0)] := by
  have hc : CntPath 1
      (.mult 100 0 0 [] (List.replicate 30 Item.null ++
        List.replicate 101 (Item.sing ⟨[7], 3⟩))) [(0, 0)] := by
    refine ⟨by decide, trivial⟩
  exact ⟨hc, C8_change_num_walk constHPT triePMSS 1 _ _ hc⟩

/-! ### C7: the slot predictor -/

/-- C7: for a model node of item-array length `N ≥ 3` and any search
key, a key lexicographically below the stored incremental prefix is
directed to slot 0 and one above to slot `N-1`, both leaving the
confirmed prefix length unchanged; a key matching the prefix (or an
absent prefix) advances ccpl by the prefix length and yields the model
prediction plus one clamped into `[1, N-2]`; in every case the returned
slot lies in `[0, N-1]`. -/
theorem C7_predictPos_claim (hpt : HPT) (ial : Nat) (kq bq : ℚ)
    (pfx : List Nat) (key : Key) (ccpl : Nat) (h3 : 3 ≤ ial) :
    (pfx.length ≠ 0 → ustrcmpN pfx (key.drop ccpl) pfx.length = 1 →
      predictPos hpt ial kq bq pfx key ccpl = (0, ccpl)) ∧
    (pfx.length ≠ 0 → ustrcmpN pfx (key.drop ccpl) pfx.length = -1 →
      predictPos hpt ial kq bq pfx key ccpl = (ial - 1, ccpl)) ∧
    ((pfx.length = 0 ∨ ustrcmpN pfx (key.drop ccpl) pfx.length = 0) →
      (predictPos hpt ial kq bq pfx key ccpl).2 = ccpl + pfx.length ∧
      1 ≤ (predictPos hpt ial kq bq pfx key ccpl).1 ∧
      (predictPos hpt ial kq bq pfx key ccpl).1 ≤ ial - 2) ∧
    (predictPos hpt ial kq bq pfx key ccpl).1 ≤ ial - 1 := by
  refine ⟨fun h hc => predictPos_below h hc,
    fun h hc => predictPos_above h hc,
    fun h => ⟨(predictPos_match h).1, (predictPos_match h).2.1,
      (predictPos_match h).2.2 h3⟩, ?_⟩
  rcases predictPos_cases hpt ial kq bq pfx key ccpl with
    ⟨_, _, hq⟩ | ⟨_, _, hq⟩ | ⟨_, _, _, h2⟩
  · rw [hq]
  · rw [hq]
    exact Nat.zero_le _
  · have := h2 h3
    omega

/-- Witness for C7 at a concrete call. -/
theorem C7_witness :
    (3 ≤ 5) ∧
    ((([(1 : Nat)] : List Nat).length ≠ 0 →
      ustrcmpN [1] (([2] : Key).drop 0) [(1 : Nat)].length = 1 →
      predictPos constHPT 5 0 0 [1] [2] 0 = (0, 0)) ∧
    ([(1 : Nat)].length ≠ 0 →
      ustrcmpN [1] (([2] : Key).drop 0) [(1 : Nat)].length = -1 →
      predictPos constHPT 5 0 0 [1] [2] 0 = (5 - 1, 0)) ∧
    (([(1 : Nat)].length = 0 ∨
        ustrcmpN [1] (([2] : Key).drop 0) [(1 : Nat)].length = 0) →
      (predictPos constHPT 5 0 0 [1] [2] 0).2 = 0 + [(1 : Nat)].length ∧
      1 ≤ (predictPos constHPT 5 0 0 [1] [2] 0).1 ∧
      (predictPos constHPT 5 0 0 [1] [2] 0).1 ≤ 5 - 2) ∧
    (predictPos constHPT 5 0 0 [1] [2] 0).1 ≤ 5 - 1) :=
  ⟨by decide, C7_predictPos_claim constHPT 5 0 0 [1] [2] 0 (by decide)⟩

/-! ### C6: bulkload's rejection condition -/

/-- C6: `bulkload` fails exactly when the input has fewer than 1000 keys
or the key sequence is not strictly sorted unique; otherwise it succeeds,
using the supplied HPT or training one from the keys when none is
supplied. -/
theorem C6_bulkload_claim (hptArg : Option HPT) (train : List Key → HPT)
    (pmss : PMSS) (keys : List Key) (vals : List Val) :
    (litsBulkload hptArg train pmss keys vals = none ↔
      keys.length < 1000 ∨ ¬ List.Chain' keyLt keys) ∧
    (∀ st, litsBulkload hptArg train pmss keys vals = some st →
      st.hpt = hptArg.getD (train keys)) := by
  by_cases h1 : keys.length < 1000
  · constructor
    · simp [litsBulkload, h1]
    · intro st h
      simp [litsBulkload, h1] at h
  · by_cases h2 : List.Chain' keyLt keys
    · constructor
      · simp [litsBulkload, h1, h2]
      · intro st h
        simp only [litsBulkload, if_neg h1] at h
        rw [if_neg (by simpa using h2)] at h
        cases h
        rfl
    · constructor
      · simp [litsBulkload, h1, h2]
      · intro st h
        simp only [litsBulkload, if_neg h1] at h
        rw [if_pos (by simpa using h2)] at h
        cases h

/-- Witness for C6 at a concrete rejected input. -/
theorem C6_witness :
    litsBulkload (some constHPT) constTrain triePMSS [] [] = none ↔
      ([] : List Key).length < 1000 ∨ ¬ List.Chain' keyLt [] :=
  (C6_bulkload_claim (some constHPT) constTrain triePMSS [] []).1


/-! ### C5: failed mutations are no-ops -/

/-- C5: on a well-formed index, inserting an already-present key returns
false and leaves the state unchanged, and removing an absent key returns
false and leaves the state unchanged. -/
theorem C5_failed_mutation_noop {st : LState} (hwf : WFState st) (key : Key)
    (v : Val) (hzk : ZFKey key) :
    ((∃ e ∈ extractItem st.root, e.k = key) →
      (litsInsert st key v).2 = false ∧ (litsInsert st key v).1 = st) ∧
    ((∀ e ∈ extractItem st.root, e.k ≠ key) →
      (litsRemove st key).2 = false ∧ (litsRemove st key).1 = st) := by
  constructor
  · intro hpres
    obtain ⟨hf, hs⟩ := insertItem_fail_spec hwf key v hzk (fun e _ => rfl)
    simp only [litsInsert]
    cases hb : (insertItem st.hpt st.pmss st.root key v 0).2.1 with
    | true =>
      obtain ⟨e, he, hek⟩ := hpres
      exact absurd hek (hs hb e he)
    | false =>
      rw [if_neg (by simp)]
      obtain ⟨hid, _⟩ := hf hb
      exact ⟨rfl, lstate_eta st _ hid⟩
  · intro habs
    obtain ⟨hf, hs⟩ := removeItem_spec hwf key (fun e _ => rfl)
    simp only [litsRemove]
    cases hb : (removeItem st.hpt st.pmss st.root key 0).2.1 with
    | true =>
      obtain ⟨hpres2, _⟩ := hs hb
      obtain ⟨e, he, hek⟩ := hpres2
      exact absurd hek (habs e he)
    | false =>
      rw [if_neg (by simp)]
      obtain ⟨hid, _⟩ := hf hb
      exact ⟨rfl, lstate_eta st _ hid⟩

instance ZFKey.decidable : ∀ k : Key, Decidable (ZFKey k) := by
  intro k; unfold ZFKey; infer_instance

/-- A one-record state for small witnesses. -/
def singState : LState := ⟨constHPT, triePMSS, .sing ⟨[1], 5⟩⟩

/-- Witness for C5: a present-key insert and an absent-key remove on a
one-record index both fail and change nothing. -/
theorem C5_witness :
    WFState singState ∧ ZFKey [1] ∧
    (((∃ e ∈ extractItem singState.root, e.k = [1]) →
        (litsInsert singState [1] 7).2 = false ∧
        (litsInsert singState [1] 7).1 = singState) ∧
      ((∀ e ∈ extractItem singState.root, e.k ≠ [1]) →
        (litsRemove singState [1]).2 = false ∧
        (litsRemove singState [1]).1 = singState)) := by
  have hwf : WFState singState := WF.sing _ 0 (by decide)
  exact ⟨hwf, by decide, C5_failed_mutation_noop hwf [1] 7 (by decide)⟩

/-! ### C1: bulkload then lookup -/

instance : IsTrans Key keyLt := ⟨fun _ _ _ => keyLt_trans⟩

/-- The keys of a zipped batch. -/
theorem map_k_zipWith : ∀ (keys : List Key) (vals : List Val),
    vals.length = keys.length →
    (List.zipWith KVEntry.mk keys vals).map (fun e => e.k) = keys := by
  intro keys
  induction keys with
  | nil => intro vals _; simp
  | cons a ks ih =>
    intro vals h
    cases vals with
    | nil => simp at h
    | cons v vs =>
      simp only [List.zipWith_cons_cons, List.map_cons]
      exact congrArg (a :: ·) (ih vs (by simpa using h))

/-- A zipped record's key is a batch key. -/
theorem mem_zipWith_mk : ∀ {keys : List Key} {vals : List Val} {e : KVEntry},
    e ∈ List.zipWith KVEntry.mk keys vals → e.k ∈ keys := by
  intro keys
  induction keys with
  | nil => intro vals e h; simp at h
  | cons a ks ih =>
    intro vals e h
    cases vals with
    | nil => simp at h
    | cons v vs =>
      simp only [List.zipWith_cons_cons, List.mem_cons] at h
      rcases h with rfl | h
      · simp
      · exact List.mem_cons_of_mem _ (ih h)

/-- A strictly sorted batch zips into a strictly sorted record list. -/
theorem pairwise_entLt_zipWith {keys : List Key} {vals : List Val}
    (h : vals.length = keys.length) (hs : List.Pairwise keyLt keys) :
    List.Pairwise entLt (List.zipWith KVEntry.mk keys vals) := by
  have hmap := map_k_zipWith keys vals h
  have h2 : List.Pairwise keyLt
      ((List.zipWith KVEntry.mk keys vals).map (fun e => e.k)) := by
    rw [hmap]; exact hs
  rw [List.pairwise_map] at h2
  exact h2.imp (fun hab => hab)

/-- C1: for every strictly sorted duplicate-free batch of at least 1000
zero-free keys with matching values, `bulkload` succeeds, every batch
pair is found by `lookup` with its value, and `lookup` of any key not in
the batch returns null. -/
theorem C1_bulkload_lookup (hptArg : Option HPT) (train : List Key → HPT)
    (pmss : PMSS) (keys : List Key) (vals : List Val)
    (hlen : vals.length = keys.length) (hsz : 1000 ≤ keys.length)
    (hsort : List.Chain' keyLt keys) (hzf : ∀ k ∈ keys, ZFKey k) :
    ∃ st, litsBulkload hptArg train pmss keys vals = some st ∧
      (∀ e ∈ List.zipWith KVEntry.mk keys vals, litsLookup st e.k = some e) ∧
      (∀ x : Key, x ∉ keys → litsLookup st x = none) := by
  have hch : ¬ keys.length < 1000 := by omega
  have hkvlen : (List.zipWith KVEntry.mk keys vals).length = keys.length := by
    rw [List.length_zipWith, hlen, Nat.min_self]
  have hne : List.zipWith KVEntry.mk keys vals ≠ [] := by
    intro hcon
    rw [hcon] at hkvlen
    simp at hkvlen
    omega
  have hsp : List.Pairwise entLt (List.zipWith KVEntry.mk keys vals) :=
    pairwise_entLt_zipWith hlen (List.chain'_iff_pairwise.mp hsort)
  have hsh : SharedPfx 0 (List.zipWith KVEntry.mk keys vals) :=
    fun a _ b _ => by simp
  have hzk : ZFK (List.zipWith KVEntry.mk keys vals) :=
    fun e he => hzf e.k (mem_zipWith_mk he)
  obtain ⟨hwfr, hext⟩ := pmssBulk_spec (hptArg.getD (train keys)) pmss
    (List.zipWith KVEntry.mk keys vals) 0 hne hsp hsh hzk
  refine ⟨⟨hptArg.getD (train keys), pmss,
    pmssBulk (hptArg.getD (train keys)) pmss
      (List.zipWith KVEntry.mk keys vals) 0⟩, ?_, ?_, ?_⟩
  · simp only [litsBulkload, if_neg hch]
    rw [if_neg (by simpa using hsort)]
  · intro e he
    rw [@litsLookup_spec ⟨hptArg.getD (train keys), pmss,
      pmssBulk (hptArg.getD (train keys)) pmss
        (List.zipWith KVEntry.mk keys vals) 0⟩ hwfr e.k]
    rw [show (LState.root ⟨hptArg.getD (train keys), pmss,
      pmssBulk (hptArg.getD (train keys)) pmss
        (List.zipWith KVEntry.mk keys vals) 0⟩) =
      pmssBulk (hptArg.getD (train keys)) pmss
        (List.zipWith KVEntry.mk keys vals) 0 from rfl, hext]
    exact find?_eq_some_of_mem hsp he rfl
  · intro x hx
    rw [@litsLookup_spec ⟨hptArg.getD (train keys), pmss,
      pmssBulk (hptArg.getD (train keys)) pmss
        (List.zipWith KVEntry.mk keys vals) 0⟩ hwfr x]
    rw [show (LState.root ⟨hptArg.getD (train keys), pmss,
      pmssBulk (hptArg.getD (train keys)) pmss
        (List.zipWith KVEntry.mk keys vals) 0⟩) =
      pmssBulk (hptArg.getD (train keys)) pmss
        (List.zipWith KVEntry.mk keys vals) 0 from rfl, hext]
    exact find?_eq_none_of_not_mem
      (fun e he hcon => hx (hcon ▸ mem_zipWith_mk he))

/-- A concrete strictly sorted batch of 1008 two-byte zero-free keys:
all pairs `[b+1, r+1]` for `b < 63`, `r < 16`, in lexicographic order. -/
def keysW : List Key :=
  (List.range 1008).map (fun i => [i / 16 + 1, i % 16 + 1])

/-- Concrete values for `keysW`: the index plus one. -/
def valsW : List Val := (List.range 1008).map (fun i => i + 1)

/-- Two-byte keys compare in pair-lexicographic order. -/
theorem keyLt_pair {a b c d : Nat} (h : a < c ∨ (a = c ∧ b < d)) :
    keyLt [a, b] [c, d] := by
  rcases h with h | ⟨rfl, h⟩
  · unfold keyLt ustrcmp
    rw [if_neg (by omega), if_neg (by omega)]
  · unfold keyLt
    rw [ustrcmp_cons_eq]
    unfold ustrcmp
    rw [if_neg (by omega), if_neg (by omega)]

/-- The concrete batch is strictly sorted. -/
theorem keysW_sorted : List.Chain' keyLt keysW := by
  unfold keysW
  rw [List.chain'_map]
  rw [show (1008 : Nat) = Nat.succ 1007 from rfl]
  rw [List.chain'_range_succ]
  intro m hm
  by_cases hr : m % 16 = 15
  · refine keyLt_pair (Or.inl ?_)
    omega
  · have h1 : (m + 1) / 16 = m / 16 := by omega
    have h2 : (m + 1) % 16 = m % 16 + 1 := by omega
    rw [h1, h2]
    exact keyLt_pair (Or.inr ⟨rfl, by omega⟩)

/-- The concrete batch has zero-free keys. -/
theorem keysW_zf : ∀ k ∈ keysW, ZFKey k := by
  intro k hk
  simp only [keysW, List.mem_map, List.mem_range] at hk
  obtain ⟨i, _, rfl⟩ := hk
  intro byte hb
  simp only [List.mem_cons, List.not_mem_nil, or_false] at hb
  rcases hb with rfl | rfl
  · omega
  · omega

set_option maxRecDepth 8000 in
/-- Witness for C1 at a concrete 1008-key batch. -/
theorem C1_witness :
    valsW.length = keysW.length ∧ 1000 ≤ keysW.length ∧
    List.Chain' keyLt keysW ∧ (∀ k ∈ keysW, ZFKey k) ∧
    ∃ st, litsBulkload (some constHPT) constTrain triePMSS keysW valsW =
        some st ∧
      (∀ e ∈ List.zipWith KVEntry.mk keysW valsW,
        litsLookup st e.k = some e) ∧
      (∀ x : Key, x ∉ keysW → litsLookup st x = none) := by
  have hlen : valsW.length = keysW.length := by
    rw [valsW, keysW, List.length_map, List.length_map,
      List.length_range]
  have hsz : 1000 ≤ keysW.length := by
    rw [keysW, List.length_map, List.length_range]
    omega
  refine ⟨hlen, hsz, keysW_sorted, keysW_zf, ?_⟩
  exact C1_bulkload_lookup (some constHPT) constTrain triePMSS keysW valsW
    hlen hsz keysW_sorted keysW_zf

/-! ### C2: round trips (amended) -/

/-- C2 (amended): on a well-formed index with a monotone model, a
successful `insert(k,v)` makes `lookup(k)` return the record `(k,v)`,
and a subsequent `remove(k)` succeeds and makes `lookup(k)` return null;
`upsert(k,v)` of a key stored with a *nonzero* value `w` returns `w` and
makes `lookup(k)` return `(k,v)`.  (The original claim with no nonzero
restriction on the stored value is refuted by `C2_counterexample`: a
stored value 0 in a full compact node makes `upsert` wipe the node.) -/
theorem C2_roundtrip_amended {st : LState} (hwf : WFState st)
    (mono : MonoModel st.hpt) (key : Key) (v w : Val) (hzk : ZFKey key) :
    ((litsInsert st key v).2 = true →
      litsLookup (litsInsert st key v).1 key = some ⟨key, v⟩ ∧
      (litsRemove (litsInsert st key v).1 key).2 = true ∧
      litsLookup (litsRemove (litsInsert st key v).1 key).1 key = none) ∧
    ((∃ e ∈ extractItem st.root, e.k = key ∧ e.v = w) → w ≠ 0 →
      (litsUpsert st key v).2 = w ∧
      litsLookup (litsUpsert st key v).1 key = some ⟨key, v⟩) := by
  constructor
  · intro hs
    obtain ⟨habs, hwf1, hhpt1, hpmss1, hext1⟩ :=
      (litsInsert_spec mono hwf key v hzk).2 hs
    have hs1 : List.Pairwise entLt (extractItem (litsInsert st key v).1.root) :=
      WF_sorted hwf1
    have hlook1 : litsLookup (litsInsert st key v).1 key = some ⟨key, v⟩ := by
      rw [litsLookup_spec hwf1 key, hext1]
      rw [hext1] at hs1
      exact find?_eq_some_of_mem hs1 (listInsertSorted_mem.mpr (Or.inl rfl)) rfl
    refine ⟨hlook1, ?_⟩
    obtain ⟨rf, rs⟩ := litsRemove_spec hwf1 key
    cases hb : (litsRemove (litsInsert st key v).1 key).2 with
    | false =>
      obtain ⟨_, habs2⟩ := rf hb
      have hmem : (⟨key, v⟩ : KVEntry) ∈ extractItem (litsInsert st key v).1.root := by
        rw [hext1]
        exact listInsertSorted_mem.mpr (Or.inl rfl)
      exact absurd rfl (habs2 ⟨key, v⟩ hmem)
    | true =>
      obtain ⟨_, hwf2, _, _, hext2⟩ := rs hb
      refine ⟨rfl, ?_⟩
      rw [litsLookup_spec hwf2 key, hext2]
      rw [hext1] at hs1 ⊢
      exact find?_eraseP_self_of_sorted hs1
  · intro hpres hw
    obtain ⟨hval, hwf2, hhpt, hpmss, hext⟩ :=
      litsUpsert_present_spec hwf key v w hpres hw
    refine ⟨hval, ?_⟩
    rw [litsLookup_spec hwf2 key, hext]
    refine find?_mapval_self ?_
    obtain ⟨e, he, hek, _⟩ := hpres
    exact ⟨e, he, hek⟩

/-- Witness for C2 at the one-record index. -/
theorem C2_witness :
    WFState singState ∧ MonoModel singState.hpt ∧ ZFKey [2] ∧
    (((litsInsert singState [2] 7).2 = true →
      litsLookup (litsInsert singState [2] 7).1 [2] = some ⟨[2], 7⟩ ∧
      (litsRemove (litsInsert singState [2] 7).1 [2]).2 = true ∧
      litsLookup (litsRemove (litsInsert singState [2] 7).1 [2]).1 [2] =
        none) ∧
    ((∃ e ∈ extractItem singState.root, e.k = [2] ∧ e.v = 5) → 5 ≠ 0 →
      (litsUpsert singState [2] 7).2 = 5 ∧
      litsLookup (litsUpsert singState [2] 7).1 [2] = some ⟨[2], 7⟩)) := by
  have hwf : WFState singState := WF.sing _ 0 (by decide)
  exact ⟨hwf, monoModel_const, by decide,
    C2_roundtrip_amended hwf monoModel_const [2] 7 5 (by decide)⟩

/-! ### C10: the frame property (amended) -/

/-- C10 (amended): on a well-formed index with a monotone model, an
`insert(k,v)`, a `remove(k)`, or an `upsert(k,v)` whose key is not
stored with value 0, leaves `lookup(k')` unchanged for every other key
`k' ≠ k`.  (The original unguarded claim is refuted by
`C10_counterexample`: upserting a key stored with value 0 in a full
compact node erases the node's other records.) -/
theorem C10_frame_amended {st : LState} (hwf : WFState st)
    (mono : MonoModel st.hpt) (key k2 : Key) (hne : k2 ≠ key)
    (hzk : ZFKey key) (v : Val) :
    litsLookup (litsInsert st key v).1 k2 = litsLookup st k2 ∧
    litsLookup (litsRemove st key).1 k2 = litsLookup st k2 ∧
    ((∀ e ∈ extractItem st.root, e.k = key → e.v ≠ 0) →
      litsLookup (litsUpsert st key v).1 k2 = litsLookup st k2) := by
  obtain ⟨insf, inss⟩ := litsInsert_spec mono hwf key v hzk
  obtain ⟨remf, rems⟩ := litsRemove_spec hwf key
  refine ⟨?_, ?_, ?_⟩
  · cases hb : (litsInsert st key v).2 with
    | false => rw [(insf hb).1]
    | true =>
      obtain ⟨_, hwf1, _, _, hext1⟩ := inss hb
      rw [litsLookup_spec hwf1 k2, litsLookup_spec hwf k2, hext1]
      exact find?_listInsertSorted_ne (by simp [Ne.symm hne]) _
  · cases hb : (litsRemove st key).2 with
    | false => rw [(remf hb).1]
    | true =>
      obtain ⟨_, hwf1, _, _, hext1⟩ := rems hb
      rw [litsLookup_spec hwf1 k2, litsLookup_spec hwf k2, hext1]
      refine find?_eraseP_disjoint ?_
      intro e _ hp
      have : e.k = key := by simpa using hp
      simp [this, Ne.symm hne]
  · intro hguard
    by_cases hp : ∃ e ∈ extractItem st.root, e.k = key
    · obtain ⟨e, he, hek⟩ := hp
      have hw : e.v ≠ 0 := hguard e he hek
      obtain ⟨hval, hwf1, _, _, hext1⟩ :=
        litsUpsert_present_spec hwf key v e.v ⟨e, he, hek, rfl⟩ hw
      rw [litsLookup_spec hwf1 k2, litsLookup_spec hwf k2, hext1]
      exact find?_mapval_ne hne _
    · have habs : ∀ e ∈ extractItem st.root, e.k ≠ key := by
        intro e he hek
        exact hp ⟨e, he, hek⟩
      obtain ⟨hval, hwf1, _, _, hext1⟩ :=
        litsUpsert_absent_spec mono hwf key v hzk habs
      rw [litsLookup_spec hwf1 k2, litsLookup_spec hwf k2, hext1]
      exact find?_listInsertSorted_ne (by simp [Ne.symm hne]) _

/-- Witness for C10 at the one-record index. -/
theorem C10_witness :
    WFState singState ∧ MonoModel singState.hpt ∧ ([1] : Key) ≠ [2] ∧
    ZFKey [2] ∧
    (litsLookup (litsInsert singState [2] 7).1 [1] =
        litsLookup singState [1] ∧
      litsLookup (litsRemove singState [2]).1 [1] =
        litsLookup singState [1] ∧
      ((∀ e ∈ extractItem singState.root, e.k = [2] → e.v ≠ 0) →
        litsLookup (litsUpsert singState [2] 7).1 [1] =
          litsLookup singState [1])) := by
  have hwf : WFState singState := WF.sing _ 0 (by decide)
  exact ⟨hwf, monoModel_const, by decide, by decide,
    C10_frame_amended hwf monoModel_const [2] [1] (by decide) (by decide) 7⟩


/-! ### Reachable states -/

/-- States reachable through the public interface: a successful bulkload
followed by any sequence of inserts, removes and upserts (the claims'
"built index ... any sequence of operations"). -/
inductive Reach : LState → Prop where
  | bulk : ∀ (hptArg : Option HPT) (train : List Key → HPT) (pmss : PMSS)
      (keys : List Key) (vals : List Val) (st : LState),
      litsBulkload hptArg train pmss keys vals = some st → Reach st
  | ins : ∀ st key v, Reach st → Reach (litsInsert st key v).1
  | rem : ∀ st key, Reach st → Reach (litsRemove st key).1
  | ups : ∀ st key v, Reach st → Reach (litsUpsert st key v).1

/-- Guarded reachability: zero-free keys, a monotone trained model, and
no upsert over a key stored with the sentinel value 0 (the operating
conditions under which the structural invariants are maintained). -/
inductive ReachG : LState → Prop where
  | bulk : ∀ (hptArg : Option HPT) (train : List Key → HPT) (pmss : PMSS)
      (keys : List Key) (vals : List Val) (st : LState),
      vals.length = keys.length →
      (∀ k ∈ keys, ZFKey k) →
      MonoModel (hptArg.getD (train keys)) →
      litsBulkload hptArg train pmss keys vals = some st → ReachG st
  | ins : ∀ st key v, ReachG st → ZFKey key → ReachG (litsInsert st key v).1
  | rem : ∀ st key, ReachG st → ReachG (litsRemove st key).1
  | ups : ∀ st key v, ReachG st → ZFKey key →
      (∀ e ∈ extractItem st.root, e.k = key → e.v ≠ 0) →
      ReachG (litsUpsert st key v).1

/-- Guarded-reachable states are well-formed and keep a monotone model. -/
theorem reachG_wf : ∀ {st : LState}, ReachG st →
    WFState st ∧ MonoModel st.hpt := by
  intro st h
  induction h with
  | bulk hptArg train pmss keys vals st hvlen hzf hmono hbulk =>
    by_cases h1 : keys.length < 1000
    · simp [litsBulkload, h1] at hbulk
    · by_cases h2 : List.Chain' keyLt keys
      · simp only [litsBulkload, if_neg h1] at hbulk
        rw [if_neg (by simpa using h2)] at hbulk
        cases hbulk
        have hkvlen : (List.zipWith KVEntry.mk keys vals).length =
            min keys.length vals.length := List.length_zipWith ..
        have hne : List.zipWith KVEntry.mk keys vals ≠ [] := by
          intro hcon
          rw [hcon] at hkvlen
          simp at hkvlen
          omega
        have hsp : List.Pairwise entLt (List.zipWith KVEntry.mk keys vals) :=
          pairwise_entLt_zipWith hvlen (List.chain'_iff_pairwise.mp h2)
        refine ⟨pmssBulk_spec _ _ _ 0 hne hsp (fun a _ b _ => by simp)
          (fun e he => hzf e.k (mem_zipWith_mk he)) |>.1, hmono⟩
      · simp only [litsBulkload, if_neg h1] at hbulk
        rw [if_pos (by simpa using h2)] at hbulk
        cases hbulk
  | ins st key v hr hzk ih =>
    obtain ⟨hwf, hmono⟩ := ih
    obtain ⟨hf, hs⟩ := litsInsert_spec hmono hwf key v hzk
    cases hb : (litsInsert st key v).2 with
    | false =>
      rw [(hf hb).1]
      exact ⟨hwf, hmono⟩
    | true =>
      obtain ⟨_, hwf1, hhpt, _, _⟩ := hs hb
      exact ⟨hwf1, hhpt ▸ hmono⟩
  | rem st key hr ih =>
    obtain ⟨hwf, hmono⟩ := ih
    obtain ⟨hf, hs⟩ := litsRemove_spec hwf key
    cases hb : (litsRemove st key).2 with
    | false =>
      rw [(hf hb).1]
      exact ⟨hwf, hmono⟩
    | true =>
      obtain ⟨_, hwf1, hhpt, _, _⟩ := hs hb
      exact ⟨hwf1, hhpt ▸ hmono⟩
  | ups st key v hr hzk hguard ih =>
    obtain ⟨hwf, hmono⟩ := ih
    by_cases hp : ∃ e ∈ extractItem st.root, e.k = key
    · obtain ⟨e, he, hek⟩ := hp
      obtain ⟨_, hwf1, hhpt, _, _⟩ := litsUpsert_present_spec hwf key v e.v
        ⟨e, he, hek, rfl⟩ (hguard e he hek)
      exact ⟨hwf1, hhpt ▸ hmono⟩
    · have habs : ∀ e ∈ extractItem st.root, e.k ≠ key := by
        intro e he hek
        exact hp ⟨e, he, hek⟩
      obtain ⟨_, hwf1, hhpt, _, _⟩ :=
        litsUpsert_absent_spec hmono hwf key v hzk habs
      exact ⟨hwf1, hhpt ▸ hmono⟩

/-! ### C9: compact-node occupancy bounds -/

mutual

/-- Every compact node of the subtree holds between 2 and 16 records. -/
def cnodCntOK : Item → Bool
  | .cnod c => decide (2 ≤ c.data.length) && decide (c.data.length ≤ 16)
  | .mult _ _ _ _ items => cnodCntOKs items
  | _ => true

/-- `cnodCntOK` over an item array. -/
def cnodCntOKs : List Item → Bool
  | [] => true
  | x :: rest => cnodCntOK x && cnodCntOKs rest

end

/-- A slot-wise bound gives the array-wise bound. -/
theorem cnodCntOKs_of_slots : ∀ (l : List Item),
    (∀ (i : Nat) (child : Item), l[i]? = some child →
      cnodCntOK child = true) →
    cnodCntOKs l = true := by
  intro l
  induction l with
  | nil => intro _; rfl
  | cons x rest ih =>
    intro h
    have hx : cnodCntOK x = true := h 0 x (by simp)
    have hrest : cnodCntOKs rest = true :=
      ih (fun i c hc => h (i + 1) c (by simpa using hc))
    simp [cnodCntOKs, hx, hrest]

/-- Well-formed subtrees satisfy the compact-node occupancy bounds. -/
theorem WF_cnodCntOK {hpt : HPT} : ∀ {it : Item} {ccpl : Nat},
    WF hpt it ccpl → cnodCntOK it = true := by
  intro it ccpl h
  induction h with
  | null _ => rfl
  | sing _ _ _ => rfl
  | cnod c ccpl hcc h2 h16 _ _ _ _ => simp [cnodCntOK, h2, h16]
  | trie _ _ _ _ _ => rfl
  | mult nk s b pfx items ccpl h34N hCnt hUf hzfp hWFc hPred hsort hsh hzfk ih =>
    exact cnodCntOKs_of_slots items ih

/-- C9 (amended): in every state reachable under the guarded interface
(zero-free keys, monotone model, no upsert over a stored value 0), every
reachable compact node holds between 2 and 16 records.  (The unguarded
original claim is refuted by `C9_counterexample`: upserting a key stored
with value 0 in a full compact node leaves an empty compact node
behind.) -/
theorem C9_cnode_bounds_amended {st : LState} (h : ReachG st) :
    cnodCntOK st.root = true :=
  WF_cnodCntOK (reachG_wf h).1


set_option maxRecDepth 16000

/-! ### A concrete bulkloaded model-node state -/

/-- Values for the counterexample chain: record 15 (key `[1,16]`) is
stored with value 0, the upsert sentinel. -/
def valsB : List Val :=
  (List.range 1008).map (fun i => if i = 15 then 0 else i + 1)

/-- The records of the counterexample chain. -/
def kvsB : List KVEntry := List.zipWith KVEntry.mk keysW valsB

/-- The chain's PMSS: model node at the root, tries below. -/
def pmssB : PMSS := pmssItemsAt 1008

/-- The 16-record compact node the bulkload places in slot 1. -/
def cnodB : Cnode := ⟨0, (kvsB.take 16).map hashTag⟩

/-- The root's item array: slot 1 the full compact node, slot 2 a trie,
every other slot empty. -/
def itemsBof (tb : List KVEntry) : List Item :=
  ((List.replicate 2016 Item.null).set 1 (.cnod cnodB)).set 2 (.trie tb)

/-- The bulkloaded state of the counterexample chain. -/
def stB : LState := ⟨linHPT, pmssB, pmssBulk linHPT pmssB kvsB 0⟩

theorem kvsB_length : kvsB.length = 1008 := by
  unfold kvsB valsB keysW
  rw [List.length_zipWith, List.length_map, List.length_map,
    List.length_range]
  exact Nat.min_self 1008

theorem kvsB_sorted : List.Pairwise entLt kvsB := by
  refine pairwise_entLt_zipWith ?_ (List.chain'_iff_pairwise.mp keysW_sorted)
  unfold valsB keysW
  rw [List.length_map, List.length_map, List.length_range]

theorem kvsB_zfk : ZFK kvsB :=
  fun e he => keysW_zf e.k (mem_zipWith_mk he)

theorem kvsB_ne : kvsB ≠ [] := by
  intro h
  have := congrArg List.length h
  rw [kvsB_length] at this
  cases this

/-- The chain's bulkload call succeeds with `stB`. -/
theorem stB_bulk :
    litsBulkload (some linHPT) constTrain pmssB keysW valsB = some stB := by
  unfold litsBulkload
  rw [if_neg (by rw [show keysW.length = 1008 from by
    unfold keysW; rw [List.length_map, List.length_range]]; omega)]
  rw [if_neg (by simpa using keysW_sorted)]
  rfl

/-- `stB` is well-formed with the batch as its extraction. -/
theorem stB_wf : WFState stB ∧ extractItem stB.root = kvsB :=
  pmssBulk_spec linHPT pmssB kvsB 0 kvsB_ne kvsB_sorted
    (fun a _ b _ => by simp) kvsB_zfk

/-- `stB` is reachable. -/
theorem stB_reach : Reach stB :=
  Reach.bulk (some linHPT) constTrain pmssB keysW valsB stB stB_bulk

/-- `stB` is reachable under the guarded interface. -/
theorem stB_reachG : ReachG stB :=
  ReachG.bulk (some linHPT) constTrain pmssB keysW valsB stB
    (by unfold valsB keysW
        rw [List.length_map, List.length_map, List.length_range])
    keysW_zf monoModel_lin stB_bulk

/-- The byte-driven model routes a first byte at most 1 to slot 1. -/
theorem predictPos_lin_byte1 (ial : Nat) (kq bq : ℚ) (key : Key)
    (h3 : 3 ≤ ial) (h1 : byteAt key 0 ≤ 1) :
    predictPos linHPT ial kq bq [] key 0 = (1, 0) := by
  unfold predictPos
  simp only [List.length_nil]
  rw [if_neg (by simp), if_neg (by simp), if_neg (by simp)]
  show ((((if byteAt key 0 ≤ 1 then (0:ℤ) else if byteAt key 0 ≤ 63 then 1
      else 2000) + 1) ⊓ ((ial : ℤ) - 2) ⊔ 1).toNat, 0 + 0) = (1, 0)
  rw [if_pos h1]
  norm_num


/-- The byte-driven model routes a first byte in `[2, 63]` to slot 2. -/
theorem predictPos_lin_byte2 (ial : Nat) (kq bq : ℚ) (key : Key)
    (h4 : 4 ≤ ial) (hlow : ¬ byteAt key 0 ≤ 1) (hhigh : byteAt key 0 ≤ 63) :
    predictPos linHPT ial kq bq [] key 0 = (2, 0) := by
  unfold predictPos
  simp only [List.length_nil]
  rw [if_neg (by simp), if_neg (by simp), if_neg (by simp)]
  show ((((if byteAt key 0 ≤ 1 then (0:ℤ) else if byteAt key 0 ≤ 63 then 1
      else 2000) + 1) ⊓ ((ial : ℤ) - 2) ⊔ 1).toNat, 0 + 0) = (2, 0)
  rw [if_neg hlow, if_pos hhigh]
  have h2 : ((1:ℤ) + 1) ⊓ ((ial : ℤ) - 2) ⊔ 1 = 2 := by
    rw [inf_eq_left.mpr (by omega), sup_eq_left.mpr (by omega)]
    norm_num
  rw [h2]
  rfl

/-- With an empty stored prefix the slope and intercept are dead inputs
of the byte-driven model. -/
theorem predictPos_lin_drop (kq bq kq2 bq2 : ℚ) (ial : Nat) (key : Key) :
    predictPos linHPT ial kq bq [] key 0 =
      predictPos linHPT ial kq2 bq2 [] key 0 := rfl

/-- The chain's batch groups into exactly two runs: the 16 byte-1
records at slot 1 and the rest at slot 2. -/
theorem groupRuns_kvsB (kq bq : ℚ) :
    groupRuns (fun e => (predictPos linHPT 2016 kq bq [] e.k 0).1) 2016
        kvsB = some [(1, kvsB.take 16), (2, kvsB.drop 16)] := by
  have hfun : (fun e : KVEntry => (predictPos linHPT 2016 kq bq [] e.k 0).1) =
      (fun e => (predictPos linHPT 2016 1 1 [] e.k 0).1) :=
    funext (fun e => by rw [predictPos_lin_drop kq bq 1 1 2016 e.k])
  rw [hfun]
  decide

/-- The shape of the bulkloaded root: a 1008-key model node over 2016
slots, the 16-record compact node in slot 1 and a trie in slot 2. -/
theorem stB_root_shape : ∃ kq bq : ℚ,
    stB.root = .mult 1008 kq bq []
      (itemsBof (hotBulkload (kvsB.drop 16))) := by
  refine ⟨1 / ((63 : ℚ) - 1), 1 / ((1 : ℚ) - 63), ?_⟩
  show pmssBulk linHPT pmssB kvsB 0 = _
  unfold pmssBulk
  simp only [pmss_bulkF]
  rw [if_neg (by rw [kvsB_length]; omega), if_neg (by rw [kvsB_length]; omega)]
  rw [if_pos (by rw [kvsB_length]; rfl)]
  simp only [tryModelF]
  have hg0 : kvGet kvsB 0 = ⟨[1, 1], 1⟩ := by decide
  have hg1 : kvGet kvsB (kvsB.length - 1) = ⟨[63, 16], 1008⟩ := by
    rw [kvsB_length]
    decide
  rw [hg1, hg0]
  simp only [show (⟨[1, 1], 1⟩ : KVEntry).k = [1, 1] from rfl,
    show (⟨[63, 16], 1008⟩ : KVEntry).k = [63, 16] from rfl,
    show ucpl [1, 1] [63, 16] = 0 from rfl]
  rw [show linHPT.getCdf [63, 16] 0 = (63 : ℚ) from by norm_num [linHPT, byteAt],
      show linHPT.getCdf [1, 1] 0 = (1 : ℚ) from by norm_num [linHPT, byteAt]]
  rw [if_neg (by norm_num)]
  rw [show List.take (0 - 0) (List.drop 0 ([1, 1] : Key)) = ([] : Key) from rfl]
  rw [kvsB_length]
  rw [show 2 * 1008 = 2016 from rfl]
  rw [if_neg (by
    rw [predictPos_lin_byte2 2016 _ _ [63, 16] (by omega) (by decide) (by decide),
      predictPos_lin_byte1 2016 _ _ [1, 1] (by omega) (by decide)]
    decide)]
  rw [groupRuns_kvsB]
  simp only [List.foldl_cons, List.foldl_nil]
  have hslot1 : pmss_bulkF linHPT pmssB 1008 (List.take 16 kvsB) 0 =
      .cnod cnodB := by
    have hl16 : (List.take 16 kvsB).length = 16 := by
      rw [List.length_take, kvsB_length]
      decide
    rw [show (1008 : Nat) = 1007 + 1 from rfl]
    simp only [pmss_bulkF]
    rw [hl16]
    rw [if_neg (by decide), if_pos (by decide)]
    rfl
  have hslot2 : pmss_bulkF linHPT pmssB 1008 (List.drop 16 kvsB) 0 =
      .trie (hotBulkload (List.drop 16 kvsB)) := by
    have hl992 : (List.drop 16 kvsB).length = 992 := by
      rw [List.length_drop, kvsB_length]
    rw [show (1008 : Nat) = 1007 + 1 from rfl]
    simp only [pmss_bulkF]
    rw [hl992]
    rw [if_neg (by decide), if_neg (by decide)]
    rw [if_neg (by simp [pmssB, pmssItemsAt])]
  rw [hslot1, hslot2]
  unfold itemsBof
  rfl


/-- Re-bulk-building an empty batch yields an empty compact node. -/
theorem pmssBulk_nil : pmssBulk linHPT pmssB [] 0 = .cnod ⟨0, []⟩ := by
  unfold pmssBulk
  simp only [pmss_bulkF]
  rw [if_neg (by decide), if_pos (by decide)]
  rfl

/-- Upserting the key stored with value 0 into the full compact node
wipes the node: the caller takes the 0 result for "inserted" and
re-bulk-builds from the never-filled extraction buffer. -/
theorem cnod_upsert_wipe :
    cnod_upsert linHPT pmssB cnodB [1, 16] 9 = (.cnod ⟨0, []⟩, 0) := by
  unfold cnod_upsert
  rw [if_neg (by decide)]
  split
  · rename_i d old heq
    have hobs : (match tryExtractUpsert cnodB.ccpl [1, 16] 9 cnodB.data with
        | .updated _ o => o
        | .extracted _ => 1) = 0 := by decide
    rw [heq] at hobs
    subst hobs
    rw [if_pos rfl, show cnodB.ccpl = 0 from rfl, pmssBulk_nil]
  · rename_i l heq
    exfalso
    have hobs : (match tryExtractUpsert cnodB.ccpl [1, 16] 9 cnodB.data with
        | .updated _ _ => true
        | .extracted _ => false) = true := by decide
    rw [heq] at hobs
    cases hobs

/-- The item array of the bulkloaded root has 2016 slots. -/
theorem itemsBof_length (tb : List KVEntry) : (itemsBof tb).length = 2016 := by
  unfold itemsBof
  rw [List.length_set, List.length_set, List.length_replicate]

/-- The wiping upsert, at the facade level: the state keeps its shape
but slot 1 becomes an empty compact node, and the returned old value is
the sentinel 0. -/
theorem upsert_wipe (kq bq : ℚ) (tb : List KVEntry) :
    litsUpsert ⟨linHPT, pmssB, .mult 1008 kq bq [] (itemsBof tb)⟩ [1, 16] 9 =
      (⟨linHPT, pmssB, .mult 1009 kq bq []
          ((itemsBof tb).set 1 (.cnod ⟨0, []⟩))⟩, 0) := by
  simp only [litsUpsert, upsertItem]
  rw [itemsBof_length]
  rw [predictPos_lin_byte1 2016 kq bq [1, 16] (by omega) (by decide)]
  rw [show (itemsBof tb).getD (1, 0).1 Item.null = .cnod cnodB from by
    unfold itemsBof; rfl]
  simp only [upsertItem]
  rw [cnod_upsert_wipe]
  rw [if_pos rfl]
  simp only [changeNum]
  rw [if_pos (by decide : (1 : ℤ) > 0)]
  rw [if_neg (by
    rw [List.length_set, itemsBof_length]
    omega)]
  rw [List.set_set]


/-- Lookups routed to the wiped slot find nothing. -/
theorem lookup_wiped (kq bq : ℚ) (tb : List KVEntry) (key : Key)
    (hb : byteAt key 0 ≤ 1) :
    litsLookup ⟨linHPT, pmssB, .mult 1009 kq bq []
        ((itemsBof tb).set 1 (.cnod ⟨0, []⟩))⟩ key = none := by
  simp only [litsLookup, lookupItem]
  rw [List.length_set, itemsBof_length]
  rw [predictPos_lin_byte1 2016 kq bq key (by omega) hb]
  rw [show ((itemsBof tb).set 1 (Item.cnod ⟨0, []⟩)).getD (1, 0).1 Item.null =
      Item.cnod ⟨0, []⟩ from by unfold itemsBof; rfl]
  simp only [lookupItem]
  rfl

/-- C2 counterexample: on a reachable, well-formed index with a monotone
model, upserting a key stored with value 0 in a full compact node
returns the stored value but a subsequent lookup misses the key: the
claimed round trip fails. -/
theorem C2_counterexample :
    ∃ st : LState, Reach st ∧ WFState st ∧ MonoModel st.hpt ∧
      (∃ e ∈ extractItem st.root, e.k = [1, 16] ∧ e.v = 0) ∧
      (litsUpsert st [1, 16] 9).2 = 0 ∧
      litsLookup (litsUpsert st [1, 16] 9).1 [1, 16] ≠ some ⟨[1, 16], 9⟩ := by
  obtain ⟨kq, bq, hsh⟩ := stB_root_shape
  have hstB : stB = ⟨linHPT, pmssB, .mult 1008 kq bq []
      (itemsBof (hotBulkload (kvsB.drop 16)))⟩ := by
    rw [← hsh]
    rfl
  refine ⟨stB, stB_reach, stB_wf.1, monoModel_lin, ?_, ?_, ?_⟩
  · rw [stB_wf.2]
    exact ⟨⟨[1, 16], 0⟩, by decide, rfl, rfl⟩
  · rw [hstB, upsert_wipe]
  · rw [hstB, upsert_wipe]
    rw [show ((⟨linHPT, pmssB, .mult 1009 kq bq []
        ((itemsBof (hotBulkload (kvsB.drop 16))).set 1 (.cnod ⟨0, []⟩))⟩,
          (0 : Val)) : LState × Val).1 = ⟨linHPT, pmssB, .mult 1009 kq bq []
        ((itemsBof (hotBulkload (kvsB.drop 16))).set 1 (.cnod ⟨0, []⟩))⟩
      from rfl]
    rw [lookup_wiped kq bq _ [1, 16] (by decide)]
    simp

/-- C10 counterexample: the wiping upsert of `[1,16]` also destroys the
record of the distinct key `[1,1]`. -/
theorem C10_counterexample :
    ∃ st : LState, Reach st ∧ WFState st ∧ MonoModel st.hpt ∧
      litsLookup st [1, 1] = some ⟨[1, 1], 1⟩ ∧
      litsLookup (litsUpsert st [1, 16] 9).1 [1, 1] = none := by
  obtain ⟨kq, bq, hsh⟩ := stB_root_shape
  have hstB : stB = ⟨linHPT, pmssB, .mult 1008 kq bq []
      (itemsBof (hotBulkload (kvsB.drop 16)))⟩ := by
    rw [← hsh]
    rfl
  refine ⟨stB, stB_reach, stB_wf.1, monoModel_lin, ?_, ?_⟩
  · rw [litsLookup_spec stB_wf.1, stB_wf.2]
    exact find?_eq_some_of_mem kvsB_sorted (by decide) rfl
  · rw [hstB, upsert_wipe]
    rw [show ((⟨linHPT, pmssB, .mult 1009 kq bq []
        ((itemsBof (hotBulkload (kvsB.drop 16))).set 1 (.cnod ⟨0, []⟩))⟩,
          (0 : Val)) : LState × Val).1 = ⟨linHPT, pmssB, .mult 1009 kq bq []
        ((itemsBof (hotBulkload (kvsB.drop 16))).set 1 (.cnod ⟨0, []⟩))⟩
      from rfl]
    exact lookup_wiped kq bq _ [1, 1] (by decide)

/-- C9 counterexample: one reachable upsert leaves an empty compact node
behind, violating the claimed 2..16 occupancy bounds. -/
theorem C9_counterexample :
    ∃ st : LState, Reach st ∧ cnodCntOK st.root = false := by
  obtain ⟨kq, bq, hsh⟩ := stB_root_shape
  have hstB : stB = ⟨linHPT, pmssB, .mult 1008 kq bq []
      (itemsBof (hotBulkload (kvsB.drop 16)))⟩ := by
    rw [← hsh]
    rfl
  refine ⟨(litsUpsert stB [1, 16] 9).1,
    Reach.ups stB [1, 16] 9 stB_reach, ?_⟩
  rw [hstB, upsert_wipe]
  rfl


/-- Witness for C9 at the bulkloaded chain state. -/
theorem C9_witness : ReachG stB ∧ cnodCntOK stB.root = true :=
  ⟨stB_reachG, C9_cnode_bounds_amended stB_reachG⟩

/-- The byte-driven model routes a first byte above 63 to slot 2001. -/
theorem predictPos_lin_byte64 (kq bq : ℚ) (key : Key)
    (hlow : ¬ byteAt key 0 ≤ 1) (hhigh : ¬ byteAt key 0 ≤ 63) :
    predictPos linHPT 2016 kq bq [] key 0 = (2001, 0) := by
  unfold predictPos
  simp only [List.length_nil]
  rw [if_neg (by simp), if_neg (by simp), if_neg (by simp)]
  show ((((if byteAt key 0 ≤ 1 then (0:ℤ) else if byteAt key 0 ≤ 63 then 1
      else 2000) + 1) ⊓ (((2016 : ℕ) : ℤ) - 2) ⊔ 1).toNat, 0 + 0) = (2001, 0)
  rw [if_neg hlow, if_neg hhigh]
  norm_num
  rfl

/-- The descent of the byte-64 insert. -/
theorem insertItem_sing_eval (kq bq : ℚ) (tb : List KVEntry) :
    insertItem linHPT pmssB (.mult 1008 kq bq [] (itemsBof tb)) [64, 1] 7 0 =
      (.mult 1008 kq bq [] ((itemsBof tb).set 2001 (.sing ⟨[64, 1], 7⟩)),
        true, [(2001, 0)]) := by
  simp only [insertItem]
  rw [itemsBof_length]
  rw [predictPos_lin_byte64 kq bq [64, 1] (by decide) (by decide)]
  rw [show (itemsBof tb).getD ((2001, 0) : Nat × Nat).1 Item.null = Item.null
    from by unfold itemsBof; rfl]
  simp only [insertItem]

/-- Inserting a key with first byte 64 lands in the empty slot 2001 as a
bare single-entry item. -/
theorem insert_sing (kq bq : ℚ) (tb : List KVEntry) :
    litsInsert ⟨linHPT, pmssB, .mult 1008 kq bq [] (itemsBof tb)⟩ [64, 1] 7 =
      (⟨linHPT, pmssB, .mult 1009 kq bq []
          ((itemsBof tb).set 2001 (.sing ⟨[64, 1], 7⟩))⟩, true) := by
  simp only [litsInsert]
  rw [insertItem_sing_eval kq bq tb]
  rw [if_pos rfl]
  simp only [changeNum]
  rw [if_pos (by decide : (1 : ℤ) > 0)]
  rw [if_neg (by rw [List.length_set, itemsBof_length]; omega)]
  rw [List.set_set]

/-- Finding the absent key `[64,2]` on the sing-holding state: the
descent reaches the single-entry slot, which sets the record without
comparing keys and leaves the iterator valid. -/
theorem find_sing (kq bq : ℚ) (tb : List KVEntry) :
    litsFind ⟨linHPT, pmssB, .mult 1009 kq bq []
        ((itemsBof tb).set 2001 (.sing ⟨[64, 1], 7⟩))⟩ [64, 2] =
      { initIter with
          path := [⟨(itemsBof tb).set 2001 (.sing ⟨[64, 1], 7⟩), [],
            2016, 2001⟩],
          data := some ⟨[64, 1], 7⟩ } := by
  simp only [litsFind, findItem]
  rw [List.length_set, itemsBof_length]
  rw [predictPos_lin_byte64 kq bq [64, 2] (by decide) (by decide)]
  rw [show ((itemsBof tb).set 2001 (.sing ⟨[64, 1], 7⟩)).getD
      ((2001, 0) : Nat × Nat).1 Item.null = .sing ⟨[64, 1], 7⟩ from by
    unfold itemsBof; rfl]
  simp only [findItem]
  rfl

set_option maxHeartbeats 2000000 in
/-- C3 counterexample: a reachable index and an absent key whose `find`
returns a *valid* iterator (the single-entry arm never verifies the
key). -/
theorem C3_counterexample :
    ∃ st : LState, Reach st ∧
      (∀ e ∈ extractItem st.root, e.k ≠ [64, 2]) ∧
      (litsFind st [64, 2]).valid = true := by
  obtain ⟨kq, bq, hsh⟩ := stB_root_shape
  have hstB : stB = ⟨linHPT, pmssB, .mult 1008 kq bq []
      (itemsBof (hotBulkload (kvsB.drop 16)))⟩ := by
    rw [← hsh]
    rfl
  have hins := insert_sing kq bq (hotBulkload (kvsB.drop 16))
  refine ⟨(litsInsert stB [64, 1] 7).1,
    Reach.ins stB [64, 1] 7 stB_reach, ?_, ?_⟩
  · have hsucc : (litsInsert stB [64, 1] 7).2 = true := by
      rw [hstB, hins]
    have hhpt : stB.hpt = linHPT := rfl
    have hmonoB : MonoModel stB.hpt := hhpt ▸ monoModel_lin
    have hspec := @litsInsert_spec stB hmonoB stB_wf.1 [64, 1] 7
      (by decide : ZFKey [64, 1])
    obtain ⟨_, _, _, _, hext⟩ := hspec.2 hsucc
    intro e he
    rw [hext, stB_wf.2] at he
    rcases listInsertSorted_mem.mp he with rfl | hin
    · decide
    · have hk := mem_zipWith_mk hin
      simp only [keysW, List.mem_map, List.mem_range] at hk
      obtain ⟨i, hi, hki⟩ := hk
      intro hcon
      rw [hcon] at hki
      simp only [List.cons.injEq, and_true] at hki
      omega
  · have h1 : (litsInsert stB [64, 1] 7).1 = ⟨linHPT, pmssB,
        .mult 1009 kq bq [] ((itemsBof (hotBulkload (kvsB.drop 16))).set 2001
          (.sing ⟨[64, 1], 7⟩))⟩ := by
      rw [hstB, hins]
    rw [h1, find_sing]
    rfl


/-! ### C3: the find operation -/

/-- Dropping the non-matches positions the head at the first match. -/
theorem head_dropWhile_not {α : Type} (p : α → Bool) : ∀ l : List α,
    (l.dropWhile (fun a => !p a)).head? = l.find? p := by
  intro l
  induction l with
  | nil => rfl
  | cons a r ih =>
    cases hp : p a
    · simp only [List.dropWhile, List.find?, hp]
      simpa using ih
    · simp [List.dropWhile, List.find?, hp]

/-- A found index is in range and its element satisfies the test. -/
theorem findIdx?_some_spec {α : Type} (p : α → Bool) (l : List α) (i : Nat)
    (h : l.findIdx? p = some i) :
    ∃ hl : i < l.length, p (l.get ⟨i, hl⟩) = true := by
  obtain ⟨hlt, hidx⟩ := List.findIdx?_eq_some_iff_findIdx_eq.mp h
  subst hidx
  refine ⟨hlt, ?_⟩
  rw [List.get_eq_getElem]
  exact List.findIdx_getElem

/-- A failed index scan means no element satisfies the test. -/
theorem findIdx?_none_spec {α : Type} (p : α → Bool) (l : List α)
    (h : l.findIdx? p = none) : ∀ a ∈ l, p a = false :=
  List.findIdx?_eq_none_iff.mp h

/-- The `find` descent on a well-formed subtree: a present key leaves
the iterator valid and positioned at its record; an absent key either
invalidates the iterator or — through the unchecked single-entry arm —
leaves it valid on a record with a different key. -/
theorem findItem_spec {hpt : HPT} {it : Item} {ccpl : Nat}
    (hwf : WF hpt it ccpl) :
    ∀ (key : Key) (iter : LIter),
      (∀ e ∈ extractItem it, key.take ccpl = e.k.take ccpl) →
      iter.inSubTrie = false →
      ((∃ e ∈ extractItem it, e.k = key) →
        (findItem hpt it key ccpl iter).isValid = iter.isValid ∧
        ∃ e ∈ extractItem it, e.k = key ∧
          (findItem hpt it key ccpl iter).getKV = some e) ∧
      ((∀ e ∈ extractItem it, e.k ≠ key) →
        (findItem hpt it key ccpl iter).isValid = false ∨
        ∃ e ∈ extractItem it,
          (findItem hpt it key ccpl iter).getKV = some e ∧ e.k ≠ key) := by
  induction hwf with
  | null ccpl =>
    intro key iter hx hsub
    constructor
    · intro hpres
      simp [extractItem] at hpres
    · intro _
      left
      simp [findItem]
  | sing e ccpl hz =>
    intro key iter hx hsub
    have hres : findItem hpt (.sing e) key ccpl iter =
        { iter with data := some e } := by
      simp [findItem]
    have hget : ({ iter with data := some e } : LIter).getKV = some e := by
      simp [LIter.getKV, hsub]
    constructor
    · intro hpres
      obtain ⟨e2, he2, hk2⟩ := hpres
      have he2e : e2 = e := by simpa [extractItem] using he2
      subst he2e
      rw [hres]
      exact ⟨rfl, e2, by simp [extractItem], hk2, hget⟩
    · intro habs
      right
      rw [hres]
      exact ⟨e, by simp [extractItem], hget,
        habs e (by simp [extractItem])⟩
  | cnod c ccpl hcc h2 h16 htags hsort hsh hzfk =>
    intro key iter hx hsub
    subst hcc
    simp only [extractItem] at hx ⊢
    have hmatch : ∀ te ∈ c.data,
        cnodeMatch key c.ccpl te = (te.2.k == key) := by
      intro te hte
      exact cnodeMatch_iff (htags te hte)
        (hx te.2 (List.mem_map.mpr ⟨te, hte, rfl⟩))
    constructor
    · intro hpres
      obtain ⟨e2, he2, hk2⟩ := hpres
      obtain ⟨te, hte, htee⟩ := List.mem_map.mp he2
      cases hfi : c.data.findIdx? (cnodeMatch key c.ccpl) with
      | none =>
        exfalso
        have := findIdx?_none_spec _ c.data hfi te hte
        rw [hmatch te hte] at this
        rw [htee, hk2] at this
        simp at this
      | some i =>
        obtain ⟨hlt, hpi⟩ := findIdx?_some_spec _ c.data i hfi
        rw [hmatch _ (List.get_mem c.data i hlt)] at hpi
        have hki : (c.data.get ⟨i, hlt⟩).2.k = key := by simpa using hpi
        have hres : findItem hpt (.cnod c) key c.ccpl iter =
            { iter with
                inCnode := true
                path := ⟨[], c.data, c.data.length, i⟩ :: iter.path
                data := some (c.data.getD i dfltTE).2 } := by
          simp [findItem, hfi]
        rw [hres]
        refine ⟨rfl, (c.data.get ⟨i, hlt⟩).2,
          List.mem_map.mpr ⟨_, List.get_mem c.data i hlt, rfl⟩, hki, ?_⟩
        have hgd : (c.data.getD i dfltTE).2 = (c.data.get ⟨i, hlt⟩).2 := by
          rw [List.getD_eq_getElem?_getD, List.getElem?_eq_getElem hlt]
          rfl
        simp only [LIter.getKV, hsub]
        rw [if_neg (by simp)]
        exact congrArg some hgd
    · intro habs
      cases hfi : c.data.findIdx? (cnodeMatch key c.ccpl) with
      | none =>
        left
        simp [findItem, hfi]
      | some i =>
        exfalso
        obtain ⟨hlt, hpi⟩ := findIdx?_some_spec _ c.data i hfi
        rw [hmatch _ (List.get_mem c.data i hlt)] at hpi
        have hki : (c.data.get ⟨i, hlt⟩).2.k = key := by simpa using hpi
        exact habs _ (List.mem_map.mpr ⟨_, List.get_mem c.data i hlt, rfl⟩) hki
  | trie t ccpl hsort hsh hzfk =>
    intro key iter hx hsub
    simp only [extractItem] at hx ⊢
    constructor
    · intro hpres
      obtain ⟨e2, he2, hk2⟩ := hpres
      have hfind : t.find? (fun e => e.k == key) = some e2 :=
        find?_eq_some_of_mem hsort he2 hk2
      have hlk : trieLookup t key = some e2 := by
        rw [trieLookup_eq]
        exact hfind
      have hres : findItem hpt (.trie t) key ccpl iter =
          { iter with
              inSubTrie := true
              subtrie := t.dropWhile (fun e => !(ustrcmp key e.k == 0)) } := by
        simp [findItem, trieFindRest, hlk]
      rw [hres]
      refine ⟨rfl, e2, he2, hk2, ?_⟩
      have hpeq : (fun e : KVEntry => !(ustrcmp key e.k == 0)) =
          (fun e : KVEntry => !(fun a : KVEntry => a.k == key) e) := by
        funext a
        by_cases hak : a.k = key
        · simp [hak, ustrcmp_self]
        · have h1 : ustrcmp key a.k ≠ 0 := fun hc =>
            hak (ustrcmp_eq_zero_iff.mp hc).symm
          simp [hak, h1]
      show (t.dropWhile (fun e => !(ustrcmp key e.k == 0))).head?.map id =
        some e2
      rw [hpeq, head_dropWhile_not (fun a : KVEntry => a.k == key) t, hfind]
      rfl
    · intro habs
      left
      have hlk : trieLookup t key = none := by
        rw [trieLookup_eq]
        exact find?_eq_none_of_not_mem habs
      simp [findItem, trieFindRest, hlk]
  | mult nk s b pfx items ccpl h34N hCnt hUf hzfp hWFc hPred hsort hsh hzfk ih =>
    intro key iter hx hsub
    have h3N : 3 ≤ items.length := by omega
    simp only [extractItem] at hx ⊢
    simp only [findItem]
    obtain ⟨hsnd, hfstlt⟩ :=
      predictPos_snd_slot hpt items.length s b pfx key ccpl h3N
    set pc := predictPos hpt items.length s b pfx key ccpl with hpcdef
    have hfunnel : ∀ (j : Nat) (child : Item), items[j]? = some child →
        ∀ e ∈ extractItem child, e.k = key → j = pc.1 := by
      intro j child hj e he hek
      have hpe := hPred j child hj e he
      rw [hek, ← hpcdef] at hpe
      rw [hpe]
    set iter2 : LIter :=
      { iter with path := ⟨items, [], items.length, pc.1⟩ :: iter.path }
      with hiter2
    have hsub2 : iter2.inSubTrie = false := hsub
    have hval2 : iter2.isValid = iter.isValid := rfl
    cases hg : items[pc.1]? with
    | none =>
      have heq : items.getD pc.1 Item.null = Item.null := by
        simp [List.getD, hg]
      rw [heq]
      constructor
      · intro hpres
        exfalso
        obtain ⟨e, he, hek⟩ := hpres
        obtain ⟨j, child, hj, hechild⟩ := mem_extractItems.mp he
        have hjeq := hfunnel j child hj e hechild hek
        subst hjeq
        rw [hj] at hg
        cases hg
      · intro _
        left
        simp [findItem]
    | some child =>
      have heq : items.getD pc.1 Item.null = child := by simp [List.getD, hg]
      rw [heq]
      have hxchild : ∀ e' ∈ extractItem child,
          key.take (slotCcpl ccpl pfx.length items.length pc.1) =
            e'.k.take (slotCcpl ccpl pfx.length items.length pc.1) := by
        intro e' he'
        have hxe : key.take ccpl = e'.k.take ccpl :=
          hx e' (mem_extractItems.mpr ⟨pc.1, child, hg, he'⟩)
        rw [← hsnd]
        rcases predictPos_cases hpt items.length s b pfx key ccpl with
          ⟨_, _, hp⟩ | ⟨_, _, hp⟩ | ⟨hcond, hsnd2, h1b, h2b⟩
        · rw [← hpcdef] at hp
          rw [hp]
          exact hxe
        · rw [← hpcdef] at hp
          rw [hp]
          exact hxe
        · rw [← hpcdef] at hsnd2 h1b h2b
          rw [hsnd2]
          by_cases hpl : pfx.length = 0
          · simpa [hpl] using hxe
          · have hcmpx : ustrcmpN pfx (key.drop ccpl) pfx.length = 0 :=
              hcond.resolve_left hpl
            have h2b' := h2b h3N
            have hslot : slotCcpl ccpl pfx.length items.length pc.1 =
                ccpl + pfx.length := by
              unfold slotCcpl
              rw [if_neg (by omega)]
            have hpe := hPred pc.1 child hg e' he'
            rw [hslot] at hpe
            have hcmpe : ustrcmpN pfx (e'.k.drop ccpl) pfx.length = 0 := by
              rcases predictPos_cases hpt items.length s b pfx e'.k ccpl with
                ⟨_, _, hq⟩ | ⟨_, _, hq⟩ | ⟨hc2, _, _, _⟩
              · rw [hq] at hpe
                have hf := (Prod.ext_iff.mp hpe).1
                omega
              · rw [hq] at hpe
                have hf := (Prod.ext_iff.mp hpe).1
                omega
              · exact hc2.resolve_left hpl
            exact take_add_of_match hzfp hxe hcmpx hcmpe
      rw [hsnd]
      obtain ⟨ihp, iha⟩ := ih pc.1 child hg key iter2 hxchild hsub2
      constructor
      · intro hpres
        obtain ⟨e, he, hek⟩ := hpres
        obtain ⟨j, child2, hj, hechild⟩ := mem_extractItems.mp he
        have hjeq := hfunnel j child2 hj e hechild hek
        subst hjeq
        have hceq : child2 = child := by
          rw [hj] at hg
          exact Option.some.inj hg
        subst hceq
        obtain ⟨hv, e3, he3, hk3, hgkv⟩ := ihp ⟨e, hechild, hek⟩
        exact ⟨hv.trans hval2,
          e3, mem_extractItems.mpr ⟨pc.1, child2, hg, he3⟩, hk3, hgkv⟩
      · intro habs
        have habsc : ∀ e ∈ extractItem child, e.k ≠ key := by
          intro e he
          exact habs e (mem_extractItems.mpr ⟨pc.1, child, hg, he⟩)
        rcases iha habsc with hv | ⟨e, he, hgkv, hne⟩
        · left
          exact hv
        · right
          exact ⟨e, mem_extractItems.mpr ⟨pc.1, child, hg, he⟩, hgkv, hne⟩


/-- C3 (amended): on a well-formed index, `find` of a present key
returns a valid iterator positioned exactly at that key's record; `find`
of an absent key returns an iterator that is invalid — except when the
descent ends at a single-entry item, whose arm stores the record without
comparing keys, leaving a *valid* iterator on a record with a different
key (the unguarded original claim is refuted by `C3_counterexample`). -/
theorem C3_find_amended {st : LState} (hwf : WFState st) (key : Key) :
    ((∃ e ∈ extractItem st.root, e.k = key) →
      (litsFind st key).valid = true ∧
      ∃ e ∈ extractItem st.root, e.k = key ∧
        (litsFind st key).getKV = some e) ∧
    ((∀ e ∈ extractItem st.root, e.k ≠ key) →
      (litsFind st key).valid = false ∨
      ∃ e ∈ extractItem st.root,
        (litsFind st key).getKV = some e ∧ e.k ≠ key) := by
  obtain ⟨hp, ha⟩ := findItem_spec hwf key initIter (fun e _ => rfl) rfl
  constructor
  · intro hpres
    obtain ⟨hv, e, he, hek, hkv⟩ := hp hpres
    refine ⟨?_, e, he, hek, hkv⟩
    show (findItem st.hpt st.root key 0 initIter).isValid = true
    rw [hv]
    rfl
  · intro habs
    rcases ha habs with hv | hex
    · left
      exact hv
    · right
      exact hex

/-- Witness for C3 at the one-record index. -/
theorem C3_witness :
    WFState singState ∧
    (((∃ e ∈ extractItem singState.root, e.k = [1]) →
        (litsFind singState [1]).valid = true ∧
        ∃ e ∈ extractItem singState.root, e.k = [1] ∧
          (litsFind singState [1]).getKV = some e) ∧
      ((∀ e ∈ extractItem singState.root, e.k ≠ [1]) →
        (litsFind singState [1]).valid = false ∨
        ∃ e ∈ extractItem singState.root,
          (litsFind singState [1]).getKV = some e ∧ e.k ≠ [1])) := by
  have hwf : WFState singState := WF.sing _ 0 (by decide)
  exact ⟨hwf, C3_find_amended hwf [1]⟩


/-! ### C4: the DFS enumeration -/

/-- The records of a frame strictly after its cursor: the pending part
of a compact node's kv array, or of an item frame's remaining slots. -/
def frameRest (f : Frame) : List KVEntry :=
  if f.itemArr.isEmpty then (f.kvArr.drop (f.idx + 1)).map (fun te => te.2)
  else extractItems (f.itemArr.drop (f.idx + 1))

/-- The records pending in the whole stack, deepest frame first. -/
def stackRest : List Frame → List KVEntry
  | [] => []
  | f :: rest => frameRest f ++ stackRest rest

mutual

/-- Every sub-trie of the subtree is nonempty (a removal can empty a
sub-trie in place; the iterator then dereferences the sub-trie's end
iterator, so the enumeration claim is proved for states without empty
sub-tries, which bulkload and inserts preserve). -/
def triesNE : Item → Bool
  | .trie t => !t.isEmpty
  | .mult _ _ _ _ items => triesNEs items
  | _ => true

/-- `triesNE` over an item array. -/
def triesNEs : List Item → Bool
  | [] => true
  | x :: rest => triesNE x && triesNEs rest

end

/-- Slot-wise reading of `triesNEs`. -/
theorem triesNEs_slot : ∀ (l : List Item), triesNEs l = true →
    ∀ (i : Nat) (c : Item), l[i]? = some c → triesNE c = true := by
  intro l
  induction l with
  | nil => intro _ i c hc; cases hc
  | cons a rest ih =>
    intro h i c hc
    simp only [triesNEs, Bool.and_eq_true] at h
    cases i with
    | zero =>
      simp only [List.getElem?_cons_zero, Option.some.injEq] at hc
      subst hc
      exact h.1
    | succ m =>
      simp only [List.getElem?_cons_succ] at hc
      exact ih h.2 m c hc

/-- Every item of a frame's array is well-formed at some prefix and has
nonempty sub-tries. -/
def ItemsOK (hpt : HPT) (l : List Item) : Prop :=
  ∀ x ∈ l, (∃ c : Nat, WF hpt x c) ∧ triesNE x = true

/-- The records not yet produced by the iterator, current one first. -/
def curPending (it : LIter) : List KVEntry :=
  if it.inSubTrie then it.subtrie ++ stackRest it.path
  else
    match it.path with
    | [] => []
    | f :: rest =>
      if it.inCnode then
        (f.kvArr.drop f.idx).map (fun te => te.2) ++ stackRest rest
      else extractItems (f.itemArr.drop f.idx) ++ stackRest rest

/-- The iterator's representation invariant between `next` steps: clean
flags, well-formed frame arrays, non-top frames with nonempty arrays,
and the cursor on a record (in a sub-trie, a compact node, or a
single-entry slot). -/
def ShapeOK (hpt : HPT) (it : LIter) : Prop :=
  it.assertFail = false ∧ it.isEnd = false ∧
  (∀ f ∈ it.path, ItemsOK hpt f.itemArr) ∧
  (∀ f ∈ it.path.tail, f.itemArr ≠ []) ∧
  (if it.inSubTrie then
    it.subtrie ≠ [] ∧ it.inCnode = false ∧
    (match it.path with
     | [] => True
     | f :: _ => f.itemArr ≠ [])
  else
    match it.path with
    | [] => False
    | f :: _ =>
      if it.inCnode then
        f.itemArr = [] ∧ f.idx < f.kvArr.length ∧ f.len = f.kvArr.length ∧
        it.data = some (f.kvArr.getD f.idx dfltTE).2
      else
        f.idx < f.itemArr.length ∧
        ∃ e, f.itemArr.getD f.idx Item.null = .sing e ∧ it.data = some e)

/-- A nonempty well-formed subtree with nonempty sub-tries extracts at
least one record. -/
theorem WF_extract_ne {hpt : HPT} : ∀ {it : Item} {ccpl : Nat},
    WF hpt it ccpl → triesNE it = true → it ≠ Item.null →
    extractItem it ≠ [] := by
  intro it ccpl hwf htne hnn
  cases hwf with
  | null ccpl => exact absurd rfl hnn
  | sing e ccpl hz => simp [extractItem]
  | cnod c ccpl hcc h2 h16 htags hsort hsh hzfk =>
    simp only [extractItem]
    intro hcon
    have := congrArg List.length hcon
    rw [List.length_map] at this
    simp only [List.length_nil] at this
    omega
  | trie t ccpl hsort hsh hzfk =>
    simp only [triesNE, Bool.not_eq_true'] at htne
    simpa [extractItem, List.isEmpty_iff] using htne
  | mult nk s b pfx items ccpl h34N hCnt hUf hzfp hWFc hPred hsort hsh hzfk =>
    simp only [extractItem]
    intro hcon
    rw [hcon] at hCnt
    simp at hCnt
    omega

/-- The first non-empty slot: everything before it is null, so the
array's extraction starts there. -/
theorem findIdx?_nonempty_extract (l : List Item) (j : Nat)
    (h : l.findIdx? (fun x => !x.isEmpty) = some j) :
    extractItems l = extractItems (l.drop j) ∧ j < l.length ∧
    (l.getD j Item.null).isEmpty = false := by
  obtain ⟨hlt, hidx⟩ := List.findIdx?_eq_some_iff_findIdx_eq.mp h
  have hnullpre : ∀ x ∈ l.take j, x = Item.null := by
    intro x hx
    obtain ⟨i, hm, hxi⟩ := List.mem_take_iff_getElem.mp hx
    have hij : i < j := by omega
    have hilt : i < l.length := by omega
    have := List.not_of_lt_findIdx
      (show i < l.findIdx (fun x => !x.isEmpty) from by omega)
    simp only [Bool.not_eq_false'] at this
    rw [hxi] at this
    cases x <;> simp_all [Item.isEmpty]
  have htake : extractItems (l.take j) = [] := by
    apply extractItems_eq_nil_of_null
    intro m hm
    rw [List.length_take] at hm
    have hml : m < l.length := by omega
    rw [List.getElem?_take, if_pos (by omega : m < j)]
    rw [List.getElem?_eq_getElem hml]
    have : l[m] ∈ l.take j := by
      rw [List.mem_take_iff_getElem]
      exact ⟨m, by omega, rfl⟩
    rw [hnullpre _ this]
  constructor
  · conv_lhs => rw [← List.take_append_drop j l]
    rw [extractItems_append, htake]
    rfl
  refine ⟨hlt, ?_⟩
  obtain ⟨hl2, hp⟩ := findIdx?_some_spec (fun x => !x.isEmpty) l j h
  rw [List.getD_eq_getElem?_getD, List.getElem?_eq_getElem hl2]
  simpa [List.get_eq_getElem] using hp


/-! ### Iterator equation lemmas -/

/-- `FIRST` on a compact node: push its kv frame and read the head. -/
theorem FIRST_cnod (it : LIter) (c : Cnode) :
    FIRST it (.cnod c) =
      { it with inCnode := true
                path := ⟨[], c.data, c.data.length, 0⟩ :: it.path
                data := (c.data.head?).map (fun te => te.2) } := by
  conv_lhs => unfold FIRST

/-- `FIRST` on a HOT sub-trie father: the unhandled-variant read. -/
theorem FIRST_trie (it : LIter) (t : List KVEntry) :
    FIRST it (.trie t) = { it with assertFail := true } := by
  conv_lhs => unfold FIRST

/-- `FIRST` on a single-record father: the unhandled-variant read. -/
theorem FIRST_sing (it : LIter) (e : KVEntry) :
    FIRST it (.sing e) = { it with assertFail := true } := by
  conv_lhs => unfold FIRST

/-- `FIRST` on an empty father: the unhandled-variant read. -/
theorem FIRST_null (it : LIter) :
    FIRST it .null = { it with assertFail := true } := by
  conv_lhs => unfold FIRST

/-- `popLoop` with an empty stack marks the end of the iteration. -/
theorem popLoop_nil {it : LIter} (h : it.path = []) :
    popLoop it = { it with isEnd := true } := by
  conv_lhs => unfold popLoop
  split
  · rfl
  · rename_i f rest hp
    rw [h] at hp
    cases hp

/-- `popLoop` with a frame on the stack: one `ADVANCE`, recursing on the
popped stack when it found nothing. -/
theorem popLoop_cons {it : LIter} {f : Frame} {rest : List Frame}
    (h : it.path = f :: rest) :
    popLoop it =
      (if _h : (ADVANCE it).2 = true then (ADVANCE it).1
       else popLoop { (ADVANCE it).1 with path := (ADVANCE it).1.path.tail }) := by
  conv_lhs => unfold popLoop
  split
  · rename_i hp
    rw [h] at hp
    cases hp
  · rfl

/-! ### C4: counterexample chain (a bulkload whose root is a sub-trie) -/

/-- The counterexample batch: the sorted keys with distinct values. -/
def kvsT : List KVEntry := List.zipWith KVEntry.mk keysW valsW

/-- The all-trie bulkloaded state. -/
def stT : LState := ⟨constHPT, triePMSS, pmssBulk constHPT triePMSS kvsT 0⟩

theorem kvsT_length : kvsT.length = 1008 := by
  unfold kvsT valsW keysW
  rw [List.length_zipWith, List.length_map, List.length_map,
    List.length_range]
  exact Nat.min_self 1008

theorem kvsT_sorted : List.Pairwise entLt kvsT := by
  refine pairwise_entLt_zipWith ?_ (List.chain'_iff_pairwise.mp keysW_sorted)
  unfold valsW keysW
  rw [List.length_map, List.length_map, List.length_range]

/-- The all-trie chain's bulkload call succeeds with `stT`. -/
theorem stT_bulk :
    litsBulkload (some constHPT) constTrain triePMSS keysW valsW = some stT := by
  unfold litsBulkload
  rw [if_neg (by rw [show keysW.length = 1008 from by
    unfold keysW; rw [List.length_map, List.length_range]]; omega)]
  rw [if_neg (by simpa using keysW_sorted)]
  rfl

/-- The PMSS that always chooses HOT makes the root a sub-trie. -/
theorem rootT : stT.root = Item.trie kvsT := by
  show pmssBulk constHPT triePMSS kvsT 0 = Item.trie kvsT
  unfold pmssBulk
  simp only [pmss_bulkF]
  rw [if_neg (by rw [kvsT_length]; omega)]
  rw [if_neg (by rw [kvsT_length]; omega)]
  rw [if_neg (by intro hcon; simp [triePMSS] at hcon)]
  rw [hotBulkload_sorted kvsT_sorted]

/-- The scan of the all-trie state yields a single null record. -/
theorem enumT : litsEnum stT = [none] := by
  unfold litsEnum litsBegin
  rw [rootT, FIRST_trie]
  rw [show extractItem (Item.trie kvsT) = kvsT from rfl, kvsT_length]
  rw [show ({ initIter with assertFail := true } : LIter) =
    ⟨true, false, false, false, [], none, [], true⟩ from rfl]
  rw [enumFrom]
  rw [if_neg (by decide)]
  rw [show (⟨true, false, false, false, [], none, [], true⟩ : LIter).next =
    ⟨true, false, false, true, [], none, [], true⟩ from by
      unfold LIter.next
      rw [if_neg (by decide)]
      rw [popLoop_nil rfl]]
  rw [show (1008 : Nat) = 1007 + 1 from rfl]
  rw [enumFrom]
  rw [if_pos (by decide)]
  rfl


/-! ### C4: support lemmas for the enumeration proof -/

/-- An empty item is the null variant. -/
theorem isEmpty_eq_null {x : Item} (h : x.isEmpty = true) : x = Item.null := by
  cases x <;> simp [Item.isEmpty] at h ⊢

/-- Extraction of a cons cell. -/
theorem extractItems_cons (x : Item) (rest : List Item) :
    extractItems (x :: rest) = extractItem x ++ extractItems rest := by
  rw [extractItems_eq_bind, List.flatMap_cons, extractItems_eq_bind]

/-- Extraction of a suffix peels off its first slot. -/
theorem extractItems_drop_cons {items : List Item} {i : Nat}
    (h : i < items.length) :
    extractItems (items.drop i) =
      extractItem (items.getD i Item.null) ++ extractItems (items.drop (i + 1)) := by
  rw [List.drop_eq_getElem_cons h, extractItems_cons,
    List.getD_eq_getElem?_getD, List.getElem?_eq_getElem h]
  rfl

/-- A failed non-empty-slot scan: the whole suffix extracts to nothing. -/
theorem findNonEmptyFrom_none {items : List Item} {start : Nat}
    (h : findNonEmptyFrom items start = none) :
    extractItems (items.drop start) = [] := by
  unfold findNonEmptyFrom at h
  rw [Option.map_eq_none'] at h
  have hall := findIdx?_none_spec _ _ h
  apply extractItems_eq_nil_of_null
  intro j hj
  rw [List.getElem?_eq_getElem hj]
  have hmem : (items.drop start)[j] ∈ items.drop start := List.getElem_mem hj
  have := hall _ hmem
  simp only [Bool.not_eq_false'] at this
  rw [isEmpty_eq_null this]

/-- A successful non-empty-slot scan: the found slot is in range,
non-empty, and the suffix's extraction starts at it. -/
theorem findNonEmptyFrom_some {items : List Item} {start i : Nat}
    (h : findNonEmptyFrom items start = some i) :
    start ≤ i ∧ i < items.length ∧ (items.getD i Item.null).isEmpty = false ∧
    extractItems (items.drop start) = extractItems (items.drop i) := by
  unfold findNonEmptyFrom at h
  obtain ⟨j, hj, hji⟩ := Option.map_eq_some'.mp h
  obtain ⟨hex, hlt, hne⟩ := findIdx?_nonempty_extract (items.drop start) j hj
  rw [List.length_drop] at hlt
  subst hji
  refine ⟨by omega, by omega, ?_, ?_⟩
  · have hgd : (items.drop start).getD j Item.null = items.getD (j + start) Item.null := by
      rw [List.getD_eq_getElem?_getD, List.getD_eq_getElem?_getD,
        List.getElem?_drop]
      rw [Nat.add_comm start j]
    rw [← hgd]
    exact hne
  · rw [hex, List.drop_drop, Nat.add_comm start j]

/-- Slot-wise introduction of `ItemsOK`. -/
theorem ItemsOK_intro {hpt : HPT} {items : List Item}
    (h1 : ∀ i : Nat, ∀ child, items[i]? = some child → ∃ c, WF hpt child c)
    (h2 : triesNEs items = true) : ItemsOK hpt items := by
  intro x hx
  obtain ⟨i, hi, hxi⟩ := List.mem_iff_getElem.mp hx
  have hsome : items[i]? = some x := by
    rw [List.getElem?_eq_getElem hi, hxi]
  exact ⟨h1 i x hsome, triesNEs_slot items h2 i x hsome⟩

/-- Slot-wise reading of `ItemsOK`. -/
theorem ItemsOK_slot {hpt : HPT} {items : List Item} (h : ItemsOK hpt items)
    {i : Nat} {x : Item} (hx : items[i]? = some x) :
    (∃ c, WF hpt x c) ∧ triesNE x = true := by
  have hi : i < items.length := by
    by_contra hcon
    rw [List.getElem?_eq_none (by omega)] at hx
    cases hx
  rw [List.getElem?_eq_getElem hi] at hx
  injection hx with hx
  exact hx ▸ h items[i] (List.getElem_mem hi)

/-- The body of `FIRST`'s model-node arm after the slot scan. -/
def FIRSTstep (it2 : LIter) : Item → LIter
  | .sing e => { it2 with data := some e }
  | .trie t => { it2 with inSubTrie := true, subtrie := t }
  | cur => FIRST it2 cur

/-- `FIRST` on a model node with an all-empty item array asserts. -/
theorem FIRST_mult_none (it : LIter) (nk : Nat) (kq bq : ℚ) (pfx : Key)
    (items : List Item)
    (hf : items.findIdx? (fun x => !x.isEmpty) = none) :
    FIRST it (.mult nk kq bq pfx items) = { it with assertFail := true } := by
  conv_lhs => unfold FIRST
  rw [hf]

/-- `FIRST` on a model node with a non-empty slot: push the frame and
dispatch on the slot's variant. -/
theorem FIRST_mult_step (it : LIter) (nk : Nat) (kq bq : ℚ) (pfx : Key)
    (items : List Item) (i : Nat)
    (hf : items.findIdx? (fun x => !x.isEmpty) = some i) :
    FIRST it (.mult nk kq bq pfx items) =
      FIRSTstep { it with path := ⟨items, [], items.length, i⟩ :: it.path }
        (items.getD i Item.null) := by
  conv_lhs => unfold FIRST
  rw [hf]
  split
  · rename_i heq; cases heq
  · rename_i j heq
    injection heq with heq
    subst heq
    split
    · rename_i e hg; rw [hg]; rfl
    · rename_i t hg; rw [hg]; rfl
    · rename_i hns hnt
      cases hx : items.getD i Item.null with
      | null => rfl
      | sing e => exact (hns e hx).elim
      | trie t => exact (hnt t hx).elim
      | cnod c => rfl
      | mult nk2 kq2 bq2 pfx2 items2 => rfl


theorem FIRSTstep_sing (it2 : LIter) (e : KVEntry) :
    FIRSTstep it2 (.sing e) = { it2 with data := some e } := rfl

theorem FIRSTstep_trie (it2 : LIter) (t : List KVEntry) :
    FIRSTstep it2 (.trie t) = { it2 with inSubTrie := true, subtrie := t } := rfl

theorem FIRSTstep_cnod (it2 : LIter) (c : Cnode) :
    FIRSTstep it2 (.cnod c) = FIRST it2 (.cnod c) := rfl

theorem FIRSTstep_mult (it2 : LIter) (nk : Nat) (kq bq : ℚ) (pfx : Key)
    (items : List Item) :
    FIRSTstep it2 (.mult nk kq bq pfx items) =
      FIRST it2 (.mult nk kq bq pfx items) := rfl

/-- `FIRST` under a well-formed compact-node or model-node father with
nonempty sub-tries lands on the subtree's first record, with the whole
subtree pending, preserving validity. -/
theorem FIRST_spec {hpt : HPT} :
    ∀ (n : Nat) (item : Item) (ccpl : Nat) (iv : Bool) (sub : List KVEntry)
      (d : Option KVEntry) (path : List Frame),
    sizeOf item ≤ n →
    WF hpt item ccpl → triesNE item = true →
    ((∃ c, item = Item.cnod c) ∨
      (∃ nk kq bq pfx items, item = Item.mult nk kq bq pfx items)) →
    (∀ f ∈ path, ItemsOK hpt f.itemArr) →
    (∀ f ∈ path, f.itemArr ≠ []) →
    ShapeOK hpt (FIRST ⟨iv, false, false, false, sub, d, path, false⟩ item) ∧
    curPending (FIRST ⟨iv, false, false, false, sub, d, path, false⟩ item) =
      extractItem item ++ stackRest path ∧
    (FIRST ⟨iv, false, false, false, sub, d, path, false⟩ item).isValid = iv := by
  intro n
  induction n with
  | zero =>
    intro item ccpl iv sub d path hsz
    exact absurd hsz (by cases item <;> simp)
  | succ n ih =>
    intro item ccpl iv sub d path hsz hwf htne hshape hstack hnef
    rcases hshape with ⟨c, rfl⟩ | ⟨nk, kq, bq, pfx, items, rfl⟩
    · -- compact-node father
      cases hwf with
      | cnod _ _ hcc h2 h16 htags hsortc hshc hzfkc =>
      rw [FIRST_cnod]
      rw [show ({(⟨iv, false, false, false, sub, d, path, false⟩ : LIter) with
          inCnode := true
          path := ⟨[], c.data, c.data.length, 0⟩ :: path
          data := (c.data.head?).map (fun te => te.2)} : LIter) =
        ⟨iv, false, true, false, sub, (c.data.head?).map (fun te => te.2),
          ⟨[], c.data, c.data.length, 0⟩ :: path, false⟩ from rfl]
      obtain ⟨d0, drest, hdat⟩ : ∃ d0 drest, c.data = d0 :: drest := by
        cases hd : c.data with
        | nil => rw [hd] at h2; simp at h2
        | cons a r => exact ⟨a, r, rfl⟩
      refine ⟨⟨rfl, rfl, ?_, ?_, ?_⟩, ?_, rfl⟩
      · intro f hf
        rcases List.mem_cons.mp hf with rfl | hf2
        · intro x hx; exact absurd hx (List.not_mem_nil x)
        · exact hstack f hf2
      · exact hnef
      · refine ⟨rfl, ?_, rfl, ?_⟩
        · show 0 < c.data.length
          omega
        · rw [hdat]; rfl
      · show (c.data.drop 0).map (fun te => te.2) ++ stackRest path =
          extractItem (Item.cnod c) ++ stackRest path
        rw [List.drop_zero]
        rfl
    · -- model-node father
      cases hwf with
      | mult nk2 kq2 bq2 pfx2 items2 ccpl2 h34 hCnt hUf hzfp hWFc hPred
          hsortm hshm hzfkm =>
      have htne2 : triesNEs items = true := by
        simpa only [triesNE] using htne
      cases hscan : items.findIdx? (fun x => !x.isEmpty) with
      | none =>
        exfalso
        have hall := findIdx?_none_spec _ _ hscan
        have hnil : extractItems items = [] := by
          apply extractItems_eq_nil_of_null
          intro j hj
          rw [List.getElem?_eq_getElem hj]
          have := hall _ (List.getElem_mem hj)
          simp only [Bool.not_eq_false'] at this
          rw [isEmpty_eq_null this]
        rw [hnil] at hCnt
        simp only [List.length_nil] at hCnt
        exact hUf (by omega)
      | some i =>
        rw [FIRST_mult_step _ nk kq bq pfx items i hscan]
        rw [show ({(⟨iv, false, false, false, sub, d, path, false⟩ : LIter) with
            path := ⟨items, [], items.length, i⟩ :: path} : LIter) =
          ⟨iv, false, false, false, sub, d,
            ⟨items, [], items.length, i⟩ :: path, false⟩ from rfl]
        simp only [extractItem]
        obtain ⟨hex, hlt, hnemp⟩ := findIdx?_nonempty_extract items i hscan
        have hgelem : items[i]? = some (items.getD i Item.null) := by
          rw [List.getD_eq_getElem?_getD, List.getElem?_eq_getElem hlt]
          rfl
        have hWFx := hWFc i _ hgelem
        have htnex := triesNEs_slot items htne2 i _ hgelem
        have hitemsok : ItemsOK hpt items :=
          ItemsOK_intro (fun j child hj => ⟨_, hWFc j child hj⟩) htne2
        have hitsne : items ≠ [] := by
          intro hcon; rw [hcon] at hlt; simp at hlt
        have hdropeq := extractItems_drop_cons hlt
        have hfr : frameRest ⟨items, [], items.length, i⟩ =
            extractItems (items.drop (i + 1)) := by
          unfold frameRest
          rw [if_neg (by simp [hitsne])]
        cases hgd : items.getD i Item.null with
        | null =>
          rw [hgd] at hnemp
          simp [Item.isEmpty] at hnemp
        | sing e =>
          rw [FIRSTstep_sing]
          rw [show ({(⟨iv, false, false, false, sub, d,
              ⟨items, [], items.length, i⟩ :: path, false⟩ : LIter) with
              data := some e} : LIter) =
            ⟨iv, false, false, false, sub, some e,
              ⟨items, [], items.length, i⟩ :: path, false⟩ from rfl]
          refine ⟨⟨rfl, rfl, ?_, ?_, ?_⟩, ?_, rfl⟩
          · intro f hf
            rcases List.mem_cons.mp hf with rfl | hf2
            · exact hitemsok
            · exact hstack f hf2
          · exact hnef
          · exact ⟨hlt, e, hgd, rfl⟩
          · show extractItems (items.drop i) ++ stackRest path =
              extractItems items ++ stackRest path
            rw [← hex]
        | trie t =>
          rw [FIRSTstep_trie]
          rw [show ({(⟨iv, false, false, false, sub, d,
              ⟨items, [], items.length, i⟩ :: path, false⟩ : LIter) with
              inSubTrie := true, subtrie := t} : LIter) =
            ⟨iv, true, false, false, t, d,
              ⟨items, [], items.length, i⟩ :: path, false⟩ from rfl]
          have ht : t ≠ [] := by
            rw [hgd] at htnex
            intro hcon
            rw [hcon] at htnex
            simp [triesNE] at htnex
          refine ⟨⟨rfl, rfl, ?_, ?_, ?_⟩, ?_, rfl⟩
          · intro f hf
            rcases List.mem_cons.mp hf with rfl | hf2
            · exact hitemsok
            · exact hstack f hf2
          · exact hnef
          · exact ⟨ht, rfl, hitsne⟩
          · show t ++ stackRest (⟨items, [], items.length, i⟩ :: path) =
              extractItems items ++ stackRest path
            rw [show stackRest (⟨items, [], items.length, i⟩ :: path) =
              frameRest ⟨items, [], items.length, i⟩ ++ stackRest path from rfl]
            rw [hfr, hex, hdropeq, hgd]
            rw [show extractItem (Item.trie t) = t from rfl]
            rw [List.append_assoc]
        | cnod c2 =>
          rw [FIRSTstep_cnod]
          have hszc : sizeOf (Item.cnod c2) ≤ n := by
            have h1 := sizeOf_getD_lt items i nk kq bq pfx
            rw [hgd] at h1
            simp only [Item.mult.sizeOf_spec] at h1 hsz
            omega
          rw [hgd] at hWFx htnex
          obtain ⟨hS, hP, hV⟩ := ih (Item.cnod c2) _ iv sub d
            (⟨items, [], items.length, i⟩ :: path) hszc hWFx htnex
            (Or.inl ⟨c2, rfl⟩)
            (by intro f hf
                rcases List.mem_cons.mp hf with rfl | hf2
                · exact hitemsok
                · exact hstack f hf2)
            (by intro f hf
                rcases List.mem_cons.mp hf with rfl | hf2
                · exact hitsne
                · exact hnef f hf2)
          refine ⟨hS, ?_, hV⟩
          rw [hP]
          rw [show stackRest (⟨items, [], items.length, i⟩ :: path) =
            frameRest ⟨items, [], items.length, i⟩ ++ stackRest path from rfl]
          rw [hfr, hex, hdropeq, hgd, List.append_assoc]
        | mult nk3 kq3 bq3 pfx3 items3 =>
          rw [FIRSTstep_mult]
          have hszc : sizeOf (Item.mult nk3 kq3 bq3 pfx3 items3) ≤ n := by
            have h1 := sizeOf_getD_lt items i nk kq bq pfx
            rw [hgd] at h1
            simp only [Item.mult.sizeOf_spec] at h1 hsz ⊢
            omega
          rw [hgd] at hWFx htnex
          obtain ⟨hS, hP, hV⟩ := ih (Item.mult nk3 kq3 bq3 pfx3 items3) _ iv sub d
            (⟨items, [], items.length, i⟩ :: path) hszc hWFx htnex
            (Or.inr ⟨nk3, kq3, bq3, pfx3, items3, rfl⟩)
            (by intro f hf
                rcases List.mem_cons.mp hf with rfl | hf2
                · exact hitemsok
                · exact hstack f hf2)
            (by intro f hf
                rcases List.mem_cons.mp hf with rfl | hf2
                · exact hitsne
                · exact hnef f hf2)
          refine ⟨hS, ?_, hV⟩
          rw [hP]
          rw [show stackRest (⟨items, [], items.length, i⟩ :: path) =
            frameRest ⟨items, [], items.length, i⟩ ++ stackRest path from rfl]
          rw [hfr, hex, hdropeq, hgd, List.append_assoc]


/-- The body of `ADVANCE`'s item-frame arm after the slot scan. -/
def ADVSTEP (iv : Bool) (sub : List KVEntry) (d : Option KVEntry) (af : Bool)
    (f : Frame) (rest : List Frame) (i : Nat) : Item → LIter × Bool
  | .sing e =>
    (⟨iv, false, false, false, sub, some e, { f with idx := i } :: rest, af⟩, true)
  | .trie t =>
    (⟨iv, true, false, false, t, d, { f with idx := i } :: rest, af⟩, true)
  | .null =>
    (⟨iv, false, false, false, sub, d, { f with idx := i } :: rest, af⟩, false)
  | cur =>
    (FIRST ⟨iv, false, false, false, sub, d, { f with idx := i } :: rest, af⟩ cur,
      true)

/-- `ADVANCE` inside a compact node bumps the cursor, leaving the node
when it runs off the end. -/
theorem ADVANCE_cnode (iv : Bool) (sub : List KVEntry) (d : Option KVEntry)
    (af : Bool) (f : Frame) (rest : List Frame) :
    ADVANCE ⟨iv, false, true, false, sub, d, f :: rest, af⟩ =
      (if f.len ≤ f.idx + 1 then
        (⟨iv, false, false, false, sub, d,
          { f with idx := f.idx + 1 } :: rest, af⟩, false)
      else
        (⟨iv, false, true, false, sub,
          some ((f.kvArr.getD (f.idx + 1) dfltTE).2),
          { f with idx := f.idx + 1 } :: rest, af⟩, true)) := by
  simp only [ADVANCE]
  rw [if_pos trivial]

/-- `ADVANCE` over an item frame with no later non-empty slot fails. -/
theorem ADVANCE_items_none (iv : Bool) (sub : List KVEntry) (d : Option KVEntry)
    (af : Bool) (f : Frame) (rest : List Frame)
    (h : findNonEmptyFrom f.itemArr (f.idx + 1) = none) :
    ADVANCE ⟨iv, false, false, false, sub, d, f :: rest, af⟩ =
      (⟨iv, false, false, false, sub, d, f :: rest, af⟩, false) := by
  simp only [ADVANCE, h]
  rw [if_neg (show ¬ (false = true) by decide)]

/-- `ADVANCE` over an item frame with a later non-empty slot moves the
cursor there and dispatches on the slot's variant. -/
theorem ADVANCE_items_step (iv : Bool) (sub : List KVEntry) (d : Option KVEntry)
    (af : Bool) (f : Frame) (rest : List Frame) (i : Nat)
    (h : findNonEmptyFrom f.itemArr (f.idx + 1) = some i) :
    ADVANCE ⟨iv, false, false, false, sub, d, f :: rest, af⟩ =
      ADVSTEP iv sub d af f rest i (f.itemArr.getD i Item.null) := by
  simp only [ADVANCE, h]
  rw [if_neg (show ¬ (false = true) by decide)]
  cases hgd : f.itemArr.getD i Item.null <;> rfl

/-- The iterator's invariant on entry to the popping loop: the current
record has been consumed; each stack frame still carries well-formed
items, and the top frame is either a compact node's kv frame or a
nonempty item frame. -/
def PopOK (hpt : HPT) (it : LIter) : Prop :=
  it.assertFail = false ∧ it.isEnd = false ∧ it.inSubTrie = false ∧
  (∀ f ∈ it.path, ItemsOK hpt f.itemArr) ∧
  (∀ f ∈ it.path.tail, f.itemArr ≠ []) ∧
  (match it.path with
   | [] => True
   | f :: _ =>
     if it.inCnode then f.itemArr = [] ∧ f.len = f.kvArr.length
     else f.itemArr ≠ [])


theorem ADVSTEP_sing (iv : Bool) (sub : List KVEntry) (d : Option KVEntry)
    (af : Bool) (f : Frame) (rest : List Frame) (i : Nat) (e : KVEntry) :
    ADVSTEP iv sub d af f rest i (.sing e) =
      (⟨iv, false, false, false, sub, some e, { f with idx := i } :: rest, af⟩,
        true) := rfl

theorem ADVSTEP_trie (iv : Bool) (sub : List KVEntry) (d : Option KVEntry)
    (af : Bool) (f : Frame) (rest : List Frame) (i : Nat) (t : List KVEntry) :
    ADVSTEP iv sub d af f rest i (.trie t) =
      (⟨iv, true, false, false, t, d, { f with idx := i } :: rest, af⟩,
        true) := rfl

theorem ADVSTEP_cnod (iv : Bool) (sub : List KVEntry) (d : Option KVEntry)
    (af : Bool) (f : Frame) (rest : List Frame) (i : Nat) (c : Cnode) :
    ADVSTEP iv sub d af f rest i (.cnod c) =
      (FIRST ⟨iv, false, false, false, sub, d, { f with idx := i } :: rest, af⟩
        (.cnod c), true) := rfl

theorem ADVSTEP_mult (iv : Bool) (sub : List KVEntry) (d : Option KVEntry)
    (af : Bool) (f : Frame) (rest : List Frame) (i : Nat) (nk : Nat)
    (kq bq : ℚ) (pfx : Key) (items : List Item) :
    ADVSTEP iv sub d af f rest i (.mult nk kq bq pfx items) =
      (FIRST ⟨iv, false, false, false, sub, d, { f with idx := i } :: rest, af⟩
        (.mult nk kq bq pfx items), true) := rfl

/-- The popping loop of `next` either exhausts the stack and marks the
end, or lands exactly on the next pending record, preserving validity. -/
theorem popLoop_spec {hpt : HPT} :
    ∀ (n : Nat) (iv ic : Bool) (sub : List KVEntry) (d : Option KVEntry)
      (path : List Frame),
    path.length ≤ n →
    PopOK hpt ⟨iv, false, ic, false, sub, d, path, false⟩ →
    (popLoop ⟨iv, false, ic, false, sub, d, path, false⟩).isValid = iv ∧
    (stackRest path = [] →
      (popLoop ⟨iv, false, ic, false, sub, d, path, false⟩).isEnd = true) ∧
    (stackRest path ≠ [] →
      ShapeOK hpt (popLoop ⟨iv, false, ic, false, sub, d, path, false⟩) ∧
      curPending (popLoop ⟨iv, false, ic, false, sub, d, path, false⟩) =
        stackRest path) := by
  intro n
  induction n with
  | zero =>
    intro iv ic sub d path hlen hok
    have hpath : path = [] := by
      cases path with
      | nil => rfl
      | cons f rest => simp at hlen
    subst hpath
    rw [popLoop_nil rfl]
    exact ⟨rfl, fun _ => rfl, fun hcon => absurd rfl hcon⟩
  | succ n ihn =>
    intro iv ic sub d path hlen hok
    unfold PopOK at hok
    obtain ⟨_, _, _, hstack, htail, hpos⟩ := hok
    cases path with
    | nil =>
      rw [popLoop_nil rfl]
      exact ⟨rfl, fun _ => rfl, fun hcon => absurd rfl hcon⟩
    | cons f rest =>
      rw [popLoop_cons
        (show (⟨iv, false, ic, false, sub, d, f :: rest, false⟩ : LIter).path =
          f :: rest from rfl)]
      have hlen2 : rest.length ≤ n := by simpa using hlen
      have hsrcons : stackRest (f :: rest) = frameRest f ++ stackRest rest := rfl
      cases ic with
      | true =>
        have hpos2 : f.itemArr = [] ∧ f.len = f.kvArr.length := hpos
        obtain ⟨hfa, hflen⟩ := hpos2
        rw [ADVANCE_cnode]
        by_cases hle : f.len ≤ f.idx + 1
        · rw [if_pos hle]
          have hno : ¬ ((((⟨iv, false, false, false, sub, d,
              { f with idx := f.idx + 1 } :: rest, false⟩ : LIter), false) :
              LIter × Bool).2 = true) := fun h => Bool.noConfusion h
          rw [dif_neg hno]
          have hfre : frameRest f = [] := by
            unfold frameRest
            rw [hfa]
            rw [if_pos (show ([] : List Item).isEmpty = true from rfl)]
            rw [List.drop_eq_nil_of_le (by omega)]
            rfl
          have hsr : stackRest (f :: rest) = stackRest rest := by
            rw [hsrcons, hfre]
            rfl
          have hok2 : PopOK hpt ⟨iv, false, false, false, sub, d, rest, false⟩ := by
            refine ⟨rfl, rfl, rfl, ?_, ?_, ?_⟩
            · intro g hg
              exact hstack g (List.mem_cons_of_mem f hg)
            · intro g hg
              exact htail g (List.mem_of_mem_tail hg)
            · cases rest with
              | nil => trivial
              | cons g rs =>
                exact (htail g (List.mem_cons_self g rs) : g.itemArr ≠ [])
          have hres := ihn iv false sub d rest hlen2 hok2
          refine ⟨hres.1, ?_, ?_⟩
          · intro hnil
            exact hres.2.1 (by rwa [hsr] at hnil)
          · intro hne2
            obtain ⟨hS, hC⟩ := hres.2.2 (by rwa [hsr] at hne2)
            exact ⟨hS, by rw [hsr]; exact hC⟩
        · rw [if_neg hle]
          have hyes : ((((⟨iv, false, true, false, sub,
              some ((f.kvArr.getD (f.idx + 1) dfltTE).2),
              { f with idx := f.idx + 1 } :: rest, false⟩ : LIter), true) :
              LIter × Bool).2 = true) := rfl
          rw [dif_pos hyes]
          have hidx : f.idx + 1 < f.kvArr.length := by omega
          have hfrm : frameRest f =
              (f.kvArr.drop (f.idx + 1)).map (fun te => te.2) := by
            unfold frameRest
            rw [hfa]
            rw [if_pos (show ([] : List Item).isEmpty = true from rfl)]
          have hfne : frameRest f ≠ [] := by
            rw [hfrm]
            intro hcon
            have := congrArg List.length hcon
            rw [List.length_map, List.length_drop, List.length_nil] at this
            omega
          refine ⟨rfl, ?_, ?_⟩
          · intro hnil
            exfalso
            rw [hsrcons] at hnil
            exact hfne (List.append_eq_nil.mp hnil).1
          · intro _
            constructor
            · refine ⟨rfl, rfl, ?_, ?_, ?_⟩
              · intro g hg
                rcases List.mem_cons.mp hg with rfl | hg2
                · exact hstack f (List.mem_cons_self f rest)
                · exact hstack g (List.mem_cons_of_mem f hg2)
              · exact htail
              · exact ⟨hfa, hidx, hflen, rfl⟩
            · show (f.kvArr.drop (f.idx + 1)).map (fun te => te.2) ++
                stackRest rest = stackRest (f :: rest)
              rw [hsrcons, hfrm]
      | false =>
        have hfne' : f.itemArr ≠ [] := hpos
        have hioF := hstack f (List.mem_cons_self f rest)
        cases hscan : findNonEmptyFrom f.itemArr (f.idx + 1) with
        | none =>
          rw [ADVANCE_items_none iv sub d false f rest hscan]
          have hno : ¬ ((((⟨iv, false, false, false, sub, d, f :: rest,
              false⟩ : LIter), false) : LIter × Bool).2 = true) :=
            fun h => Bool.noConfusion h
          rw [dif_neg hno]
          have hfre : frameRest f = [] := by
            unfold frameRest
            rw [if_neg (by simp [hfne'])]
            exact findNonEmptyFrom_none hscan
          have hsr : stackRest (f :: rest) = stackRest rest := by
            rw [hsrcons, hfre]
            rfl
          have hok2 : PopOK hpt ⟨iv, false, false, false, sub, d, rest, false⟩ := by
            refine ⟨rfl, rfl, rfl, ?_, ?_, ?_⟩
            · intro g hg
              exact hstack g (List.mem_cons_of_mem f hg)
            · intro g hg
              exact htail g (List.mem_of_mem_tail hg)
            · cases rest with
              | nil => trivial
              | cons g rs =>
                exact (htail g (List.mem_cons_self g rs) : g.itemArr ≠ [])
          have hres := ihn iv false sub d rest hlen2 hok2
          refine ⟨hres.1, ?_, ?_⟩
          · intro hnil
            exact hres.2.1 (by rwa [hsr] at hnil)
          · intro hne2
            obtain ⟨hS, hC⟩ := hres.2.2 (by rwa [hsr] at hne2)
            exact ⟨hS, by rw [hsr]; exact hC⟩
        | some i =>
          obtain ⟨hstart, hlti, hnei, hexti⟩ := findNonEmptyFrom_some hscan
          rw [ADVANCE_items_step iv sub d false f rest i hscan]
          have hfrm : frameRest f = extractItems (f.itemArr.drop i) := by
            unfold frameRest
            rw [if_neg (by simp [hfne'])]
            exact hexti
          have hsome : f.itemArr[i]? = some (f.itemArr.getD i Item.null) := by
            rw [List.getD_eq_getElem?_getD, List.getElem?_eq_getElem hlti]
            rfl
          have hdropc := extractItems_drop_cons hlti
          have hfr1 : frameRest { f with idx := i } =
              extractItems (f.itemArr.drop (i + 1)) := by
            unfold frameRest
            rw [if_neg (by simp [hfne'])]
          have hframes2 : ∀ g ∈ ({ f with idx := i } : Frame) :: rest,
              ItemsOK hpt g.itemArr := by
            intro g hg
            rcases List.mem_cons.mp hg with rfl | hg2
            · exact hioF
            · exact hstack g (List.mem_cons_of_mem f hg2)
          have hnef2 : ∀ g ∈ ({ f with idx := i } : Frame) :: rest,
              g.itemArr ≠ [] := by
            intro g hg
            rcases List.mem_cons.mp hg with rfl | hg2
            · exact hfne'
            · exact htail g hg2
          cases hgd : f.itemArr.getD i Item.null with
          | null =>
            rw [hgd] at hnei
            simp [Item.isEmpty] at hnei
          | sing e =>
            rw [ADVSTEP_sing]
            have hyes : ((((⟨iv, false, false, false, sub, some e,
                { f with idx := i } :: rest, false⟩ : LIter), true) :
                LIter × Bool).2 = true) := rfl
            rw [dif_pos hyes]
            have hfne2 : stackRest (f :: rest) ≠ [] := by
              rw [hsrcons, hfrm, hdropc, hgd]
              simp [extractItem]
            refine ⟨rfl, fun hnil => absurd hnil hfne2, fun _ => ⟨?_, ?_⟩⟩
            · refine ⟨rfl, rfl, hframes2, htail, ?_⟩
              exact ⟨hlti, e, hgd, rfl⟩
            · show extractItems (f.itemArr.drop i) ++ stackRest rest =
                stackRest (f :: rest)
              rw [hsrcons, hfrm]
          | trie t =>
            rw [ADVSTEP_trie]
            have hyes : ((((⟨iv, true, false, false, t, d,
                { f with idx := i } :: rest, false⟩ : LIter), true) :
                LIter × Bool).2 = true) := rfl
            rw [dif_pos hyes]
            rw [hgd] at hsome
            obtain ⟨_, htnet⟩ := ItemsOK_slot hioF hsome
            have ht : t ≠ [] := by
              intro hcon
              rw [hcon] at htnet
              simp [triesNE] at htnet
            have hfne2 : stackRest (f :: rest) ≠ [] := by
              rw [hsrcons, hfrm, hdropc, hgd]
              simp [extractItem, ht]
            refine ⟨rfl, fun hnil => absurd hnil hfne2, fun _ => ⟨?_, ?_⟩⟩
            · exact ⟨rfl, rfl, hframes2, htail, ht, rfl, hfne'⟩
            · show t ++ stackRest (({ f with idx := i } : Frame) :: rest) =
                stackRest (f :: rest)
              rw [show stackRest (({ f with idx := i } : Frame) :: rest) =
                frameRest { f with idx := i } ++ stackRest rest from rfl]
              rw [hfr1, hsrcons, hfrm, hdropc, hgd]
              rw [show extractItem (Item.trie t) = t from rfl]
              rw [List.append_assoc]
          | cnod c2 =>
            rw [ADVSTEP_cnod]
            have hyes : (((FIRST ⟨iv, false, false, false, sub, d,
                { f with idx := i } :: rest, false⟩ (Item.cnod c2), true) :
                LIter × Bool).2 = true) := rfl
            rw [dif_pos hyes]
            rw [hgd] at hsome
            obtain ⟨⟨cc, hwfc⟩, htnec⟩ := ItemsOK_slot hioF hsome
            have hextne : extractItem (Item.cnod c2) ≠ [] :=
              WF_extract_ne hwfc htnec (by simp)
            obtain ⟨hS, hP, hV⟩ := FIRST_spec (sizeOf (Item.cnod c2))
              (Item.cnod c2) cc iv sub d (({ f with idx := i } : Frame) :: rest)
              (le_refl _) hwfc htnec (Or.inl ⟨c2, rfl⟩) hframes2 hnef2
            have hfne2 : stackRest (f :: rest) ≠ [] := by
              rw [hsrcons, hfrm, hdropc, hgd]
              intro hcon
              exact hextne ((List.append_eq_nil.mp
                ((List.append_eq_nil.mp hcon).1)).1)
            refine ⟨hV, fun hnil => absurd hnil hfne2, fun _ => ⟨hS, ?_⟩⟩
            show curPending (FIRST ⟨iv, false, false, false, sub, d,
              ({ f with idx := i } : Frame) :: rest, false⟩ (Item.cnod c2)) =
              stackRest (f :: rest)
            rw [hP]
            rw [show stackRest (({ f with idx := i } : Frame) :: rest) =
              frameRest { f with idx := i } ++ stackRest rest from rfl]
            rw [hfr1, hsrcons, hfrm, hdropc, hgd]
            rw [List.append_assoc]
          | mult nk3 kq3 bq3 pfx3 items3 =>
            rw [ADVSTEP_mult]
            have hyes : (((FIRST ⟨iv, false, false, false, sub, d,
                { f with idx := i } :: rest, false⟩
                (Item.mult nk3 kq3 bq3 pfx3 items3), true) :
                LIter × Bool).2 = true) := rfl
            rw [dif_pos hyes]
            rw [hgd] at hsome
            obtain ⟨⟨cc, hwfc⟩, htnec⟩ := ItemsOK_slot hioF hsome
            have hextne : extractItem (Item.mult nk3 kq3 bq3 pfx3 items3) ≠ [] :=
              WF_extract_ne hwfc htnec (by simp)
            obtain ⟨hS, hP, hV⟩ := FIRST_spec
              (sizeOf (Item.mult nk3 kq3 bq3 pfx3 items3))
              (Item.mult nk3 kq3 bq3 pfx3 items3) cc iv sub d
              (({ f with idx := i } : Frame) :: rest)
              (le_refl _) hwfc htnec (Or.inr ⟨nk3, kq3, bq3, pfx3, items3, rfl⟩)
              hframes2 hnef2
            have hfne2 : stackRest (f :: rest) ≠ [] := by
              rw [hsrcons, hfrm, hdropc, hgd]
              intro hcon
              exact hextne ((List.append_eq_nil.mp
                ((List.append_eq_nil.mp hcon).1)).1)
            refine ⟨hV, fun hnil => absurd hnil hfne2, fun _ => ⟨hS, ?_⟩⟩
            show curPending (FIRST ⟨iv, false, false, false, sub, d,
              ({ f with idx := i } : Frame) :: rest, false⟩
              (Item.mult nk3 kq3 bq3 pfx3 items3)) = stackRest (f :: rest)
            rw [hP]
            rw [show stackRest (({ f with idx := i } : Frame) :: rest) =
              frameRest { f with idx := i } ++ stackRest rest from rfl]
            rw [hfr1, hsrcons, hfrm, hdropc, hgd]
            rw [List.append_assoc]


/-- A shaped iterator dereferences to the head of its pending list. -/
theorem shape_getKV {hpt : HPT} {it : LIter} (hs : ShapeOK hpt it) :
    ∃ e pend2, curPending it = e :: pend2 ∧ it.getKV = some e := by
  obtain ⟨iv, ist, ic, ie, sub, d, path, af⟩ := it
  unfold ShapeOK at hs
  obtain ⟨haf, hie, hstack, htail, hpos⟩ := hs
  cases ist with
  | true =>
    obtain ⟨hsne, hicf, _⟩ := hpos
    cases sub with
    | nil => exact absurd rfl hsne
    | cons e0 s2 =>
      exact ⟨e0, s2 ++ stackRest path, rfl, rfl⟩
  | false =>
    cases path with
    | nil =>
      have hF : False := hpos
      exact hF.elim
    | cons f rest =>
      cases ic with
      | true =>
        have hpos2 : f.itemArr = [] ∧ f.idx < f.kvArr.length ∧
            f.len = f.kvArr.length ∧
            d = some ((f.kvArr.getD f.idx dfltTE).2) := hpos
        obtain ⟨hfa, hidxlt, hflen, hdata⟩ := hpos2
        refine ⟨(f.kvArr.getD f.idx dfltTE).2,
          (f.kvArr.drop (f.idx + 1)).map (fun te => te.2) ++ stackRest rest,
          ?_, hdata⟩
        show (f.kvArr.drop f.idx).map (fun te => te.2) ++ stackRest rest = _
        rw [List.drop_eq_getElem_cons hidxlt, List.map_cons, List.cons_append]
        rw [List.getD_eq_getElem?_getD, List.getElem?_eq_getElem hidxlt]
        rfl
      | false =>
        have hpos2 : f.idx < f.itemArr.length ∧
            ∃ e, f.itemArr.getD f.idx Item.null = .sing e ∧ d = some e := hpos
        obtain ⟨hidxlt, e0, hgd, hdata⟩ := hpos2
        refine ⟨e0, extractItems (f.itemArr.drop (f.idx + 1)) ++ stackRest rest,
          ?_, hdata⟩
        show extractItems (f.itemArr.drop f.idx) ++ stackRest rest = _
        rw [extractItems_drop_cons hidxlt, hgd]
        rw [show extractItem (Item.sing e0) = [e0] from rfl]
        rfl

/-- One `next` step consumes exactly the head of the pending list:
either the iteration ends (nothing left) or the iterator is shaped on
the rest. -/
theorem next_spec {hpt : HPT} {it : LIter} {e : KVEntry}
    {pend2 : List KVEntry} (hs : ShapeOK hpt it)
    (hp : curPending it = e :: pend2) :
    it.next.isValid = it.isValid ∧
    (pend2 = [] → it.next.isEnd = true) ∧
    (pend2 ≠ [] → ShapeOK hpt it.next ∧ curPending it.next = pend2) := by
  obtain ⟨iv, ist, ic, ie, sub, d, path, af⟩ := it
  unfold ShapeOK at hs
  obtain ⟨haf, hie, hstack, htail, hpos⟩ := hs
  have haf2 : af = false := haf
  have hie2 : ie = false := hie
  subst haf2 hie2
  cases ist with
  | true =>
    obtain ⟨hsne, hicf, htop⟩ := hpos
    have hicf2 : ic = false := hicf
    subst hicf2
    cases sub with
    | nil => exact absurd rfl hsne
    | cons e0 s2 =>
      have hp2 : e0 :: (s2 ++ stackRest path) = e :: pend2 := hp
      injection hp2 with h1 h2
      subst h1
      cases s2 with
      | nil =>
        have hok2 : PopOK hpt ⟨iv, false, false, false, [], d, path, false⟩ := by
          refine ⟨rfl, rfl, rfl, hstack, htail, ?_⟩
          cases path with
          | nil => trivial
          | cons g rs => exact (htop : g.itemArr ≠ [])
        have hres := popLoop_spec path.length iv false [] d path
          (le_refl _) hok2
        refine ⟨hres.1, ?_, ?_⟩
        · intro h
          rw [← h2] at h
          rw [List.nil_append] at h
          exact hres.2.1 h
        · intro h
          rw [← h2] at h ⊢
          rw [List.nil_append] at h ⊢
          exact hres.2.2 h
      | cons e1 s3 =>
        refine ⟨rfl, ?_, ?_⟩
        · intro h
          rw [← h2] at h
          exact absurd h (by simp)
        · intro _
          rw [← h2]
          refine ⟨⟨rfl, rfl, hstack, htail, ?_⟩, rfl⟩
          exact ⟨(List.cons_ne_nil e1 s3 :
            (e1 :: s3 : List KVEntry) ≠ []), rfl, htop⟩
  | false =>
    cases path with
    | nil =>
      have hF : False := hpos
      exact hF.elim
    | cons f rest =>
      cases ic with
      | true =>
        have hpos2 : f.itemArr = [] ∧ f.idx < f.kvArr.length ∧
            f.len = f.kvArr.length ∧
            d = some ((f.kvArr.getD f.idx dfltTE).2) := hpos
        obtain ⟨hfa, hidxlt, hflen, hdata⟩ := hpos2
        have hcp : curPending ⟨iv, false, true, false, sub, d, f :: rest,
            false⟩ = (f.kvArr.getD f.idx dfltTE).2 ::
            ((f.kvArr.drop (f.idx + 1)).map (fun te => te.2) ++
              stackRest rest) := by
          show (f.kvArr.drop f.idx).map (fun te => te.2) ++ stackRest rest = _
          rw [List.drop_eq_getElem_cons hidxlt, List.map_cons,
            List.cons_append]
          rw [List.getD_eq_getElem?_getD, List.getElem?_eq_getElem hidxlt]
          rfl
        rw [hcp] at hp
        injection hp with h1 h2
        have hfrm : frameRest f =
            (f.kvArr.drop (f.idx + 1)).map (fun te => te.2) := by
          unfold frameRest
          rw [hfa, if_pos (show ([] : List Item).isEmpty = true from rfl)]
        have hpend : pend2 = stackRest (f :: rest) := by
          rw [← h2]
          rw [show stackRest (f :: rest) =
            frameRest f ++ stackRest rest from rfl, hfrm]
        have hok2 : PopOK hpt ⟨iv, false, true, false, sub, d, f :: rest,
            false⟩ := ⟨rfl, rfl, rfl, hstack, htail, ⟨hfa, hflen⟩⟩
        have hres := popLoop_spec (f :: rest).length iv true sub d (f :: rest)
          (le_refl _) hok2
        refine ⟨hres.1, ?_, ?_⟩
        · intro h
          rw [hpend] at h
          exact hres.2.1 h
        · intro h
          rw [hpend] at h
          rw [hpend]
          exact hres.2.2 h
      | false =>
        have hpos2 : f.idx < f.itemArr.length ∧
            ∃ e0, f.itemArr.getD f.idx Item.null = .sing e0 ∧
              d = some e0 := hpos
        obtain ⟨hidxlt, e0, hgd, hdata⟩ := hpos2
        have hfne' : f.itemArr ≠ [] := by
          intro hcon
          rw [hcon] at hidxlt
          simp at hidxlt
        have hcp : curPending ⟨iv, false, false, false, sub, d, f :: rest,
            false⟩ = e0 ::
            (extractItems (f.itemArr.drop (f.idx + 1)) ++ stackRest rest) := by
          show extractItems (f.itemArr.drop f.idx) ++ stackRest rest = _
          rw [extractItems_drop_cons hidxlt, hgd]
          rw [show extractItem (Item.sing e0) = [e0] from rfl]
          rfl
        rw [hcp] at hp
        injection hp with h1 h2
        have hfrm : frameRest f = extractItems (f.itemArr.drop (f.idx + 1)) := by
          unfold frameRest
          rw [if_neg (by simp [hfne'])]
        have hpend : pend2 = stackRest (f :: rest) := by
          rw [← h2]
          rw [show stackRest (f :: rest) =
            frameRest f ++ stackRest rest from rfl, hfrm]
        have hok2 : PopOK hpt ⟨iv, false, false, false, sub, d, f :: rest,
            false⟩ := ⟨rfl, rfl, rfl, hstack, htail, hfne'⟩
        have hres := popLoop_spec (f :: rest).length iv false sub d (f :: rest)
          (le_refl _) hok2
        refine ⟨hres.1, ?_, ?_⟩
        · intro h
          rw [hpend] at h
          exact hres.2.1 h
        · intro h
          rw [hpend] at h
          rw [hpend]
          exact hres.2.2 h

/-- The scan with one step of budget per pending record yields exactly
the pending records. -/
theorem enumFrom_spec {hpt : HPT} :
    ∀ (pend : List KVEntry) (it : LIter),
    ShapeOK hpt it → curPending it = pend →
    enumFrom (pend.length + 1) it = pend.map some := by
  intro pend
  induction pend with
  | nil =>
    intro it hs hp
    obtain ⟨e, p2, hcp, _⟩ := shape_getKV hs
    rw [hp] at hcp
    cases hcp
  | cons e pend2 ih =>
    intro it hs hp
    obtain ⟨e0, p2, hcp, hkv⟩ := shape_getKV hs
    rw [hp] at hcp
    injection hcp with h1 h2
    subst h1
    have hie : it.isEnd = false := hs.2.1
    rw [List.length_cons]
    rw [enumFrom]
    rw [if_neg (by simp [hie])]
    rw [hkv]
    have hnext := next_spec hs hp
    cases pend2 with
    | nil =>
      rw [enumFrom]
      rw [if_pos (hnext.2.1 rfl)]
      rfl
    | cons e1 p3 =>
      obtain ⟨hS2, hC2⟩ := hnext.2.2 (by simp)
      rw [ih it.next hS2 hC2]
      simp


/-- C4 (amended): for a well-formed index whose root is a compact node or
model node and whose sub-tries are nonempty, `begin()` followed by
`next()` until `not_finish()` turns false enumerates exactly the stored
records, in strictly ascending key order (no duplicates, no omissions).
The root-variant restriction is necessary: `FIRST` only handles those two
variants (see the counterexample). -/
theorem C4_enumeration_amended {st : LState} (hwf : WFState st)
    (htne : triesNE st.root = true)
    (hshape : (∃ c, st.root = Item.cnod c) ∨
      (∃ nk kq bq pfx items, st.root = Item.mult nk kq bq pfx items)) :
    litsEnum st = (extractItem st.root).map some ∧
    List.Pairwise entLt (extractItem st.root) := by
  constructor
  · unfold litsEnum litsBegin
    have hres := FIRST_spec (sizeOf st.root) st.root 0 true [] none []
      (le_refl _) hwf htne hshape
      (by intro f hf; cases hf) (by intro f hf; cases hf)
    have hp := hres.2.1
    rw [show stackRest [] = [] from rfl, List.append_nil] at hp
    exact enumFrom_spec (extractItem st.root) (FIRST initIter st.root)
      hres.1 hp
  · exact WF_sorted hwf

/-- A concrete two-record compact-node state. -/
def stC : LState :=
  ⟨constHPT, triePMSS,
    .cnod ⟨0, [hashTag ⟨[1], 1⟩, hashTag ⟨[2], 2⟩]⟩⟩

theorem stC_wf : WFState stC :=
  WF.cnod _ 0 rfl (by decide) (by decide) (by decide) (by decide)
    (by unfold SharedPfx; decide) (by unfold ZFK; decide)

/-- C4 witness: the amended enumeration at the concrete compact-node
state. -/
theorem C4_witness :
    WFState stC ∧ litsEnum stC = (extractItem stC.root).map some := by
  have h := C4_enumeration_amended stC_wf (by decide)
    (Or.inl ⟨⟨0, [hashTag ⟨[1], 1⟩, hashTag ⟨[2], 2⟩]⟩, rfl⟩)
  exact ⟨stC_wf, h.1⟩

/-- C4 refuted as stated: a bulkload whose PMSS decides for HOT builds a
sub-trie root; `begin()` runs into `FIRST`'s unhandled variant (the
asserting reinterpretation), and the scan returns a single null record,
omitting every stored key. -/
theorem C4_counterexample :
    ∃ st : LState, Reach st ∧ extractItem st.root ≠ [] ∧
      ∀ e ∈ extractItem st.root, some e ∉ litsEnum st := by
  refine ⟨stT, Reach.bulk (some constHPT) constTrain triePMSS keysW valsW stT
    stT_bulk, ?_, ?_⟩
  · intro hcon
    rw [rootT] at hcon
    have hk : kvsT = [] := hcon
    have hlen := congrArg List.length hk
    rw [kvsT_length] at hlen
    exact absurd hlen (by decide)
  · intro e he
    rw [enumT]
    simp

end LitsModel
